import Mathlib

/-!
# Simple-File-System: a verification development of `src/main.c`

The program keeps a tree of `node` records linked by raw pointers
(`parent`, `child`, `previous`, `next`).  The embedding keeps that shape:

* the C heap is a list of cells, an address is an index into it, a pointer is
  `Option Nat` (`none` is `NULL`);
* `malloc` appends a cell whose contents are indeterminate; the indeterminate
  contents are the explicit argument `junk` of every allocating operation;
* every C statement that writes through a pointer is one `upd`, executed in
  source order, re-reading the heap the way the C expression does;
* a function returns `none` when the C program would dereference a pointer that
  is not a live cell, would walk a sibling chain for ever, would write behind
  the end of an array or would pass a pointer that was never assigned to
  `free`; chains are walked with fuel `heap.length`, which is enough for every
  chain without a cycle;
* C strings are `List Char`; the calls to the host file system (`mkdir`,
  `fopen`, `rmdir`, `remove`) and to `printf` do not touch the tree and are
  left out.
-/

namespace SFS

/-! ## Data model (`main.c` lines 12-33) -/

/-- The enumeration nodeType of the source. -/
inductive nodeType where
  | File
  | Folder
  | Symlink
deriving DecidableEq, Repr

/-- A pointer to a node: an address, or NULL. -/
abbrev Ptr := Option Nat

/-- The struct node of the source, field for field.  The last field is not in
the source: contentAssigned tells whether the member content holds a value the
program assigned to it (NULL or a string); it is false while content has the
indeterminate value of the block malloc returned, which free must not get. -/
structure node where
  type : nodeType
  name : List Char
  numberOfItems : Int
  size : Nat
  date : Int
  content : Option (List Char)
  previous : Ptr
  parent : Ptr
  next : Ptr
  child : Ptr
  symlinkTarget : Option (List Char)
  contentAssigned : Bool
deriving DecidableEq, Repr

/-- The heap: cell number a is the node stored at address a. -/
abbrev Heap := List node

/-- One assignment through a pointer: rewrite the cell at address a. -/
def upd (h : Heap) (a : Nat) (f : node → node) : Option Heap :=
  match h[a]? with
  | some n => some (h.set a (f n))
  | none => none

/-- The assignment x->next = v. -/
def setNext (v : Ptr) (x : node) : node := { x with next := v }

/-- The assignment x->previous = v. -/
def setPrevious (v : Ptr) (x : node) : node := { x with previous := v }

/-- The assignment x->parent = v. -/
def setParent (v : Ptr) (x : node) : node := { x with parent := v }

/-- The assignment x->child = v. -/
def setChild (v : Ptr) (x : node) : node := { x with child := v }

/-- The statement x->numberOfItems++ (d = 1) or x->numberOfItems-- (d = -1). -/
def addItems (d : Int) (x : node) : node := { x with numberOfItems := x.numberOfItems + d }

/-- The field assignments make_dir performs on the new folder after linking it
(lines 637-646); previous and symlinkTarget are not among them. -/
def initFolder (folderName : List Char) (now : Int) (currentFolder : Nat) (x : node) : node :=
  { x with name := folderName, type := nodeType.Folder, numberOfItems := 0, size := 0,
           date := now, content := none, contentAssigned := true,
           parent := some currentFolder, next := none, child := none }

/-! ## strtok -/

/-- Scan for tokens: the first component is the token that is open at the head
of the text, the second the tokens after it. -/
def splitTok (d : Char) : List Char → List Char × List (List Char)
  | [] => ([], [])
  | c :: cs =>
    let r := splitTok d cs
    if c = d then ([], if r.1 = [] then r.2 else r.1 :: r.2)
    else (c :: r.1, r.2)

/-- The tokens that strtok(s, d), strtok(NULL, d), ... return in turn: the
maximal runs of characters other than the delimiter. -/
def strtokAll (d : Char) (s : List Char) : List (List Char) :=
  let r := splitTok d s
  if r.1 = [] then r.2 else r.1 :: r.2

/-! ## Lookup (`getNode`, `getNodeTypeless`, lines 574-614) -/

/-- The loop of getNodeTypeless, started at a node of the chain. -/
def getNodeTypelessLoop (h : Heap) (name : List Char) : Nat → Nat → Option Ptr
  | 0, _ => none
  | fuel + 1, currentNode =>
    match h[currentNode]? with
    | none => none
    | some n =>
      match n.next with
      | some nx =>
        if name = n.name then some (some currentNode)
        else getNodeTypelessLoop h name fuel nx
      | none =>
        if name = n.name then some (some currentNode) else some none

/-- The function getNodeTypeless: first child with that name, of any kind. -/
def getNodeTypeless (h : Heap) (currentFolder : Nat) (name : List Char) : Option Ptr :=
  match h[currentFolder]? with
  | none => none
  | some f =>
    match f.child with
    | some c => getNodeTypelessLoop h name h.length c
    | none => some none

/-- The loop of getNode, started at a node of the chain. -/
def getNodeLoop (h : Heap) (name : List Char) (ty : nodeType) : Nat → Nat → Option Ptr
  | 0, _ => none
  | fuel + 1, currentNode =>
    match h[currentNode]? with
    | none => none
    | some n =>
      match n.next with
      | some nx =>
        if name = n.name ∧ n.type = ty then some (some currentNode)
        else getNodeLoop h name ty fuel nx
      | none =>
        if name = n.name ∧ n.type = ty then some (some currentNode) else some none

/-- The function getNode: first child with that name and that kind.  A child
with the name and another kind before the last position is skipped; in the last
position it ends the search. -/
def getNode (h : Heap) (currentFolder : Nat) (name : List Char) (ty : nodeType) : Option Ptr :=
  match h[currentFolder]? with
  | none => none
  | some f =>
    match f.child with
    | some c => getNodeLoop h name ty h.length c
    | none => some none

/-! ## Path resolution (`parsePath`, lines 180-212) -/

/-- The token loop of parsePath. -/
def parsePathLoop (h : Heap) : List (List Char) → Nat → Option Ptr
  | [], currentFolder => some (some currentFolder)
  | token :: rest, currentFolder =>
    if token = ['.', '.'] then
      match h[currentFolder]? with
      | none => none
      | some n =>
        match n.parent with
        | some p => parsePathLoop h rest p
        | none => parsePathLoop h rest currentFolder
    else if token = ['.'] then parsePathLoop h rest currentFolder
    else
      match getNodeTypeless h currentFolder token with
      | none => none
      | some none => some none
      | some (some nextFolder) => parsePathLoop h rest nextFolder

/-- The function parsePath.  The result some none is the NULL the source
returns for a missing segment. -/
def parsePath (h : Heap) (currentFolder : Nat) (path : List Char) (root : Nat) : Option Ptr :=
  match path with
  | '/' :: rest => parsePathLoop h (strtokAll '/' rest) root
  | _ => parsePathLoop h (strtokAll '/' path) currentFolder

/-! ## Creation (`make_dir`, `touch`, lines 616-701) -/

/-- The walk to the last node of a chain (while (currentNode->next != NULL)). -/
def lastOfChain (h : Heap) : Nat → Nat → Option Nat
  | 0, _ => none
  | fuel + 1, currentNode =>
    match h[currentNode]? with
    | none => none
    | some n =>
      match n.next with
      | some nx => lastOfChain h fuel nx
      | none => some currentNode

/-- The characters snprintf(buffer, sizeof(buffer), "/%s", folder->name) leaves
in char buffer[256]: the separator and the name, cut to 255 characters. -/
def realPathPiece (name : List Char) : List Char := ('/' :: name).take 255

/-- The loop of getRealPath (lines 160-168) from the node folder with the string
tempPath: the string when the loop ends, and whether it ended with folder NULL.
The call strcat(tempPath, buffer) has no bound: when the string would have more
than the 1023 characters that char tempPath[1024] holds, the call writes behind
the array and there is no result.  Every round adds a character, so that the
fuel 1025 of getRealPath never runs out. -/
def getRealPathLoop (h : Heap) : Nat → Ptr → List Char → Option (List Char × Bool)
  | 0, _, _ => none
  | _ + 1, none, tempPath => some (tempPath, true)
  | fuel + 1, some folder, tempPath =>
    match h[folder]? with
    | none => none
    | some n =>
      -- strcmp(folder->name, "/") != 0
      if n.name = ['/'] then some (tempPath, false)
      else if (tempPath ++ realPathPiece n.name).length ≤ 1023 then
        getRealPathLoop h fuel n.parent (tempPath ++ realPathPiece n.name)
      else none

/-- The function getRealPath (lines 155-178): the string it leaves in realPath. -/
def getRealPath (h : Heap) (currentFolder : Nat) : Option (List Char) :=
  (getRealPathLoop h 1025 (some currentFolder) []).map fun r =>
    if r.2 then ['/'] else '.' :: r.1.take 1022

/-- The statements of make_dir that put the new folder into the tree (lines
622-646).  The argument now is the value of time(NULL). -/
def linkNewFolder (h : Heap) (junk : node) (now : Int) (currentFolder : Nat)
    (folderName : List Char) : Option Heap :=
  -- currentFolder->numberOfItems++;
  match upd h currentFolder (addItems 1) with
  | none => none
  | some h1 =>
    -- node* newFolder = malloc(sizeof(node));
    let newFolder := h1.length
    let h2 := h1 ++ [junk]
    match h2[currentFolder]? with
    | none => none
    | some f =>
      let linked : Option Heap :=
        match f.child with
        | none =>
          -- currentFolder->child = newFolder; newFolder->previous = NULL;
          (upd h2 currentFolder (setChild (some newFolder))).bind fun h3 =>
          upd h3 newFolder (setPrevious none)
        | some c =>
          -- walk to the last child; currentNode->next = newFolder;
          -- newFolder->previous = currentNode;
          (lastOfChain h2 h2.length c).bind fun currentNode =>
          (upd h2 currentNode (setNext (some newFolder))).bind fun h3 =>
          upd h3 newFolder (setPrevious (some currentNode))
      linked.bind fun h4 => upd h4 newFolder (initFolder folderName now currentFolder)

/-- The function make_dir.  The argument now is the value of time(NULL).  After
the folder is in the tree the function calls getRealPath for the current folder
(line 652); the snprintf into fullPath that follows is bounded, and mkdir acts
on the real file system only. -/
def make_dir (h : Heap) (junk : node) (now : Int) (currentFolder : Nat)
    (command : List Char) : Option Heap :=
  match strtokAll ' ' command with
  | _ :: folderName :: _ =>
    match getNodeTypeless h currentFolder folderName with
    | none => none
    | some (some _) => some h
    | some none =>
      (linkNewFolder h junk now currentFolder folderName).bind fun h5 =>
      (getRealPath h5 currentFolder).map fun _ => h5
  | _ => some h

/-- The function touch.  The new block is allocated and never linked
(the source has only the remark that the tree addition is unchanged).  The
statements behind the allocation (lines 677-692: getRealPath, snprintf, fopen)
write to no node and are left out. -/
def touch (h : Heap) (junk : node) (currentFolder : Nat) (command : List Char) : Option Heap :=
  match strtokAll ' ' command with
  | _ :: fileName :: _ =>
    match getNodeTypeless h currentFolder fileName with
    | none => none
    | some (some _) => some h
    | some none =>
      -- currentFolder->numberOfItems++; node* newFile = malloc(sizeof(node));
      (upd h currentFolder (addItems 1)).bind fun h1 => some (h1 ++ [junk])
  | _ => some h

/-! ## Removal (`freeNode`, `removeNode`, `rm`, lines 915-990) -/

mutual
/-- The function freeNode: the addresses of the nodes it passes to free, in
order.  After the children it calls free(freeingNode->name),
free(freeingNode->content) and free(freeingNode); the call with a content that
was never assigned has no result. -/
def freeNode (h : Heap) : Nat → Nat → Option (List Nat)
  | 0, _ => none
  | fuel + 1, freeingNode =>
    match h[freeingNode]? with
    | none => none
    | some n =>
      match n.child with
      | some c =>
        (freeNodeLoop h fuel c).bind fun l =>
        if n.contentAssigned then some (l ++ [freeingNode]) else none
      | none => if n.contentAssigned then some [freeingNode] else none
/-- The loop of freeNode over the children. -/
def freeNodeLoop (h : Heap) : Nat → Nat → Option (List Nat)
  | 0, _ => none
  | fuel + 1, currentNode =>
    match h[currentNode]? with
    | none => none
    | some n =>
      match n.next with
      | some nextNode =>
        match freeNode h fuel currentNode, freeNodeLoop h fuel nextNode with
        | some a, some b => some (a ++ b)
        | _, _ => none
      | none => freeNode h fuel currentNode
end

/-- The function removeNode, statement by statement; every statement reads
removingNode afresh, as the C expressions do. -/
def removeNode (h : Heap) (removingNode : Nat) : Option Heap :=
  (h[removingNode]?).bind fun n =>
  match n.parent, n.next with
  | some _, some _ =>
    -- removingNode->next->parent = removingNode->parent;
    (h[removingNode]?).bind fun r => r.next.bind fun nx =>
    (upd h nx (setParent r.parent)).bind fun h1 =>
    -- removingNode->parent->child = removingNode->next;
    (h1[removingNode]?).bind fun r => r.parent.bind fun p =>
    (upd h1 p (setChild r.next)).bind fun h2 =>
    -- removingNode->next->previous = NULL;
    (h2[removingNode]?).bind fun r => r.next.bind fun nx =>
    upd h2 nx (setPrevious none)
  | some _, none =>
    -- removingNode->parent->child = NULL;
    (h[removingNode]?).bind fun r => r.parent.bind fun p =>
    upd h p (setChild none)
  | none, some _ =>
    -- removingNode->previous->next = removingNode->next;
    (h[removingNode]?).bind fun r => r.previous.bind fun pv =>
    (upd h pv (setNext r.next)).bind fun h1 =>
    -- removingNode->next->previous = removingNode->previous;
    (h1[removingNode]?).bind fun r => r.next.bind fun nx =>
    upd h1 nx (setPrevious r.previous)
  | none, none =>
    -- removingNode->previous->next = NULL;
    (h[removingNode]?).bind fun r => r.previous.bind fun pv =>
    upd h pv (setNext none)

/-- The function rm.  The argument answer is the line read by getString.
The result is the heap and the addresses handed to free.  The walk of freeNode
takes two steps of fuel for every node it frees, one in the loop over the chain
and one for the node. -/
def rm (h : Heap) (currentFolder : Nat) (command : List Char) (answer : List Char) :
    Option (Heap × List Nat) :=
  match strtokAll ' ' command with
  | _ :: nodeName :: _ =>
    match getNodeTypeless h currentFolder nodeName with
    | none => none
    | some none => some (h, [])
    | some (some removingNode) =>
      if answer = ['y'] then
        -- currentFolder->numberOfItems--; removeNode(removingNode); freeNode(removingNode);
        (upd h currentFolder (addItems (-1))).bind fun h1 =>
        (removeNode h1 removingNode).bind fun h2 =>
        (freeNode h2 (2 * h2.length + 1) removingNode).bind fun freed =>
        some (h2, freed)
      else some (h, [])
  | _ => some (h, [])

/-! ## Move (`moveNode`, `mov`, lines 993-1043) -/

/-- The function moveNode. -/
def moveNode (h : Heap) (movingNode : Nat) (destinationFolder : Nat) : Option Heap :=
  (h[destinationFolder]?).bind fun d =>
  let linked : Option Heap :=
    match d.child with
    | none =>
      (upd h destinationFolder (setChild (some movingNode))).bind fun h1 =>
      (upd h1 movingNode (setPrevious none)).bind fun h2 =>
      (upd h2 movingNode (setParent (some destinationFolder))).bind fun h3 =>
      upd h3 movingNode (setNext none)
    | some c =>
      (lastOfChain h h.length c).bind fun currentNode =>
      (upd h currentNode (setNext (some movingNode))).bind fun h1 =>
      (upd h1 movingNode (setPrevious (some currentNode))).bind fun h2 =>
      (upd h2 movingNode (setParent none)).bind fun h3 =>
      upd h3 movingNode (setNext none)
  -- destinationFolder->numberOfItems++;
  linked.bind fun h4 => upd h4 destinationFolder (addItems 1)

/-- The function mov.  A fourth token makes it return at once; with fewer than
three tokens nothing is done. -/
def mov (h : Heap) (currentFolder : Nat) (command : List Char) : Option Heap :=
  match strtokAll ' ' command with
  | [_, nodeName, destinationName] =>
    match getNodeTypeless h currentFolder nodeName,
          getNode h currentFolder destinationName nodeType.Folder with
    | some movingNode, some destinationFolder =>
      match destinationFolder, movingNode with
      | some d, some m =>
        if d ≠ m then (removeNode h m).bind fun h1 => moveNode h1 m d
        else some h
      | _, _ => some h
    | _, _ => none
  | _ => some h

/-! ## Observations used to state the properties -/

/-- The sibling chain that starts at a pointer, as the list of its addresses. -/
def chainFrom (h : Heap) : Nat → Ptr → Option (List Nat)
  | _, none => some []
  | 0, some _ => none
  | fuel + 1, some a =>
    match h[a]? with
    | none => none
    | some n => (chainFrom h fuel n.next).map (fun l => a :: l)

/-- The children of a node: the chain from its child pointer. -/
def children (h : Heap) (folder : Nat) : Option (List Nat) :=
  match h[folder]? with
  | none => none
  | some f => chainFrom h h.length f.child

/-- The name stored at an address. -/
def nameOf (h : Heap) (a : Nat) : Option (List Char) := (h[a]?).map (fun n => n.name)

/-- The root node that main builds before the command loop (lines 1325-1338);
the field symlinkTarget is not assigned there. -/
def mkRoot (junk : node) (now : Int) : node :=
  { junk with type := nodeType.Folder, name := ['/'], numberOfItems := 0, size := 0,
              date := now, content := none, contentAssigned := true, previous := none,
              parent := none, next := none, child := none }

/-- Indeterminate cell contents used in the concrete examples. -/
def junk0 : node :=
  { type := nodeType.File, name := [], numberOfItems := 0, size := 0, date := 0,
    content := none, previous := none, parent := none, next := none, child := none,
    symlinkTarget := none, contentAssigned := false }

/-! ## Chains: the sibling list behind a pointer -/

/-- The pointer p heads the chain whose addresses are L: every address is a
live cell, every next pointer leads to the following address, and the last next
pointer is NULL. -/
def IsChain (h : Heap) : Ptr → List Nat → Prop
  | p, [] => p = none
  | p, a :: L => p = some a ∧ ∃ n, h[a]? = some n ∧ IsChain h n.next L

/-- Every parent pointer of the heap is a live cell. -/
def ParentsValid (h : Heap) : Prop :=
  ∀ n ∈ h, ∀ p ∈ n.parent, p < h.length

instance (h : Heap) : Decidable (ParentsValid h) := by
  unfold ParentsValid
  infer_instance

/-- Every node of the heap has a sibling chain that ends. -/
def ChainsEnd (h : Heap) : Prop :=
  ∀ a, a < h.length → (children h a).isSome = true

instance (h : Heap) : Decidable (ChainsEnd h) := by
  unfold ChainsEnd
  infer_instance

/-- The first address of a list whose node carries the name. -/
def firstNamed (h : Heap) (name : List Char) (L : List Nat) : Option Nat :=
  L.find? (fun a => decide (nameOf h a = some name))

/-- The next pointer stored at an address. -/
def nextOf (h : Heap) (a : Nat) : Option Ptr := (h[a]?).map (fun n => n.next)

/-- The node make_dir leaves in the new cell. -/
def newFolderNode (junk : node) (now : Int) (currentFolder : Nat) (folderName : List Char)
    (prev : Ptr) : node :=
  initFolder folderName now currentFolder (setPrevious prev junk)

/-- Two nodes agree on every field except numberOfItems, next and child. -/
def SameData (n n' : node) : Prop :=
  n'.type = n.type ∧ n'.name = n.name ∧ n'.size = n.size ∧ n'.date = n.date ∧
  n'.content = n.content ∧ n'.parent = n.parent ∧ n'.previous = n.previous ∧
  n'.symlinkTarget = n.symlinkTarget

/-- The heap after the commands mkdir a, mkdir b, mkdir c at the root: the root
at address 0 and the three folders at 1, 2, 3, every one with its parent
pointer set, as make_dir leaves them. -/
def heapABC : Heap :=
  [ { mkRoot junk0 0 with numberOfItems := 3, child := some 1 },
    { newFolderNode junk0 0 0 ['a'] none with next := some 2 },
    { newFolderNode junk0 0 0 ['b'] (some 1) with next := some 3 },
    newFolderNode junk0 0 0 ['c'] (some 2) ]

/-- The heap after the command mkdir docs at the root. -/
def heapDocs : Heap :=
  [ { mkRoot junk0 0 with numberOfItems := 1, child := some 1 },
    newFolderNode junk0 0 0 "docs".toList none ]

/-- The node at which parsePath starts: the root for a path that begins with the
separator, the current folder otherwise. -/
def pathStart (currentFolder root : Nat) (path : List Char) : Nat :=
  if path.head? = some '/' then root else currentFolder

/-- The tokens parsePath processes: the segments of the path between separators. -/
def pathTokens (path : List Char) : List (List Char) := strtokAll '/' path

/-- A tree with the folder a under the root and the folders b and c under a:
the root at address 0, a at 1, b at 2, c at 3. -/
def heapTree : Heap :=
  [ { mkRoot junk0 0 with numberOfItems := 1, child := some 1 },
    { newFolderNode junk0 0 0 ['a'] none with numberOfItems := 2, child := some 2 },
    { newFolderNode junk0 0 1 ['b'] none with next := some 3 },
    newFolderNode junk0 0 1 ['c'] (some 2) ]

/-- The heap after mkdir d at the root, mkdir x inside d, and mkdir n at the
root: the root at address 0 with the children d (address 1) and n (address 3);
x (address 2) is the only child of d. -/
def heapMov : Heap :=
  [ { mkRoot junk0 0 with numberOfItems := 2, child := some 1 },
    { newFolderNode junk0 0 0 ['d'] none with numberOfItems := 1, child := some 2,
                                               next := some 3 },
    newFolderNode junk0 0 1 ['x'] none,
    newFolderNode junk0 0 0 ['n'] (some 1) ]

/-! ## Persistence (`saveDirectoryToFile`, `loadDirectoryFromFile`, lines 272-443)

The two functions only follow `child` and `next`, so the tree is taken in
first-child / next-sibling form: `Tree.null` is the NULL pointer, and a node
carries its data fields, the chain of its children and the rest of its own
sibling chain.  The file is the list of its characters. -/

/-- The data fields of a struct node (the four link pointers left out). -/
structure nodeData where
  type : nodeType
  name : List Char
  numberOfItems : Int
  size : Nat
  date : Int
  content : Option (List Char)
  symlinkTarget : Option (List Char)
deriving DecidableEq, Repr

/-- A node pointer with everything reachable from it through child and next. -/
inductive Tree where
  | null : Tree
  | node (d : nodeData) (child next : Tree) : Tree
deriving DecidableEq, Repr

/-- The function countFiles on a sibling chain: the sum of countFiles over the
nodes of the chain (the loop of lines 131-135 run from the head of the chain). -/
def countFilesChain : Tree → Int
  | Tree.null => 0
  | Tree.node d child next =>
    (if d.type = nodeType.File then 1 else 0) + countFilesChain child + countFilesChain next

/-- The function countFiles (lines 123-137). -/
def countFiles : Tree → Int
  | Tree.null => 0
  | Tree.node d child _ => (if d.type = nodeType.File then 1 else 0) + countFilesChain child

/-- The decimal digit for a number below ten. -/
def digitChar (n : Nat) : Char := Char.ofNat (48 + n)

/-- The digits of a number, most significant first, in front of acc. -/
def natDigits : Nat → Nat → List Char → List Char
  | 0, _, acc => acc
  | fuel + 1, n, acc =>
    if n < 10 then digitChar n :: acc
    else natDigits fuel (n / 10) (digitChar (n % 10) :: acc)

/-- The conversion %zu of printf. -/
def printNat (n : Nat) : List Char := natDigits (n + 1) n []

/-- The conversion %ld of printf. -/
def printInt (i : Int) : List Char :=
  if i < 0 then '-' :: printNat i.natAbs else printNat i.natAbs

/-- Depth-many copies of the two-space indentation. -/
def indent : Nat → List Char
  | 0 => []
  | n + 1 => ' ' :: ' ' :: indent n

/-- The word saveDirectoryToFile writes for a node type. -/
def typeWord : nodeType → List Char
  | nodeType.Folder => "Folder".toList
  | nodeType.File => "File".toList
  | nodeType.Symlink => "Symlink".toList

/-- The line with the type. -/
def typeLine (depth : Nat) (d : nodeData) : List Char :=
  indent (depth + 1) ++ ("\"type\": \"".toList ++ (typeWord d.type ++ "\",\n".toList))

/-- The line with the name. -/
def nameLine (depth : Nat) (d : nodeData) : List Char :=
  indent (depth + 1) ++ ("\"name\": \"".toList ++ (d.name ++ "\",\n".toList))

/-- The line with the size. -/
def sizeLine (depth : Nat) (d : nodeData) : List Char :=
  indent (depth + 1) ++ ("\"size\": ".toList ++ (printNat d.size ++ ",\n".toList))

/-- The line with the date; its end comes from the block written next. -/
def dateLine (depth : Nat) (d : nodeData) : List Char :=
  indent (depth + 1) ++ ("\"date\": ".toList ++ (printInt d.date ++ ",\n".toList))

/-- The line with the content, written for a File whose content is not NULL. -/
def contentLine (depth : Nat) (d : nodeData) : List Char :=
  match d.type, d.content with
  | nodeType.File, some c =>
    indent (depth + 1) ++ ("\"content\": \"".toList ++ (c ++ "\",\n".toList))
  | _, _ => []

/-- The line with the link target, written for a Symlink.  A NULL target is
printed by the C library as the word (null). -/
def symlinkLine (depth : Nat) (d : nodeData) : List Char :=
  match d.type with
  | nodeType.Symlink =>
    indent (depth + 1) ++ ("\"symlinkTarget\": \"".toList
      ++ ((d.symlinkTarget.getD "(null)".toList) ++ "\",\n".toList))
  | _ => []

/-- The line that opens the children array. -/
def childrenLine (depth : Nat) : List Char :=
  indent (depth + 1) ++ "\"children\": [\n".toList

/-- The text saveDirectoryToFile writes for one node, given the text its loop
wrote for the children. -/
def blockText (depth : Nat) (d : nodeData) (kids : List Char) : List Char :=
  indent depth ++ ("\x7b\n".toList ++
    (typeLine depth d ++ (nameLine depth d ++ (sizeLine depth d ++ (dateLine depth d ++
    (contentLine depth d ++ (symlinkLine depth d ++ (childrenLine depth ++
    (kids ++ ("\n".toList ++ (indent (depth + 1) ++ ("]\n".toList ++
    (indent depth ++ "\x7d".toList)))))))))))))

/-- The loop of saveDirectoryToFile over a sibling chain (lines 309-314): every
node of the chain is written at this depth, with a comma and a newline between
two nodes. -/
def saveChain : Tree → Nat → List Char
  | Tree.null, _ => []
  | Tree.node d child next, depth =>
    blockText depth d (saveChain child (depth + 1)) ++
      ((match next with
        | Tree.null => []
        | Tree.node _ _ _ => ",\n".toList) ++ saveChain next depth)

/-- The function saveDirectoryToFile: the text written for the node folder
points to; the siblings of that node are not written. -/
def saveDirectoryToFile (folder : Tree) (depth : Nat) : List Char :=
  match folder with
  | Tree.null => []
  | Tree.node d child _ => blockText depth d (saveChain child (depth + 1))

/-- The function saveDirectory: the text of the file it writes. -/
def saveDirectory (root : Tree) : List Char := saveDirectoryToFile root 0 ++ "\n".toList

/-- The characters fgets stores when it may store at most n: up to and
including the first newline. -/
def fgetsLine : Nat → List Char → List Char × List Char
  | 0, s => ([], s)
  | _ + 1, [] => ([], [])
  | n + 1, c :: cs =>
    if c = '\n' then ([c], cs)
    else ((fgetsLine n cs).1.cons c, (fgetsLine n cs).2)

/-- The call fgets(line, size, file): the line read and the rest of the file,
or none at the end of the file. -/
def fgets (size : Nat) (s : List Char) : Option (List Char × List Char) :=
  match s with
  | [] => none
  | _ :: _ => some (fgetsLine (size - 1) s)

/-- The test strstr(hay, needle) != NULL. -/
def strstr : List Char → List Char → Bool
  | [], needle => needle.isEmpty
  | c :: cs, needle => needle.isPrefixOf (c :: cs) || strstr cs needle

/-- The white-space characters of isspace. -/
def isSpace (c : Char) : Bool :=
  c = ' ' || c = '\t' || c = '\n' || c = Char.ofNat 11 || c = Char.ofNat 12 || c = '\r'

/-- A white-space directive of a scanf format: skip the white space. -/
def skipSpace : List Char → List Char
  | [] => []
  | c :: cs => if isSpace c then skipSpace cs else c :: cs

/-- Ordinary characters of a scanf format: they have to be the next input. -/
def matchLit : List Char → List Char → Option (List Char)
  | [], s => some s
  | _ :: _, [] => none
  | l :: ls, c :: cs => if l = c then matchLit ls cs else none

/-- The conversion with a width and the scan set of everything but the double
quote: the longest run of such characters, at most width of them, and a
failure when there is none. -/
def scanNotQuote : Nat → List Char → List Char
  | 0, _ => []
  | _ + 1, [] => []
  | w + 1, c :: cs => if c = '"' then [] else c :: scanNotQuote w cs

/-- The call sscanf(line, " \"key\": \"%width[^\"]\"", buffer): the string
stored in the buffer, or none when nothing is stored. -/
def sscanfString (key : List Char) (width : Nat) (line : List Char) : Option (List Char) :=
  (matchLit key (skipSpace line)).bind fun r =>
  (matchLit ['"'] (skipSpace r)).bind fun r2 =>
  match scanNotQuote width r2 with
  | [] => none
  | t => some t

/-- The value of a run of decimal digits read from the left, and none when the
text does not start with a digit. -/
def scanDigits : List Char → Option Nat → Option Nat
  | [], acc => acc
  | c :: cs, acc =>
    if '0' ≤ c ∧ c ≤ '9' then scanDigits cs (some (acc.getD 0 * 10 + (c.toNat - 48)))
    else acc

/-- An integer as scanf reads it: white space, an optional sign, digits. -/
def scanInteger (s : List Char) : Option Int :=
  match skipSpace s with
  | '-' :: r => (scanDigits r none).map fun (v : Nat) => - Int.ofNat v
  | '+' :: r => (scanDigits r none).map fun (v : Nat) => Int.ofNat v
  | r => (scanDigits r none).map fun (v : Nat) => Int.ofNat v

/-- The call sscanf(line, " \"size\": %zu", &size): the value stored (reduced
to the 64 bits of size_t), or none when nothing is stored. -/
def sscanfSize (line : List Char) : Option Nat :=
  (matchLit "\"size\":".toList (skipSpace line)).bind fun r =>
  (scanInteger r).map fun v => (v % (2 ^ 64 : Int)).toNat

/-- The call sscanf(line, " \"date\": %ld", &date): the value stored (reduced
to the 64 bits of a signed long), or none when nothing is stored. -/
def sscanfDate (line : List Char) : Option Int :=
  (matchLit "\"date\":".toList (skipSpace line)).bind fun r =>
  (scanInteger r).map fun v => (v + 2 ^ 63) % (2 ^ 64 : Int) - 2 ^ 63

/-- A chain built from its nodes in order (each with its own children chain). -/
def chainOf : List (nodeData × Tree) → Tree
  | [] => Tree.null
  | (d, child) :: rest => Tree.node d child (chainOf rest)

/-- The assignments made for one property line that is not the children line
(lines 363-386).  The fields of junk stand for the buffers no sscanf filled. -/
def setProperty (junk : nodeData) (line : List Char) (d : nodeData) : nodeData :=
  if strstr line "\"type\":".toList then
    if strstr line "Folder".toList then { d with type := nodeType.Folder }
    else if strstr line "File".toList then { d with type := nodeType.File }
    else if strstr line "Symlink".toList then { d with type := nodeType.Symlink }
    else d
  else if strstr line "\"name\":".toList then
    { d with name := (sscanfString "\"name\":".toList 255 line).getD junk.name }
  else if strstr line "\"size\":".toList then
    { d with size := (sscanfSize line).getD d.size }
  else if strstr line "\"date\":".toList then
    { d with date := (sscanfDate line).getD d.date }
  else if strstr line "\"symlinkTarget\":".toList then
    let target := junk.symlinkTarget.getD []
    { d with symlinkTarget := some ((sscanfString "\"symlinkTarget\":".toList 255 line).getD target) }
  else if strstr line "\"content\":".toList then
    let content := junk.content.getD []
    { d with content := some ((sscanfString "\"content\":".toList 1023 line).getD content) }
  else d

/-- One of the six branches of lines 363-386 is taken: the line holds one of
the keys type, name, size, date, symlinkTarget, content. -/
def isFieldLine (line : List Char) : Bool :=
  strstr line "\"type\":".toList || strstr line "\"name\":".toList
    || strstr line "\"size\":".toList || strstr line "\"date\":".toList
    || strstr line "\"symlinkTarget\":".toList || strstr line "\"content\":".toList

mutual
/-- The outer loop of loadDirectoryFromFile (lines 346-408).  The nodes linked
so far through firstChild and previousSibling are the list acc; the result is
that list when the loop ends and the rest of the file. -/
def loadSiblings (junk : nodeData) :
    Nat → List Char → List (nodeData × Tree) → Option (List (nodeData × Tree) × List Char)
  | 0, _, _ => none
  | fuel + 1, file, acc =>
    match fgets 1024 file with
    | none => some (acc, file)
    | some (line, rest) =>
      if strstr line "]".toList then some (acc, rest)
      else if strstr line "\x7b".toList then
        match loadProperties junk fuel rest
            { junk with symlinkTarget := none, numberOfItems := 0 } Tree.null with
        | none => none
        | some (d, child, rest2) => loadSiblings junk fuel rest2 (acc ++ [(d, child)])
      else loadSiblings junk fuel rest acc
/-- The inner loop of loadDirectoryFromFile (lines 362-392) for the node being
built: its data fields and its child pointer. -/
def loadProperties (junk : nodeData) :
    Nat → List Char → nodeData → Tree → Option (nodeData × Tree × List Char)
  | 0, _, _, _ => none
  | fuel + 1, file, d, child =>
    match fgets 1024 file with
    | none => some (d, child, file)
    | some (line, rest) =>
      if strstr line "\x7d".toList then some (d, child, rest)
      else if isFieldLine line then
        loadProperties junk fuel rest (setProperty junk line d) child
      else if strstr line "\"children\":".toList then
        match loadSiblings junk fuel rest [] with
        | none => none
        | some (kids, rest2) =>
          loadProperties junk fuel rest2
            { d with numberOfItems := countFiles (Tree.node d (chainOf kids) Tree.null) }
            (chainOf kids)
      else loadProperties junk fuel rest d child
end

/-- The function loadDirectoryFromFile: the chain it returns and the rest of
the file.  The fuel bounds the number of lines read; a file of n characters
has at most n lines. -/
def loadDirectoryFromFile (junk : nodeData) (fuel : Nat) (file : List Char) :
    Option (Tree × List Char) :=
  (loadSiblings junk fuel file []).map fun r => (chainOf r.1, r.2)

/-- Indeterminate buffer contents used in the concrete examples. -/
def junkData : nodeData :=
  { type := nodeType.File, name := "?".toList, numberOfItems := 0, size := 0, date := 0,
    content := none, symlinkTarget := none }

/-- A text is made of decimal digits. -/
def AllDigits (s : List Char) : Prop := ∀ c ∈ s, ∃ n, n < 10 ∧ c = digitChar n

/-- The needle for a key: the key between double quotes, then a colon. -/
def keyNeedle (K : List Char) : List Char := '"' :: (K ++ ['"', ':'])

/-- A line with a key and a value between double quotes, as saveDirectoryToFile
writes it at n levels of indentation. -/
def quotedLine (n : Nat) (key V : List Char) : List Char :=
  indent n ++ ('"' :: (key ++ '"' :: ':' :: ' ' :: '"' :: (V ++ ['"', ',', '\n'])))

/-- A line with a key and a value that is not quoted; T is the value with the
end of the line. -/
def plainLine (n : Nat) (key T : List Char) : List Char :=
  indent n ++ ('"' :: (key ++ '"' :: ':' :: ' ' :: T))

/-- A string the loader can read back: no double quote, no newline and no
closing brace in it. -/
def goodText (s : List Char) : Prop := '"' ∉ s ∧ '\n' ∉ s ∧ '\x7d' ∉ s

instance (s : List Char) : Decidable (goodText s) := by
  unfold goodText
  infer_instance

/-- The lines saveDirectoryToFile writes for a node at a depth, apart from the
lines of its children: the opening line, the field lines, the line that opens
the children array, the line that closes it and the closing line (taken with
the comma that may follow it). -/
def nodeLines (depth : Nat) (d : nodeData) : List (List Char) :=
  [ indent depth ++ "\x7b\n".toList, typeLine depth d, nameLine depth d, sizeLine depth d,
    dateLine depth d, contentLine depth d, symlinkLine depth d, childrenLine depth,
    indent (depth + 1) ++ "]\n".toList, indent depth ++ "\x7d,\n".toList ]

/-- What the loader needs of a node written at a depth: a name that is not
empty, has at most 255 characters and none of the three characters the parser
trips over; size and date in the range of size_t and long; for a File a
content that is present, not empty and free of the three characters; for a
Symlink a target that is present, not empty, of at most 255 characters and
free of the three characters; and no written line longer than the 1023
characters fgets reads at a time. -/
def NodeOK (depth : Nat) (d : nodeData) : Prop :=
  goodText d.name ∧ d.name ≠ [] ∧ d.name.length ≤ 255 ∧
  d.size < 2 ^ 64 ∧ -(2 ^ 63 : Int) ≤ d.date ∧ d.date < 2 ^ 63 ∧
  (d.type = nodeType.File →
    d.content.isSome = true ∧ ∀ c ∈ d.content, goodText c ∧ c ≠ []) ∧
  (d.type = nodeType.Symlink →
    d.symlinkTarget.isSome = true ∧
      ∀ s ∈ d.symlinkTarget, goodText s ∧ s ≠ [] ∧ s.length ≤ 255) ∧
  (∀ l ∈ nodeLines depth d, l.length ≤ 1023)

instance (depth : Nat) (d : nodeData) : Decidable (NodeOK depth d) := by
  unfold NodeOK
  infer_instance

/-- Every node of a chain written at a depth, and every node below it at its
own depth, is as NodeOK asks. -/
def loadable : Nat → Tree → Bool
  | _, Tree.null => true
  | depth, Tree.node d child next =>
    decide (NodeOK depth d) && loadable (depth + 1) child && loadable depth next

/-- The hypothesis of the round-trip contract as the specification words it: no
name, File content or Symlink target holds a double quote or a newline. -/
def plainTree : Tree → Bool
  | Tree.null => true
  | Tree.node d child next =>
    decide ('"' ∉ d.name ∧ '\n' ∉ d.name) &&
    decide (d.type = nodeType.File → ∀ c ∈ d.content, '"' ∉ c ∧ '\n' ∉ c) &&
    decide (d.type = nodeType.Symlink → ∀ s ∈ d.symlinkTarget, '"' ∉ s ∧ '\n' ∉ s) &&
    plainTree child && plainTree next

/-- The fields the round-trip contract compares: kind, name, size and date, the
content of a File and the target of a Symlink. -/
def sameData (d e : nodeData) : Prop :=
  e.type = d.type ∧ e.name = d.name ∧ e.size = d.size ∧ e.date = d.date ∧
  (d.type = nodeType.File → e.content = d.content) ∧
  (d.type = nodeType.Symlink → e.symlinkTarget = d.symlinkTarget)

instance (d e : nodeData) : Decidable (sameData d e) := by
  unfold sameData
  infer_instance

/-- Two chains have the same nodes in the same order, with the same compared
fields at every node and the same children chains below. -/
def sameChain : Tree → Tree → Bool
  | Tree.null, Tree.null => true
  | Tree.node d child next, Tree.node e child2 next2 =>
    decide (sameData d e) && sameChain child child2 && sameChain next next2
  | _, _ => false

/-- The round trip for the node root points to: loading the text written for it
gives one node with the same compared fields and the same children below. -/
def roundTrips (junk : nodeData) (fuel : Nat) (root : Tree) : Bool :=
  match root, loadDirectoryFromFile junk fuel (saveDirectoryToFile root 0) with
  | Tree.node d child _, some (Tree.node e child2 Tree.null, _) =>
    decide (sameData d e) && sameChain child child2
  | _, _ => false

/-- The data the loader leaves in the node it builds from the text written for
d, kids being the children chain it loaded: the written fields, content and
target only where they were written, and the item count recomputed. -/
def loadedData (junk d : nodeData) (kids : Tree) : nodeData :=
  { type := d.type, name := d.name, size := d.size, date := d.date,
    content := if d.type = nodeType.File then d.content else junk.content,
    symlinkTarget := if d.type = nodeType.Symlink then d.symlinkTarget else none,
    numberOfItems := (if d.type = nodeType.File then 1 else 0) + countFilesChain kids }

/-- The nodes the loader builds from the text written for a chain. -/
def loadedList (junk : nodeData) : Tree → List (nodeData × Tree)
  | Tree.null => []
  | Tree.node d child next =>
    (loadedData junk d (chainOf (loadedList junk child)), chainOf (loadedList junk child))
      :: loadedList junk next

/-- A tree that meets the hypothesis of the contract as worded and has a closing
brace in a folder name: the root holds the folder a} and that folder the file b. -/
def treeBrace : Tree :=
  Tree.node { type := nodeType.Folder, name := ['/'], numberOfItems := 1, size := 0, date := 0,
              content := none, symlinkTarget := none }
    (Tree.node { type := nodeType.Folder, name := ['a', '\x7d'], numberOfItems := 1, size := 0,
                 date := 0, content := none, symlinkTarget := none }
      (Tree.node { type := nodeType.File, name := ['b'], numberOfItems := 0, size := 1,
                   date := 0, content := some ['x'], symlinkTarget := none }
        Tree.null Tree.null)
      Tree.null)
    Tree.null

/-- A tree the loader reads back: the root holds the folder docs and the file b,
and docs holds the file note.txt and a link to it. -/
def treeDocs : Tree :=
  Tree.node { type := nodeType.Folder, name := ['/'], numberOfItems := 3, size := 0,
              date := 1700000000, content := none, symlinkTarget := none }
    (Tree.node { type := nodeType.Folder, name := "docs".toList, numberOfItems := 1, size := 0,
                 date := -5, content := none, symlinkTarget := none }
      (Tree.node { type := nodeType.File, name := "note.txt".toList, numberOfItems := 0,
                   size := 2, date := 12, content := some "hi".toList, symlinkTarget := none }
        Tree.null
        (Tree.node { type := nodeType.Symlink, name := "link".toList, numberOfItems := 0,
                     size := 0, date := 13, content := none,
                     symlinkTarget := some "note.txt".toList }
          Tree.null Tree.null))
      (Tree.node { type := nodeType.File, name := ['b'], numberOfItems := 0, size := 3,
                   date := 14, content := some "a b".toList, symlinkTarget := none }
        Tree.null Tree.null))
    Tree.null

/-- A tree that meets the hypothesis of the contract as worded and has a File
with an empty name under the root. -/
def treeNoName : Tree :=
  Tree.node { type := nodeType.Folder, name := ['/'], numberOfItems := 1, size := 0, date := 0,
              content := none, symlinkTarget := none }
    (Tree.node { type := nodeType.File, name := [], numberOfItems := 0, size := 1, date := 0,
                 content := some ['x'], symlinkTarget := none }
      Tree.null Tree.null)
    Tree.null

/-! ## Symbolic links, rename, edit, merge (`echo`, `createSymlink`,
`renameNode`, `edit`, `mergeDirectories`) -/

/-- The assignment x->name = strdup(v). -/
def setName (v : List Char) (x : node) : node := { x with name := v }

/-- The assignment x->symlinkTarget = v. -/
def setSymlinkTarget (v : Option (List Char)) (x : node) : node := { x with symlinkTarget := v }

/-- The three assignments of edit (lines 792-794): content, size, date. -/
def setEdited (content : List Char) (now : Int) (x : node) : node :=
  { x with content := some content, size := content.length, date := now }

/-- The C string that the buffer of a path holds after parsePath ran on it:
strtok wrote a terminator over the separator that follows the first token, so
the string ends with its first token (it is unchanged when it has no token or
only one). -/
def strtokView (path : List Char) : List Char :=
  let lead := path.takeWhile (fun c => c = '/')
  let tok := (path.dropWhile (fun c => c = '/')).takeWhile (fun c => c ≠ '/')
  if tok = [] then path else lead ++ tok

/-- The function echo up to the point where it opens the real file (lines
216-241): the heap, in which the target string of a followed link went through
strtok, and the File node whose file is then read (NULL when echo reports an
error). -/
def echo (h : Heap) (currentFolder : Nat) (fileName : List Char) (root : Nat) :
    Option (Heap × Ptr) :=
  match getNodeTypeless h currentFolder fileName with
  | none => none
  | some none => some (h, none)
  | some (some found) =>
    (h[found]?).bind fun n =>
    let resolved : Option (Heap × Ptr) :=
      if n.type = nodeType.Symlink then
        -- targetNode = parsePath(currentFolder, targetNode->symlinkTarget, root);
        n.symlinkTarget.bind fun targetPath =>
        (parsePath h currentFolder targetPath root).bind fun r =>
        (upd h found (setSymlinkTarget (some (strtokView targetPath)))).bind fun h1 =>
        some (h1, r)
      else some (h, some found)
    resolved.bind fun hr =>
    match hr.2 with
    | none => some (hr.1, none)
    | some target =>
      (hr.1[target]?).bind fun t =>
      if t.type ≠ nodeType.File then some (hr.1, none) else some (hr.1, some target)

/-- The field assignments createSymlink performs on the new node (lines
1179-1186); previous, content and numberOfItems are not among them, so that
content keeps the indeterminate value of the block. -/
def initSymlink (linkName storedPath : List Char) (now : Int) (currentFolder : Nat)
    (x : node) : node :=
  { x with type := nodeType.Symlink, name := linkName, symlinkTarget := some storedPath,
           size := 0, date := now, child := none, next := none,
           parent := some currentFolder }

/-- The function createSymlink: the heap and the value returned.  By the time
strdup copies sourcePath, parsePath has run strtok over it. -/
def createSymlink (h : Heap) (junk : node) (now : Int) (currentFolder : Nat)
    (sourcePath linkName : List Char) (root : Nat) : Option (Heap × Int) :=
  match parsePath h currentFolder sourcePath root with
  | none => none
  | some none => some (h, -1)
  | some (some _) =>
    match getNodeTypeless h currentFolder linkName with
    | none => none
    | some (some _) => some (h, -1)
    | some none =>
      let newLink := h.length
      let h1 := h ++ [{ junk with contentAssigned := false }]
      (upd h1 newLink (initSymlink linkName (strtokView sourcePath) now currentFolder)).bind
      fun h2 =>
      (h2[currentFolder]?).bind fun f =>
      match f.child with
      | none => (upd h2 currentFolder (setChild (some newLink))).map fun h3 => (h3, 0)
      | some c =>
        (lastOfChain h2 h2.length c).bind fun lastChild =>
        (upd h2 lastChild (setNext (some newLink))).map fun h3 => (h3, 0)

/-- The loop of renameNode over the chain of the parent: true when a sibling
other than the node carries the new name. -/
def renameConflict (h : Heap) (currentNode : Nat) (newName : List Char) :
    Nat → Ptr → Option Bool
  | _, none => some false
  | 0, some _ => none
  | fuel + 1, some sibling =>
    match h[sibling]? with
    | none => none
    | some s =>
      if sibling ≠ currentNode ∧ s.name = newName then some true
      else renameConflict h currentNode newName fuel s.next

/-- The function renameNode (lines 541-561). -/
def renameNode (h : Heap) (currentNode : Ptr) (newName : List Char) : Option Heap :=
  match currentNode with
  | none => some h
  | some cn =>
    (h[cn]?).bind fun n =>
    let sibling : Option Ptr :=
      match n.parent with
      | some p => (h[p]?).map fun pn => pn.child
      | none => some none
    sibling.bind fun first =>
    (renameConflict h cn newName h.length first).bind fun conflict =>
    if conflict then some h else upd h cn (setName newName)

/-- The function edit (lines 779-814).  The argument content is the line read
by getString, now the value of time(NULL). -/
def edit (h : Heap) (now : Int) (currentFolder : Nat) (command content : List Char) :
    Option Heap :=
  match strtokAll ' ' command with
  | _ :: fileName :: _ =>
    match getNode h currentFolder fileName nodeType.File with
    | none => none
    | some none => some h
    | some (some editingNode) => upd h editingNode (setEdited content now)
  | _ => some h

/-- The relocation at the end of an iteration of mergeDirectories (lines
1140-1149): the parent pointer is set and the node is hung behind the last
child of the destination; its next pointer is left as it is. -/
def relocate (h : Heap) (destFolder current : Nat) : Option Heap :=
  (upd h current (setParent (some destFolder))).bind fun h1 =>
  (h1[destFolder]?).bind fun d =>
  match d.child with
  | none =>
    (upd h1 destFolder (setChild (some current))).bind fun h2 =>
    upd h2 current (setPrevious none)
  | some c =>
    (lastOfChain h1 h1.length c).bind fun last =>
    (upd h1 last (setNext (some current))).bind fun h2 =>
    upd h2 current (setPrevious (some last))

/-- The loop of mergeDirectories (lines 1102-1152).  The answers of the user
are the list inputs: for every prompt the number read by scanf and the line
read by fgets; the result is the heap and the answers not yet read.  A prompt
without an answer left does not return. -/
def mergeLoop (destFolder : Nat) :
    Nat → Heap → Ptr → List (Int × List Char) → Option (Heap × List (Int × List Char))
  | _, h, none, inputs => some (h, inputs)
  | 0, _, some _, _ => none
  | fuel + 1, h, some current, inputs =>
    match h[current]? with
    | none => none
    | some c =>
      match getNodeTypeless h destFolder c.name with
      | none => none
      | some none =>
        (relocate h destFolder current).bind fun h1 => mergeLoop destFolder fuel h1 c.next inputs
      | some (some existing) =>
        match inputs with
        | [] => none
        | (choice, newName) :: later =>
          if choice = 1 then mergeLoop destFolder fuel h c.next later
          else if choice = 2 then
            (upd h current (setName newName)).bind fun h1 =>
            mergeLoop destFolder fuel h1 c.next later
          else if choice = 3 then
            (removeNode h existing).bind fun h1 =>
            (relocate h1 destFolder current).bind fun h2 =>
            mergeLoop destFolder fuel h2 c.next later
          else some (h, later)

/-- The function mergeDirectories.  The loop gets one step of fuel per cell of
the heap and one more. -/
def mergeDirectories (h : Heap) (destFolder srcFolder : Nat) (inputs : List (Int × List Char)) :
    Option (Heap × List (Int × List Char)) :=
  match h[destFolder]?, h[srcFolder]? with
  | some d, some s =>
    if s.type ≠ nodeType.Folder ∨ d.type ≠ nodeType.Folder then some (h, inputs)
    else mergeLoop destFolder (h.length + 1) h s.child inputs
  | _, _ => none

/-- The first address of a list whose node carries the name and the kind. -/
def firstNamedOfType (h : Heap) (name : List Char) (ty : nodeType) (L : List Nat) : Option Nat :=
  L.find? (fun a =>
    match h[a]? with
    | some n => decide (name = n.name ∧ n.type = ty)
    | none => false)

/-- A root folder (address 0) that holds the File note.txt with the content hi
(address 1) and the Symlink link with the target note.txt (address 2). -/
def heapLink : Heap :=
  [ { mkRoot junk0 0 with numberOfItems := 1, child := some 1 },
    { junk0 with type := nodeType.File, name := "note.txt".toList, size := 2,
                 content := some "hi".toList, parent := some 0, next := some 2 },
    { junk0 with type := nodeType.Symlink, name := "link".toList,
                 symlinkTarget := some "note.txt".toList, parent := some 0,
                 previous := some 1 } ]

/-- A run of mkdir commands from a heap: each entry is the current folder and
the command line. -/
def mkdirs : Heap → List (Nat × List Char) → Option Heap
  | h, [] => some h
  | h, (cur, command) :: more => (make_dir h junk0 0 cur command).bind fun h1 => mkdirs h1 more

/-- The heap after mkdir d, mkdir s at the root and mkdir x inside s: the
folders d (address 1) and s (address 2), and x (address 3) the only child of s. -/
def heapMerge1 : Heap :=
  [ { mkRoot junk0 0 with numberOfItems := 2, child := some 1 },
    { newFolderNode junk0 0 0 ['d'] none with next := some 2 },
    { newFolderNode junk0 0 0 ['s'] (some 1) with numberOfItems := 1, child := some 3 },
    newFolderNode junk0 0 2 ['x'] none ]

/-- The heap after mkdir d, mkdir s at the root and mkdir x, mkdir y inside s. -/
def heapMerge2 : Heap :=
  [ { mkRoot junk0 0 with numberOfItems := 2, child := some 1 },
    { newFolderNode junk0 0 0 ['d'] none with next := some 2 },
    { newFolderNode junk0 0 0 ['s'] (some 1) with numberOfItems := 2, child := some 3 },
    { newFolderNode junk0 0 2 ['x'] none with next := some 4 },
    newFolderNode junk0 0 2 ['y'] (some 3) ]

/-- The heap after mkdir d, mkdir s at the root, mkdir n inside d and mkdir y,
mkdir n inside s: the name n is in both folders (addresses 3 and 5). -/
def heapOverwrite : Heap :=
  [ { mkRoot junk0 0 with numberOfItems := 2, child := some 1 },
    { newFolderNode junk0 0 0 ['d'] none with numberOfItems := 1, child := some 3,
                                               next := some 2 },
    { newFolderNode junk0 0 0 ['s'] (some 1) with numberOfItems := 2, child := some 4 },
    newFolderNode junk0 0 1 ['n'] none,
    { newFolderNode junk0 0 2 ['y'] none with next := some 5 },
    newFolderNode junk0 0 2 ['n'] (some 4) ]

/-- The heap after mkdir d, mkdir s at the root, mkdir n, mkdir m inside d and
mkdir n inside s: d holds n (address 3) and m (address 4), s holds n (address 5). -/
def heapRename : Heap :=
  [ { mkRoot junk0 0 with numberOfItems := 2, child := some 1 },
    { newFolderNode junk0 0 0 ['d'] none with numberOfItems := 2, child := some 3,
                                               next := some 2 },
    { newFolderNode junk0 0 0 ['s'] (some 1) with numberOfItems := 1, child := some 5 },
    { newFolderNode junk0 0 1 ['n'] none with next := some 4 },
    newFolderNode junk0 0 1 ['m'] (some 3),
    newFolderNode junk0 0 2 ['n'] none ]

/-- The heap after mkdir d, mkdir s at the root, mkdir y inside d and mkdir x,
mkdir y inside s: d holds y (address 3), s holds x (address 4) and y (address 5). -/
def heapAbort : Heap :=
  [ { mkRoot junk0 0 with numberOfItems := 2, child := some 1 },
    { newFolderNode junk0 0 0 ['d'] none with numberOfItems := 1, child := some 3,
                                               next := some 2 },
    { newFolderNode junk0 0 0 ['s'] (some 1) with numberOfItems := 2, child := some 4 },
    newFolderNode junk0 0 1 ['y'] none,
    { newFolderNode junk0 0 2 ['x'] none with next := some 5 },
    newFolderNode junk0 0 2 ['y'] (some 4) ]

/-! ## Counting and the load command (`countFolders`, `loadDirectory`, `main`) -/

/-- The function countFolders (lines 139-153).  Its loop adds countFiles of
every child, as the loop of countFiles does. -/
def countFolders : Tree → Int
  | Tree.null => 0
  | Tree.node d child _ => (if d.type = nodeType.Folder then 1 else 0) + countFilesChain child

/-- The data of every node of a chain and of everything below the chain. -/
def nodesOf : Tree → List nodeData
  | Tree.null => []
  | Tree.node d child next => d :: (nodesOf child ++ nodesOf next)

/-- The number of nodes of a kind in a chain and below it. -/
def numOfKind (k : nodeType) (t : Tree) : Nat :=
  (nodesOf t).countP (fun d => decide (d.type = k))

/-- The subtree rooted at the node a pointer leads to: the node with what is
below it, without the siblings that follow it. -/
def subtree : Tree → Tree
  | Tree.null => Tree.null
  | Tree.node d child _ => Tree.node d child Tree.null

/-- The function loadDirectory (lines 413-443).  The argument file is what
fopen finds under the name: none when the file cannot be opened.  The result
some Tree.null is the return of NULL.  The result none is the assignment
loadedRoot->numberOfItems of line 432 through the NULL pointer that
loadDirectoryFromFile returned (and the case that the fuel given to
loadDirectoryFromFile ran out). -/
def loadDirectory (junk : nodeData) (fuel : Nat) (file : Option (List Char)) : Option Tree :=
  match file with
  | none => some Tree.null
  | some text =>
    match loadDirectoryFromFile junk fuel text with
    | none => none
    | some (Tree.null, _) => none
    | some (Tree.node d child next, _) =>
      some (Tree.node { d with numberOfItems := countFiles (Tree.node d child next) } child next)

/-- What the command loop of main holds between two commands, as far as the
load command touches it: the tree under root, the node currentFolder points to
with what is below it, and the path string of the prompt. -/
structure session where
  root : Tree
  currentFolder : Tree
  path : List Char
deriving DecidableEq, Repr

/-- The load branch of main (lines 1423-1436).  The argument files is the file
system as fopen sees it.  The file name is the first token behind the fifth
character of the command; a command of fewer than five characters makes strtok
read behind the terminator, which has no result here. -/
def loadCommand (junk : nodeData) (fuel : Nat) (files : List Char → Option (List Char))
    (s : session) (command : List Char) : Option session :=
  if command.length < 5 then none
  else
    match strtokAll ' ' (command.drop 5) with
    | [] => some s
    | filename :: _ =>
      match loadDirectory junk fuel (files filename) with
      | none => none
      | some Tree.null => some s
      | some (Tree.node d child next) =>
        some { root := Tree.node d child next, currentFolder := Tree.node d child next,
               path := ['/'] }

/-- Every Folder node of a chain and below it has as numberOfItems the number
of File nodes below it. -/
def countsRecomputed : Tree → Bool
  | Tree.null => true
  | Tree.node d child next =>
    decide (d.type = nodeType.Folder → d.numberOfItems = (numOfKind nodeType.File child : Int))
      && countsRecomputed child && countsRecomputed next

/-- A root folder that holds one folder. -/
def treeOneFolder : Tree :=
  Tree.node { type := nodeType.Folder, name := ['/'], numberOfItems := 1, size := 0, date := 0,
              content := none, symlinkTarget := none }
    (Tree.node { type := nodeType.Folder, name := ['a'], numberOfItems := 0, size := 0,
                 date := 0, content := none, symlinkTarget := none }
      Tree.null Tree.null)
    Tree.null

/-- A root folder that holds one file. -/
def treeOneFile : Tree :=
  Tree.node { type := nodeType.Folder, name := ['/'], numberOfItems := 1, size := 0, date := 0,
              content := none, symlinkTarget := none }
    (Tree.node { type := nodeType.File, name := ['f'], numberOfItems := 0, size := 1,
                 date := 0, content := some ['x'], symlinkTarget := none }
      Tree.null Tree.null)
    Tree.null

/-! ## Sorting (`compareNodesByName`, `compareNodesByDate`, `sortDirectory`,
lines 1045-1095) -/

/-- The library function strcmp: 0 for equal strings, otherwise the difference
of the first two characters in which the strings differ, the terminator
counting as 0 and ending the comparison.  The C standard fixes the sign of the
result only, and only the sign is used. -/
def strcmp : List Char → List Char → Int
  | [], [] => 0
  | [], b :: _ => - (b.toNat : Int)
  | a :: _, [] => (a.toNat : Int)
  | a :: as, b :: bs =>
    if a.toNat = b.toNat then (if a.toNat = 0 then 0 else strcmp as bs)
    else (a.toNat : Int) - (b.toNat : Int)

/-- The function compareNodesByName on two entries of the array of node
pointers. -/
def compareNodesByName (h : Heap) (a b : Nat) : Option Int :=
  match h[a]?, h[b]? with
  | some nodeA, some nodeB => some (strcmp nodeA.name nodeB.name)
  | _, _ => none

/-- The function compareNodesByDate.  The double that difftime returns holds
the difference of the two dates; the return statement converts it to int, and
that conversion has a result only for a value an int can hold. -/
def compareNodesByDate (h : Heap) (a b : Nat) : Option Int :=
  match h[a]?, h[b]? with
  | some nodeA, some nodeB =>
    let difftime : Int := nodeA.date - nodeB.date
    if -(2 ^ 31 : Int) ≤ difftime ∧ difftime < 2 ^ 31 then some difftime else none
  | _, _ => none

/-- The loop of sortDirectory that links the array entries (lines 1087-1090). -/
def relinkLoop : Heap → List Nat → Option Heap
  | h, a :: b :: rest =>
    (upd h a (setNext (some b))).bind fun h1 =>
    (upd h1 b (setPrevious (some a))).bind fun h2 => relinkLoop h2 (b :: rest)
  | h, _ => some h

/-- The function sortDirectory.  The library function qsort is the first
argument: it gets the comparison function and the array and gives the array
back in its new order, or nothing when it has no defined result.  The array is
the chain of the children, filled by the two loops of lines 1062-1073. -/
def sortDirectory (qsort : (Nat → Nat → Option Int) → List Nat → Option (List Nat))
    (h : Heap) (folder : Nat) (criterion : List Char) : Option Heap :=
  match h[folder]? with
  | none => none
  | some f =>
    match f.child with
    | none => some h
    | some c =>
      (chainFrom h h.length (some c)).bind fun nodesArray =>
      let sorted : Option (List Nat) :=
        if criterion = "name".toList then qsort (compareNodesByName h) nodesArray
        else if criterion = "date".toList then qsort (compareNodesByDate h) nodesArray
        else some nodesArray
      sorted.bind fun arr =>
      match arr.head?, arr.getLast? with
      | some first, some last =>
        (upd h folder (setChild (some first))).bind fun h1 =>
        (upd h1 first (setPrevious none)).bind fun h2 =>
        (relinkLoop h2 arr).bind fun h3 =>
        upd h3 last (setNext none)
      | _, _ => none

/-- The comparison function puts a before b or level with it: its result for
the pair is defined and not positive. -/
def leOf (compar : Nat → Nat → Option Int) (a b : Nat) : Prop :=
  ∃ v : Int, compar a b = some v ∧ v ≤ 0

/-- What the C standard asks of a comparison function on the entries of the
array: every call has a result, swapping the arguments swaps the sign, and the
results define a total ordering. -/
def Consistent (compar : Nat → Nat → Option Int) (xs : List Nat) : Prop :=
  (∀ a ∈ xs, ∀ b ∈ xs, ∃ v w : Int, compar a b = some v ∧ compar b a = some w ∧
    (v < 0 ↔ 0 < w) ∧ (v = 0 ↔ w = 0)) ∧
  (∀ a ∈ xs, ∀ b ∈ xs, ∀ c ∈ xs, leOf compar a b → leOf compar b c → leOf compar a c)

/-- What the C standard says of qsort: given a consistent comparison function
it returns the entries of the array in ascending order. -/
def SortsAscending (qsort : (Nat → Nat → Option Int) → List Nat → Option (List Nat)) : Prop :=
  ∀ (compar : Nat → Nat → Option Int) (xs : List Nat), Consistent compar xs →
    ∃ ys, qsort compar xs = some ys ∧ ys.Perm xs ∧ ys.Pairwise (leOf compar)

/-- Insertion of an entry into an ordered array, each step one call of the
comparison function. -/
def insertSorted (compar : Nat → Nat → Option Int) (x : Nat) : List Nat → Option (List Nat)
  | [] => some [x]
  | y :: ys =>
    (compar x y).bind fun v =>
    if v ≤ 0 then some (x :: y :: ys) else (insertSorted compar x ys).map fun r => y :: r

/-- One qsort: sorting by insertion.  It has no result when a call of the
comparison function has none. -/
def insertionSort (compar : Nat → Nat → Option Int) : List Nat → Option (List Nat)
  | [] => some []
  | x :: xs => (insertionSort compar xs).bind fun r => insertSorted compar x r

/-- Two nodes agree on every field except the links next, previous and child. -/
def SamePayload (n n' : node) : Prop :=
  n'.type = n.type ∧ n'.name = n.name ∧ n'.numberOfItems = n.numberOfItems ∧
  n'.size = n.size ∧ n'.date = n.date ∧ n'.content = n.content ∧ n'.parent = n.parent ∧
  n'.symlinkTarget = n.symlinkTarget

/-- The date stored at an address. -/
def dateOf (h : Heap) (a : Nat) : Option Int := (h[a]?).map (fun n => n.date)

/-- The heap after the commands mkdir b, mkdir a, mkdir c at the root. -/
def heapBAC : Heap :=
  [ { mkRoot junk0 0 with numberOfItems := 3, child := some 1 },
    { newFolderNode junk0 0 0 ['b'] none with next := some 2 },
    { newFolderNode junk0 0 0 ['a'] (some 1) with next := some 3 },
    newFolderNode junk0 0 0 ['c'] (some 2) ]

/-- A root with the folders new (address 1), dated 4000000000, and old
(address 2), dated 1700000000. -/
def heapDates : Heap :=
  [ { mkRoot junk0 0 with numberOfItems := 2, child := some 1 },
    { newFolderNode junk0 4000000000 0 "new".toList none with next := some 2 },
    newFolderNode junk0 1700000000 0 "old".toList (some 1) ]

/-- The rename branch of main (lines 1504-1517).  The old name is the first
token behind the seventh character of the command; a command of fewer than
seven characters makes strtok read behind the terminator, which has no result
here. -/
def renameCommand (h : Heap) (currentFolder : Nat) (command : List Char) : Option Heap :=
  if command.length < 7 then none
  else
    match strtokAll ' ' (command.drop 7) with
    | oldName :: newName :: _ =>
      match getNodeTypeless h currentFolder oldName with
      | none => none
      | some none => some h
      | some (some targetNode) => renameNode h (some targetNode) newName
    | _ => some h

/-- The names of the children of a folder, in the order of the chain. -/
def childNames (h : Heap) (folder : Nat) : Option (List (Option (List Char))) :=
  (children h folder).map (List.map (nameOf h))

/-- The heap after mkdir n, mkdir d at the root and mkdir x inside d: the root
holds n (address 1) and d (address 2), d holds x (address 3). -/
def heapNDX : Heap :=
  [ { mkRoot junk0 0 with numberOfItems := 2, child := some 1 },
    { newFolderNode junk0 0 0 ['n'] none with next := some 2 },
    { newFolderNode junk0 0 0 ['d'] (some 1) with numberOfItems := 1, child := some 3 },
    newFolderNode junk0 0 2 ['x'] none ]

/-- The heap after mkdir x, mkdir d at the root and mkdir x inside d: the root
holds x (address 1) and d (address 2), d holds another x (address 3). -/
def heapXDX : Heap :=
  [ { mkRoot junk0 0 with numberOfItems := 2, child := some 1 },
    { newFolderNode junk0 0 0 ['x'] none with next := some 2 },
    { newFolderNode junk0 0 0 ['d'] (some 1) with numberOfItems := 1, child := some 3 },
    newFolderNode junk0 0 2 ['x'] none ]

/-! ## The round trip and countFolders as they are (second statements) -/

/-- The direct children a chain pointer leads to, each as the node with what
is below it. -/
def directChildren : Tree → List Tree
  | Tree.null => []
  | Tree.node d child next => Tree.node d child Tree.null :: directChildren next

/-- The limits of the parser as worded without a bound on the length of a link
target: a name that is not empty and has at most 255 characters, for a File a
content that is present and not empty, for a Symlink a target that is present
and not empty, none of these strings with a double quote, a newline or a
closing brace, every written line shorter than 1023 characters; size and date
are values of size_t and long. -/
def nodeWorded (depth : Nat) (d : nodeData) : Prop :=
  d.name ≠ [] ∧ d.name.length ≤ 255 ∧ goodText d.name ∧
  (d.type = nodeType.File →
    d.content.isSome = true ∧ ∀ c ∈ d.content, c ≠ [] ∧ goodText c) ∧
  (d.type = nodeType.Symlink →
    d.symlinkTarget.isSome = true ∧ ∀ s ∈ d.symlinkTarget, s ≠ [] ∧ goodText s) ∧
  (∀ l ∈ nodeLines depth d, l.length < 1023) ∧
  d.size < 2 ^ 64 ∧ -(2 ^ 63 : Int) ≤ d.date ∧ d.date < 2 ^ 63

instance (depth : Nat) (d : nodeData) : Decidable (nodeWorded depth d) := by
  unfold nodeWorded
  infer_instance

/-- Every node of a chain written at a depth, and every node below it at its
own depth, is as nodeWorded asks. -/
def treeWorded : Nat → Tree → Bool
  | _, Tree.null => true
  | depth, Tree.node d child next =>
    decide (nodeWorded depth d) && treeWorded (depth + 1) child && treeWorded depth next

/-- The limits with the bound on the link target: as treeWorded, and every
Symlink target has at most 255 characters. -/
def treeBounded : Nat → Tree → Bool
  | _, Tree.null => true
  | depth, Tree.node d child next =>
    decide (nodeWorded depth d ∧
      (d.type = nodeType.Symlink → ∀ s ∈ d.symlinkTarget, s.length ≤ 255))
      && treeBounded (depth + 1) child && treeBounded depth next

/-- A root folder that holds a Symlink whose target has 256 characters. -/
def treeLongLink : Tree :=
  Tree.node { type := nodeType.Folder, name := ['/'], numberOfItems := 0, size := 0, date := 0,
              content := none, symlinkTarget := none }
    (Tree.node { type := nodeType.Symlink, name := ['l'], numberOfItems := 0, size := 0,
                 date := 0, content := none, symlinkTarget := some (List.replicate 256 'a') }
      Tree.null Tree.null)
    Tree.null

/-- A root folder that holds a Symlink whose target has 255 characters. -/
def treeLink255 : Tree :=
  Tree.node { type := nodeType.Folder, name := ['/'], numberOfItems := 0, size := 0, date := 0,
              content := none, symlinkTarget := none }
    (Tree.node { type := nodeType.Symlink, name := ['l'], numberOfItems := 0, size := 0,
                 date := 0, content := none, symlinkTarget := some (List.replicate 255 'a') }
      Tree.null Tree.null)
    Tree.null

/-- A root folder (address 0) that holds the File note.txt (address 1) and the
Symlinks l2 with the target note.txt (2), l1 with the target l2 (3), self with
the target self (4), p with the target q (5) and q with the target p (6). -/
def heapLinks : Heap :=
  [ { mkRoot junk0 0 with numberOfItems := 1, child := some 1 },
    { junk0 with type := nodeType.File, name := "note.txt".toList, size := 2,
                 content := some "hi".toList, parent := some 0, next := some 2 },
    { junk0 with type := nodeType.Symlink, name := "l2".toList,
                 symlinkTarget := some "note.txt".toList, parent := some 0,
                 previous := some 1, next := some 3 },
    { junk0 with type := nodeType.Symlink, name := "l1".toList,
                 symlinkTarget := some "l2".toList, parent := some 0,
                 previous := some 2, next := some 4 },
    { junk0 with type := nodeType.Symlink, name := "self".toList,
                 symlinkTarget := some "self".toList, parent := some 0,
                 previous := some 3, next := some 5 },
    { junk0 with type := nodeType.Symlink, name := ['p'],
                 symlinkTarget := some ['q'], parent := some 0,
                 previous := some 4, next := some 6 },
    { junk0 with type := nodeType.Symlink, name := ['q'],
                 symlinkTarget := some ['p'], parent := some 0,
                 previous := some 5 } ]

/-! ## Changing the folder (`cd`, lines 835-894) -/

/-- The library function strrchr, as the position of the last occurrence of
the character. -/
def strrchr : List Char → Char → Option Nat
  | [], _ => none
  | c :: cs, x =>
    match strrchr cs x with
    | some i => some (i + 1)
    | none => if c = x then some 0 else none

/-- The update of the path string for the token .. (lines 854-860): the string
is cut at its last separator, unless that is its first character or there is
none; then it becomes the separator alone. -/
def cutLastSegment (path : List Char) : List Char :=
  match strrchr path '/' with
  | some lastSlash => if lastSlash ≠ 0 then path.take lastSlash else ['/']
  | none => ['/']

/-- The update of the path string for a folder that was entered (lines
874-880). -/
def appendSegment (path token : List Char) : List Char :=
  if path = ['/'] then path ++ token else path ++ '/' :: token

/-- The token loop of cd: the current folder and the path string. -/
def cdLoop (h : Heap) : List (List Char) → Nat → List Char → Option (Nat × List Char)
  | [], currentFolder, path => some (currentFolder, path)
  | token :: rest, currentFolder, path =>
    if token = ['.', '.'] then
      match h[currentFolder]? with
      | none => none
      | some n =>
        match n.parent with
        | some p => cdLoop h rest p (cutLastSegment path)
        | none => cdLoop h rest currentFolder path
    else if token = ['.'] then cdLoop h rest currentFolder path
    else
      match getNode h currentFolder token nodeType.Folder with
      | none => none
      | some none => some (currentFolder, path)
      | some (some destinationFolder) =>
        cdLoop h rest destinationFolder (appendSegment path token)

/-- The function cd: the folder it returns and the path string it leaves. -/
def cd (h : Heap) (currentFolder : Nat) (command path : List Char) (root : Nat) :
    Option (Nat × List Char) :=
  match strtokAll ' ' command with
  | _ :: targetPath :: _ =>
    match targetPath with
    | '/' :: rest => cdLoop h (strtokAll '/' rest) root ['/']
    | _ => cdLoop h (strtokAll '/' targetPath) currentFolder path
  | _ => some (currentFolder, path)

/-- The kind stored at an address. -/
def typeOf (h : Heap) (a : Nat) : Option nodeType := (h[a]?).map (fun n => n.type)

/-- The parent pointer stored at an address. -/
def parentOf (h : Heap) (a : Nat) : Option Ptr := (h[a]?).map (fun n => n.parent)

/-- From the node a the segments name Folder children in turn, down to the
node c: no segment is . or .., and each is the name of a child of kind Folder
of the node reached so far (the first such child). -/
def Descends (h : Heap) : Nat → List (List Char) → Nat → Prop
  | a, [], c => c = a
  | a, seg :: rest, c =>
    seg ≠ ['.', '.'] ∧ seg ≠ ['.'] ∧
    ∃ (L : List Nat) (b : Nat), children h a = some L ∧
      firstNamedOfType h seg nodeType.Folder L = some b ∧ Descends h b rest c

/-- The path string after the segments were appended one by one. -/
def appendSegments (path : List Char) (segs : List (List Char)) : List Char :=
  segs.foldl appendSegment path

/-- What make_dir leaves in a cell that existed before, when it links the new
cell: the count of the current folder is raised, the child pointer of the
current folder is set when it had no child, and the next pointer of the last
child is set. -/
def mkdirCell (currentFolder newFolder : Nat) (L : List Nat) (a : Nat) (n : node) : node :=
  let n1 := if a = currentFolder then addItems 1 n else n
  let n2 := if a = currentFolder ∧ L = [] then setChild (some newFolder) n1 else n1
  if L.getLast? = some a then setNext (some newFolder) n2 else n2

/-- The names, each behind a separator. -/
def slashJoin : List (List Char) → List Char
  | [] => []
  | s :: rest => '/' :: (s ++ slashJoin rest)

/-- The path string for the folders with these names, from below the root down:
the separator alone for the root, otherwise the names, each behind a separator. -/
def pathString (names : List (List Char)) : List Char :=
  if names = [] then ['/'] else slashJoin names

/-- The names stored at the addresses of a list. -/
def namesOf (h : Heap) (l : List Nat) : List (List Char) :=
  l.map fun a => ((h[a]?).map fun n => n.name).getD []

/-- The nodes from a node up to below the root, the node first: each is a live
cell whose parent pointer leads to the next, and the parent of the last is the
root. -/
def Ancestry (h : Heap) (root : Nat) : Nat → List Nat → Prop
  | a, [] => a = root
  | a, b :: up =>
    b = a ∧ ∃ (n : node) (p : Nat), h[a]? = some n ∧ n.parent = some p ∧ Ancestry h root p up

/-- The path string is in step with the current folder: it is the path string
for the names of the folders from below the root down to the current folder. -/
def InStep (h : Heap) (root currentFolder : Nat) (path : List Char) : Prop :=
  ∃ up : List Nat, Ancestry h root currentFolder up ∧ path = pathString (namesOf h up.reverse)

/-- A run of cd commands: the current folder and the path string after it. -/
def cdRun (h : Heap) (root : Nat) : List (List Char) → Nat × List Char → Option (Nat × List Char)
  | [], s => some s
  | command :: rest, s => (cd h s.1 command s.2 root).bind fun s1 => cdRun h root rest s1

/-- A run of mkdir commands from a heap: each entry is the time, the current
folder and the command line. -/
def makeDirs (junk : node) : Heap → List (Int × Nat × List Char) → Option Heap
  | h, [] => some h
  | h, (now, cur, command) :: more =>
    (make_dir h junk now cur command).bind fun h1 => makeDirs junk h1 more

/-- Every child has its folder as parent pointer: the cells of the chain of
children of a node point to that node. -/
def Owned (h : Heap) : Prop :=
  ∀ (f : Nat) (L : List Nat) (c : Nat), children h f = some L → c ∈ L →
    parentOf h c = some (some f)

/-- The root is a live cell without a parent. -/
def RootAt (h : Heap) (root : Nat) : Prop := parentOf h root = some none

/-- Every node of the list is a live cell whose name is not empty and holds no
separator. -/
def GoodUp (h : Heap) (up : List Nat) : Prop :=
  ∀ a ∈ up, ∃ n : node, h[a]? = some n ∧ n.name ≠ [] ∧ '/' ∉ n.name

/-- What a heap built by make_dir from the root of main has: the root at
address 0 without a parent, every child with its folder as parent pointer, and
every chain of children ending. -/
def MkdirTree (h : Heap) : Prop := RootAt h 0 ∧ Owned h ∧ ChainsEnd h

/-! ## The nodes below a folder -/

/-- The addresses reachable from a pointer through child and next, in the form
of the tree they make: the node, the chain of its children and the rest of its
own chain. -/
inductive ATree where
  | null : ATree
  | node (a : Nat) (child next : ATree) : ATree
deriving DecidableEq, Repr

/-- The pointer leads to the tree of addresses: every address is a live cell
whose child and next pointers lead to the two subtrees. -/
def hasShape (h : Heap) : Ptr → ATree → Bool
  | none, ATree.null => true
  | some a, ATree.node b child next =>
    decide (a = b) &&
      (match h[a]? with
       | some n => hasShape h n.child child && hasShape h n.next next
       | none => false)
  | _, _ => false

/-- The addresses of a tree of addresses. -/
def addrsOf : ATree → List Nat
  | ATree.null => []
  | ATree.node a child next => a :: (addrsOf child ++ addrsOf next)

/-- The addresses of the top chain of a tree of addresses. -/
def topChain : ATree → List Nat
  | ATree.null => []
  | ATree.node a _ next => a :: topChain next

/-- The tree with a node without children behind the last node of its top
chain. -/
def snocTop (new : Nat) : ATree → ATree
  | ATree.null => ATree.node new ATree.null ATree.null
  | ATree.node a child next => ATree.node a child (snocTop new next)

/-- The number of cells of kind File among the addresses of a tree. -/
def filesIn (h : Heap) (T : ATree) : Nat :=
  (addrsOf T).countP fun a => decide (typeOf h a = some nodeType.File)

/-- The item count stored at an address. -/
def itemsOf (h : Heap) (a : Nat) : Option Int := (h[a]?).map (fun n => n.numberOfItems)

/-- The child pointer stored at an address. -/
def childOf (h : Heap) (a : Nat) : Option Ptr := (h[a]?).map (fun n => n.child)

/-! ## The links the loader sets (`loadDirectoryFromFile`, lines 341-411)

The loader once more, with the four link pointers of every node it builds.  A
node is known by its address, the number of nodes malloc had handed out before
it. -/

/-- A node as the loader leaves it: its address, its four link pointers and its
data fields. -/
structure linkedData where
  addr : Nat
  parent : Ptr
  previous : Ptr
  next : Ptr
  child : Ptr
  data : nodeData
deriving DecidableEq, Repr

/-- A node pointer with everything reachable from it through child and next,
every node with its links. -/
inductive LTree where
  | null : LTree
  | node (l : linkedData) (child next : LTree) : LTree
deriving DecidableEq, Repr

/-- A chain built from its nodes in order (each with its own children chain). -/
def chainOfL : List (linkedData × LTree) → LTree
  | [] => LTree.null
  | (l, child) :: rest => LTree.node l child (chainOfL rest)

/-- The pointer to the first node of a list of nodes (NULL for none). -/
def headAddr : List (linkedData × LTree) → Ptr
  | [] => none
  | (l, _) :: _ => some l.addr

/-- The pointer to the last node of a list of nodes (NULL for none): the value
of previousSibling. -/
def lastAddr (acc : List (linkedData × LTree)) : Ptr :=
  (acc.getLast?).map fun x => x.1.addr

/-- The assignment previousSibling->next = v, on the last node of the list. -/
def setLastNext (v : Ptr) : List (linkedData × LTree) → List (linkedData × LTree)
  | [] => []
  | [(l, kids)] => [({ l with next := v }, kids)]
  | x :: y :: rest => x :: setLastNext v (y :: rest)

/-- The tree without the links. -/
def eraseL : LTree → Tree
  | LTree.null => Tree.null
  | LTree.node l child next => Tree.node l.data (eraseL child) (eraseL next)

/-- The list of nodes without the links. -/
def eraseList : List (linkedData × LTree) → List (nodeData × Tree)
  | [] => []
  | (l, kids) :: rest => (l.data, eraseL kids) :: eraseList rest

mutual
/-- The outer loop of loadDirectoryFromFile with the links.  The argument free
is the address malloc hands out next, parent the pointer the function was
called with; firstChild and previousSibling are the first and the last node of
acc. -/
def loadSiblingsLinked (junk : nodeData) :
    Nat → List Char → Nat → Ptr → List (linkedData × LTree) →
      Option (List (linkedData × LTree) × Nat × List Char)
  | 0, _, _, _, _ => none
  | fuel + 1, file, free, parent, acc =>
    match fgets 1024 file with
    | none => some (acc, free, file)
    | some (line, rest) =>
      if strstr line "]".toList then some (acc, free, rest)
      else if strstr line "\x7b".toList then
        -- newNode->parent = parent; child = NULL; next = NULL;
        -- previous = previousSibling; symlinkTarget = NULL; numberOfItems = 0;
        let newNode : linkedData :=
          { addr := free, parent := parent, child := none, next := none,
            previous := lastAddr acc,
            data := { junk with symlinkTarget := none, numberOfItems := 0 } }
        match loadPropertiesLinked junk fuel rest (free + 1) newNode LTree.null with
        | none => none
        | some (l, kids, free2, rest2) =>
          -- if (!firstChild) firstChild = newNode;
          -- else previousSibling->next = newNode, newNode->previous = previousSibling;
          let linked : List (linkedData × LTree) :=
            match acc with
            | [] => [(l, kids)]
            | _ :: _ =>
              setLastNext (some l.addr) acc ++ [({ l with previous := lastAddr acc }, kids)]
          loadSiblingsLinked junk fuel rest2 free2 parent linked
      else loadSiblingsLinked junk fuel rest free parent acc
/-- The inner loop of loadDirectoryFromFile with the links, for the node being
built and the chain its child pointer leads to. -/
def loadPropertiesLinked (junk : nodeData) :
    Nat → List Char → Nat → linkedData → LTree →
      Option (linkedData × LTree × Nat × List Char)
  | 0, _, _, _, _ => none
  | fuel + 1, file, free, l, kids =>
    match fgets 1024 file with
    | none => some (l, kids, free, file)
    | some (line, rest) =>
      if strstr line "\x7d".toList then some (l, kids, free, rest)
      else if isFieldLine line then
        loadPropertiesLinked junk fuel rest free
          { l with data := setProperty junk line l.data } kids
      else if strstr line "\"children\":".toList then
        match loadSiblingsLinked junk fuel rest free (some l.addr) [] with
        | none => none
        | some (ks, free2, rest2) =>
          -- newNode->child = loadDirectoryFromFile(file, newNode);
          -- newNode->numberOfItems = countFiles(newNode);
          let count : Int := countFiles (Tree.node l.data (eraseL (chainOfL ks)) Tree.null)
          let counted : nodeData := { l.data with numberOfItems := count }
          loadPropertiesLinked junk fuel rest2 free2
            { l with child := headAddr ks, data := counted } (chainOfL ks)
      else loadPropertiesLinked junk fuel rest free l kids
end

/-- The function loadDirectoryFromFile(file, NULL) with the links: the chain it
returns and the rest of the file. -/
def loadDirectoryFromFileLinked (junk : nodeData) (fuel : Nat) (file : List Char) :
    Option (LTree × List Char) :=
  (loadSiblingsLinked junk fuel file 0 none []).map fun r => (chainOfL r.1, r.2.2)

/-- The pointer to the node at the head of a chain (NULL for the empty chain). -/
def headOf : LTree → Ptr
  | LTree.null => none
  | LTree.node l _ _ => some l.addr

/-- A chain is consistently linked below the node parent and behind the node
prev: every node has parent as its parent pointer, the preceding node of the
chain as its previous pointer (prev for the first), the following node as its
next pointer (NULL for the last), the head of the chain of its children as its
child pointer, and its children are consistently linked below it, with nothing
before the first. -/
def WellLinked : Ptr → Ptr → LTree → Bool
  | _, _, LTree.null => true
  | parent, prev, LTree.node l child next =>
    decide (l.parent = parent) && decide (l.previous = prev) &&
    decide (l.child = headOf child) && decide (l.next = headOf next) &&
    WellLinked (some l.addr) none child && WellLinked parent (some l.addr) next

/-- The addresses of the nodes of a chain and of everything below it. -/
def addrsL : LTree → List Nat
  | LTree.null => []
  | LTree.node l child next => l.addr :: (addrsL child ++ addrsL next)

/-! ## Sibling linkage (`make_dir`, `removeNode`, `moveNode`, `sortDirectory`) -/

/-- The previous pointer stored at an address. -/
def previousOf (h : Heap) (a : Nat) : Option Ptr := (h[a]?).map (fun n => n.previous)

/-- The previous pointers along a chain: the first node of the list has prev as
its previous pointer and every other node the node before it. -/
def prevsOK (h : Heap) : Ptr → List Nat → Bool
  | _, [] => true
  | prev, a :: L => decide (previousOf h a = some prev) && prevsOK h (some a) L

/-- The sibling linkage of the children of a node: the chain from its child
pointer ends, its first node has no previous sibling, and the previous pointer
of every node behind another leads back to that node. -/
def linked (h : Heap) (f : Nat) : Bool :=
  match children h f with
  | some L => prevsOK h none L
  | none => false

/-- Every child of the node has the node as its parent pointer. -/
def ownedAt (h : Heap) (f : Nat) : Bool :=
  match children h f with
  | some L => L.all fun c => decide (parentOf h c = some (some f))
  | none => false

/-- The nodes reachable from the root: the root, and the children of every
reachable node. -/
inductive Reach (h : Heap) (root : Nat) : Nat → Prop
  | root : Reach h root root
  | child {f c : Nat} {L : List Nat} :
      Reach h root f → children h f = some L → c ∈ L → Reach h root c

/-- The nodes in S have consistently linked children, every child is in S and
has its folder as parent pointer. -/
def TreeInv (h : Heap) (S : Nat → Prop) : Prop :=
  ∀ f, S f → ∃ L, children h f = some L ∧ prevsOK h none L = true ∧
    ∀ c ∈ L, S c ∧ parentOf h c = some (some f)

/-- The nodes in S have consistently linked children, and every child is in S. -/
def LinkInv (h : Heap) (S : Nat → Prop) : Prop :=
  ∀ f, S f → ∃ L, children h f = some L ∧ prevsOK h none L = true ∧ ∀ c ∈ L, S c

/-- The tree of addresses of heapMov: the root with the children d and n, and x
below d. -/
def shapeMov : ATree :=
  ATree.node 0
    (ATree.node 1 (ATree.node 2 ATree.null ATree.null)
      (ATree.node 3 ATree.null ATree.null))
    ATree.null

/-- Whether the content stored at an address was assigned. -/
def assignedOf (h : Heap) (a : Nat) : Option Bool := (h[a]?).map (fun n => n.contentAssigned)

/-- A folder name of 250 characters. -/
def longName : List Char := List.replicate 250 'a'

/-- The heap after five mkdir commands with a name of 250 characters, each in
the folder the one before made: the root at address 0 and under it a line of
five folders at the addresses 1 to 5. -/
def heapDeep : Heap :=
  [ { mkRoot junk0 0 with numberOfItems := 1, child := some 1 },
    { newFolderNode junk0 0 0 longName none with numberOfItems := 1, child := some 2 },
    { newFolderNode junk0 0 1 longName none with numberOfItems := 1, child := some 3 },
    { newFolderNode junk0 0 2 longName none with numberOfItems := 1, child := some 4 },
    { newFolderNode junk0 0 3 longName none with numberOfItems := 1, child := some 5 },
    newFolderNode junk0 0 4 longName none ]

/-- The tree of addresses of heapDeep. -/
def shapeDeep : ATree :=
  ATree.node 0 (ATree.node 1 (ATree.node 2 (ATree.node 3 (ATree.node 4
    (ATree.node 5 ATree.null ATree.null) ATree.null) ATree.null) ATree.null) ATree.null)
    ATree.null

/-- The heap as loadDirectoryFromFile leaves it for the text of a root folder
that holds the folder a: both nodes have their four links, and neither has a
content line in the text, so that content was assigned in neither. -/
def heapLoaded : Heap :=
  [ { junk0 with type := nodeType.Folder, name := ['/'], numberOfItems := 0,
                 child := some 1, symlinkTarget := none },
    { junk0 with type := nodeType.Folder, name := ['a'], numberOfItems := 0,
                 parent := some 0, symlinkTarget := none } ]

/-- The tree of addresses of heapLoaded. -/
def shapeLoaded : ATree :=
  ATree.node 0 (ATree.node 1 ATree.null ATree.null) ATree.null

/-- A node whose written strings hold no closing square bracket: none in its
name, in the content written for a File and in the target written for a
Symlink. -/
def noBracket (d : nodeData) : Prop :=
  ']' ∉ d.name ∧ (d.type = nodeType.File → ∀ c ∈ d.content, ']' ∉ c) ∧
  (d.type = nodeType.Symlink → ∀ s ∈ d.symlinkTarget, ']' ∉ s)

instance (d : nodeData) : Decidable (noBracket d) := by
  unfold noBracket
  infer_instance

/-- No name, File content or Symlink target of a chain and below it holds a
closing square bracket. -/
def bracketFree : Tree → Bool
  | Tree.null => true
  | Tree.node d child next => decide (noBracket d) && bracketFree child && bracketFree next

/-- A text that goes on with a newline, spaces and a closing brace. -/
def closesNext (post : List Char) : Prop :=
  ∃ (k : Nat) (more : List Char), post = '\n' :: (List.replicate k ' ' ++ '\x7d' :: more)

/-- Every closing square bracket of a text is followed by a newline, spaces and
a closing brace. -/
def bracketsClosed (s : List Char) : Prop :=
  ∀ pre post : List Char, s = pre ++ ']' :: post → closesNext post

/-- What is left of a file when the outer loop of the loader has ended: nothing,
or spaces and a closing brace, with or without a newline in front. -/
def afterBracket (rest : List Char) : Prop :=
  rest = [] ∨ ∃ (k : Nat) (more : List Char),
    rest = List.replicate k ' ' ++ '\x7d' :: more ∨
    rest = '\n' :: (List.replicate k ' ' ++ '\x7d' :: more)

/-- A content without a newline that fgets, which reads a line of the file 1023
characters at a time, cuts into five pieces when the content is written at
depth 2 (behind the 18 characters that open the content line): 1005 letters, a
closing brace and 1022 letters, a closing square bracket and 1022 letters, the
key of the type line with the word Folder and 1010 letters, a closing brace. -/
def contentChunks : List Char :=
  List.replicate 1005 'a' ++ ('\x7d' :: List.replicate 1022 'a') ++
    (']' :: List.replicate 1022 'a') ++
    ("\"type\":Folder".toList ++ List.replicate 1010 'a') ++ ['\x7d']

/-- The root with a folder whose name is 1010 letters and then "type":File
(written at depth 1 behind 13 characters, so that fgets cuts the name line
behind the letters), which holds the file y with the content contentChunks.  No
name or content of the tree holds a newline. -/
def treeChunks : Tree :=
  Tree.node { type := nodeType.Folder, name := ['/'], numberOfItems := 1, size := 0, date := 0,
              content := none, symlinkTarget := none }
    (Tree.node { type := nodeType.Folder,
                 name := List.replicate 1010 'x' ++ "\"type\":File".toList,
                 numberOfItems := 1, size := 0, date := 0, content := none,
                 symlinkTarget := none }
      (Tree.node { type := nodeType.File, name := ['y'], numberOfItems := 0, size := 4075,
                   date := 0, content := some contentChunks, symlinkTarget := none }
        Tree.null Tree.null)
      Tree.null)
    Tree.null

/-- The root with a folder whose name is x, a double quote, a comma, a newline
and a type line for a File, which holds the file y whose content is a, a
newline, a closing brace, a closing square bracket, a type line for a Folder
and a closing brace, each on a line of its own. -/
def treeInject : Tree :=
  Tree.node { type := nodeType.Folder, name := ['/'], numberOfItems := 1, size := 0, date := 0,
              content := none, symlinkTarget := none }
    (Tree.node { type := nodeType.Folder, name := "x\",\n\"type\": \"File".toList,
                 numberOfItems := 1, size := 0, date := 0, content := none,
                 symlinkTarget := none }
      (Tree.node { type := nodeType.File, name := ['y'], numberOfItems := 0, size := 1,
                   date := 0,
                   content := some "a\n\x7d\n]\n\"type\": \"Folder\",\n\x7d\n".toList,
                   symlinkTarget := none }
        Tree.null Tree.null)
      Tree.null)
    Tree.null

/-! # Lemmas -/

theorem upd_eq_some {h : Heap} {a : Nat} {f : node → node} {n : node}
    (hn : h[a]? = some n) : upd h a f = some (h.set a (f n)) := by
  simp [upd, hn]

theorem splitTok_append (d : Char) (a b : List Char) :
    splitTok d (a ++ d :: b)
      = ((splitTok d a).1,
         (splitTok d a).2 ++ strtokAll d b) := by
  induction a with
  | nil => simp [splitTok, strtokAll]
  | cons c cs ih =>
    by_cases hc : c = d
    · subst hc
      have e : (c :: cs) ++ c :: b = c :: (cs ++ c :: b) := rfl
      rw [e]
      simp only [splitTok, if_true]
      rw [ih]
      by_cases h1 : (splitTok c cs).1 = [] <;> simp [h1]
    · have e : (c :: cs) ++ d :: b = c :: (cs ++ d :: b) := rfl
      rw [e]
      simp only [splitTok, if_neg hc]
      rw [ih]

/-- Tokens of two texts joined by a delimiter. -/
theorem strtokAll_append (d : Char) (a b : List Char) :
    strtokAll d (a ++ d :: b) = strtokAll d a ++ strtokAll d b := by
  unfold strtokAll
  rw [splitTok_append]
  by_cases h1 : (splitTok d a).1 = [] <;> simp [h1, strtokAll]

theorem splitTok_noDelim (d : Char) (t : List Char) (ht : d ∉ t) :
    splitTok d t = (t, []) := by
  induction t with
  | nil => rfl
  | cons c cs ih =>
    have hc : c ≠ d := fun e => ht (by simp [e])
    have hcs : d ∉ cs := fun e => ht (by simp [e])
    simp [splitTok, hc, ih hcs]

/-- A text without the delimiter is one token (none when it is empty). -/
theorem strtokAll_noDelim (d : Char) (t : List Char) (ht : d ∉ t) :
    strtokAll d t = if t = [] then [] else [t] := by
  unfold strtokAll
  rw [splitTok_noDelim d t ht]

theorem strtokAll_token_cons (d : Char) (t b : List Char) (ht : d ∉ t) (hne : t ≠ []) :
    strtokAll d (t ++ d :: b) = t :: strtokAll d b := by
  rw [strtokAll_append, strtokAll_noDelim d t ht]
  simp [hne]

theorem strtokAll_delim_cons (d : Char) (b : List Char) :
    strtokAll d (d :: b) = strtokAll d b := by
  have := strtokAll_append d [] b
  simp [strtokAll, splitTok] at this ⊢

/-! ### Facts about chains -/

theorem IsChain.det {h : Heap} : ∀ {L L' : List Nat} {p : Ptr},
    IsChain h p L → IsChain h p L' → L = L'
  | [], [], _, _, _ => rfl
  | [], _ :: _, _, h1, h2 => by
    simp only [IsChain] at h1 h2
    rw [h1] at h2
    exact absurd h2.1 (by simp)
  | _ :: _, [], _, h1, h2 => by
    simp only [IsChain] at h1 h2
    rw [h2] at h1
    exact absurd h1.1 (by simp)
  | a :: L, b :: L', p, h1, h2 => by
    simp only [IsChain] at h1 h2
    obtain ⟨e1, n1, hn1, c1⟩ := h1
    obtain ⟨e2, n2, hn2, c2⟩ := h2
    have hab : a = b := by
      rw [e1] at e2
      exact Option.some.inj e2
    subst hab
    rw [hn1] at hn2
    have hn : n1 = n2 := Option.some.inj hn2
    subst hn
    rw [IsChain.det c1 c2]

theorem IsChain.lt {h : Heap} : ∀ {L : List Nat} {p : Ptr},
    IsChain h p L → ∀ a ∈ L, a < h.length
  | [], _, _ => by simp
  | b :: L, _, hc => by
    simp only [IsChain] at hc
    obtain ⟨_, n, hn, c⟩ := hc
    intro a ha
    rcases List.mem_cons.mp ha with e | e
    · subst e
      by_contra hlt
      have : h[a]? = none := List.getElem?_eq_none (Nat.le_of_not_lt hlt)
      rw [this] at hn
      exact absurd hn (by simp)
    · exact IsChain.lt c a e

/-- From a member of a chain onwards the chain is again a chain. -/
theorem IsChain.split {h : Heap} : ∀ {L : List Nat} {p : Ptr} {a : Nat},
    IsChain h p L → a ∈ L →
      ∃ L1 L2, L = L1 ++ a :: L2 ∧ IsChain h (some a) (a :: L2)
  | [], _, _, _, ha => by simp at ha
  | b :: L, p, a, hc, ha => by
    by_cases e : a = b
    · subst e
      refine ⟨[], L, rfl, ?_⟩
      simp only [IsChain] at hc
      exact ⟨rfl, hc.2⟩
    · have ha2 : a ∈ L := by
        rcases List.mem_cons.mp ha with e1 | e1
        · exact absurd e1 e
        · exact e1
      simp only [IsChain] at hc
      obtain ⟨_, n, _, c⟩ := hc
      obtain ⟨L1, L2, hL, hc2⟩ := IsChain.split c ha2
      exact ⟨b :: L1, L2, by simp [hL], hc2⟩

theorem IsChain.head_not_mem {h : Heap} {L : List Nat} {a : Nat}
    (hc : IsChain h (some a) (a :: L)) : a ∉ L := by
  intro ha
  have hc1 := hc
  simp only [IsChain] at hc1
  obtain ⟨_, n, _, c⟩ := hc1
  obtain ⟨L1, L2, hL, hc2⟩ := IsChain.split c ha
  have e := IsChain.det hc hc2
  have e2 : L = L2 := by simpa using e
  rw [← e2] at hL
  have hlen := congrArg List.length hL
  simp at hlen
  omega

theorem IsChain.nodup {h : Heap} : ∀ {L : List Nat} {p : Ptr},
    IsChain h p L → L.Nodup
  | [], _, _ => List.nodup_nil
  | a :: L, p, hc => by
    have hc1 := hc
    simp only [IsChain] at hc1
    obtain ⟨e, n, _, c⟩ := hc1
    subst e
    exact List.nodup_cons.mpr ⟨IsChain.head_not_mem hc, IsChain.nodup c⟩

/-- A chain has at most as many nodes as the heap has cells. -/
theorem IsChain.length_le {h : Heap} {L : List Nat} {p : Ptr}
    (hc : IsChain h p L) : L.length ≤ h.length := by
  have hsub : L.toFinset ⊆ Finset.range h.length := by
    intro a ha
    simp only [List.mem_toFinset] at ha
    simpa using IsChain.lt hc a ha
  have hcard := Finset.card_le_card hsub
  rw [List.toFinset_card_of_nodup (IsChain.nodup hc)] at hcard
  simpa using hcard

theorem isChain_of_chainFrom {h : Heap} : ∀ (fuel : Nat) {p : Ptr} {L : List Nat},
    chainFrom h fuel p = some L → IsChain h p L
  | 0, none, L, hL => by
    simp [chainFrom] at hL
    subst hL
    simp [IsChain]
  | 0, some _, L, hL => by simp [chainFrom] at hL
  | fuel + 1, none, L, hL => by
    simp [chainFrom] at hL
    subst hL
    simp [IsChain]
  | fuel + 1, some a, L, hL => by
    simp only [chainFrom] at hL
    cases hn : h[a]? with
    | none => simp [hn] at hL
    | some n =>
      simp only [hn] at hL
      cases hr : chainFrom h fuel n.next with
      | none => simp [hr] at hL
      | some L' =>
        simp [hr] at hL
        subst hL
        exact ⟨rfl, n, hn, isChain_of_chainFrom fuel hr⟩

theorem chainFrom_of_isChain {h : Heap} : ∀ (fuel : Nat) {L : List Nat} {p : Ptr},
    IsChain h p L → L.length ≤ fuel → chainFrom h fuel p = some L
  | fuel, [], p, hc, _ => by
    simp only [IsChain] at hc
    subst hc
    cases fuel <;> simp [chainFrom]
  | 0, a :: L, p, _, hl => by simp at hl
  | fuel + 1, a :: L, p, hc, hl => by
    simp only [IsChain] at hc
    obtain ⟨e, n, hn, c⟩ := hc
    subst e
    have ih := chainFrom_of_isChain fuel c (by simpa using hl)
    simp [chainFrom, hn, ih]

/-- The children of a node are the chain behind its child pointer. -/
theorem children_eq_some_iff {h : Heap} {f : Nat} {L : List Nat} :
    children h f = some L ↔ ∃ n, h[f]? = some n ∧ IsChain h n.child L := by
  unfold children
  cases hn : h[f]? with
  | none => simp
  | some n =>
    simp only [Option.some.injEq, exists_eq_left']
    constructor
    · exact isChain_of_chainFrom _
    · intro hc
      exact chainFrom_of_isChain _ hc (IsChain.length_le hc)

theorem getNodeTypelessLoop_spec {h : Heap} {name : List Char} :
    ∀ (fuel : Nat) {c : Nat} {L : List Nat}, IsChain h (some c) L → L.length ≤ fuel →
      getNodeTypelessLoop h name fuel c = some (firstNamed h name L)
  | _, _, [], hc, _ => by simp [IsChain] at hc
  | 0, _, _ :: _, _, hl => by simp at hl
  | fuel + 1, c, a :: L, hc, hl => by
    simp only [IsChain] at hc
    obtain ⟨e, n, hn, c1⟩ := hc
    have e : c = a := Option.some.inj e
    subst e
    have hname : nameOf h c = some n.name := by simp [nameOf, hn]
    cases hnx : n.next with
    | none =>
      rw [hnx] at c1
      cases L with
      | cons b L' => simp [IsChain] at c1
      | nil =>
        by_cases hq : name = n.name
        · simp [getNodeTypelessLoop, hn, hnx, hq, firstNamed, hname]
        · have hq2 : ¬ n.name = name := fun e => hq e.symm
          simp [getNodeTypelessLoop, hn, hnx, hq, firstNamed, hname, hq2]
    | some nx =>
      rw [hnx] at c1
      by_cases hq : name = n.name
      · simp [getNodeTypelessLoop, hn, hnx, hq, firstNamed, hname]
      · have hq2 : ¬ n.name = name := fun e => hq e.symm
        have ih := @getNodeTypelessLoop_spec h name fuel _ _ c1 (by simpa using hl)
        simp only [getNodeTypelessLoop, hn, hnx, hq, if_false, ih]
        simp [firstNamed, hname, hq2]

/-- What getNodeTypeless returns on a folder whose children are the list L. -/
theorem getNodeTypeless_spec {h : Heap} {f : Nat} {L : List Nat} (name : List Char)
    (hch : children h f = some L) :
    getNodeTypeless h f name = some (firstNamed h name L) := by
  obtain ⟨n, hn, hc⟩ := children_eq_some_iff.mp hch
  unfold getNodeTypeless
  rw [hn]
  cases hcp : n.child with
  | none =>
    rw [hcp] at hc
    cases L with
    | nil => simp [firstNamed, hcp]
    | cons b L' => simp [IsChain] at hc
  | some c =>
    rw [hcp] at hc
    simp only [hcp]
    exact getNodeTypelessLoop_spec _ hc (IsChain.length_le hc)

theorem lastOfChain_spec {h : Heap} :
    ∀ (fuel : Nat) {c : Nat} {L : List Nat}, IsChain h (some c) L → L.length ≤ fuel →
      lastOfChain h fuel c = L.getLast?
  | _, _, [], hc, _ => by simp [IsChain] at hc
  | 0, _, _ :: _, _, hl => by simp at hl
  | fuel + 1, c, a :: L, hc, hl => by
    simp only [IsChain] at hc
    obtain ⟨e, n, hn, c1⟩ := hc
    have e : c = a := Option.some.inj e
    subst e
    cases hnx : n.next with
    | none =>
      rw [hnx] at c1
      cases L with
      | cons b L' => simp [IsChain] at c1
      | nil => simp [lastOfChain, hn, hnx]
    | some nx =>
      rw [hnx] at c1
      have ih := lastOfChain_spec fuel c1 (by simpa using hl)
      simp only [lastOfChain, hn, hnx, ih]
      cases L with
      | nil => simp [IsChain] at c1
      | cons b L' => simp [List.getLast?_cons_cons]

/-- A chain stays a chain in every heap that keeps the next pointers of its
nodes. -/
theorem IsChain.frame {h h' : Heap} : ∀ {L : List Nat} {p : Ptr},
    IsChain h p L → (∀ a ∈ L, nextOf h' a = nextOf h a) → IsChain h' p L
  | [], _, hc, _ => hc
  | a :: L, p, hc, hf => by
    simp only [IsChain] at hc ⊢
    obtain ⟨e, n, hn, c1⟩ := hc
    have ha := hf a (by simp)
    simp only [nextOf, hn, Option.map_some'] at ha
    cases hn' : h'[a]? with
    | none => simp [hn'] at ha
    | some n' =>
      simp [hn'] at ha
      refine ⟨e, n', rfl, ?_⟩
      rw [ha]
      exact IsChain.frame c1 (fun b hb => hf b (by simp [hb]))

/-- Linking a new last node behind the last node of a chain. -/
theorem IsChain.snoc {h h' : Heap} {z new : Nat} : ∀ {L : List Nat} {p : Ptr},
    IsChain h p (L ++ [z]) → (∀ a ∈ L, nextOf h' a = nextOf h a) →
    nextOf h' z = some (some new) → nextOf h' new = some none →
      IsChain h' p (L ++ [z, new])
  | [], p, hc, _, hz, hnew => by
    simp only [List.nil_append, IsChain] at hc ⊢
    obtain ⟨e, n, hn, c1⟩ := hc
    simp only [nextOf] at hz hnew
    cases hz' : h'[z]? with
    | none => simp [hz'] at hz
    | some nz =>
      cases hn' : h'[new]? with
      | none => simp [hn'] at hnew
      | some nn =>
        simp [hz'] at hz
        simp [hn'] at hnew
        exact ⟨e, nz, rfl, by rw [hz]; exact ⟨rfl, nn, rfl, hnew⟩⟩
  | a :: L, p, hc, hf, hz, hnew => by
    simp only [List.cons_append, IsChain] at hc ⊢
    obtain ⟨e, n, hn, c1⟩ := hc
    have ha := hf a (by simp)
    simp only [nextOf, hn, Option.map_some'] at ha
    cases hn' : h'[a]? with
    | none => simp [hn'] at ha
    | some n' =>
      simp [hn'] at ha
      refine ⟨e, n', rfl, ?_⟩
      rw [ha]
      exact IsChain.snoc c1 (fun b hb => hf b (by simp [hb])) hz hnew

theorem upd_get {h h' : Heap} {a : Nat} {f : node → node} (hu : upd h a f = some h')
    (b : Nat) : h'[b]? = if b = a then (h[b]?).map f else h[b]? := by
  unfold upd at hu
  cases hn : h[a]? with
  | none => simp [hn] at hu
  | some n =>
    simp only [hn, Option.some.injEq] at hu
    subst hu
    by_cases e : b = a
    · subst e
      simp [hn, List.getElem?_set]
      by_contra hlt
      have := List.getElem?_eq_none (Nat.le_of_not_lt hlt)
      rw [this] at hn
      exact absurd hn (by simp)
    · have e2 : ¬ a = b := fun x => e x.symm
      simp [List.getElem?_set, e, e2]

theorem upd_length {h h' : Heap} {a : Nat} {f : node → node} (hu : upd h a f = some h') :
    h'.length = h.length := by
  unfold upd at hu
  cases hn : h[a]? with
  | none => simp [hn] at hu
  | some n =>
    simp only [hn, Option.some.injEq] at hu
    subst hu
    simp

theorem upd_isSome {h : Heap} {a : Nat} (f : node → node) (ha : a < h.length) :
    ∃ h', upd h a f = some h' := by
  unfold upd
  rw [List.getElem?_eq_getElem ha]
  exact ⟨_, rfl⟩

/-! ### Creating a folder -/

theorem firstNamed_eq_none {h : Heap} {name : List Char} {L : List Nat} :
    firstNamed h name L = none ↔ ∀ c ∈ L, nameOf h c ≠ some name := by
  simp [firstNamed, List.find?_eq_none]

theorem lt_of_getElem?_eq_some {h : Heap} {a : Nat} {n : node} (hn : h[a]? = some n) :
    a < h.length := by
  by_contra hlt
  rw [List.getElem?_eq_none (Nat.le_of_not_lt hlt)] at hn
  exact absurd hn (by simp)

theorem linkNewFolder_fresh {h : Heap} {junk : node} {now : Int} {cur : Nat}
    {name : List Char} {L : List Nat}
    (hch : children h cur = some L) :
    ∃ h', linkNewFolder h junk now cur name = some h' ∧
      h'.length = h.length + 1 ∧
      children h' cur = some (L ++ [h.length]) ∧
      h'[h.length]? = some (newFolderNode junk now cur name L.getLast?) ∧
      (∀ (a : Nat) (n : node), h[a]? = some n → ∃ n' : node, h'[a]? = some n' ∧ SameData n n') := by
  obtain ⟨f, hf, hc⟩ := children_eq_some_iff.mp hch
  have hcur : cur < h.length := lt_of_getElem?_eq_some hf
  obtain ⟨h1, hu1⟩ := upd_isSome (addItems 1) hcur
  have hl1 := upd_length hu1
  have hg1 := upd_get hu1
  have h2cur : (h1 ++ [junk])[cur]? = some (addItems 1 f) := by
    rw [List.getElem?_append_left (by omega), hg1 cur]
    simp [hf]
  have h2old : ∀ b, b < h.length → (h1 ++ [junk])[b]? = h1[b]? := fun b hb =>
    List.getElem?_append_left (by omega)
  have h2new : (h1 ++ [junk])[h.length]? = some junk := by
    rw [List.getElem?_append_right (by omega)]
    simp [hl1]
  unfold linkNewFolder
  simp only [hu1, h2cur, hl1]
  cases hfc : f.child with
  | none =>
    have hL : L = [] := by
      rw [hfc] at hc
      cases L with
      | nil => rfl
      | cons b L' => simp [IsChain] at hc
    subst hL
    obtain ⟨h3, hu3⟩ := upd_isSome (h := h1 ++ [junk]) (setChild (some h.length))
      (by simp; omega : cur < (h1 ++ [junk]).length)
    have hl3 := upd_length hu3
    have hg3 := upd_get hu3
    obtain ⟨h4, hu4⟩ := upd_isSome (h := h3) (setPrevious none)
      (by rw [hl3]; simp; omega : h.length < h3.length)
    have hl4 := upd_length hu4
    have hg4 := upd_get hu4
    obtain ⟨h5, hu5⟩ := upd_isSome (h := h4) (initFolder name now cur)
      (by rw [hl4, hl3]; simp; omega : h.length < h4.length)
    have hl5 := upd_length hu5
    have hg5 := upd_get hu5
    have hne : cur ≠ h.length := by omega
    refine ⟨h5, ?_, ?_, ?_, ?_, ?_⟩
    · simp [addItems, hfc, hu3, hu4, hu5]
    · rw [hl5, hl4, hl3]; simp [hl1]
    · rw [children_eq_some_iff]
      refine ⟨setChild (some h.length) (addItems 1 f), ?_, ?_⟩
      · rw [hg5, hg4, hg3]; simp [hne, h2cur]
      · simp only [setChild, List.nil_append, IsChain]
        refine ⟨trivial, newFolderNode junk now cur name none, ?_, ?_⟩
        · rw [hg5, hg4, hg3]; simp [hne.symm, h2new, newFolderNode]
        · simp [newFolderNode, initFolder]
    · rw [hg5, hg4, hg3]; simp [hne.symm, h2new, newFolderNode]
    · intro a n hn
      have ha := lt_of_getElem?_eq_some hn
      have hane : a ≠ h.length := by omega
      rw [hg5, hg4, hg3, h2old a ha, hg1]
      by_cases e : a = cur
      · subst e
        rw [hf] at hn
        have := Option.some.inj hn
        subst this
        simp [hane, hf, SameData, setChild, addItems]
      · simp [hane, e, hn, SameData]
  | some c =>
    rw [hfc] at hc
    have hLne : L ≠ [] := by
      intro e
      rw [e] at hc
      simp [IsChain] at hc
    obtain ⟨L0, z, hLz⟩ : ∃ L0 z, L = L0 ++ [z] :=
      ⟨L.dropLast, L.getLast hLne, (List.dropLast_append_getLast hLne).symm⟩
    subst hLz
    have hlt := IsChain.lt hc
    have hnd := IsChain.nodup hc
    have hzL0 : z ∉ L0 := by
      intro hz
      have := List.nodup_append.mp hnd
      exact this.2.2 hz (by simp)
    have hz : z < h.length := hlt z (by simp)
    have hnext1 : ∀ b, b < h.length → nextOf (h1 ++ [junk]) b = nextOf h b := by
      intro b hb
      simp only [nextOf]
      rw [h2old b hb, hg1]
      by_cases e : b = cur
      · subst e; simp [hf, addItems]
      · simp [e]
    have hc2 : IsChain (h1 ++ [junk]) (some c) (L0 ++ [z]) :=
      IsChain.frame hc (fun a ha => hnext1 a (hlt a ha))
    have hlast : lastOfChain (h1 ++ [junk]) (h1 ++ [junk]).length c = some z := by
      rw [lastOfChain_spec _ hc2 (IsChain.length_le hc2)]
      simp
    obtain ⟨h3, hu3⟩ := upd_isSome (h := h1 ++ [junk]) (setNext (some h.length))
      (by simp; omega : z < (h1 ++ [junk]).length)
    have hl3 := upd_length hu3
    have hg3 := upd_get hu3
    obtain ⟨h4, hu4⟩ := upd_isSome (h := h3) (setPrevious (some z))
      (by rw [hl3]; simp; omega : h.length < h3.length)
    have hl4 := upd_length hu4
    have hg4 := upd_get hu4
    obtain ⟨h5, hu5⟩ := upd_isSome (h := h4) (initFolder name now cur)
      (by rw [hl4, hl3]; simp; omega : h.length < h4.length)
    have hl5 := upd_length hu5
    have hg5 := upd_get hu5
    have hne : cur ≠ h.length := by omega
    have hzne : z ≠ h.length := by omega
    refine ⟨h5, ?_, ?_, ?_, ?_, ?_⟩
    · have hlast2 : lastOfChain (h1 ++ [junk]) (h1.length + 1) c = some z := by
        simpa using hlast
      simp [addItems, hfc, hlast2, hu3, hu4, hu5]
    · rw [hl5, hl4, hl3]; simp [hl1]
    · rw [children_eq_some_iff]
      have hcur5 : ∃ n5 : node, h5[cur]? = some n5 ∧ n5.child = some c := by
        rw [hg5, hg4, hg3]
        by_cases e : cur = z
        · subst e
          simp [hne, h2cur, setNext, addItems, hfc]
        · simp [hne, e, h2cur, addItems, hfc]
      obtain ⟨n5, hn5, hc5⟩ := hcur5
      refine ⟨n5, hn5, ?_⟩
      rw [hc5]
      have : L0 ++ [z] ++ [h.length] = L0 ++ [z, h.length] := by simp
      rw [this]
      refine IsChain.snoc hc2 ?_ ?_ ?_
      · intro a ha
        have hane : a ≠ h.length := by
          have := hlt a (by simp [ha])
          omega
        have haz : a ≠ z := fun e => hzL0 (e ▸ ha)
        simp only [nextOf]
        rw [hg5, hg4, hg3]
        simp [hane, haz]
      · simp only [nextOf]
        rw [hg5, hg4, hg3]
        have : ∃ nz : node, (h1 ++ [junk])[z]? = some nz := by
          rw [h2old z hz, hg1]
          have := List.getElem?_eq_getElem hz
          by_cases e : z = cur
          · simp [e, hf]
          · simp [e, this]
        obtain ⟨nz, hnz⟩ := this
        simp [hzne, hnz, setNext]
      · simp only [nextOf]
        rw [hg5, hg4, hg3]
        simp [hzne.symm, h2new, initFolder]
    · rw [hg5, hg4, hg3]; simp [hzne.symm, h2new, newFolderNode]
    · intro a n hn
      have ha := lt_of_getElem?_eq_some hn
      have hane : a ≠ h.length := by omega
      rw [hg5, hg4, hg3, h2old a ha, hg1]
      by_cases e : a = cur
      · subst e
        rw [hf] at hn
        have := Option.some.inj hn
        subst this
        by_cases e2 : a = z
        · subst e2
          simp [hane, hf, SameData, setNext, addItems]
        · simp [hane, hf, e2, SameData, addItems]
      · by_cases e2 : a = z
        · subst e2
          simp [hane, e, hn, SameData, setNext]
        · simp [hane, e, e2, hn, SameData]

theorem realPathPiece_length (name : List Char) : 1 ≤ (realPathPiece name).length := by
  simp only [realPathPiece, List.length_take, List.length_cons]
  omega

/-- One more round of fuel changes nothing in the walk of getRealPath once the
fuel and the length of the string come to 1024: every round that goes on makes
the string longer, and a string of more than 1023 characters ends the walk. -/
theorem getRealPathLoop_fuel (h : Heap) : ∀ (fuel : Nat) (p : Ptr) (t : List Char),
    1024 ≤ t.length + fuel →
    getRealPathLoop h (fuel + 2) p t = getRealPathLoop h (fuel + 1) p t
  | _, none, _, _ => by simp [getRealPathLoop]
  | 0, some a, t, hlen => by
    simp only [getRealPathLoop]
    cases h[a]? with
    | none => rfl
    | some n =>
      simp only []
      by_cases hroot : n.name = ['/']
      · rw [if_pos hroot, if_pos hroot]
      · have hno : ¬ (t ++ realPathPiece n.name).length ≤ 1023 := by
          rw [List.length_append]
          omega
        rw [if_neg hroot, if_neg hroot, if_neg hno, if_neg hno]
  | fuel + 1, some a, t, hlen => by
    have ih := fun (p : Ptr) (t2 : List Char) (hl : 1024 ≤ t2.length + fuel) =>
      getRealPathLoop_fuel h fuel p t2 hl
    simp only [getRealPathLoop]
    cases h[a]? with
    | none => rfl
    | some n =>
      simp only []
      by_cases hroot : n.name = ['/']
      · rw [if_pos hroot, if_pos hroot]
      · rw [if_neg hroot, if_neg hroot]
        by_cases hfit : (t ++ realPathPiece n.name).length ≤ 1023
        · rw [if_pos hfit, if_pos hfit]
          refine ih n.parent _ ?_
          have := realPathPiece_length n.name
          rw [List.length_append]
          omega
        · rw [if_neg hfit, if_neg hfit]

/-- The fuel of getRealPath is enough: with more fuel the walk gives the
same. -/
theorem getRealPathLoop_enough (h : Heap) (p : Ptr) : ∀ k : Nat,
    getRealPathLoop h (1025 + k) p [] = getRealPathLoop h 1025 p []
  | 0 => rfl
  | k + 1 => by
    have e := getRealPathLoop_fuel h (1024 + k) p [] (by simp)
    have ih := getRealPathLoop_enough h p k
    rw [show 1025 + (k + 1) = 1024 + k + 2 from by omega, e,
      show 1024 + k + 1 = 1025 + k from by omega, ih]

/-- The walk of getRealPath gives the same in every heap that keeps the names
and the parent pointers of the cells. -/
theorem getRealPathLoop_frame {h h' : Heap}
    (hsame : ∀ (a : Nat) (n : node), h[a]? = some n →
      ∃ n' : node, h'[a]? = some n' ∧ n'.name = n.name ∧ n'.parent = n.parent) :
    ∀ (fuel : Nat) (p : Ptr) (t : List Char) (r : List Char × Bool),
      getRealPathLoop h fuel p t = some r → getRealPathLoop h' fuel p t = some r
  | 0, _, _, _, hr => by simp [getRealPathLoop] at hr
  | _ + 1, none, t, r, hr => by
    simp only [getRealPathLoop] at hr ⊢
    exact hr
  | fuel + 1, some a, t, r, hr => by
    simp only [getRealPathLoop] at hr ⊢
    cases hn : h[a]? with
    | none => simp [hn] at hr
    | some n =>
      obtain ⟨n', hn', e1, e2⟩ := hsame a n hn
      simp only [hn] at hr
      simp only [hn', e1, e2]
      by_cases hroot : n.name = ['/']
      · simpa [hroot] using hr
      · rw [if_neg hroot] at hr ⊢
        by_cases hfit : (t ++ realPathPiece n.name).length ≤ 1023
        · rw [if_pos hfit] at hr ⊢
          exact getRealPathLoop_frame hsame fuel n.parent _ r hr
        · rw [if_neg hfit] at hr
          exact absurd hr (by simp)

theorem getRealPath_frame {h h' : Heap}
    (hsame : ∀ (a : Nat) (n : node), h[a]? = some n →
      ∃ n' : node, h'[a]? = some n' ∧ n'.name = n.name ∧ n'.parent = n.parent)
    {cur : Nat} (hfit : (getRealPath h cur).isSome = true) :
    (getRealPath h' cur).isSome = true := by
  unfold getRealPath at hfit ⊢
  cases hr : getRealPathLoop h 1025 (some cur) [] with
  | none => simp [hr] at hfit
  | some r => simp [getRealPathLoop_frame hsame _ _ _ r hr]

/-- With a second token that names no child, make_dir is the statements that
link the new folder and the call of getRealPath behind them. -/
theorem make_dir_fresh_eq {h : Heap} {junk : node} {now : Int} {cur : Nat}
    {command c0 name : List Char} {more : List (List Char)} {L : List Nat}
    (hcmd : strtokAll ' ' command = c0 :: name :: more)
    (hch : children h cur = some L)
    (hfresh : firstNamed h name L = none) :
    make_dir h junk now cur command
      = (linkNewFolder h junk now cur name).bind fun h5 =>
          (getRealPath h5 cur).map fun _ => h5 := by
  have hg : getNodeTypeless h cur name = some none := by
    rw [getNodeTypeless_spec name hch, hfresh]
  simp only [make_dir, hcmd, hg]

/-- What make_dir returns with a fresh name is what the linking statements
left. -/
theorem make_dir_link_of_run {h h' : Heap} {junk : node} {now : Int} {cur : Nat}
    {command c0 name : List Char} {more : List (List Char)} {L : List Nat}
    (hcmd : strtokAll ' ' command = c0 :: name :: more)
    (hch : children h cur = some L)
    (hfresh : firstNamed h name L = none)
    (hrun : make_dir h junk now cur command = some h') :
    linkNewFolder h junk now cur name = some h' := by
  rw [make_dir_fresh_eq hcmd hch hfresh] at hrun
  cases hl : linkNewFolder h junk now cur name with
  | none => simp [hl] at hrun
  | some h5 =>
    simp only [hl, Option.some_bind] at hrun
    cases hp : getRealPath h5 cur with
    | none => simp [hp] at hrun
    | some r =>
      simp only [hp, Option.map_some', Option.some.injEq] at hrun
      rw [hrun]

/-- In a folder whose path to the root getRealPath can hold, make_dir with a
fresh name returns the heap with the new folder behind the last child. -/
theorem make_dir_fresh {h : Heap} {junk : node} {now : Int} {cur : Nat}
    {command c0 name : List Char} {more : List (List Char)} {L : List Nat}
    (hcmd : strtokAll ' ' command = c0 :: name :: more)
    (hch : children h cur = some L)
    (hfresh : firstNamed h name L = none)
    (hfit : (getRealPath h cur).isSome = true) :
    ∃ h', make_dir h junk now cur command = some h' ∧
      h'.length = h.length + 1 ∧
      children h' cur = some (L ++ [h.length]) ∧
      h'[h.length]? = some (newFolderNode junk now cur name L.getLast?) ∧
      (∀ (a : Nat) (n : node), h[a]? = some n → ∃ n' : node, h'[a]? = some n' ∧ SameData n n') := by
  obtain ⟨h', hl, hlen, hkids, hnew, hold⟩ := @linkNewFolder_fresh h junk now cur name L hch
  refine ⟨h', ?_, hlen, hkids, hnew, hold⟩
  rw [make_dir_fresh_eq hcmd hch hfresh, hl]
  have hfit2 : (getRealPath h' cur).isSome = true :=
    getRealPath_frame (fun a n hn => by
      obtain ⟨n', hn', hs⟩ := hold a n hn
      exact ⟨n', hn', hs.2.1, hs.2.2.2.2.2.1⟩) hfit
  cases hp : getRealPath h' cur with
  | none => simp [hp] at hfit2
  | some r => simp only [Option.some_bind, hp, Option.map_some']

/-! ### Concrete heaps -/

/-! ## The claims -/

/-- In a folder whose children are the list L, none of them named name, and
whose path to the root getRealPath can hold, make_dir returns a heap in which
the folder's children are L, in the same order, followed by the new cell; the
new cell is a Folder with that name, numberOfItems 0, size 0, no child, and its
parent pointer is the folder; the cells that existed before keep their kind,
name, size, date, content, parent, previous and symlinkTarget. -/
theorem make_dir_appends_new_folder (h : Heap) (junk : node) (now : Int) (currentFolder : Nat)
    (command c0 name : List Char) (more : List (List Char)) (L : List Nat)
    (hcmd : strtokAll ' ' command = c0 :: name :: more)
    (hch : children h currentFolder = some L)
    (hfresh : ∀ c ∈ L, nameOf h c ≠ some name)
    (hfit : (getRealPath h currentFolder).isSome = true) :
    ∃ h', make_dir h junk now currentFolder command = some h' ∧
      children h' currentFolder = some (L ++ [h.length]) ∧
      h.length ∉ L ∧
      (∃ n : node, h'[h.length]? = some n ∧ n.type = nodeType.Folder ∧ n.name = name ∧
        n.numberOfItems = 0 ∧ n.size = 0 ∧ n.child = none ∧ n.parent = some currentFolder) ∧
      children h' h.length = some [] ∧
      (∀ (a : Nat) (n : node), h[a]? = some n →
        ∃ n' : node, h'[a]? = some n' ∧ SameData n n') := by
  obtain ⟨h', hm, _, hch', hnew, hold⟩ :=
    @make_dir_fresh h junk now currentFolder command c0 name more L hcmd hch
      (firstNamed_eq_none.mpr hfresh) hfit
  refine ⟨h', hm, hch', ?_, ⟨_, hnew, ?_⟩, ?_, hold⟩
  · intro hmem
    obtain ⟨n, _, hc⟩ := children_eq_some_iff.mp hch
    exact absurd (IsChain.lt hc _ hmem) (Nat.lt_irrefl _)
  · simp [newFolderNode, initFolder]
  · rw [children_eq_some_iff]
    exact ⟨_, hnew, by simp [newFolderNode, initFolder, IsChain]⟩

/-- At the heap with the folders a, b, c under the root mkdir docs gives the
children 1, 2, 3, 4. -/
theorem make_dir_appends_new_folder_witness :
    ∃ h', make_dir heapABC junk0 9 0 "mkdir docs".toList = some h' ∧
      children h' 0 = some [1, 2, 3, 4] :=
  let ⟨h', hm, hc, _⟩ := make_dir_appends_new_folder heapABC junk0 9 0 "mkdir docs".toList
    "mkdir".toList "docs".toList [] [1, 2, 3] (by decide!) (by decide!) (by decide!)
    (by decide!)
  ⟨h', hm, hc⟩

/-- C6, the code at the failing input: five mkdir commands with a name of 250
characters, each in the folder the one before made, build heapDeep (the fifth
runs in a folder whose path has 1004 characters); the fifth folder has no
child, and mkdir x in it has no result: the statements that link the new folder
return, and getRealPath, called behind them, appends 251 characters for each
of the five folders to char tempPath[1024]. -/
theorem make_dir_overflows_real_path :
    mkdirs [mkRoot junk0 0] [(0, "mkdir ".toList ++ longName), (1, "mkdir ".toList ++ longName),
      (2, "mkdir ".toList ++ longName), (3, "mkdir ".toList ++ longName),
      (4, "mkdir ".toList ++ longName)] = some heapDeep ∧
    children heapDeep 5 = some [] ∧
    (linkNewFolder heapDeep junk0 0 5 ['x']).isSome = true ∧
    getRealPath heapDeep 5 = none ∧
    make_dir heapDeep junk0 0 5 "mkdir x".toList = none ∧
    (getRealPath heapDeep 4).map List.length = some 1005 := by
  decide!

/-- C7: in a folder that has a child named name, of any kind, make_dir returns
the heap it was given: no cell is added and no field of any cell changes (so
the children and numberOfItems are what they were). -/
theorem make_dir_duplicate_rejected (h : Heap) (junk : node) (now : Int) (currentFolder : Nat)
    (command c0 name : List Char) (more : List (List Char)) (L : List Nat)
    (hcmd : strtokAll ' ' command = c0 :: name :: more)
    (hch : children h currentFolder = some L)
    (hdup : ∃ c ∈ L, nameOf h c = some name) :
    make_dir h junk now currentFolder command = some h := by
  have hg := getNodeTypeless_spec name hch
  cases hfn : firstNamed h name L with
  | none =>
    obtain ⟨c, hc, hn⟩ := hdup
    exact absurd hn (firstNamed_eq_none.mp hfn c hc)
  | some c =>
    rw [hfn] at hg
    simp [make_dir, hcmd, hg]

/-- C7 on the docs example: mkdir docs at the empty root gives one child, and a
second mkdir docs returns that heap unchanged, still with exactly one child. -/
theorem make_dir_duplicate_rejected_witness :
    make_dir [mkRoot junk0 0] junk0 0 0 "mkdir docs".toList = some heapDocs ∧
    children heapDocs 0 = some [1] ∧
    make_dir heapDocs junk0 5 0 "mkdir docs".toList = some heapDocs :=
  ⟨by decide!, by decide!,
   make_dir_duplicate_rejected heapDocs junk0 5 0 "mkdir docs".toList "mkdir".toList
     "docs".toList [] [1] (by decide!) (by decide!) ⟨1, by decide!, by decide!⟩⟩

/-! ### Path resolution -/

theorem parsePath_eq_loop (h : Heap) (cur root : Nat) (path : List Char) :
    parsePath h cur path root = parsePathLoop h (pathTokens path) (pathStart cur root path) := by
  unfold parsePath pathTokens pathStart
  cases path with
  | nil => simp
  | cons c cs =>
    by_cases hc : c = '/'
    · subst hc
      simp [strtokAll_delim_cons]
    · simp [hc]

/-- Walking a token list in two parts. -/
theorem parsePathLoop_append (h : Heap) : ∀ (t1 t2 : List (List Char)) (s : Nat),
    parsePathLoop h (t1 ++ t2) s =
      match parsePathLoop h t1 s with
      | none => none
      | some none => some none
      | some (some p) => parsePathLoop h t2 p
  | [], t2, s => by simp [parsePathLoop]
  | t :: t1, t2, s => by
    simp only [List.cons_append, parsePathLoop]
    by_cases h1 : t = ['.', '.']
    · simp only [h1, if_true]
      cases hs : h[s]? with
      | none => simp
      | some n =>
        cases hp : n.parent with
        | none => simp [hp, parsePathLoop_append h t1 t2 s]
        | some p => simp [hp, parsePathLoop_append h t1 t2 p]
    · by_cases h2 : t = ['.']
      · simp only [h2, if_true]
        simp [parsePathLoop_append h t1 t2 s]
      · simp only [h1, h2, if_false]
        cases hg : getNodeTypeless h s t with
        | none => simp
        | some r =>
          cases r with
          | none => simp
          | some nx => simp [parsePathLoop_append h t1 t2 nx]

/-- One step down to a child and back up through its parent pointer. -/
theorem parsePathLoop_child_dotdot (h : Heap) (P x : Nat) (X : List Char) (nx : node)
    (toks : List (List Char))
    (hX1 : X ≠ ['.', '.']) (hX2 : X ≠ ['.'])
    (hlook : getNodeTypeless h P X = some (some x))
    (hx : h[x]? = some nx) (hpar : nx.parent = some P) :
    parsePathLoop h (X :: ['.', '.'] :: toks) P = parsePathLoop h toks P := by
  simp [parsePathLoop, hX1, hX2, hlook, hx, hpar]

theorem pathStart_append (cur root : Nat) (pre a b : List Char) :
    pathStart cur root (pre ++ '/' :: a) = pathStart cur root (pre ++ '/' :: b) := by
  cases pre <;> simp [pathStart]

theorem firstNamed_some {h : Heap} {name : List Char} {L : List Nat} {c : Nat}
    (hf : firstNamed h name L = some c) : c ∈ L ∧ nameOf h c = some name := by
  unfold firstNamed at hf
  exact ⟨List.mem_of_find?_eq_some hf, by simpa using List.find?_some hf⟩

theorem firstNamed_isSome {h : Heap} {name : List Char} {L : List Nat} {c : Nat}
    (hc : c ∈ L) (hn : nameOf h c = some name) : ∃ c', firstNamed h name L = some c' := by
  cases hf : firstNamed h name L with
  | some c' => exact ⟨c', rfl⟩
  | none => exact absurd hn (by simpa using (List.find?_eq_none.mp hf) c hc)

/-- C8: in a tree where the child b of a has a as its parent pointer, parsePath
on /a/b/../c and on /a/c return the same node, the child c of a, from every
current folder; and for every child X of a folder P whose parent pointer is P,
a path that goes into X and straight back up with the token .. resolves like
the path without these two segments. -/
theorem parsePath_parent_token (h : Heap) (cur root : Nat)
    (Lr La : List Nat) (A B C : Nat) (nB : node)
    (hr : children h root = some Lr) (hA : firstNamed h ['a'] Lr = some A)
    (ha : children h A = some La) (hB : firstNamed h ['b'] La = some B)
    (hC : firstNamed h ['c'] La = some C)
    (hnB : h[B]? = some nB) (hBp : nB.parent = some A) :
    parsePath h cur "/a/b/../c".toList root = some (some C) ∧
    parsePath h cur "/a/c".toList root = some (some C) ∧
    ∀ (pre X rest : List Char) (P x : Nat) (L : List Nat) (nx : node),
      parsePath h cur (pre ++ ['/']) root = some (some P) →
      X ≠ [] → '/' ∉ X → X ≠ ['.', '.'] → X ≠ ['.'] →
      children h P = some L → firstNamed h X L = some x →
      h[x]? = some nx → nx.parent = some P →
      parsePath h cur (pre ++ '/' :: (X ++ "/../".toList ++ rest)) root
        = parsePath h cur (pre ++ '/' :: rest) root := by
  have gA := getNodeTypeless_spec ['a'] hr
  have gB := getNodeTypeless_spec ['b'] ha
  have gC := getNodeTypeless_spec ['c'] ha
  rw [hA] at gA
  rw [hB] at gB
  rw [hC] at gC
  refine ⟨?_, ?_, ?_⟩
  · have e : parsePath h cur "/a/b/../c".toList root
        = parsePathLoop h [['a'], ['b'], ['.', '.'], ['c']] root := rfl
    rw [e]
    simp [parsePathLoop, gA, gB, gC, hnB, hBp]
  · have e : parsePath h cur "/a/c".toList root = parsePathLoop h [['a'], ['c']] root := rfl
    rw [e]
    simp [parsePathLoop, gA, gC]
  · intro pre X rest P x L nx hpre hXne hXs hX1 hX2 hL hx hnx hpar
    have gX := getNodeTypeless_spec X hL
    rw [hx] at gX
    rw [parsePath_eq_loop] at hpre ⊢
    rw [parsePath_eq_loop]
    have e0 : pathStart cur root (pre ++ ['/']) = pathStart cur root (pre ++ '/' :: rest) :=
      pathStart_append cur root pre [] rest
    rw [pathStart_append cur root pre (X ++ "/../".toList ++ rest) rest]
    rw [e0] at hpre
    have t0 : pathTokens (pre ++ ['/']) = strtokAll '/' pre := by
      have e3 : strtokAll '/' ([] : List Char) = [] := rfl
      simp only [pathTokens]
      rw [strtokAll_append, e3, List.append_nil]
    have t1 : pathTokens (pre ++ '/' :: rest) = strtokAll '/' pre ++ strtokAll '/' rest := by
      simp only [pathTokens]
      rw [strtokAll_append]
    have t2 : pathTokens (pre ++ '/' :: (X ++ "/../".toList ++ rest))
        = strtokAll '/' pre ++ X :: ['.', '.'] :: strtokAll '/' rest := by
      have e1 : X ++ "/../".toList ++ rest = X ++ '/' :: (['.', '.'] ++ '/' :: rest) := by
        simp
      simp only [pathTokens]
      rw [strtokAll_append, e1, strtokAll_token_cons '/' X _ hXs hXne,
        strtokAll_token_cons '/' ['.', '.'] rest (by decide) (by decide)]
    rw [t0] at hpre
    rw [t1, t2, parsePathLoop_append, parsePathLoop_append, hpre]
    exact parsePathLoop_child_dotdot h P x X nx _ hX1 hX2 gX hnx hpar

/-- C9: a path that starts with the separator resolves to the same result from
every current folder, and a path that does not start with it is walked from the
current folder. -/
theorem parsePath_absolute_ignores_current (h : Heap) (c1 c2 root : Nat) (path : List Char)
    (habs : path.head? = some '/') :
    parsePath h c1 path root = parsePath h c2 path root ∧
    parsePath h c1 path root = parsePathLoop h (pathTokens path) root ∧
    ∀ rel : List Char, rel.head? ≠ some '/' →
      parsePath h c1 rel root = parsePathLoop h (pathTokens rel) c1 := by
  refine ⟨?_, ?_, ?_⟩
  · simp [parsePath_eq_loop, pathStart, habs]
  · simp [parsePath_eq_loop, pathStart, habs]
  · intro rel hrel
    simp [parsePath_eq_loop, pathStart, hrel]

theorem parentsValid_get {h : Heap} (hpv : ParentsValid h) {a p : Nat} {n : node}
    (hn : h[a]? = some n) (hp : n.parent = some p) : p < h.length :=
  hpv n (List.getElem?_mem hn) p (by simp [hp])

theorem chainsEnd_get {h : Heap} (hce : ChainsEnd h) {a : Nat} (ha : a < h.length) :
    ∃ L, children h a = some L := by
  have := hce a ha
  cases hc : children h a with
  | none => simp [hc] at this
  | some L => exact ⟨L, rfl⟩

/-- In a heap with live parent pointers and ending chains the token loop always
returns, with NULL or a live node. -/
theorem parsePathLoop_total {h : Heap} (hpv : ParentsValid h) (hce : ChainsEnd h) :
    ∀ (toks : List (List Char)) (s : Nat), s < h.length →
      ∃ r, parsePathLoop h toks s = some r ∧ ∀ q, r = some q → q < h.length
  | [], s, hs => ⟨some s, rfl, fun q e => by cases e; exact hs⟩
  | t :: toks, s, hs => by
    obtain ⟨n, hn⟩ : ∃ n, h[s]? = some n := ⟨_, List.getElem?_eq_getElem hs⟩
    simp only [parsePathLoop]
    by_cases h1 : t = ['.', '.']
    · simp only [h1, if_true, hn]
      cases hp : n.parent with
      | none => exact parsePathLoop_total hpv hce toks s hs
      | some p => exact parsePathLoop_total hpv hce toks p (parentsValid_get hpv hn hp)
    · by_cases h2 : t = ['.']
      · simp only [h2, if_true]
        simpa using parsePathLoop_total hpv hce toks s hs
      · simp only [h1, h2, if_false]
        obtain ⟨L, hL⟩ := chainsEnd_get hce hs
        rw [getNodeTypeless_spec t hL]
        cases hf : firstNamed h t L with
        | none => exact ⟨none, rfl, fun q e => by cases e⟩
        | some c =>
          obtain ⟨n0, _, hc⟩ := children_eq_some_iff.mp hL
          exact parsePathLoop_total hpv hce toks c (IsChain.lt hc c (firstNamed_some hf).1)

/-- The walk reaches a node only if every token that is a name was found. -/
theorem parsePathLoop_node_imp {h : Heap} (hce : ChainsEnd h)
    (pre : List (List Char)) (t : List Char) (post : List (List Char)) (s q : Nat)
    (hres : parsePathLoop h (pre ++ t :: post) s = some (some q))
    (h1 : t ≠ ['.', '.']) (h2 : t ≠ ['.']) :
    ∃ p L c, parsePathLoop h pre s = some (some p) ∧ children h p = some L ∧
      c ∈ L ∧ nameOf h c = some t := by
  rw [parsePathLoop_append] at hres
  cases hw : parsePathLoop h pre s with
  | none => simp [hw] at hres
  | some r =>
    cases r with
    | none => simp [hw] at hres
    | some p =>
      simp only [hw, parsePathLoop, h1, h2, if_false] at hres
      cases hg : getNodeTypeless h p t with
      | none => simp [hg] at hres
      | some r2 =>
        cases r2 with
        | none => simp [hg] at hres
        | some c =>
          have hp : p < h.length := by
            by_contra hlt
            have : h[p]? = none := List.getElem?_eq_none (Nat.le_of_not_lt hlt)
            simp [getNodeTypeless, this] at hg
          obtain ⟨L, hL⟩ := chainsEnd_get hce hp
          rw [getNodeTypeless_spec t hL] at hg
          have hf : firstNamed h t L = some c := by simpa using hg
          exact ⟨p, L, c, rfl, hL, (firstNamed_some hf).1, (firstNamed_some hf).2⟩

/-- The walk reaches a node if every token that is a name is found. -/
theorem parsePathLoop_node_of {h : Heap} (hpv : ParentsValid h) :
    ∀ (toks : List (List Char)) (s : Nat), s < h.length →
      (∀ pre t post, toks = pre ++ t :: post → t ≠ ['.', '.'] → t ≠ ['.'] →
        ∃ p L c, parsePathLoop h pre s = some (some p) ∧ children h p = some L ∧
          c ∈ L ∧ nameOf h c = some t) →
      ∃ q, parsePathLoop h toks s = some (some q)
  | [], s, _, _ => ⟨s, rfl⟩
  | t :: toks, s, hs, hall => by
    obtain ⟨n, hn⟩ : ∃ n, h[s]? = some n := ⟨_, List.getElem?_eq_getElem hs⟩
    by_cases h1 : t = ['.', '.']
    · subst h1
      cases hp : n.parent with
      | none =>
        have e : ∀ l, parsePathLoop h (['.', '.'] :: l) s = parsePathLoop h l s := by
          intro l; simp [parsePathLoop, hn, hp]
        rw [e]
        refine parsePathLoop_node_of hpv toks s hs ?_
        intro pre t post hsplit ht1 ht2
        have := hall (['.', '.'] :: pre) t post (by simp [hsplit]) ht1 ht2
        rwa [e] at this
      | some p =>
        have e : ∀ l, parsePathLoop h (['.', '.'] :: l) s = parsePathLoop h l p := by
          intro l; simp [parsePathLoop, hn, hp]
        rw [e]
        refine parsePathLoop_node_of hpv toks p (parentsValid_get hpv hn hp) ?_
        intro pre t post hsplit ht1 ht2
        have := hall (['.', '.'] :: pre) t post (by simp [hsplit]) ht1 ht2
        rwa [e] at this
    · by_cases h2 : t = ['.']
      · subst h2
        have e : ∀ l, parsePathLoop h (['.'] :: l) s = parsePathLoop h l s := by
          intro l; simp [parsePathLoop]
        rw [e]
        refine parsePathLoop_node_of hpv toks s hs ?_
        intro pre t post hsplit ht1 ht2
        have := hall (['.'] :: pre) t post (by simp [hsplit]) ht1 ht2
        rwa [e] at this
      · obtain ⟨p, L, c, hw, hL, hc, hname⟩ := hall [] t toks rfl h1 h2
        simp only [parsePathLoop, Option.some.injEq] at hw
        subst hw
        obtain ⟨c', hc'⟩ := firstNamed_isSome hc hname
        have hg := getNodeTypeless_spec t hL
        rw [hc'] at hg
        have e : ∀ l, parsePathLoop h (t :: l) s = parsePathLoop h l c' := by
          intro l; simp [parsePathLoop, h1, h2, hg]
        rw [e]
        obtain ⟨n0, _, hch⟩ := children_eq_some_iff.mp hL
        refine parsePathLoop_node_of hpv toks c' (IsChain.lt hch c' (firstNamed_some hc').1) ?_
        intro pre t' post hsplit ht1 ht2
        have := hall (t :: pre) t' post (by simp [hsplit]) ht1 ht2
        rwa [e] at this

/-- C10: on a heap with live parent pointers and ending chains parsePath always
returns; if a token other than . and .. names no child of the node reached by
the tokens before it, the result is NULL whatever tokens follow; and the result
is a node exactly when every such token names a child of the node reached
before it. -/
theorem parsePath_fails_fast (h : Heap) (cur root : Nat) (path : List Char)
    (hcur : cur < h.length) (hroot : root < h.length)
    (hpv : ParentsValid h) (hce : ChainsEnd h) :
    (∃ r, parsePath h cur path root = some r) ∧
    (∀ pre t post p L, pathTokens path = pre ++ t :: post →
      t ≠ ['.', '.'] → t ≠ ['.'] →
      parsePathLoop h pre (pathStart cur root path) = some (some p) →
      children h p = some L → (∀ c ∈ L, nameOf h c ≠ some t) →
      parsePath h cur path root = some none) ∧
    ((∃ q, parsePath h cur path root = some (some q)) ↔
      ∀ pre t post, pathTokens path = pre ++ t :: post → t ≠ ['.', '.'] → t ≠ ['.'] →
        ∃ p L c, parsePathLoop h pre (pathStart cur root path) = some (some p) ∧
          children h p = some L ∧ c ∈ L ∧ nameOf h c = some t) := by
  have hstart : pathStart cur root path < h.length := by
    unfold pathStart
    split <;> assumption
  rw [parsePath_eq_loop]
  refine ⟨?_, ?_, ?_, ?_⟩
  · obtain ⟨r, hr, _⟩ := parsePathLoop_total hpv hce (pathTokens path) _ hstart
    exact ⟨r, hr⟩
  · intro pre t post p L hsplit h1 h2 hw hL hnone
    have hg := getNodeTypeless_spec t hL
    rw [firstNamed_eq_none.mpr hnone] at hg
    rw [hsplit, parsePathLoop_append, hw]
    simp [parsePathLoop, h1, h2, hg]
  · rintro ⟨q, hq⟩ pre t post hsplit h1 h2
    rw [hsplit] at hq
    exact parsePathLoop_node_imp hce pre t post _ q hq h1 h2
  · intro hall
    exact parsePathLoop_node_of hpv (pathTokens path) _ hstart hall

/-- C8 on the tree with /a/b and /a/c, resolved from the folder b. -/
theorem parsePath_parent_token_witness :
    parsePath heapTree 2 "/a/b/../c".toList 0 = some (some 3) ∧
    parsePath heapTree 2 "/a/c".toList 0 = some (some 3) :=
  let t := parsePath_parent_token heapTree 2 0 [1] [2, 3] 1 2 3
    { newFolderNode junk0 0 1 ['b'] none with next := some 3 }
    (by decide!) (by decide!) (by decide!) (by decide!) (by decide!) (by decide!) (by decide!)
  ⟨t.1, t.2.1⟩

/-- C9 on the tree with /a/b and /a/c: the absolute path /a/c from the folder b
and from the root. -/
theorem parsePath_absolute_ignores_current_witness :
    parsePath heapTree 2 "/a/c".toList 0 = parsePath heapTree 0 "/a/c".toList 0 :=
  (parsePath_absolute_ignores_current heapTree 2 0 0 "/a/c".toList (by decide!)).1

/-- C10 on the tree with /a/b and /a/c: the segment x names no child of a, so
/a/x/../c resolves to NULL although the later tokens would lead to c. -/
theorem parsePath_fails_fast_witness :
    parsePath heapTree 2 "/a/x/../c".toList 0 = some none :=
  (parsePath_fails_fast heapTree 2 0 "/a/x/../c".toList (by decide!) (by decide!)
    (by decide!) (by decide!)).2.1 [['a']] ['x'] [['.', '.'], ['c']] 1 [2, 3]
    (by decide!) (by decide!) (by decide!) (by decide!) (by decide!) (by decide!)

/-- C2, the code at the failing input: the heap with the folders a, b, c under
the root is what three mkdir commands build; rm b answered y leaves the root
with the single child c (a is dropped with b), rm c answered y leaves the root
with no child at all; only the removal of the first child a keeps the others. -/
theorem rm_drops_earlier_siblings :
    (((make_dir [mkRoot junk0 0] junk0 0 0 "mkdir a".toList).bind fun h1 =>
      (make_dir h1 junk0 0 0 "mkdir b".toList).bind fun h2 =>
      make_dir h2 junk0 0 0 "mkdir c".toList) = some heapABC) ∧
    children heapABC 0 = some [1, 2, 3] ∧
    (rm heapABC 0 "rm b".toList ['y']).map (fun r => children r.1 0) = some (some [3]) ∧
    (rm heapABC 0 "rm c".toList ['y']).map (fun r => children r.1 0) = some (some []) ∧
    (rm heapABC 0 "rm a".toList ['y']).map (fun r => children r.1 0) = some (some [2, 3]) := by
  decide!

/-- C3, the code at the failing input: the heap with d (holding x) and n under
the root is what three mkdir commands build; mov n d makes n the last child of
d behind x, and leaves the parent pointer of n NULL, so that the token .. from
n stays at n. -/
theorem mov_into_nonempty_clears_parent :
    (((make_dir [mkRoot junk0 0] junk0 0 0 "mkdir d".toList).bind fun h1 =>
      (make_dir h1 junk0 0 1 "mkdir x".toList).bind fun h2 =>
      make_dir h2 junk0 0 0 "mkdir n".toList) = some heapMov) ∧
    children heapMov 1 = some [2] ∧
    (mov heapMov 0 "mov n d".toList).map (fun h => children h 1) = some (some [2, 3]) ∧
    (mov heapMov 0 "mov n d".toList).map (fun h => (h[3]?).map (fun n => n.parent))
      = some (some none) ∧
    (mov heapMov 0 "mov n d".toList).map (fun h => parsePath h 3 "..".toList 0)
      = some (some (some 3)) := by
  decide!

/-- C4, the code at the failing input: in the heap with the folders a, b, c
under the root, mov c a leaves the root with no child (a and b are no longer
children of the root), and mov b a leaves the root with the single child c;
only the move of the first child, mov a c, keeps the other children b and c. -/
theorem mov_drops_earlier_siblings :
    children heapABC 0 = some [1, 2, 3] ∧
    (mov heapABC 0 "mov c a".toList).map (fun h => children h 0) = some (some []) ∧
    (mov heapABC 0 "mov b a".toList).map (fun h => children h 0) = some (some [3]) ∧
    (mov heapABC 0 "mov a c".toList).map (fun h => children h 0) = some (some [2, 3]) := by
  decide!

/-- C5, what touch does: in a folder whose children are the list L, none of
them named name, touch returns a heap in which the folder still has exactly the
children L; the block it allocates is linked nowhere, only numberOfItems of the
folder went up by one. -/
theorem touch_adds_no_child (h : Heap) (junk : node) (currentFolder : Nat)
    (command c0 name : List Char) (more : List (List Char)) (L : List Nat) (f : node)
    (hcmd : strtokAll ' ' command = c0 :: name :: more)
    (hf : h[currentFolder]? = some f)
    (hch : children h currentFolder = some L)
    (hfresh : ∀ c ∈ L, nameOf h c ≠ some name) :
    touch h junk currentFolder command = some (h.set currentFolder (addItems 1 f) ++ [junk]) ∧
    children (h.set currentFolder (addItems 1 f) ++ [junk]) currentFolder = some L := by
  have hg : getNodeTypeless h currentFolder name = some none := by
    rw [getNodeTypeless_spec name hch, firstNamed_eq_none.mpr hfresh]
  have hcur := lt_of_getElem?_eq_some hf
  refine ⟨by simp [touch, hcmd, hg, upd_eq_some hf], ?_⟩
  obtain ⟨f', hf', hc⟩ := children_eq_some_iff.mp hch
  rw [hf] at hf'
  have e := Option.some.inj hf'
  subst e
  rw [children_eq_some_iff]
  refine ⟨addItems 1 f, ?_, ?_⟩
  · rw [List.getElem?_append_left (by simpa using hcur)]
    simp [List.getElem?_set, hcur]
  · refine IsChain.frame (h := h) hc ?_
    intro a ha
    have halt := IsChain.lt hc a ha
    simp only [nextOf]
    rw [List.getElem?_append_left (by simpa using halt)]
    by_cases e : currentFolder = a
    · subst e
      simp [List.getElem?_set, hcur, hf, addItems]
    · simp [List.getElem?_set, e]

/-- C5 at the empty root: after touch note.txt the root still has no child. -/
theorem touch_adds_no_child_witness :
    touch [mkRoot junk0 0] junk0 0 "touch note.txt".toList
      = some ([addItems 1 (mkRoot junk0 0)] ++ [junk0]) ∧
    children ([addItems 1 (mkRoot junk0 0)] ++ [junk0]) 0 = some [] :=
  touch_adds_no_child [mkRoot junk0 0] junk0 0 "touch note.txt".toList "touch".toList
    "note.txt".toList [] [] (mkRoot junk0 0) (by decide!) (by decide!) (by decide!) (by decide!)

/-! ### Numbers in decimal -/

theorem digitChar_spec (n : Nat) (hn : n < 10) :
    ('0' ≤ digitChar n ∧ digitChar n ≤ '9') ∧ (digitChar n).toNat - 48 = n ∧
    digitChar n ≠ '"' ∧ digitChar n ≠ '\n' ∧ digitChar n ≠ '\x7d' ∧ isSpace (digitChar n) = false
    ∧ digitChar n ≠ '-' ∧ digitChar n ≠ '+' := by
  interval_cases n <;> decide

theorem scanDigits_nondigit (c : Char) (rest : List Char) (v : Option Nat)
    (hc : ¬ ('0' ≤ c ∧ c ≤ '9')) : scanDigits (c :: rest) v = v := by
  simp [scanDigits, hc]

theorem natDigits_spec : ∀ (fuel n : Nat) (acc : List Char), n < fuel →
    ∃ ds, natDigits fuel n acc = ds ++ acc ∧ ds ≠ [] ∧ AllDigits ds ∧
      ∀ (v : Option Nat) (rest : List Char),
        scanDigits (ds ++ rest) v = scanDigits rest (some (v.getD 0 * 10 ^ ds.length + n))
  | 0, _, _, h => absurd h (Nat.not_lt_zero _)
  | fuel + 1, n, acc, h => by
    by_cases hn : n < 10
    · refine ⟨[digitChar n], by simp [natDigits, hn], by simp, ?_, ?_⟩
      · intro c hc
        simp at hc
        exact ⟨n, hn, hc⟩
      · intro v rest
        have hd := digitChar_spec n hn
        simp [scanDigits, hd.1, hd.2.1]
    · have hlt : n / 10 < fuel := by omega
      obtain ⟨ds, hds, hne, hall, hscan⟩ :=
        natDigits_spec fuel (n / 10) (digitChar (n % 10) :: acc) hlt
      refine ⟨ds ++ [digitChar (n % 10)], by simp [natDigits, hn, hds], by simp, ?_, ?_⟩
      · intro c hc
        rcases List.mem_append.mp hc with h1 | h1
        · exact hall c h1
        · simp at h1
          exact ⟨n % 10, Nat.mod_lt _ (by decide), h1⟩
      · intro v rest
        have hd := digitChar_spec (n % 10) (Nat.mod_lt _ (by decide))
        rw [List.append_assoc, hscan]
        simp only [List.singleton_append, scanDigits, hd.1, hd.2.1, and_self, if_true,
          Option.getD_some, List.length_append, List.length_singleton]
        congr 2
        rw [pow_succ]
        have := Nat.div_add_mod n 10
        nlinarith [this]

theorem printNat_spec (n : Nat) :
    printNat n ≠ [] ∧ AllDigits (printNat n) ∧
    ∀ (c : Char) (rest : List Char), ¬ ('0' ≤ c ∧ c ≤ '9') →
      scanDigits (printNat n ++ c :: rest) none = some n := by
  obtain ⟨ds, hds, hne, hall, hscan⟩ := natDigits_spec (n + 1) n [] (Nat.lt_succ_self n)
  have e : printNat n = ds := by simpa [printNat] using hds
  rw [e]
  refine ⟨hne, hall, ?_⟩
  intro c rest hc
  rw [hscan, scanDigits_nondigit c rest _ hc]
  simp

theorem AllDigits.not_mem {s : List Char} (hs : AllDigits s) :
    '"' ∉ s ∧ '\n' ∉ s ∧ '\x7d' ∉ s := by
  refine ⟨?_, ?_, ?_⟩ <;>
  · intro hmem
    obtain ⟨n, hn, e⟩ := hs _ hmem
    have hd := digitChar_spec n hn
    first
      | exact hd.2.2.1 e.symm
      | exact hd.2.2.2.1 e.symm
      | exact hd.2.2.2.2.1 e.symm

theorem scanInteger_printNat (n : Nat) (c : Char) (rest : List Char)
    (hc : ¬ ('0' ≤ c ∧ c ≤ '9')) :
    scanInteger (' ' :: (printNat n ++ c :: rest)) = some (n : Int) := by
  obtain ⟨hne, hall, hscan⟩ := printNat_spec n
  cases hp : printNat n with
  | nil => exact absurd hp hne
  | cons a as =>
    obtain ⟨k, hk, e⟩ := hall a (by simp [hp])
    have hd := digitChar_spec k hk
    have hsp : isSpace a = false := by rw [e]; exact hd.2.2.2.2.2.1
    have hsp2 : isSpace ' ' = true := by decide
    have h1 : skipSpace (' ' :: ((a :: as) ++ c :: rest)) = (a :: as) ++ c :: rest := by
      simp only [List.cons_append, skipSpace, hsp, hsp2, if_true]
      simp
    have hs := hscan c rest hc
    rw [hp] at hs
    unfold scanInteger
    rw [h1]
    have ha1 : a ≠ '-' := by rw [e]; exact hd.2.2.2.2.2.2.1
    have ha2 : a ≠ '+' := by rw [e]; exact hd.2.2.2.2.2.2.2
    simp only [List.cons_append] at hs ⊢
    split
    · rename_i heq
      simp at heq
      exact absurd heq.1 ha1
    · rename_i heq
      simp at heq
      exact absurd heq.1 ha2
    · rename_i r heq1 heq2
      simp [hs]

theorem scanInteger_printInt (i : Int) (c : Char) (rest : List Char)
    (hc : ¬ ('0' ≤ c ∧ c ≤ '9')) :
    scanInteger (' ' :: (printInt i ++ c :: rest)) = some i := by
  by_cases hi : i < 0
  · obtain ⟨hne, hall, hscan⟩ := printNat_spec i.natAbs
    have hsp2 : isSpace ' ' = true := by decide
    have hsp3 : isSpace '-' = false := by decide
    have h1 : skipSpace (' ' :: (printInt i ++ c :: rest))
        = '-' :: (printNat i.natAbs ++ c :: rest) := by
      simp only [printInt, hi, if_true, List.cons_append, skipSpace, hsp2, hsp3]
      simp
    unfold scanInteger
    rw [h1]
    simp only [hscan c rest hc, Option.map_some']
    congr 1
    show - ((i.natAbs : Nat) : Int) = i
    rw [Int.ofNat_natAbs_of_nonpos (le_of_lt hi)]
    simp
  · have e : printInt i = printNat i.natAbs := by simp [printInt, hi]
    rw [e, scanInteger_printNat _ c rest hc]
    congr 1
    exact Int.natAbs_of_nonneg (not_lt.mp hi)

/-! ### Reading lines -/

theorem fgetsLine_line : ∀ (n : Nat) (body rest : List Char), '\n' ∉ body → body.length < n →
    fgetsLine n (body ++ '\n' :: rest) = (body ++ ['\n'], rest)
  | 0, _, _, _, h => absurd h (Nat.not_lt_zero _)
  | n + 1, [], rest, _, _ => by simp [fgetsLine]
  | n + 1, c :: cs, rest, hnl, hlen => by
    have hc : c ≠ '\n' := fun e => hnl (by simp [e])
    have hcs : '\n' ∉ cs := fun e => hnl (by simp [e])
    have ih := fgetsLine_line n cs rest hcs (by simpa using hlen)
    simp [fgetsLine, hc, ih]

/-- A line of at most 1023 characters that ends with its newline is read whole. -/
theorem fgets_line (body rest : List Char) (hnl : '\n' ∉ body) (hlen : body.length + 1 ≤ 1023) :
    fgets 1024 (body ++ '\n' :: rest) = some (body ++ ['\n'], rest) := by
  have := fgetsLine_line 1023 body rest hnl (by omega)
  cases body <;> simpa [fgets] using this

theorem fgetsLine_last : ∀ (n : Nat) (body : List Char), '\n' ∉ body → body.length ≤ n →
    fgetsLine n body = (body, [])
  | 0, [], _, _ => by simp [fgetsLine]
  | 0, _ :: _, _, h => by simp at h
  | n + 1, [], _, _ => by simp [fgetsLine]
  | n + 1, c :: cs, hnl, hlen => by
    have hc : c ≠ '\n' := fun e => hnl (by simp [e])
    have hcs : '\n' ∉ cs := fun e => hnl (by simp [e])
    have ih := fgetsLine_last n cs hcs (by simpa using hlen)
    simp [fgetsLine, hc, ih]

/-- A last line without a newline is read up to the end of the file. -/
theorem fgets_last (body : List Char) (hnl : '\n' ∉ body) (hne : body ≠ [])
    (hlen : body.length ≤ 1023) : fgets 1024 body = some (body, []) := by
  have := fgetsLine_last 1023 body hnl hlen
  cases body with
  | nil => exact absurd rfl hne
  | cons c cs => simpa [fgets] using this

/-! ### Searching a line -/

theorem strstr_single (c : Char) : ∀ hay : List Char, strstr hay [c] = decide (c ∈ hay)
  | [] => by simp [strstr]
  | a :: as => by
    have ih := strstr_single c as
    by_cases e : c = a
    · subst e
      simp [strstr, List.isPrefixOf]
    · have e2 : ¬ a = c := fun x => e x.symm
      simp [strstr, List.isPrefixOf, ih, e, e2]

theorem strstr_nil_cons (q : Char) (w : List Char) : strstr [] (q :: w) = false := by
  simp [strstr]

/-- A stretch without the first character of the needle can be skipped. -/
theorem strstr_skip (q : Char) (w : List Char) : ∀ (P S : List Char), q ∉ P →
    strstr (P ++ S) (q :: w) = strstr S (q :: w)
  | [], _, _ => rfl
  | p :: P, S, h => by
    have hp : ¬ q = p := fun e => h (by simp [e])
    have hP : q ∉ P := fun e => h (by simp [e])
    have ih := strstr_skip q w P S hP
    simp [strstr, List.isPrefixOf, hp, ih]

theorem strstr_none (q : Char) (w : List Char) (P : List Char) (h : q ∉ P) :
    strstr P (q :: w) = false := by
  have := strstr_skip q w P [] h
  simpa [strstr_nil_cons] using this

theorem indent_spaces : ∀ (n : Nat) (c : Char), c ∈ indent n → c = ' '
  | 0, c, h => by simp [indent] at h
  | n + 1, c, h => by
    simp only [indent, List.mem_cons] at h
    rcases h with h | h | h
    · exact h
    · exact h
    · exact indent_spaces n c h

theorem indent_length : ∀ n : Nat, (indent n).length = 2 * n
  | 0 => rfl
  | n + 1 => by simp [indent, indent_length n]; omega

theorem strstr_indent (q : Char) (w : List Char) (n : Nat) (S : List Char) (hq : q ≠ ' ') :
    strstr (indent n ++ S) (q :: w) = strstr S (q :: w) :=
  strstr_skip q w (indent n) S (fun h => hq (indent_spaces n q h))

theorem isPrefixOf_quote : ∀ (K P r S : List Char), '"' ∉ K → '"' ∉ P →
    (K ++ '"' :: r).isPrefixOf (P ++ '"' :: S) = (decide (K = P) && r.isPrefixOf S)
  | [], [], r, S, _, _ => by simp [List.isPrefixOf]
  | [], p :: P, r, S, _, hP => by
    have hp : ¬ '"' = p := fun e => hP (List.mem_cons.mpr (Or.inl e))
    simp [List.isPrefixOf, hp]
  | k :: K, [], r, S, hK, _ => by
    have hk : ¬ k = '"' := fun e => hK (by simp [e])
    simp [List.isPrefixOf, hk]
  | k :: K, p :: P, r, S, hK, hP => by
    have hK2 : '"' ∉ K := fun e => hK (by simp [e])
    have hP2 : '"' ∉ P := fun e => hP (by simp [e])
    have ih := isPrefixOf_quote K P r S hK2 hP2
    by_cases e : k = p
    · subst e
      simpa [List.isPrefixOf] using ih
    · simp [List.isPrefixOf, e]

theorem isPrefixOf_noquote : ∀ (K r T : List Char), '"' ∉ T →
    (K ++ '"' :: r).isPrefixOf T = false
  | _, _, [], _ => by cases ‹List Char› <;> simp [List.isPrefixOf]
  | [], r, t :: T, hT => by
    have ht : ¬ '"' = t := fun e => hT (List.mem_cons.mpr (Or.inl e))
    simp [List.isPrefixOf, ht]
  | k :: K, r, t :: T, hT => by
    have hT2 : '"' ∉ T := fun e => hT (by simp [e])
    simp [List.isPrefixOf, isPrefixOf_noquote K r T hT2]

/-- A key needle against a text that starts with a quoted stretch. -/
theorem strstr_quote_seg (K P S : List Char) (hK : '"' ∉ K) (hP : '"' ∉ P) :
    strstr ('"' :: (P ++ '"' :: S)) (keyNeedle K)
      = ((decide (K = P) && [':'].isPrefixOf S) || strstr ('"' :: S) (keyNeedle K)) := by
  have h1 := isPrefixOf_quote K P [':'] S hK hP
  have h2 := strstr_skip '"' (K ++ ['"', ':']) P ('"' :: S) hP
  simp only [keyNeedle] at h2 ⊢
  simp only [strstr, List.isPrefixOf, beq_self_eq_true, Bool.true_and]
  rw [h2]
  simp only [strstr, List.isPrefixOf, beq_self_eq_true, Bool.true_and, h1]

/-- A key needle against a text whose only double quote is the first character. -/
theorem strstr_quote_end (K T : List Char) (hT : '"' ∉ T) :
    strstr ('"' :: T) (keyNeedle K) = false := by
  have h1 := isPrefixOf_noquote K [':'] T hT
  have h2 := strstr_none '"' (K ++ ['"', ':']) T hT
  simp only [keyNeedle]
  simp only [strstr, List.isPrefixOf, beq_self_eq_true, Bool.true_and, h1, h2, Bool.or_self]

/-- The key test on a line that holds a quoted value: it finds the key of the
line and no other. -/
theorem strstr_quotedLine (K key V T : List Char) (hK : '"' ∉ K) (hkey : '"' ∉ key)
    (hV : '"' ∉ V) (hT : '"' ∉ T) (hK2 : K ≠ [':', ' ']) (hT2 : [':'].isPrefixOf T = false) :
    strstr ('"' :: (key ++ '"' :: ':' :: ' ' :: '"' :: (V ++ '"' :: T))) (keyNeedle K)
      = decide (K = key) := by
  have e1 : ':' :: ' ' :: '"' :: (V ++ '"' :: T) = [':', ' '] ++ '"' :: (V ++ '"' :: T) := rfl
  rw [strstr_quote_seg K key _ hK hkey, e1,
    strstr_quote_seg K [':', ' '] _ hK (by decide),
    strstr_quote_seg K V _ hK hV, strstr_quote_end K T hT, hT2]
  simp [List.isPrefixOf, hK2]

/-- The key test on a line whose value has no double quote. -/
theorem strstr_plainLine (K key T : List Char) (hK : '"' ∉ K) (hkey : '"' ∉ key)
    (hT : '"' ∉ T) :
    strstr ('"' :: (key ++ '"' :: ':' :: T)) (keyNeedle K) = decide (K = key) := by
  have hT3 : '"' ∉ ':' :: T := by
    intro h
    rcases List.mem_cons.mp h with h | h
    · exact absurd h (by decide)
    · exact hT h
  rw [strstr_quote_seg K key _ hK hkey, strstr_quote_end K _ hT3]
  simp [List.isPrefixOf]

theorem skipSpace_indent : ∀ (n : Nat) (S : List Char), skipSpace (indent n ++ S) = skipSpace S
  | 0, _ => rfl
  | n + 1, S => by
    have h : isSpace ' ' = true := by decide
    simp only [indent, List.cons_append, skipSpace, h, if_true]
    exact skipSpace_indent n S

theorem matchLit_append : ∀ (l s : List Char), matchLit l (l ++ s) = some s
  | [], s => by cases s <;> rfl
  | c :: l, s => by simp [matchLit, matchLit_append l s]

theorem scanNotQuote_spec : ∀ (w : Nat) (V T : List Char), '"' ∉ V → V.length ≤ w →
    scanNotQuote w (V ++ '"' :: T) = V
  | 0, [], _, _, _ => rfl
  | 0, _ :: _, _, _, h => by simp at h
  | w + 1, [], T, _, _ => by simp [scanNotQuote]
  | w + 1, v :: V, T, hV, hl => by
    have hv : ¬ v = '"' := fun e => hV (List.mem_cons.mpr (Or.inl e.symm))
    have hV2 : '"' ∉ V := fun e => hV (List.mem_cons.mpr (Or.inr e))
    simp [scanNotQuote, hv, scanNotQuote_spec w V T hV2 (by simpa using hl)]

theorem mem_indent_append {c : Char} {n : Nat} {S : List Char} (hc : c ≠ ' ') :
    c ∈ indent n ++ S ↔ c ∈ S := by
  constructor
  · intro h
    rcases List.mem_append.mp h with h | h
    · exact absurd (indent_spaces n c h) hc
    · exact h
  · intro h
    exact List.mem_append.mpr (Or.inr h)

theorem quotedLine_length (n : Nat) (key V : List Char) :
    (quotedLine n key V).length = 2 * n + key.length + V.length + 8 := by
  simp [quotedLine, indent_length]
  omega

theorem plainLine_length (n : Nat) (key T : List Char) :
    (plainLine n key T).length = 2 * n + key.length + T.length + 4 := by
  simp [plainLine, indent_length]
  omega

/-- A quoted line is its characters before the newline, then the newline. -/
theorem quotedLine_body (n : Nat) (key V : List Char) :
    quotedLine n key V
      = (indent n ++ ('"' :: (key ++ '"' :: ':' :: ' ' :: '"' :: (V ++ ['"', ','])))) ++ ['\n'] := by
  simp [quotedLine]

theorem quotedLine_body_nl (n : Nat) (key V : List Char) (hkey : '\n' ∉ key) (hV : '\n' ∉ V) :
    '\n' ∉ indent n ++ ('"' :: (key ++ '"' :: ':' :: ' ' :: '"' :: (V ++ ['"', ',']))) := by
  rw [mem_indent_append (by decide)]
  simp [hkey, hV]

theorem quotedLine_brace (n : Nat) (key V : List Char) (hkey : '\x7d' ∉ key) (hV : '\x7d' ∉ V) :
    strstr (quotedLine n key V) ['\x7d'] = false := by
  rw [strstr_single]
  simp only [quotedLine, decide_eq_false_iff_not]
  rw [mem_indent_append (by decide)]
  simp [hkey, hV]

theorem quotedLine_key (n : Nat) (K key V : List Char) (hK : '"' ∉ K) (hkey : '"' ∉ key)
    (hV : '"' ∉ V) (hK2 : K ≠ [':', ' ']) :
    strstr (quotedLine n key V) (keyNeedle K) = decide (K = key) := by
  unfold quotedLine
  rw [keyNeedle, strstr_indent _ _ _ _ (by decide)]
  exact strstr_quotedLine K key V [',', '\n'] hK hkey hV (by decide) hK2 (by decide)

theorem quotedLine_sscanf (n w : Nat) (key V : List Char) (hV : '"' ∉ V) (hne : V ≠ [])
    (hl : V.length ≤ w) :
    sscanfString (keyNeedle key) w (quotedLine n key V) = some V := by
  have h1 : skipSpace (quotedLine n key V)
      = keyNeedle key ++ (' ' :: '"' :: (V ++ ['"', ',', '\n'])) := by
    unfold quotedLine
    rw [skipSpace_indent]
    have hq : isSpace '"' = false := by decide
    simp [skipSpace, hq, keyNeedle]
  have hs : isSpace ' ' = true := by decide
  have hq : isSpace '"' = false := by decide
  have h2 : skipSpace (' ' :: '"' :: (V ++ ['"', ',', '\n'])) = '"' :: (V ++ ['"', ',', '\n']) := by
    simp [skipSpace, hs, hq]
  have h3 : matchLit ['"'] ('"' :: (V ++ ['"', ',', '\n'])) = some (V ++ ['"', ',', '\n']) :=
    matchLit_append ['"'] _
  have h4 := scanNotQuote_spec w V [',', '\n'] hV hl
  unfold sscanfString
  rw [h1, matchLit_append]
  simp only [Option.some_bind, h2, h3, h4]

theorem plainLine_brace (n : Nat) (key T : List Char) (hkey : '\x7d' ∉ key) (hT : '\x7d' ∉ T) :
    strstr (plainLine n key T) ['\x7d'] = false := by
  rw [strstr_single]
  simp only [plainLine, decide_eq_false_iff_not]
  rw [mem_indent_append (by decide)]
  simp [hkey, hT]

theorem plainLine_key (n : Nat) (K key T : List Char) (hK : '"' ∉ K) (hkey : '"' ∉ key)
    (hT : '"' ∉ T) :
    strstr (plainLine n key T) (keyNeedle K) = decide (K = key) := by
  unfold plainLine
  rw [keyNeedle, strstr_indent _ _ _ _ (by decide)]
  have hT2 : '"' ∉ ' ' :: T := by
    intro h
    rcases List.mem_cons.mp h with h | h
    · exact absurd h (by decide)
    · exact hT h
  exact strstr_plainLine K key (' ' :: T) hK hkey hT2

theorem plainLine_skip (n : Nat) (key T : List Char) :
    matchLit (keyNeedle key) (skipSpace (plainLine n key T)) = some (' ' :: T) := by
  unfold plainLine
  rw [skipSpace_indent]
  have hq : isSpace '"' = false := by decide
  have e : '"' :: (key ++ '"' :: ':' :: ' ' :: T) = keyNeedle key ++ (' ' :: T) := by
    simp [keyNeedle]
  rw [e]
  have e2 : skipSpace (keyNeedle key ++ ' ' :: T) = keyNeedle key ++ ' ' :: T := by
    simp [keyNeedle, skipSpace, hq]
  rw [e2, matchLit_append]

/-! ### One line of the loader at a time -/

theorem key_type : "\"type\":".toList = keyNeedle "type".toList := rfl
theorem key_name : "\"name\":".toList = keyNeedle "name".toList := rfl
theorem key_size : "\"size\":".toList = keyNeedle "size".toList := rfl
theorem key_date : "\"date\":".toList = keyNeedle "date".toList := rfl
theorem key_symlinkTarget : "\"symlinkTarget\":".toList = keyNeedle "symlinkTarget".toList := rfl
theorem key_content : "\"content\":".toList = keyNeedle "content".toList := rfl
theorem key_children : "\"children\":".toList = keyNeedle "children".toList := rfl

theorem fgets_quotedLine (n : Nat) (key V rest : List Char) (hkey : '\n' ∉ key) (hV : '\n' ∉ V)
    (hlen : (quotedLine n key V).length ≤ 1023) :
    fgets 1024 (quotedLine n key V ++ rest) = some (quotedLine n key V, rest) := by
  have hb := quotedLine_body n key V
  have hnl := quotedLine_body_nl n key V hkey hV
  rw [hb] at hlen ⊢
  rw [List.append_assoc]
  exact fgets_line _ rest hnl (by simp at hlen ⊢; omega)

theorem fgets_plainLine (n : Nat) (key T0 rest : List Char) (hkey : '\n' ∉ key) (hT : '\n' ∉ T0)
    (hlen : (plainLine n key (T0 ++ ['\n'])).length ≤ 1023) :
    fgets 1024 (plainLine n key (T0 ++ ['\n']) ++ rest)
      = some (plainLine n key (T0 ++ ['\n']), rest) := by
  have hb : plainLine n key (T0 ++ ['\n'])
      = (indent n ++ ('"' :: (key ++ '"' :: ':' :: ' ' :: T0))) ++ ['\n'] := by
    simp [plainLine]
  have hnl : '\n' ∉ indent n ++ ('"' :: (key ++ '"' :: ':' :: ' ' :: T0)) := by
    rw [mem_indent_append (by decide)]
    simp [hkey, hT]
  rw [hb] at hlen ⊢
  rw [List.append_assoc]
  exact fgets_line _ rest hnl (by simp at hlen ⊢; omega)

/-- A field line makes the inner loop assign the field and go on. -/
theorem loadProperties_field (junk : nodeData) (fuel : Nat) (file line rest : List Char)
    (d : nodeData) (child : Tree)
    (hget : fgets 1024 file = some (line, rest))
    (hbrace : strstr line ['\x7d'] = false) (hfield : isFieldLine line = true) :
    loadProperties junk (fuel + 1) file d child
      = loadProperties junk fuel rest (setProperty junk line d) child := by
  have e : "\x7d".toList = ['\x7d'] := rfl
  simp [loadProperties, hget, e, hbrace, hfield]

/-- The children line makes the inner loop load the children and go on. -/
theorem loadProperties_children (junk : nodeData) (fuel : Nat) (file line rest : List Char)
    (d : nodeData) (child : Tree)
    (hget : fgets 1024 file = some (line, rest))
    (hbrace : strstr line ['\x7d'] = false) (hfield : isFieldLine line = false)
    (hkids : strstr line "\"children\":".toList = true) :
    loadProperties junk (fuel + 1) file d child
      = match loadSiblings junk fuel rest [] with
        | none => none
        | some (kids, rest2) =>
          loadProperties junk fuel rest2
            { d with numberOfItems := countFiles (Tree.node d (chainOf kids) Tree.null) }
            (chainOf kids) := by
  have e : "\x7d".toList = ['\x7d'] := rfl
  simp only [loadProperties, hget, e, hbrace, hfield, hkids, Bool.false_eq_true, if_false,
    if_true]

/-- A line with the closing brace ends the inner loop. -/
theorem loadProperties_close (junk : nodeData) (fuel : Nat) (file line rest : List Char)
    (d : nodeData) (child : Tree)
    (hget : fgets 1024 file = some (line, rest))
    (hbrace : strstr line ['\x7d'] = true) :
    loadProperties junk (fuel + 1) file d child = some (d, child, rest) := by
  have e : "\x7d".toList = ['\x7d'] := rfl
  simp [loadProperties, hget, e, hbrace]

/-- A line with the opening brace makes the outer loop build a node. -/
theorem loadSiblings_open (junk : nodeData) (fuel : Nat) (file line rest : List Char)
    (acc : List (nodeData × Tree))
    (hget : fgets 1024 file = some (line, rest))
    (hbracket : strstr line [']'] = false) (hbrace : strstr line ['\x7b'] = true) :
    loadSiblings junk (fuel + 1) file acc
      = match loadProperties junk fuel rest
            { junk with symlinkTarget := none, numberOfItems := 0 } Tree.null with
        | none => none
        | some (d, child, rest2) => loadSiblings junk fuel rest2 (acc ++ [(d, child)]) := by
  have e : "\x7b".toList = ['\x7b'] := rfl
  have e2 : "]".toList = [']'] := rfl
  simp [loadSiblings, hget, e, e2, hbracket, hbrace]

/-- A line with neither bracket nor brace is passed over by the outer loop. -/
theorem loadSiblings_skip (junk : nodeData) (fuel : Nat) (file line rest : List Char)
    (acc : List (nodeData × Tree))
    (hget : fgets 1024 file = some (line, rest))
    (hbracket : strstr line [']'] = false) (hbrace : strstr line ['\x7b'] = false) :
    loadSiblings junk (fuel + 1) file acc = loadSiblings junk fuel rest acc := by
  have e : "\x7b".toList = ['\x7b'] := rfl
  have e2 : "]".toList = [']'] := rfl
  simp [loadSiblings, hget, e, e2, hbracket, hbrace]

/-- A line with the closing bracket ends the outer loop. -/
theorem loadSiblings_bracket (junk : nodeData) (fuel : Nat) (file line rest : List Char)
    (acc : List (nodeData × Tree))
    (hget : fgets 1024 file = some (line, rest))
    (hbracket : strstr line [']'] = true) :
    loadSiblings junk (fuel + 1) file acc = some (acc, rest) := by
  have e2 : "]".toList = [']'] := rfl
  simp [loadSiblings, hget, e2, hbracket]

/-- The end of the file ends the outer loop. -/
theorem loadSiblings_eof (junk : nodeData) (fuel : Nat) (acc : List (nodeData × Tree)) :
    loadSiblings junk (fuel + 1) [] acc = some (acc, []) := by
  simp [loadSiblings, fgets]

theorem typeLine_eq (depth : Nat) (d : nodeData) :
    typeLine depth d = quotedLine (depth + 1) "type".toList (typeWord d.type) := rfl

theorem nameLine_eq (depth : Nat) (d : nodeData) :
    nameLine depth d = quotedLine (depth + 1) "name".toList d.name := rfl

theorem sizeLine_eq (depth : Nat) (d : nodeData) :
    sizeLine depth d = plainLine (depth + 1) "size".toList ((printNat d.size ++ [',']) ++ ['\n']) := by
  simp [sizeLine, plainLine]

theorem dateLine_eq (depth : Nat) (d : nodeData) :
    dateLine depth d = plainLine (depth + 1) "date".toList ((printInt d.date ++ [',']) ++ ['\n']) := by
  simp [dateLine, plainLine]

theorem contentLine_eq (depth : Nat) (d : nodeData) (c : List Char)
    (ht : d.type = nodeType.File) (hc : d.content = some c) :
    contentLine depth d = quotedLine (depth + 1) "content".toList c := by
  simp [contentLine, ht, hc, quotedLine]

theorem contentLine_nil (depth : Nat) (d : nodeData) (ht : d.type ≠ nodeType.File) :
    contentLine depth d = [] := by
  unfold contentLine
  split
  · rename_i h _
    exact absurd h ht
  · rfl

theorem symlinkLine_eq (depth : Nat) (d : nodeData) (s : List Char)
    (ht : d.type = nodeType.Symlink) (hs : d.symlinkTarget = some s) :
    symlinkLine depth d = quotedLine (depth + 1) "symlinkTarget".toList s := by
  simp [symlinkLine, ht, hs, quotedLine]

theorem symlinkLine_nil (depth : Nat) (d : nodeData) (ht : d.type ≠ nodeType.Symlink) :
    symlinkLine depth d = [] := by
  unfold symlinkLine
  split
  · rename_i h
    exact absurd h ht
  · rfl

theorem childrenLine_eq (depth : Nat) :
    childrenLine depth = plainLine (depth + 1) "children".toList (['['] ++ ['\n']) := rfl

theorem quotedLine_tests (n : Nat) (key V : List Char) (hkey : '"' ∉ key) (hV : '"' ∉ V) :
    strstr (quotedLine n key V) "\"type\":".toList = decide ("type".toList = key) ∧
    strstr (quotedLine n key V) "\"name\":".toList = decide ("name".toList = key) ∧
    strstr (quotedLine n key V) "\"size\":".toList = decide ("size".toList = key) ∧
    strstr (quotedLine n key V) "\"date\":".toList = decide ("date".toList = key) ∧
    strstr (quotedLine n key V) "\"symlinkTarget\":".toList = decide ("symlinkTarget".toList = key) ∧
    strstr (quotedLine n key V) "\"content\":".toList = decide ("content".toList = key) ∧
    strstr (quotedLine n key V) "\"children\":".toList = decide ("children".toList = key) := by
  refine ⟨?_, ?_, ?_, ?_, ?_, ?_, ?_⟩
  · rw [key_type]; exact quotedLine_key n _ key V (by decide) hkey hV (by decide)
  · rw [key_name]; exact quotedLine_key n _ key V (by decide) hkey hV (by decide)
  · rw [key_size]; exact quotedLine_key n _ key V (by decide) hkey hV (by decide)
  · rw [key_date]; exact quotedLine_key n _ key V (by decide) hkey hV (by decide)
  · rw [key_symlinkTarget]; exact quotedLine_key n _ key V (by decide) hkey hV (by decide)
  · rw [key_content]; exact quotedLine_key n _ key V (by decide) hkey hV (by decide)
  · rw [key_children]; exact quotedLine_key n _ key V (by decide) hkey hV (by decide)

theorem plainLine_tests (n : Nat) (key T : List Char) (hkey : '"' ∉ key) (hT : '"' ∉ T) :
    strstr (plainLine n key T) "\"type\":".toList = decide ("type".toList = key) ∧
    strstr (plainLine n key T) "\"name\":".toList = decide ("name".toList = key) ∧
    strstr (plainLine n key T) "\"size\":".toList = decide ("size".toList = key) ∧
    strstr (plainLine n key T) "\"date\":".toList = decide ("date".toList = key) ∧
    strstr (plainLine n key T) "\"symlinkTarget\":".toList = decide ("symlinkTarget".toList = key) ∧
    strstr (plainLine n key T) "\"content\":".toList = decide ("content".toList = key) ∧
    strstr (plainLine n key T) "\"children\":".toList = decide ("children".toList = key) := by
  refine ⟨?_, ?_, ?_, ?_, ?_, ?_, ?_⟩
  · rw [key_type]; exact plainLine_key n _ key T (by decide) hkey hT
  · rw [key_name]; exact plainLine_key n _ key T (by decide) hkey hT
  · rw [key_size]; exact plainLine_key n _ key T (by decide) hkey hT
  · rw [key_date]; exact plainLine_key n _ key T (by decide) hkey hT
  · rw [key_symlinkTarget]; exact plainLine_key n _ key T (by decide) hkey hT
  · rw [key_content]; exact plainLine_key n _ key T (by decide) hkey hT
  · rw [key_children]; exact plainLine_key n _ key T (by decide) hkey hT

theorem strstr_indent_word (needle : List Char) (n : Nat) (S : List Char)
    (hne : needle ≠ []) (hsp : needle.head? ≠ some ' ') :
    strstr (indent n ++ S) needle = strstr S needle := by
  cases needle with
  | nil => exact absurd rfl hne
  | cons q w =>
    exact strstr_indent q w n S (fun e => hsp (by simp [e]))

theorem typeWord_tests (n : Nat) (ty : nodeType) :
    strstr (quotedLine n "type".toList (typeWord ty)) "Folder".toList = decide (ty = nodeType.Folder) ∧
    strstr (quotedLine n "type".toList (typeWord ty)) "File".toList = decide (ty = nodeType.File) ∧
    strstr (quotedLine n "type".toList (typeWord ty)) "Symlink".toList = decide (ty = nodeType.Symlink) := by
  unfold quotedLine
  rw [strstr_indent_word _ n _ (by decide) (by decide), strstr_indent_word _ n _ (by decide) (by decide),
    strstr_indent_word _ n _ (by decide) (by decide)]
  cases ty <;> decide

theorem typeWord_plain (ty : nodeType) :
    '"' ∉ typeWord ty ∧ '\n' ∉ typeWord ty ∧ '\x7d' ∉ typeWord ty := by
  cases ty <;> decide

/-- The type line sets the type. -/
theorem step_type (junk : nodeData) (fuel n : Nat) (ty : nodeType) (rest : List Char)
    (d : nodeData) (child : Tree) (hlen : (quotedLine n "type".toList (typeWord ty)).length ≤ 1023) :
    loadProperties junk (fuel + 1) (quotedLine n "type".toList (typeWord ty) ++ rest) d child
      = loadProperties junk fuel rest { d with type := ty } child := by
  have hp := typeWord_plain ty
  have hget := fgets_quotedLine n "type".toList (typeWord ty) rest (by decide) hp.2.1 hlen
  have hbrace := quotedLine_brace n "type".toList (typeWord ty) (by decide) hp.2.2
  have ht := quotedLine_tests n "type".toList _ (by decide) hp.1
  have h_type : strstr (quotedLine n "type".toList (typeWord ty)) "\"type\":".toList = true := ht.1.trans (by decide)
  have h_name : strstr (quotedLine n "type".toList (typeWord ty)) "\"name\":".toList = false := ht.2.1.trans (by decide)
  have h_size : strstr (quotedLine n "type".toList (typeWord ty)) "\"size\":".toList = false := ht.2.2.1.trans (by decide)
  have h_date : strstr (quotedLine n "type".toList (typeWord ty)) "\"date\":".toList = false := ht.2.2.2.1.trans (by decide)
  have h_symlinkTarget : strstr (quotedLine n "type".toList (typeWord ty)) "\"symlinkTarget\":".toList = false := ht.2.2.2.2.1.trans (by decide)
  have h_content : strstr (quotedLine n "type".toList (typeWord ty)) "\"content\":".toList = false := ht.2.2.2.2.2.1.trans (by decide)
  have h_children : strstr (quotedLine n "type".toList (typeWord ty)) "\"children\":".toList = false := ht.2.2.2.2.2.2.trans (by decide)
  have hfield : isFieldLine (quotedLine n "type".toList (typeWord ty)) = true := by
    simp only [isFieldLine, h_type, h_name, h_size, h_date, h_symlinkTarget, h_content,
      Bool.or_true, Bool.true_or, Bool.or_false, Bool.false_or]
  rw [loadProperties_field junk fuel _ _ rest d child hget hbrace hfield]
  congr 1
  have hw := typeWord_tests n ty
  simp only [setProperty, h_type, if_true, hw.1, hw.2.1, hw.2.2]
  cases ty <;> simp

/-- The name line sets the name. -/
theorem step_name (junk : nodeData) (fuel n : Nat) (V rest : List Char)
    (d : nodeData) (child : Tree) (hV : goodText V) (hne : V ≠ []) (h255 : V.length ≤ 255)
    (hlen : (quotedLine n "name".toList V).length ≤ 1023) :
    loadProperties junk (fuel + 1) (quotedLine n "name".toList V ++ rest) d child
      = loadProperties junk fuel rest { d with name := V } child := by
  have hget := fgets_quotedLine n "name".toList V rest (by decide) hV.2.1 hlen
  have hbrace := quotedLine_brace n "name".toList V (by decide) hV.2.2
  have ht := quotedLine_tests n "name".toList _ (by decide) hV.1
  have h_type : strstr (quotedLine n "name".toList V) "\"type\":".toList = false := ht.1.trans (by decide)
  have h_name : strstr (quotedLine n "name".toList V) "\"name\":".toList = true := ht.2.1.trans (by decide)
  have h_size : strstr (quotedLine n "name".toList V) "\"size\":".toList = false := ht.2.2.1.trans (by decide)
  have h_date : strstr (quotedLine n "name".toList V) "\"date\":".toList = false := ht.2.2.2.1.trans (by decide)
  have h_symlinkTarget : strstr (quotedLine n "name".toList V) "\"symlinkTarget\":".toList = false := ht.2.2.2.2.1.trans (by decide)
  have h_content : strstr (quotedLine n "name".toList V) "\"content\":".toList = false := ht.2.2.2.2.2.1.trans (by decide)
  have h_children : strstr (quotedLine n "name".toList V) "\"children\":".toList = false := ht.2.2.2.2.2.2.trans (by decide)
  have hfield : isFieldLine (quotedLine n "name".toList V) = true := by
    simp only [isFieldLine, h_type, h_name, h_size, h_date, h_symlinkTarget, h_content,
      Bool.or_true, Bool.true_or, Bool.or_false, Bool.false_or]
  rw [loadProperties_field junk fuel _ _ rest d child hget hbrace hfield]
  congr 1
  have hs := quotedLine_sscanf n 255 "name".toList V hV.1 hne h255
  rw [← key_name] at hs
  simp only [setProperty, h_type, h_name, if_true, Bool.false_eq_true, if_false, hs, Option.getD_some]

/-- The symlinkTarget line sets the target. -/
theorem step_symlinkTarget (junk : nodeData) (fuel n : Nat) (V rest : List Char)
    (d : nodeData) (child : Tree) (hV : goodText V) (hne : V ≠ []) (h255 : V.length ≤ 255)
    (hlen : (quotedLine n "symlinkTarget".toList V).length ≤ 1023) :
    loadProperties junk (fuel + 1) (quotedLine n "symlinkTarget".toList V ++ rest) d child
      = loadProperties junk fuel rest { d with symlinkTarget := some V } child := by
  have hget := fgets_quotedLine n "symlinkTarget".toList V rest (by decide) hV.2.1 hlen
  have hbrace := quotedLine_brace n "symlinkTarget".toList V (by decide) hV.2.2
  have ht := quotedLine_tests n "symlinkTarget".toList _ (by decide) hV.1
  have h_type : strstr (quotedLine n "symlinkTarget".toList V) "\"type\":".toList = false := ht.1.trans (by decide)
  have h_name : strstr (quotedLine n "symlinkTarget".toList V) "\"name\":".toList = false := ht.2.1.trans (by decide)
  have h_size : strstr (quotedLine n "symlinkTarget".toList V) "\"size\":".toList = false := ht.2.2.1.trans (by decide)
  have h_date : strstr (quotedLine n "symlinkTarget".toList V) "\"date\":".toList = false := ht.2.2.2.1.trans (by decide)
  have h_symlinkTarget : strstr (quotedLine n "symlinkTarget".toList V) "\"symlinkTarget\":".toList = true := ht.2.2.2.2.1.trans (by decide)
  have h_content : strstr (quotedLine n "symlinkTarget".toList V) "\"content\":".toList = false := ht.2.2.2.2.2.1.trans (by decide)
  have h_children : strstr (quotedLine n "symlinkTarget".toList V) "\"children\":".toList = false := ht.2.2.2.2.2.2.trans (by decide)
  have hfield : isFieldLine (quotedLine n "symlinkTarget".toList V) = true := by
    simp only [isFieldLine, h_type, h_name, h_size, h_date, h_symlinkTarget, h_content,
      Bool.or_true, Bool.true_or, Bool.or_false, Bool.false_or]
  rw [loadProperties_field junk fuel _ _ rest d child hget hbrace hfield]
  congr 1
  have hs := quotedLine_sscanf n 255 "symlinkTarget".toList V hV.1 hne h255
  rw [← key_symlinkTarget] at hs
  simp only [setProperty, h_type, h_name, h_size, h_date, h_symlinkTarget, if_true,
    Bool.false_eq_true, if_false, hs, Option.getD_some]

/-- The content line sets the content. -/
theorem step_content (junk : nodeData) (fuel n : Nat) (V rest : List Char)
    (d : nodeData) (child : Tree) (hV : goodText V) (hne : V ≠ [])
    (hlen : (quotedLine n "content".toList V).length ≤ 1023) :
    loadProperties junk (fuel + 1) (quotedLine n "content".toList V ++ rest) d child
      = loadProperties junk fuel rest { d with content := some V } child := by
  have hget := fgets_quotedLine n "content".toList V rest (by decide) hV.2.1 hlen
  have hbrace := quotedLine_brace n "content".toList V (by decide) hV.2.2
  have ht := quotedLine_tests n "content".toList _ (by decide) hV.1
  have h_type : strstr (quotedLine n "content".toList V) "\"type\":".toList = false := ht.1.trans (by decide)
  have h_name : strstr (quotedLine n "content".toList V) "\"name\":".toList = false := ht.2.1.trans (by decide)
  have h_size : strstr (quotedLine n "content".toList V) "\"size\":".toList = false := ht.2.2.1.trans (by decide)
  have h_date : strstr (quotedLine n "content".toList V) "\"date\":".toList = false := ht.2.2.2.1.trans (by decide)
  have h_symlinkTarget : strstr (quotedLine n "content".toList V) "\"symlinkTarget\":".toList = false := ht.2.2.2.2.1.trans (by decide)
  have h_content : strstr (quotedLine n "content".toList V) "\"content\":".toList = true := ht.2.2.2.2.2.1.trans (by decide)
  have h_children : strstr (quotedLine n "content".toList V) "\"children\":".toList = false := ht.2.2.2.2.2.2.trans (by decide)
  have hfield : isFieldLine (quotedLine n "content".toList V) = true := by
    simp only [isFieldLine, h_type, h_name, h_size, h_date, h_symlinkTarget, h_content,
      Bool.or_true, Bool.true_or, Bool.or_false, Bool.false_or]
  rw [loadProperties_field junk fuel _ _ rest d child hget hbrace hfield]
  congr 1
  have h1023 : V.length ≤ 1023 := by
    rw [quotedLine_length] at hlen
    omega
  have hs := quotedLine_sscanf n 1023 "content".toList V hV.1 hne h1023
  rw [← key_content] at hs
  simp only [setProperty, h_type, h_name, h_size, h_date, h_symlinkTarget, h_content, if_true,
    Bool.false_eq_true, if_false, hs, Option.getD_some]

theorem printNat_plain (v : Nat) :
    '"' ∉ (printNat v ++ [',']) ++ ['\n'] ∧ '\n' ∉ printNat v ++ [','] ∧
    '\x7d' ∉ (printNat v ++ [',']) ++ ['\n'] := by
  have h := (printNat_spec v).2.1.not_mem
  simp [h.1, h.2.1, h.2.2]

theorem printInt_plain (i : Int) :
    '"' ∉ (printInt i ++ [',']) ++ ['\n'] ∧ '\n' ∉ printInt i ++ [','] ∧
    '\x7d' ∉ (printInt i ++ [',']) ++ ['\n'] := by
  have h := (printNat_spec i.natAbs).2.1.not_mem
  unfold printInt
  split <;> simp [h.1, h.2.1, h.2.2]

/-- The size line sets the size. -/
theorem step_size (junk : nodeData) (fuel n v : Nat) (rest : List Char)
    (d : nodeData) (child : Tree) (hv : v < 2 ^ 64)
    (hlen : (plainLine n "size".toList ((printNat v ++ [',']) ++ ['\n'])).length ≤ 1023) :
    loadProperties junk (fuel + 1) (plainLine n "size".toList ((printNat v ++ [',']) ++ ['\n']) ++ rest) d child
      = loadProperties junk fuel rest { d with size := v } child := by
  have hp := printNat_plain v
  have hget := fgets_plainLine n "size".toList (printNat v ++ [',']) rest (by decide) hp.2.1 hlen
  have hbrace := plainLine_brace n "size".toList _ (by decide) hp.2.2
  have ht := plainLine_tests n "size".toList _ (by decide) hp.1
  have h_type : strstr (plainLine n "size".toList ((printNat v ++ [',']) ++ ['\n'])) "\"type\":".toList = false := ht.1.trans (by decide)
  have h_name : strstr (plainLine n "size".toList ((printNat v ++ [',']) ++ ['\n'])) "\"name\":".toList = false := ht.2.1.trans (by decide)
  have h_size : strstr (plainLine n "size".toList ((printNat v ++ [',']) ++ ['\n'])) "\"size\":".toList = true := ht.2.2.1.trans (by decide)
  have h_date : strstr (plainLine n "size".toList ((printNat v ++ [',']) ++ ['\n'])) "\"date\":".toList = false := ht.2.2.2.1.trans (by decide)
  have h_symlinkTarget : strstr (plainLine n "size".toList ((printNat v ++ [',']) ++ ['\n'])) "\"symlinkTarget\":".toList = false := ht.2.2.2.2.1.trans (by decide)
  have h_content : strstr (plainLine n "size".toList ((printNat v ++ [',']) ++ ['\n'])) "\"content\":".toList = false := ht.2.2.2.2.2.1.trans (by decide)
  have h_children : strstr (plainLine n "size".toList ((printNat v ++ [',']) ++ ['\n'])) "\"children\":".toList = false := ht.2.2.2.2.2.2.trans (by decide)
  have hfield : isFieldLine (plainLine n "size".toList ((printNat v ++ [',']) ++ ['\n'])) = true := by
    simp only [isFieldLine, h_type, h_name, h_size, h_date, h_symlinkTarget, h_content,
      Bool.or_true, Bool.true_or, Bool.or_false, Bool.false_or]
  rw [loadProperties_field junk fuel _ _ rest d child hget hbrace hfield]
  congr 1
  have hk := plainLine_skip n "size".toList ((printNat v ++ [',']) ++ ['\n'])
  rw [← key_size] at hk
  have hsc : scanInteger (' ' :: ((printNat v ++ [',']) ++ ['\n'])) = some (Int.ofNat v) := by
    have := scanInteger_printNat v ',' ['\n'] (by decide)
    simpa using this
  have hs : sscanfSize (plainLine n "size".toList ((printNat v ++ [',']) ++ ['\n'])) = some v := by
    unfold sscanfSize
    rw [hk]
    simp only [Option.some_bind, hsc, Option.map_some', Option.some.injEq]
    have : (Int.ofNat v) % (2 ^ 64 : Int) = Int.ofNat v :=
      Int.emod_eq_of_lt (Int.ofNat_nonneg v) (by
        have : (v : Int) < 2 ^ 64 := by exact_mod_cast hv
        exact this)
    rw [this]
    rfl
  simp only [setProperty, h_type, h_name, h_size, if_true, Bool.false_eq_true, if_false, hs,
    Option.getD_some]

/-- The date line sets the date. -/
theorem step_date (junk : nodeData) (fuel n : Nat) (i : Int) (rest : List Char)
    (d : nodeData) (child : Tree) (hlo : -(2 ^ 63 : Int) ≤ i) (hhi : i < 2 ^ 63)
    (hlen : (plainLine n "date".toList ((printInt i ++ [',']) ++ ['\n'])).length ≤ 1023) :
    loadProperties junk (fuel + 1) (plainLine n "date".toList ((printInt i ++ [',']) ++ ['\n']) ++ rest) d child
      = loadProperties junk fuel rest { d with date := i } child := by
  have hp := printInt_plain i
  have hget := fgets_plainLine n "date".toList (printInt i ++ [',']) rest (by decide) hp.2.1 hlen
  have hbrace := plainLine_brace n "date".toList _ (by decide) hp.2.2
  have ht := plainLine_tests n "date".toList _ (by decide) hp.1
  have h_type : strstr (plainLine n "date".toList ((printInt i ++ [',']) ++ ['\n'])) "\"type\":".toList = false := ht.1.trans (by decide)
  have h_name : strstr (plainLine n "date".toList ((printInt i ++ [',']) ++ ['\n'])) "\"name\":".toList = false := ht.2.1.trans (by decide)
  have h_size : strstr (plainLine n "date".toList ((printInt i ++ [',']) ++ ['\n'])) "\"size\":".toList = false := ht.2.2.1.trans (by decide)
  have h_date : strstr (plainLine n "date".toList ((printInt i ++ [',']) ++ ['\n'])) "\"date\":".toList = true := ht.2.2.2.1.trans (by decide)
  have h_symlinkTarget : strstr (plainLine n "date".toList ((printInt i ++ [',']) ++ ['\n'])) "\"symlinkTarget\":".toList = false := ht.2.2.2.2.1.trans (by decide)
  have h_content : strstr (plainLine n "date".toList ((printInt i ++ [',']) ++ ['\n'])) "\"content\":".toList = false := ht.2.2.2.2.2.1.trans (by decide)
  have h_children : strstr (plainLine n "date".toList ((printInt i ++ [',']) ++ ['\n'])) "\"children\":".toList = false := ht.2.2.2.2.2.2.trans (by decide)
  have hfield : isFieldLine (plainLine n "date".toList ((printInt i ++ [',']) ++ ['\n'])) = true := by
    simp only [isFieldLine, h_type, h_name, h_size, h_date, h_symlinkTarget, h_content,
      Bool.or_true, Bool.true_or, Bool.or_false, Bool.false_or]
  rw [loadProperties_field junk fuel _ _ rest d child hget hbrace hfield]
  congr 1
  have hk := plainLine_skip n "date".toList ((printInt i ++ [',']) ++ ['\n'])
  rw [← key_date] at hk
  have hsc : scanInteger (' ' :: ((printInt i ++ [',']) ++ ['\n'])) = some i := by
    have := scanInteger_printInt i ',' ['\n'] (by decide)
    simpa using this
  have hs : sscanfDate (plainLine n "date".toList ((printInt i ++ [',']) ++ ['\n'])) = some i := by
    unfold sscanfDate
    rw [hk]
    simp only [Option.some_bind, hsc, Option.map_some', Option.some.injEq]
    omega
  simp only [setProperty, h_type, h_name, h_size, h_date, if_true, Bool.false_eq_true, if_false,
    hs, Option.getD_some]

/-- The children line loads the children and sets the item count. -/
theorem step_children (junk : nodeData) (fuel n : Nat) (rest : List Char)
    (d : nodeData) (child : Tree)
    (hlen : (plainLine n "children".toList (['['] ++ ['\n'])).length ≤ 1023) :
    loadProperties junk (fuel + 1) (plainLine n "children".toList (['['] ++ ['\n']) ++ rest) d child
      = match loadSiblings junk fuel rest [] with
        | none => none
        | some (kids, rest2) =>
          loadProperties junk fuel rest2
            { d with numberOfItems := countFiles (Tree.node d (chainOf kids) Tree.null) }
            (chainOf kids) := by
  have hget := fgets_plainLine n "children".toList ['['] rest (by decide) (by decide) hlen
  have hbrace := plainLine_brace n "children".toList (['['] ++ ['\n']) (by decide) (by decide)
  have ht := plainLine_tests n "children".toList (['['] ++ ['\n']) (by decide) (by decide)
  have h_type : strstr (plainLine n "children".toList (['['] ++ ['\n'])) "\"type\":".toList = false := ht.1.trans (by decide)
  have h_name : strstr (plainLine n "children".toList (['['] ++ ['\n'])) "\"name\":".toList = false := ht.2.1.trans (by decide)
  have h_size : strstr (plainLine n "children".toList (['['] ++ ['\n'])) "\"size\":".toList = false := ht.2.2.1.trans (by decide)
  have h_date : strstr (plainLine n "children".toList (['['] ++ ['\n'])) "\"date\":".toList = false := ht.2.2.2.1.trans (by decide)
  have h_symlinkTarget : strstr (plainLine n "children".toList (['['] ++ ['\n'])) "\"symlinkTarget\":".toList = false := ht.2.2.2.2.1.trans (by decide)
  have h_content : strstr (plainLine n "children".toList (['['] ++ ['\n'])) "\"content\":".toList = false := ht.2.2.2.2.2.1.trans (by decide)
  have h_children : strstr (plainLine n "children".toList (['['] ++ ['\n'])) "\"children\":".toList = true := ht.2.2.2.2.2.2.trans (by decide)
  have hfield : isFieldLine (plainLine n "children".toList (['['] ++ ['\n'])) = false := by
    simp only [isFieldLine, h_type, h_name, h_size, h_date, h_symlinkTarget, h_content,
      Bool.or_false]
  exact loadProperties_children junk fuel _ _ rest d child hget hbrace hfield h_children

/-! ### The outer loop, line by line -/

theorem mem_indent_cons {c a : Char} {n : Nat} {S : List Char} (hc : c ≠ ' ') :
    c ∈ indent n ++ a :: S ↔ c = a ∨ c ∈ S := by
  rw [mem_indent_append hc, List.mem_cons]

/-- The line with the opening brace. -/
theorem step_open (junk : nodeData) (fuel n : Nat) (rest : List Char)
    (acc : List (nodeData × Tree)) (hlen : (indent n ++ "\x7b\n".toList).length ≤ 1023) :
    loadSiblings junk (fuel + 1) (indent n ++ '\x7b' :: '\n' :: rest) acc
      = match loadProperties junk fuel rest
            { junk with symlinkTarget := none, numberOfItems := 0 } Tree.null with
        | none => none
        | some (d, child, rest2) => loadSiblings junk fuel rest2 (acc ++ [(d, child)]) := by
  have hnl : '\n' ∉ indent n ++ ['\x7b'] := by
    rw [mem_indent_cons (by decide)]
    decide
  have hl : (indent n ++ ['\x7b']).length + 1 ≤ 1023 := by
    simp [indent_length] at hlen ⊢
    omega
  have hget := fgets_line (indent n ++ ['\x7b']) rest hnl hl
  rw [List.append_assoc] at hget
  have h1 : strstr ((indent n ++ ['\x7b']) ++ ['\n']) [']'] = false := by
    rw [strstr_single, List.append_assoc, decide_eq_false_iff_not, mem_indent_append (by decide)]
    decide
  have h2 : strstr ((indent n ++ ['\x7b']) ++ ['\n']) ['\x7b'] = true := by
    rw [strstr_single, List.append_assoc, decide_eq_true_iff, mem_indent_append (by decide)]
    decide
  exact loadSiblings_open junk fuel _ _ rest acc hget h1 h2

/-- The empty line written for a node without children. -/
theorem step_blank (junk : nodeData) (fuel : Nat) (rest : List Char)
    (acc : List (nodeData × Tree)) :
    loadSiblings junk (fuel + 1) ('\n' :: rest) acc = loadSiblings junk fuel rest acc := by
  have hget := fgets_line [] rest (by simp) (by decide)
  exact loadSiblings_skip junk fuel _ _ rest acc hget (by decide) (by decide)

/-- The line with the closing bracket. -/
theorem step_bracket (junk : nodeData) (fuel n : Nat) (rest : List Char)
    (acc : List (nodeData × Tree)) (hlen : (indent n ++ "]\n".toList).length ≤ 1023) :
    loadSiblings junk (fuel + 1) (indent n ++ ']' :: '\n' :: rest) acc = some (acc, rest) := by
  have hnl : '\n' ∉ indent n ++ [']'] := by
    rw [mem_indent_cons (by decide)]
    decide
  have hl : (indent n ++ [']']).length + 1 ≤ 1023 := by
    simp [indent_length] at hlen ⊢
    omega
  have hget := fgets_line (indent n ++ [']']) rest hnl hl
  rw [List.append_assoc] at hget
  have h1 : strstr ((indent n ++ [']']) ++ ['\n']) [']'] = true := by
    rw [strstr_single, List.append_assoc, decide_eq_true_iff, mem_indent_append (by decide)]
    decide
  exact loadSiblings_bracket junk fuel _ _ rest acc hget h1

/-- The line with the closing brace, followed by a newline, by a comma and a
newline, or by the end of the file. -/
theorem step_close (junk : nodeData) (fuel n : Nat) (tail rest : List Char)
    (d : nodeData) (child : Tree)
    (htail : tail = '\n' :: rest ∨ tail = ',' :: '\n' :: rest ∨ (tail = [] ∧ rest = []))
    (hlen : (indent n ++ "\x7d,\n".toList).length ≤ 1023) :
    loadProperties junk (fuel + 1) (indent n ++ '\x7d' :: tail) d child
      = some (d, child, rest) := by
  have hl : 2 * n + 3 ≤ 1023 := by
    simp [indent_length] at hlen
    omega
  rcases htail with h | h | ⟨h, h0⟩
  · subst h
    have hnl : '\n' ∉ indent n ++ ['\x7d'] := by
      rw [mem_indent_cons (by decide)]
      decide
    have hget := fgets_line (indent n ++ ['\x7d']) rest hnl (by simp [indent_length]; omega)
    rw [List.append_assoc] at hget
    have h1 : strstr ((indent n ++ ['\x7d']) ++ ['\n']) ['\x7d'] = true := by
      rw [strstr_single, List.append_assoc, decide_eq_true_iff, mem_indent_append (by decide)]
      decide
    exact loadProperties_close junk fuel _ _ rest d child hget h1
  · subst h
    have hnl : '\n' ∉ indent n ++ ['\x7d', ','] := by
      rw [mem_indent_cons (by decide)]
      decide
    have hget := fgets_line (indent n ++ ['\x7d', ',']) rest hnl (by simp [indent_length]; omega)
    rw [List.append_assoc] at hget
    have h1 : strstr ((indent n ++ ['\x7d', ',']) ++ ['\n']) ['\x7d'] = true := by
      rw [strstr_single, List.append_assoc, decide_eq_true_iff, mem_indent_append (by decide)]
      decide
    exact loadProperties_close junk fuel _ _ rest d child hget h1
  · subst h
    subst h0
    have hnl : '\n' ∉ indent n ++ ['\x7d'] := by
      rw [mem_indent_cons (by decide)]
      decide
    have hget := fgets_last (indent n ++ ['\x7d']) hnl (by simp)
      (by simp [indent_length]; omega)
    have h1 : strstr (indent n ++ ['\x7d']) ['\x7d'] = true := by
      rw [strstr_single, decide_eq_true_iff, mem_indent_append (by decide)]
      decide
    exact loadProperties_close junk fuel _ _ [] d child hget h1

/-- The text of a block with the text that follows it, line by line. -/
theorem blockText_append (depth : Nat) (d : nodeData) (kids X : List Char) :
    blockText depth d kids ++ X
      = indent depth ++ '\x7b' :: '\n' ::
          (typeLine depth d ++ (nameLine depth d ++ (sizeLine depth d ++ (dateLine depth d ++
          (contentLine depth d ++ (symlinkLine depth d ++ (childrenLine depth ++
          (kids ++ '\n' :: (indent (depth + 1) ++ ']' :: '\n' ::
          (indent depth ++ '\x7d' :: X)))))))))) := by
  simp [blockText, List.append_assoc]

/-! ### A whole block -/

theorem NodeOK.lines {depth : Nat} {d : nodeData} (hd : NodeOK depth d) :
    (indent depth ++ "\x7b\n".toList).length ≤ 1023 ∧ (typeLine depth d).length ≤ 1023 ∧
    (nameLine depth d).length ≤ 1023 ∧ (sizeLine depth d).length ≤ 1023 ∧
    (dateLine depth d).length ≤ 1023 ∧ (contentLine depth d).length ≤ 1023 ∧
    (symlinkLine depth d).length ≤ 1023 ∧ (childrenLine depth).length ≤ 1023 ∧
    (indent (depth + 1) ++ "]\n".toList).length ≤ 1023 ∧
    (indent depth ++ "\x7d,\n".toList).length ≤ 1023 := by
  have h := hd.2.2.2.2.2.2.2.2
  refine ⟨?_, ?_, ?_, ?_, ?_, ?_, ?_, ?_, ?_, ?_⟩ <;>
  · apply h
    simp [nodeLines]

/-- The inner loop over the text of a node from its type line to its closing
brace, the loader of the children being known to return K. -/
theorem loadProperties_block (junk : nodeData) (e : Nat) (d : nodeData) (kidsText : List Char)
    (K : List (nodeData × Tree)) (hd : NodeOK e d)
    (hkids : ∀ (fuel : Nat) (rest : List Char) (acc : List (nodeData × Tree)),
      (kidsText ++ '\n' :: (indent (e + 1) ++ ']' :: '\n' :: rest)).length < fuel →
      loadSiblings junk fuel (kidsText ++ '\n' :: (indent (e + 1) ++ ']' :: '\n' :: rest)) acc
        = some (acc ++ K, rest))
    (fuel : Nat) (tail rest : List Char)
    (htail : tail = '\n' :: rest ∨ tail = ',' :: '\n' :: rest ∨ (tail = [] ∧ rest = []))
    (hfuel : (typeLine e d ++ (nameLine e d ++ (sizeLine e d ++ (dateLine e d ++
          (contentLine e d ++ (symlinkLine e d ++ (childrenLine e ++
          (kidsText ++ '\n' :: (indent (e + 1) ++ ']' :: '\n' ::
          (indent e ++ '\x7d' :: tail)))))))))).length < fuel) :
    loadProperties junk fuel
        (typeLine e d ++ (nameLine e d ++ (sizeLine e d ++ (dateLine e d ++
          (contentLine e d ++ (symlinkLine e d ++ (childrenLine e ++
          (kidsText ++ '\n' :: (indent (e + 1) ++ ']' :: '\n' ::
          (indent e ++ '\x7d' :: tail))))))))))
        { junk with symlinkTarget := none, numberOfItems := 0 } Tree.null
      = some (loadedData junk d (chainOf K), chainOf K, rest) := by
  obtain ⟨_, hl1, hl2, hl3, hl4, hl5, hl6, hl7, hl8, hl9⟩ := NodeOK.lines hd
  obtain ⟨hname, hnne, hn255, hsize, hdlo, hdhi, hfile, hlink, _⟩ := hd
  have p1 : 1 ≤ (typeLine e d).length := by rw [typeLine_eq, quotedLine_length]; omega
  have p2 : 1 ≤ (nameLine e d).length := by rw [nameLine_eq, quotedLine_length]; omega
  have p3 : 1 ≤ (sizeLine e d).length := by rw [sizeLine_eq, plainLine_length]; omega
  have p4 : 1 ≤ (dateLine e d).length := by rw [dateLine_eq, plainLine_length]; omega
  have p7 : 1 ≤ (childrenLine e).length := by rw [childrenLine_eq, plainLine_length]; omega
  simp only [List.length_append, List.length_cons] at hfuel
  -- the four lines every node has
  obtain ⟨F, rfl⟩ : ∃ F, fuel = F + 4 := ⟨fuel - 4, by omega⟩
  rw [typeLine_eq] at hl1 ⊢
  rw [step_type junk (F + 3) (e + 1) d.type _ _ _ hl1]
  rw [nameLine_eq] at hl2 ⊢
  rw [step_name junk (F + 2) (e + 1) d.name _ _ _ hname hnne hn255 hl2]
  rw [sizeLine_eq] at hl3 ⊢
  rw [step_size junk (F + 1) (e + 1) d.size _ _ _ hsize hl3]
  rw [dateLine_eq] at hl4 ⊢
  rw [step_date junk F (e + 1) d.date _ _ _ hdlo hdhi hl4]
  rw [childrenLine_eq] at hl7
  -- the line that depends on the type
  cases ht : d.type with
  | Folder =>
    have c5 : contentLine e d = [] := contentLine_nil e d (by simp [ht])
    have c6 : symlinkLine e d = [] := symlinkLine_nil e d (by simp [ht])
    rw [c5, c6] at hfuel ⊢
    simp only [List.nil_append, List.length_nil] at hfuel ⊢
    obtain ⟨G, rfl⟩ : ∃ G, F = G + 2 := ⟨F - 2, by omega⟩
    rw [childrenLine_eq, step_children junk (G + 1) (e + 1) _ _ _ hl7]
    rw [hkids (G + 1) _ [] (by simp only [List.length_append, List.length_cons]; omega)]
    simp only [List.nil_append]
    rw [step_close junk G e tail rest _ _ htail hl9]
    simp [loadedData, countFiles, ht]
  | File =>
    obtain ⟨hcs, hcg⟩ := hfile ht
    obtain ⟨c, hc⟩ := Option.isSome_iff_exists.mp hcs
    obtain ⟨hcgood, hcne⟩ := hcg c (by simp [hc])
    have c5 := contentLine_eq e d c ht hc
    have c6 : symlinkLine e d = [] := symlinkLine_nil e d (by simp [ht])
    rw [c5] at hl5
    have p5 : 1 ≤ (quotedLine (e + 1) "content".toList c).length := by
      rw [quotedLine_length]; omega
    rw [c5, c6] at hfuel ⊢
    simp only [List.nil_append, List.length_nil] at hfuel ⊢
    obtain ⟨G, rfl⟩ : ∃ G, F = G + 3 := ⟨F - 3, by omega⟩
    rw [step_content junk (G + 2) (e + 1) c _ _ _ hcgood hcne hl5]
    rw [childrenLine_eq, step_children junk (G + 1) (e + 1) _ _ _ hl7]
    rw [hkids (G + 1) _ [] (by simp only [List.length_append, List.length_cons]; omega)]
    simp only [List.nil_append]
    rw [step_close junk G e tail rest _ _ htail hl9]
    simp [loadedData, countFiles, ht, hc]
  | Symlink =>
    obtain ⟨hss, hsg⟩ := hlink ht
    obtain ⟨s, hs⟩ := Option.isSome_iff_exists.mp hss
    obtain ⟨hsgood, hsne, hs255⟩ := hsg s (by simp [hs])
    have c5 : contentLine e d = [] := contentLine_nil e d (by simp [ht])
    have c6 := symlinkLine_eq e d s ht hs
    rw [c6] at hl6
    have p6 : 1 ≤ (quotedLine (e + 1) "symlinkTarget".toList s).length := by
      rw [quotedLine_length]; omega
    rw [c5, c6] at hfuel ⊢
    simp only [List.nil_append, List.length_nil] at hfuel ⊢
    obtain ⟨G, rfl⟩ : ∃ G, F = G + 3 := ⟨F - 3, by omega⟩
    rw [step_symlinkTarget junk (G + 2) (e + 1) s _ _ _ hsgood hsne hs255 hl6]
    rw [childrenLine_eq, step_children junk (G + 1) (e + 1) _ _ _ hl7]
    rw [hkids (G + 1) _ [] (by simp only [List.length_append, List.length_cons]; omega)]
    simp only [List.nil_append]
    rw [step_close junk G e tail rest _ _ htail hl9]
    simp [loadedData, countFiles, ht, hs]

/-! ### A whole chain and the round trip -/

theorem loadable_node {e : Nat} {d : nodeData} {c n : Tree}
    (h : loadable e (Tree.node d c n) = true) :
    NodeOK e d ∧ loadable (e + 1) c = true ∧ loadable e n = true := by
  simpa [loadable, and_assoc] using h

/-- The outer loop over the text written for a chain, up to the line that
closes the children array. -/
theorem loadSiblings_saveChain (junk : nodeData) : ∀ (t : Tree) (e : Nat),
    loadable e t = true → (indent e ++ "]\n".toList).length ≤ 1023 →
    ∀ (fuel : Nat) (rest : List Char) (acc : List (nodeData × Tree)),
      (saveChain t e ++ '\n' :: (indent e ++ ']' :: '\n' :: rest)).length < fuel →
      loadSiblings junk fuel (saveChain t e ++ '\n' :: (indent e ++ ']' :: '\n' :: rest)) acc
        = some (acc ++ loadedList junk t, rest) := by
  intro t
  induction t with
  | null =>
    intro e _ hb fuel rest acc hfuel
    simp only [saveChain, List.nil_append, List.length_cons, List.length_append] at hfuel ⊢
    obtain ⟨F, rfl⟩ : ∃ F, fuel = F + 2 := ⟨fuel - 2, by omega⟩
    rw [step_blank, step_bracket junk F e rest acc hb]
    simp [loadedList]
  | node d c n ihc ihn =>
    intro e hl hb fuel rest acc hfuel
    obtain ⟨hd, hc, hn⟩ := loadable_node hl
    obtain ⟨ho, _, _, _, _, _, _, _, hl8, _⟩ := NodeOK.lines hd
    have hkids := ihc (e + 1) hc hl8
    cases n with
    | null =>
      have e1 : saveChain (Tree.node d c Tree.null) e ++ '\n' :: (indent e ++ ']' :: '\n' :: rest)
          = blockText e d (saveChain c (e + 1)) ++ '\n' :: (indent e ++ ']' :: '\n' :: rest) := by
        simp [saveChain]
      rw [e1] at hfuel ⊢
      rw [blockText_append] at hfuel ⊢
      simp only [List.length_append, List.length_cons] at hfuel
      obtain ⟨F, rfl⟩ : ∃ F, fuel = F + 2 := ⟨fuel - 2, by omega⟩
      rw [step_open junk (F + 1) e _ acc ho]
      rw [loadProperties_block junk e d (saveChain c (e + 1)) (loadedList junk c) hd hkids (F + 1)
        ('\n' :: (indent e ++ ']' :: '\n' :: rest)) (indent e ++ ']' :: '\n' :: rest)
        (Or.inl rfl) (by simp only [List.length_append, List.length_cons]; omega)]
      simp only []
      rw [step_bracket junk F e rest _ hb]
      simp [loadedList]
    | node d2 c2 n2 =>
      have e1 : saveChain (Tree.node d c (Tree.node d2 c2 n2)) e
            ++ '\n' :: (indent e ++ ']' :: '\n' :: rest)
          = blockText e d (saveChain c (e + 1)) ++ ',' :: '\n' ::
              (saveChain (Tree.node d2 c2 n2) e ++ '\n' :: (indent e ++ ']' :: '\n' :: rest)) := by
        simp [saveChain]
      rw [e1] at hfuel ⊢
      rw [blockText_append] at hfuel ⊢
      simp only [List.length_append, List.length_cons] at hfuel
      obtain ⟨F, rfl⟩ : ∃ F, fuel = F + 1 := ⟨fuel - 1, by omega⟩
      rw [step_open junk F e _ acc ho]
      rw [loadProperties_block junk e d (saveChain c (e + 1)) (loadedList junk c) hd hkids F
        (',' :: '\n' :: (saveChain (Tree.node d2 c2 n2) e
          ++ '\n' :: (indent e ++ ']' :: '\n' :: rest)))
        (saveChain (Tree.node d2 c2 n2) e ++ '\n' :: (indent e ++ ']' :: '\n' :: rest))
        (Or.inr (Or.inl rfl)) (by simp only [List.length_append, List.length_cons]; omega)]
      simp only []
      rw [ihn e hn hb F rest _ (by simp only [List.length_append, List.length_cons]; omega)]
      simp [loadedList]

theorem sameData_loadedData (junk d : nodeData) (kids : Tree) :
    sameData d (loadedData junk d kids) := by
  refine ⟨rfl, rfl, rfl, rfl, ?_, ?_⟩
  · intro h; simp [loadedData, h]
  · intro h; simp [loadedData, h]

theorem sameChain_loadedList (junk : nodeData) : ∀ t : Tree,
    sameChain t (chainOf (loadedList junk t)) = true := by
  intro t
  induction t with
  | null => rfl
  | node d c n ihc ihn =>
    simp [loadedList, chainOf, sameChain, sameData_loadedData, ihc, ihn]

/-- What loadDirectoryFromFile returns for the text of a node that is as the
loader needs it. -/
theorem loadDirectoryFromFile_saved (junk d : nodeData) (child next : Tree) (fuel : Nat)
    (hd : NodeOK 0 d) (hc : loadable 1 child = true)
    (hfuel : (saveDirectoryToFile (Tree.node d child next) 0).length < fuel) :
    loadDirectoryFromFile junk fuel (saveDirectoryToFile (Tree.node d child next) 0)
      = some (Tree.node (loadedData junk d (chainOf (loadedList junk child)))
          (chainOf (loadedList junk child)) Tree.null, []) := by
  obtain ⟨ho, _, _, _, _, _, _, _, hl8, _⟩ := NodeOK.lines hd
  have hkids := loadSiblings_saveChain junk child 1 hc hl8
  have e1 : saveDirectoryToFile (Tree.node d child next) 0
      = blockText 0 d (saveChain child 1) ++ [] := by
    simp [saveDirectoryToFile]
  rw [e1] at hfuel ⊢
  rw [blockText_append] at hfuel ⊢
  simp only [List.length_append, List.length_cons] at hfuel
  obtain ⟨F, rfl⟩ : ∃ F, fuel = F + 2 := ⟨fuel - 2, by omega⟩
  unfold loadDirectoryFromFile
  rw [step_open junk (F + 1) 0 _ [] ho]
  rw [loadProperties_block junk 0 d (saveChain child 1) (loadedList junk child) hd hkids (F + 1)
    [] [] (Or.inr (Or.inr ⟨rfl, rfl⟩))
    (by simp only [List.length_append, List.length_cons]; omega)]
  simp only []
  rw [loadSiblings_eof]
  simp [chainOf]

/-- C1 as worded fails: the tree with the folder a} holding the file b has no
double quote and no newline in any string, its text has fewer than 400
characters and the loader returns with fuel 400, but the loaded root has the
two children (nameless folder, b) in place of the folder a} with its child b;
and in the tree with a File of empty name the loaded File carries whatever the
name buffer held. -/
theorem roundTrip_fails_on_closing_brace :
    plainTree treeBrace = true ∧
    (saveDirectoryToFile treeBrace 0).length < 400 ∧
    (loadDirectoryFromFile junkData 400 (saveDirectoryToFile treeBrace 0)).isSome = true ∧
    roundTrips junkData 400 treeBrace = false ∧
    plainTree treeNoName = true ∧
    (saveDirectoryToFile treeNoName 0).length < 400 ∧
    (loadDirectoryFromFile junkData 400 (saveDirectoryToFile treeNoName 0)).isSome = true ∧
    roundTrips junkData 400 treeNoName = false := by
  decide!

/-- C1 as amended: when the node and every node below it have a name that is
not empty and at most 255 characters long, a File has a content that is present
and not empty, a Symlink has a target that is present, not empty and at most
255 characters long, none of these strings holds a double quote, a newline or a
closing brace, size and date fit size_t and long, and no written line is
longer than 1023 characters, then loadDirectoryFromFile, given more fuel than
the text has characters, returns for the text of saveDirectoryToFile one node
with the same kind, name, size, date, File content and Symlink target, over
children chains with the same nodes in the same order, and has read the whole
text. -/
theorem roundTrip_of_loadable (junk d : nodeData) (child next : Tree) (fuel : Nat)
    (hd : NodeOK 0 d) (hc : loadable 1 child = true)
    (hfuel : (saveDirectoryToFile (Tree.node d child next) 0).length < fuel) :
    roundTrips junk fuel (Tree.node d child next) = true ∧
    ∃ e child2, loadDirectoryFromFile junk fuel (saveDirectoryToFile (Tree.node d child next) 0)
        = some (Tree.node e child2 Tree.null, []) ∧
      sameData d e ∧ sameChain child child2 = true := by
  have h := loadDirectoryFromFile_saved junk d child next fuel hd hc hfuel
  refine ⟨?_, _, _, h, sameData_loadedData junk d _, sameChain_loadedList junk child⟩
  simp [roundTrips, h, sameData_loadedData, sameChain_loadedList]

/-- C1 as amended, on the tree with docs, note.txt, link and b. -/
theorem roundTrip_of_loadable_witness : roundTrips junkData 1000 treeDocs = true :=
  (roundTrip_of_loadable junkData
    { type := nodeType.Folder, name := ['/'], numberOfItems := 3, size := 0,
      date := 1700000000, content := none, symlinkTarget := none }
    (Tree.node { type := nodeType.Folder, name := "docs".toList, numberOfItems := 1, size := 0,
                 date := -5, content := none, symlinkTarget := none }
      (Tree.node { type := nodeType.File, name := "note.txt".toList, numberOfItems := 0,
                   size := 2, date := 12, content := some "hi".toList, symlinkTarget := none }
        Tree.null
        (Tree.node { type := nodeType.Symlink, name := "link".toList, numberOfItems := 0,
                     size := 0, date := 13, content := none,
                     symlinkTarget := some "note.txt".toList }
          Tree.null Tree.null))
      (Tree.node { type := nodeType.File, name := ['b'], numberOfItems := 0, size := 3,
                   date := 14, content := some "a b".toList, symlinkTarget := none }
        Tree.null Tree.null))
    Tree.null 1000 (by decide!) (by decide!) (by decide!)).1

/-! ### No-op tokens and symbolic links -/

theorem parsePathLoop_dot (h : Heap) (pre post : List (List Char)) (s : Nat) :
    parsePathLoop h (pre ++ ['.'] :: post) s = parsePathLoop h (pre ++ post) s := by
  rw [parsePathLoop_append, parsePathLoop_append]
  cases hw : parsePathLoop h pre s with
  | none => rfl
  | some r =>
    cases r with
    | none => rfl
    | some p => simp [parsePathLoop]

theorem parsePathLoop_dotdot_root (h : Heap) (root : Nat) (r : node) (rest : List (List Char))
    (hr : h[root]? = some r) (hpar : r.parent = none) :
    parsePathLoop h (['.', '.'] :: rest) root = parsePathLoop h rest root := by
  simp [parsePathLoop, hr, hpar]

theorem parsePathLoop_only_dots (h : Heap) (root : Nat) (r : node)
    (hr : h[root]? = some r) (hpar : r.parent = none) :
    ∀ toks : List (List Char), (∀ t ∈ toks, t = ['.'] ∨ t = ['.', '.']) →
      parsePathLoop h toks root = some (some root)
  | [], _ => rfl
  | t :: toks, hall => by
    have ih := parsePathLoop_only_dots h root r hr hpar toks
      (fun t' ht' => hall t' (List.mem_cons_of_mem _ ht'))
    rcases hall t (List.mem_cons_self _ _) with e | e
    · subst e
      simpa [parsePathLoop] using ih
    · subst e
      rw [parsePathLoop_dotdot_root h root r toks hr hpar]
      exact ih

/-- C11: a token . can be put anywhere in the token list, or written as a
segment anywhere in the path, without changing what parsePath returns; the
token .. at a node without parent stays at that node; and a path in which every
token is . or .., resolved from the root, returns the root. -/
theorem parsePath_noop_tokens (h : Heap) (cur root : Nat) (r : node)
    (hr : h[root]? = some r) (hpar : r.parent = none) :
    (∀ (pre post : List (List Char)) (s : Nat),
      parsePathLoop h (pre ++ ['.'] :: post) s = parsePathLoop h (pre ++ post) s) ∧
    (∀ a b : List Char,
      parsePath h cur (a ++ '/' :: '.' :: '/' :: b) root = parsePath h cur (a ++ '/' :: b) root) ∧
    (∀ b : List Char, b.head? ≠ some '/' →
      parsePath h cur ('.' :: '/' :: b) root = parsePath h cur b root) ∧
    (∀ rest : List (List Char),
      parsePathLoop h (['.', '.'] :: rest) root = parsePathLoop h rest root) ∧
    (∀ path : List Char, (∀ t ∈ pathTokens path, t = ['.'] ∨ t = ['.', '.']) →
      parsePath h root path root = some (some root)) := by
  refine ⟨parsePathLoop_dot h, ?_, ?_, ?_, ?_⟩
  · intro a b
    rw [parsePath_eq_loop, parsePath_eq_loop,
      pathStart_append cur root a ('.' :: '/' :: b) b]
    have t1 : pathTokens (a ++ '/' :: '.' :: '/' :: b)
        = strtokAll '/' a ++ ['.'] :: strtokAll '/' b := by
      simp only [pathTokens]
      have e : '.' :: '/' :: b = ['.'] ++ '/' :: b := rfl
      rw [strtokAll_append, e, strtokAll_token_cons '/' ['.'] b (by decide) (by decide)]
    have t2 : pathTokens (a ++ '/' :: b) = strtokAll '/' a ++ strtokAll '/' b := by
      simp only [pathTokens]
      rw [strtokAll_append]
    rw [t1, t2, parsePathLoop_dot]
  · intro b hb
    rw [parsePath_eq_loop, parsePath_eq_loop]
    have s1 : pathStart cur root ('.' :: '/' :: b) = cur := by simp [pathStart]
    have s2 : pathStart cur root b = cur := by simp [pathStart, hb]
    have t1 : pathTokens ('.' :: '/' :: b) = ['.'] :: strtokAll '/' b := by
      simp only [pathTokens]
      exact strtokAll_token_cons '/' ['.'] b (by decide) (by decide)
    rw [s1, s2, t1]
    simp [parsePathLoop, pathTokens]
  · intro rest
    exact parsePathLoop_dotdot_root h root r rest hr hpar
  · intro path hall
    rw [parsePath_eq_loop]
    have s1 : pathStart root root path = root := by
      unfold pathStart
      split <;> rfl
    rw [s1]
    exact parsePathLoop_only_dots h root r hr hpar _ hall

/-- C11 on the tree with /a/b and /a/c: the path ../././.. from the root. -/
theorem parsePath_noop_tokens_witness :
    parsePath heapTree 0 "../././..".toList 0 = some (some 0) :=
  (parsePath_noop_tokens heapTree 2 0 { mkRoot junk0 0 with numberOfItems := 1, child := some 1 }
    (by decide!) (by decide!)).2.2.2.2 "../././..".toList (by decide!)

theorem set_getElem?_self {h : Heap} {a : Nat} {n : node} (hn : h[a]? = some n) :
    h.set a n = h := by
  apply List.ext_getElem?
  intro i
  by_cases e : a = i
  · subst e
    simp [List.getElem?_set, hn, lt_of_getElem?_eq_some hn]
  · simp [List.getElem?_set, e]

theorem takeWhile_not_sep (t : List Char) (ht : '/' ∉ t) :
    t.takeWhile (fun c => c ≠ '/') = t := by
  rw [List.takeWhile_eq_self_iff]
  intro c hc
  simpa using (fun e : c = '/' => ht (e ▸ hc))

/-- A path of one segment is left as it is by strtok. -/
theorem strtokView_segment (t : List Char) (ht : '/' ∉ t) : strtokView t = t := by
  cases t with
  | nil => rfl
  | cons c cs =>
    have hc : c ≠ '/' := fun e => ht (by simp [e])
    have h1 : (c :: cs).takeWhile (fun c => c = '/') = [] := by simp [List.takeWhile, hc]
    have h2 : (c :: cs).dropWhile (fun c => c = '/') = c :: cs := by simp [List.dropWhile, hc]
    have h3 := takeWhile_not_sep (c :: cs) ht
    simp only [strtokView, h1, h2, h3]
    simp

/-- One name without separator, resolved as a path, is the lookup of the name. -/
theorem parsePath_segment (h : Heap) (F root : Nat) (t : List Char)
    (ht0 : t ≠ []) (ht1 : '/' ∉ t) (ht2 : t ≠ ['.']) (ht3 : t ≠ ['.', '.']) :
    parsePath h F t root = getNodeTypeless h F t := by
  rw [parsePath_eq_loop]
  have hhead : t.head? ≠ some '/' := by
    cases t with
    | nil => simp
    | cons c cs =>
      intro e
      simp at e
      exact ht1 (by simp [e])
  have s1 : pathStart F root t = F := by simp [pathStart, hhead]
  have t1 : pathTokens t = [t] := by
    simp only [pathTokens]
    rw [strtokAll_noDelim '/' t ht1]
    simp [ht0]
  rw [s1, t1]
  simp only [parsePathLoop, ht2, ht3, if_false]
  cases hg : getNodeTypeless h F t with
  | none => rfl
  | some r =>
    cases r with
    | none => rfl
    | some x => rfl

/-- C12: in a folder where the lookup of linkName yields a Symlink with the
target t and the lookup of t yields the File f, t being a name (not empty, no
separator, neither . nor ..), the resolution step of echo, parsePath of the
target from the folder, yields f, as the direct lookup of t does; echo on the
link and echo on t end at the same File f and leave the heap as it was. -/
theorem echo_follows_symlink (h : Heap) (F root link f : Nat) (linkName t : List Char)
    (L : List Nat) (nl nf : node)
    (hL : children h F = some L)
    (hlink : firstNamed h linkName L = some link) (hnl : h[link]? = some nl)
    (hty : nl.type = nodeType.Symlink) (htgt : nl.symlinkTarget = some t)
    (hf : firstNamed h t L = some f) (hnf : h[f]? = some nf) (hfile : nf.type = nodeType.File)
    (ht0 : t ≠ []) (ht1 : '/' ∉ t) (ht2 : t ≠ ['.']) (ht3 : t ≠ ['.', '.']) :
    parsePath h F t root = some (some f) ∧
    getNodeTypeless h F t = some (some f) ∧
    echo h F linkName root = some (h, some f) ∧
    echo h F t root = some (h, some f) := by
  have g1 := getNodeTypeless_spec linkName hL
  have g2 := getNodeTypeless_spec t hL
  rw [hlink] at g1
  rw [hf] at g2
  have hp : parsePath h F t root = some (some f) := by
    rw [parsePath_segment h F root t ht0 ht1 ht2 ht3, g2]
  have hset : setSymlinkTarget (some t) nl = nl := by
    cases nl
    simp only [setSymlinkTarget] at htgt ⊢
    simp [htgt]
  have hu : upd h link (setSymlinkTarget (some (strtokView t))) = some h := by
    rw [strtokView_segment t ht1, upd_eq_some hnl, hset, set_getElem?_self hnl]
  have hne : nf.type ≠ nodeType.Symlink := by rw [hfile]; decide
  refine ⟨hp, g2, ?_, ?_⟩
  · simp [echo, g1, hnl, hty, htgt, hp, hu, hnf, hfile]
  · simp [echo, g2, hnf, hne, hfile]

/-- C12 on the folder with note.txt and link. -/
theorem echo_follows_symlink_witness :
    echo heapLink 0 "link".toList 0 = some (heapLink, some 1) ∧
    echo heapLink 0 "note.txt".toList 0 = some (heapLink, some 1) :=
  let t := echo_follows_symlink heapLink 0 0 2 1 "link".toList "note.txt".toList [1, 2]
    { junk0 with type := nodeType.Symlink, name := "link".toList,
                 symlinkTarget := some "note.txt".toList, parent := some 0,
                 previous := some 1 }
    { junk0 with type := nodeType.File, name := "note.txt".toList, size := 2,
                 content := some "hi".toList, parent := some 0, next := some 2 }
    (by decide!) (by decide!) (by decide!) (by decide!) (by decide!) (by decide!) (by decide!)
    (by decide!) (by decide!) (by decide!) (by decide!) (by decide!)
  ⟨t.2.2.1, t.2.2.2⟩

set_option synthInstance.maxSize 1024
set_option synthInstance.maxHeartbeats 200000

/-! ### createSymlink and mergeDirectories at concrete inputs -/

/-- C13, the code at the failing input: on the tree with /a/b, createSymlink
with the source path a/b returns 0 and appends the Symlink l to the root, but
the stored target is a; with the source path /a/b the stored target is /a;
only a path of one segment, b from inside a, is stored as it was given. -/
theorem createSymlink_stores_first_segment :
    (createSymlink heapTree junk0 5 0 "a/b".toList ['l'] 0).map
        (fun r => (r.2, children r.1 0, (r.1[4]?).map (fun n => (n.type, n.name, n.size,
          n.symlinkTarget))))
      = some (0, some [1, 4], some (nodeType.Symlink, ['l'], 0, some ['a'])) ∧
    (createSymlink heapTree junk0 5 2 "/a/b".toList ['l'] 0).map
        (fun r => (r.2, children r.1 2, (r.1[4]?).map (fun n => n.symlinkTarget)))
      = some (0, some [4], some (some ['/', 'a'])) ∧
    (createSymlink heapTree junk0 5 1 ['b'] ['l'] 0).map
        (fun r => (r.2, children r.1 1, (r.1[4]?).map (fun n => n.symlinkTarget)))
      = some (0, some [2, 3, 4], some (some ['b'])) := by
  decide!

/-- C14, the code at the failing input: the heaps are what mkdir builds; with
the single source child x the merge returns without a prompt, x becomes a child
of d and still is the child of s; with the two source children x and y, whose
names are not in d, the merge prompts (with no answer to read it does not
return), because x still leads to y, and answered with 1 it leaves x and y
children of both folders. -/
theorem merge_keeps_source_children :
    mkdirs [mkRoot junk0 0] [(0, "mkdir d".toList), (0, "mkdir s".toList),
      (2, "mkdir x".toList)] = some heapMerge1 ∧
    (mergeDirectories heapMerge1 1 2 []).map
        (fun r => (children r.1 1, children r.1 2, r.2)) = some (some [3], some [3], []) ∧
    mkdirs [mkRoot junk0 0] [(0, "mkdir d".toList), (0, "mkdir s".toList),
      (2, "mkdir x".toList), (2, "mkdir y".toList)] = some heapMerge2 ∧
    mergeDirectories heapMerge2 1 2 [] = none ∧
    (mergeDirectories heapMerge2 1 2 [(1, [])]).map
        (fun r => (children r.1 1, children r.1 2, r.2))
      = some (some [3, 4], some [3, 4], []) := by
  decide!

/-- C15, the code at the failing input: the heap is what mkdir builds; d holds
n, s holds y and n; the merge answered with Overwrite at its one prompt returns
a heap in which the next pointer of the source n (address 5) is that node
itself, so that the chain of d never ends and d has no list of children. -/
theorem merge_overwrite_cycles :
    mkdirs [mkRoot junk0 0] [(0, "mkdir d".toList), (0, "mkdir s".toList),
      (1, "mkdir n".toList), (2, "mkdir y".toList), (2, "mkdir n".toList)]
      = some heapOverwrite ∧
    children heapOverwrite 1 = some [3] ∧ children heapOverwrite 2 = some [4, 5] ∧
    (mergeDirectories heapOverwrite 1 2 [(3, [])]).map
        (fun r => (children r.1 1, (r.1[1]?).map (fun n => n.child), nextOf r.1 4,
          nextOf r.1 5, r.2))
      = some (none, some (some 4), some (some 5), some (some 5), []) := by
  decide!

/-- C16, the code at the failing input: the heap is what mkdir builds; d holds
n and m, s holds n; after the merge answered with Rename and the name z the
source child (address 5) is named z and the children of d are the two it had,
the source child is none of them; answered with Rename and the name m, which d
has, the source child is named m all the same. -/
theorem merge_rename_does_not_relocate :
    mkdirs [mkRoot junk0 0] [(0, "mkdir d".toList), (0, "mkdir s".toList),
      (1, "mkdir n".toList), (1, "mkdir m".toList), (2, "mkdir n".toList)]
      = some heapRename ∧
    (mergeDirectories heapRename 1 2 [(2, ['z'])]).map
        (fun r => (children r.1 1, children r.1 2, nameOf r.1 5, r.2))
      = some (some [3, 4], some [5], some ['z'], []) ∧
    (mergeDirectories heapRename 1 2 [(2, ['m'])]).map
        (fun r => (children r.1 1, children r.1 2, nameOf r.1 5, r.2))
      = some (some [3, 4], some [5], some ['m'], []) := by
  decide!

/-- C17, the code at the failing input: the heap is what mkdir builds; d holds
y, s holds x and y; the merge moves x behind the y of d and prompts at the
source y; answered with 7 it returns at once, and the children of d are then
its own y, x and, through the next pointer of x, the source y (address 5) at
which the merge was aborted. -/
theorem merge_abort_leaves_later_child :
    mkdirs [mkRoot junk0 0] [(0, "mkdir d".toList), (0, "mkdir s".toList),
      (1, "mkdir y".toList), (2, "mkdir x".toList), (2, "mkdir y".toList)]
      = some heapAbort ∧
    children heapAbort 1 = some [3] ∧ children heapAbort 2 = some [4, 5] ∧
    (mergeDirectories heapAbort 1 2 [(7, [])]).map
        (fun r => (children r.1 1, children r.1 2, r.2))
      = some (some [3, 4, 5], some [4, 5], []) := by
  decide!

/-! ### renameNode, mov and edit on a folder with a proper chain of children -/

/-- The scan of renameNode over a chain: it reports a conflict exactly when an
address of the chain other than the node carries the new name. -/
theorem renameConflict_spec {h : Heap} {cn : Nat} {newName : List Char} :
    ∀ (fuel : Nat) {p : Ptr} {L : List Nat}, IsChain h p L → L.length ≤ fuel →
      renameConflict h cn newName fuel p
        = some (L.any fun c => decide (c ≠ cn ∧ nameOf h c = some newName))
  | fuel, _, [], hc, _ => by
    simp only [IsChain] at hc
    subst hc
    cases fuel <;> simp [renameConflict]
  | 0, _, _ :: _, _, hl => by simp at hl
  | fuel + 1, p, a :: L, hc, hl => by
    simp only [IsChain] at hc
    obtain ⟨e, n, hn, c1⟩ := hc
    subst e
    have hname : nameOf h a = some n.name := by simp [nameOf, hn]
    have ih := @renameConflict_spec h cn newName fuel _ _ c1 (by simpa using hl)
    by_cases hq : a ≠ cn ∧ n.name = newName
    · simp [renameConflict, hn, hq, hname]
    · simp only [renameConflict, hn, hq, if_false, ih, List.any_cons, hname,
        Option.some.injEq]
      simp [hq]

/-- The loop of getNode over a chain. -/
theorem getNodeLoop_spec {h : Heap} {name : List Char} {ty : nodeType} :
    ∀ (fuel : Nat) {c : Nat} {L : List Nat}, IsChain h (some c) L → L.length ≤ fuel →
      getNodeLoop h name ty fuel c = some (firstNamedOfType h name ty L)
  | _, _, [], hc, _ => by simp [IsChain] at hc
  | 0, _, _ :: _, _, hl => by simp at hl
  | fuel + 1, c, a :: L, hc, hl => by
    simp only [IsChain] at hc
    obtain ⟨e, n, hn, c1⟩ := hc
    have e : c = a := Option.some.inj e
    subst e
    cases hnx : n.next with
    | none =>
      rw [hnx] at c1
      cases L with
      | cons b L' => simp [IsChain] at c1
      | nil =>
        by_cases hq : name = n.name ∧ n.type = ty
        · simp [getNodeLoop, hn, hnx, hq, firstNamedOfType]
        · simp [getNodeLoop, hn, hnx, hq, firstNamedOfType]
    | some nx =>
      rw [hnx] at c1
      by_cases hq : name = n.name ∧ n.type = ty
      · simp [getNodeLoop, hn, hnx, hq, firstNamedOfType]
      · have ih := @getNodeLoop_spec h name ty fuel _ _ c1 (by simpa using hl)
        simp only [getNodeLoop, hn, hnx, hq, if_false, ih]
        simp [firstNamedOfType, hn, hq]

/-- What getNode returns on a folder whose children are the list L. -/
theorem getNode_spec {h : Heap} {f : Nat} {L : List Nat} (name : List Char) (ty : nodeType)
    (hch : children h f = some L) :
    getNode h f name ty = some (firstNamedOfType h name ty L) := by
  obtain ⟨n, hn, hc⟩ := children_eq_some_iff.mp hch
  cases hcp : n.child with
  | none =>
    rw [hcp] at hc
    cases L with
    | nil => simp [getNode, hn, hcp, firstNamedOfType]
    | cons b L' => simp [IsChain] at hc
  | some c =>
    rw [hcp] at hc
    simp only [getNode, hn, hcp]
    exact getNodeLoop_spec _ hc hc.length_le

/-- C18: for a node whose parent pointer leads to a folder with a proper chain
of children, renameNode leaves the heap as it is when a child of that folder
other than the node carries the new name (the scan of the siblings then
reports the conflict); when none does, the scan reports no conflict and the
heap differs in the name field of that one node only, which also holds for the
new name equal to the present one. -/
theorem renameNode_conflict_iff (h : Heap) (cn p : Nat) (n pn : node) (L : List Nat)
    (newName : List Char)
    (hn : h[cn]? = some n) (hp : n.parent = some p) (hpn : h[p]? = some pn)
    (hL : children h p = some L) :
    ((∃ c ∈ L, c ≠ cn ∧ nameOf h c = some newName) →
      renameConflict h cn newName h.length pn.child = some true ∧
      renameNode h (some cn) newName = some h) ∧
    ((∀ c ∈ L, c ≠ cn → nameOf h c ≠ some newName) →
      renameConflict h cn newName h.length pn.child = some false ∧
      renameNode h (some cn) newName = some (h.set cn { n with name := newName })) ∧
    ((∀ c ∈ L, c ≠ cn → nameOf h c ≠ some n.name) →
      renameConflict h cn n.name h.length pn.child = some false ∧
      renameNode h (some cn) n.name = some h) := by
  obtain ⟨pn2, hpn2, hc⟩ := children_eq_some_iff.mp hL
  have e : pn2 = pn := Option.some.inj (hpn2.symm.trans hpn)
  subst e
  have hscan := fun (nm : List Char) =>
    @renameConflict_spec h cn nm h.length _ _ hc hc.length_le
  have hyes : ∀ nm : List Char, (∃ c ∈ L, c ≠ cn ∧ nameOf h c = some nm) →
      renameConflict h cn nm h.length pn2.child = some true := by
    intro nm hex
    rw [hscan nm]
    simpa using hex
  have hno : ∀ nm : List Char, (∀ c ∈ L, c ≠ cn → nameOf h c ≠ some nm) →
      renameConflict h cn nm h.length pn2.child = some false := by
    intro nm hall
    rw [hscan nm]
    simp only [Option.some.injEq, List.any_eq_false, decide_eq_true_eq, not_and]
    exact fun c hc1 hc2 => hall c hc1 hc2
  refine ⟨fun hex => ⟨hyes _ hex, ?_⟩, fun hall => ⟨hno _ hall, ?_⟩,
    fun hall => ⟨hno _ hall, ?_⟩⟩
  · simp [renameNode, hn, hp, hpn, hyes _ hex]
  · simp [renameNode, hn, hp, hpn, hno _ hall, upd_eq_some hn, setName]
  · have hset : h.set cn (setName n.name n) = h := by
      have : setName n.name n = n := rfl
      rw [this]
      exact set_getElem?_self hn
    simp [renameNode, hn, hp, hpn, hno _ hall, upd_eq_some hn, hset]

/-- C18 on the root folder with the children a, b, c: renaming b to c is
refused and leaves the heap as it is. -/
theorem renameNode_conflict_iff_witness :
    renameConflict heapABC 2 ['c'] heapABC.length (some 1) = some true ∧
    renameNode heapABC (some 2) ['c'] = some heapABC :=
  (renameNode_conflict_iff heapABC 2 0 (setNext (some 3) (newFolderNode junk0 0 0 ['b'] (some 1)))
    ({ mkRoot junk0 0 with numberOfItems := 3, child := some 1 }) [1, 2, 3] ['c']
    (by decide!) (by decide!) (by decide!) (by decide!)).1 ⟨3, by decide, by decide, by decide!⟩

/-- C19: in a folder with a proper chain of children L, for a command of the
three tokens mov, nodeName, destinationName, mov returns the heap as it is when
no child carries nodeName, when no child of kind Folder carries
destinationName, and when the two lookups lead to the same node. -/
theorem mov_rejects_bad_arguments (h : Heap) (currentFolder : Nat)
    (command c0 nodeName destinationName : List Char) (L : List Nat)
    (hcmd : strtokAll ' ' command = [c0, nodeName, destinationName])
    (hL : children h currentFolder = some L) :
    (firstNamed h nodeName L = none → mov h currentFolder command = some h) ∧
    (firstNamedOfType h destinationName nodeType.Folder L = none →
      mov h currentFolder command = some h) ∧
    (∀ m : Nat, firstNamed h nodeName L = some m →
      firstNamedOfType h destinationName nodeType.Folder L = some m →
      mov h currentFolder command = some h) := by
  have h1 := getNodeTypeless_spec nodeName hL
  have h2 := getNode_spec destinationName nodeType.Folder hL
  refine ⟨fun e => ?_, fun e => ?_, fun m e1 e2 => ?_⟩
  · rw [e] at h1
    cases hd : firstNamedOfType h destinationName nodeType.Folder L <;>
      simp [mov, hcmd, h1, h2, hd]
  · rw [e] at h2
    cases hm : firstNamed h nodeName L <;> simp [mov, hcmd, h1, h2, hm]
  · rw [e1] at h1
    rw [e2] at h2
    simp [mov, hcmd, h1, h2]

/-- C19 on the root folder with the children a, b, c: mov b b is refused. -/
theorem mov_rejects_bad_arguments_witness :
    mov heapABC 0 "mov b b".toList = some heapABC :=
  (mov_rejects_bad_arguments heapABC 0 "mov b b".toList "mov".toList ['b'] ['b'] [1, 2, 3]
    (by decide!) (by decide!)).2.2 2 (by decide!) (by decide!)

theorem numOfKind_node (k : nodeType) (d : nodeData) (child next : Tree) :
    numOfKind k (Tree.node d child next)
      = (if d.type = k then 1 else 0) + numOfKind k child + numOfKind k next := by
  simp only [numOfKind, nodesOf, List.countP_cons, List.countP_append, decide_eq_true_eq]
  omega

/-- The loop of countFiles over a chain counts the File nodes of the chain and
below it. -/
theorem countFilesChain_eq : ∀ t : Tree, countFilesChain t = (numOfKind nodeType.File t : Int)
  | Tree.null => by simp [countFilesChain, numOfKind, nodesOf]
  | Tree.node d child next => by
    rw [countFilesChain, numOfKind_node, countFilesChain_eq child, countFilesChain_eq next]
    split <;> simp

/-- C24: countFiles of a node is the number of File nodes in the subtree rooted
at the node, the node included and its siblings left out, and countFiles of the
NULL pointer is 0.  The int counter of the source is a number without bound
here. -/
theorem countFiles_counts_files (t : Tree) :
    countFiles t = (numOfKind nodeType.File (subtree t) : Int) ∧ countFiles Tree.null = 0 := by
  refine ⟨?_, rfl⟩
  cases t with
  | null => simp [countFiles, subtree, numOfKind, nodesOf]
  | node d child next =>
    rw [countFiles, subtree, numOfKind_node, countFilesChain_eq child]
    have : numOfKind nodeType.File Tree.null = 0 := by simp [numOfKind, nodesOf]
    rw [this]
    split <;> simp

/-- C23, the code at the failing inputs: countFolders of a node is 1 for a
Folder (0 otherwise) plus the number of File nodes below it; on the root that
holds one folder it is 1 where the subtree has 2 Folder nodes, and on the root
that holds one file it is 2 where the subtree has 1 Folder node. -/
theorem countFolders_counts_files_below :
    (∀ (d : nodeData) (child next : Tree), countFolders (Tree.node d child next)
      = (if d.type = nodeType.Folder then 1 else 0) + (numOfKind nodeType.File child : Int)) ∧
    countFolders treeOneFolder = 1 ∧ numOfKind nodeType.Folder (subtree treeOneFolder) = 2 ∧
    countFolders treeOneFile = 2 ∧ numOfKind nodeType.Folder (subtree treeOneFile) = 1 := by
  refine ⟨fun d child next => ?_, by decide, by decide, by decide, by decide⟩
  rw [countFolders, countFilesChain_eq]

/-! ### The load command -/

theorem countsRecomputed_loadedList (junk : nodeData) :
    ∀ t : Tree, countsRecomputed (chainOf (loadedList junk t)) = true
  | Tree.null => by simp [loadedList, chainOf, countsRecomputed]
  | Tree.node d child next => by
    have h1 := countsRecomputed_loadedList junk child
    have h2 := countsRecomputed_loadedList junk next
    simp only [loadedList, chainOf, countsRecomputed, h1, h2, Bool.and_true, decide_eq_true_eq]
    intro hty
    have hty2 : d.type = nodeType.Folder := hty
    simp [loadedData, hty2, countFilesChain_eq]

/-- C25: when fopen finds no file under the name given in the load command,
loadDirectory returns NULL and the command leaves root, current folder and
path string as they were, with every node of the tree. -/
theorem load_missing_file_keeps_session (junk : nodeData) (fuel : Nat)
    (files : List Char → Option (List Char)) (s : session)
    (command filename : List Char) (more : List (List Char))
    (hlen : 5 ≤ command.length)
    (hcmd : strtokAll ' ' (command.drop 5) = filename :: more)
    (hmiss : files filename = none) :
    loadDirectory junk fuel (files filename) = some Tree.null ∧
    loadCommand junk fuel files s command = some s := by
  have hl : ¬ command.length < 5 := by omega
  simp [loadCommand, hl, hcmd, hmiss, loadDirectory]

/-- C25 in a session on the tree with docs, with no file at all on the disk:
load x.txt changes nothing. -/
theorem load_missing_file_keeps_session_witness :
    loadCommand junkData 100 (fun _ => none)
        { root := treeDocs, currentFolder := treeDocs, path := ['/'] } "load x.txt".toList
      = some { root := treeDocs, currentFolder := treeDocs, path := ['/'] } :=
  (load_missing_file_keeps_session junkData 100 (fun _ => none)
    { root := treeDocs, currentFolder := treeDocs, path := ['/'] } "load x.txt".toList
    "x.txt".toList [] (by decide) (by decide!) rfl).2

theorem fgetsLine_append : ∀ (n : Nat) (s : List Char),
    (fgetsLine n s).1 ++ (fgetsLine n s).2 = s
  | 0, s => by simp [fgetsLine]
  | _ + 1, [] => by simp [fgetsLine]
  | n + 1, c :: cs => by
    by_cases e : c = '\n'
    · simp [fgetsLine, e]
    · simp [fgetsLine, e, fgetsLine_append n cs]

theorem fgets_some {file line rest : List Char} (hget : fgets 1024 file = some (line, rest)) :
    line ++ rest = file ∧ rest.length < file.length := by
  cases file with
  | nil => simp [fgets] at hget
  | cons c cs =>
    simp only [fgets, Option.some.injEq] at hget
    have ha := fgetsLine_append 1023 (c :: cs)
    rw [hget] at ha
    refine ⟨ha, ?_⟩
    have hne : line ≠ [] := by
      intro e
      have : (fgetsLine 1023 (c :: cs)).1 = [] := by rw [hget]; exact e
      by_cases e2 : c = '\n' <;> simp [fgetsLine, e2] at this
    have hlen := congrArg List.length ha
    simp only [List.length_append] at hlen
    have : 0 < line.length := List.length_pos.mpr hne
    omega

/-- The outer loop of the loader on a text without an opening brace builds no
node. -/
theorem loadSiblings_no_open (junk : nodeData) : ∀ (fuel : Nat) (file : List Char)
    (acc : List (nodeData × Tree)), '\x7b' ∉ file → file.length < fuel →
    ∃ rest, loadSiblings junk fuel file acc = some (acc, rest)
  | 0, _, _, _, hf => absurd hf (Nat.not_lt_zero _)
  | fuel + 1, file, acc, hno, hf => by
    cases hget : fgets 1024 file with
    | none =>
      cases file with
      | nil => exact ⟨[], loadSiblings_eof junk fuel acc⟩
      | cons c cs => simp [fgets] at hget
    | some lr =>
      obtain ⟨line, rest⟩ := lr
      obtain ⟨happ, hlt⟩ := fgets_some hget
      by_cases hb : strstr line [']'] = true
      · exact ⟨rest, loadSiblings_bracket junk fuel file line rest acc hget hb⟩
      · have hb2 : strstr line [']'] = false := by simpa using hb
        have hline : '\x7b' ∉ line := fun hm => hno (by rw [← happ]; simp [hm])
        have hrest : '\x7b' ∉ rest := fun hm => hno (by rw [← happ]; simp [hm])
        have hbrace : strstr line ['\x7b'] = false := by
          rw [strstr_single]
          simpa using hline
        rw [loadSiblings_skip junk fuel file line rest acc hget hb2 hbrace]
        exact loadSiblings_no_open junk fuel rest acc hrest (by omega)

/-- C26, the code on a file without a block: for a text that has no opening
brace, loadDirectoryFromFile, given more fuel than the text has characters,
returns the NULL pointer; loadDirectory then writes numberOfItems through that
pointer before it tests it, so it has no result and neither has the load
command that called it. -/
theorem load_without_block_faults (junk : nodeData) (text : List Char) (fuel : Nat)
    (hno : '\x7b' ∉ text) (hfuel : text.length < fuel) :
    (∃ rest, loadDirectoryFromFile junk fuel text = some (Tree.null, rest)) ∧
    loadDirectory junk fuel (some text) = none ∧
    ∀ (files : List Char → Option (List Char)) (s : session) (command filename : List Char)
      (more : List (List Char)), 5 ≤ command.length →
      strtokAll ' ' (command.drop 5) = filename :: more → files filename = some text →
      loadCommand junk fuel files s command = none := by
  obtain ⟨rest, hr⟩ := loadSiblings_no_open junk fuel text [] hno hfuel
  have h1 : loadDirectoryFromFile junk fuel text = some (Tree.null, rest) := by
    simp [loadDirectoryFromFile, hr, chainOf]
  have h2 : loadDirectory junk fuel (some text) = none := by
    simp [loadDirectory, h1]
  refine ⟨⟨rest, h1⟩, h2, ?_⟩
  intro files s command filename more hlen hcmd hfile
  have hl : ¬ command.length < 5 := by omega
  simp [loadCommand, hl, hcmd, hfile, h2]

/-- C26 on the empty file, in a session on the tree with docs: load empty.txt
has no result. -/
theorem load_without_block_faults_witness :
    loadDirectoryFromFile junkData 1 [] = some (Tree.null, []) ∧
    loadDirectory junkData 1 (some []) = none ∧
    loadCommand junkData 1 (fun _ => some [])
      { root := treeDocs, currentFolder := treeDocs, path := ['/'] } "load empty.txt".toList
      = none :=
  let t := load_without_block_faults junkData [] 1 (by simp) (by decide)
  ⟨by decide, t.2.1, t.2.2 (fun _ => some []) _ "load empty.txt".toList "empty.txt".toList []
    (by decide) (by decide!) rfl⟩

/-! ### Sorting -/

theorem strcmp_swap : ∀ a b : List Char, strcmp b a = - strcmp a b
  | [], [] => by simp [strcmp]
  | [], _ :: _ => by simp [strcmp]
  | _ :: _, [] => by simp [strcmp]
  | x :: as, y :: bs => by
    by_cases e : x.toNat = y.toNat
    · by_cases z : x.toNat = 0
      · have z2 : y.toNat = 0 := by omega
        simp [strcmp, e, z, z2]
      · have z2 : ¬ y.toNat = 0 := by omega
        simp [strcmp, e, z, z2, strcmp_swap as bs]
    · have e2 : ¬ y.toNat = x.toNat := fun q => e q.symm
      simp [strcmp, e, e2]

theorem strcmp_nil_le (c : List Char) : strcmp [] c ≤ 0 := by
  cases c with
  | nil => simp [strcmp]
  | cons z cs => simp [strcmp]

theorem strcmp_trans : ∀ a b c : List Char,
    strcmp a b ≤ 0 → strcmp b c ≤ 0 → strcmp a c ≤ 0
  | [], _, c, _, _ => strcmp_nil_le c
  | x :: as, [], [], hab, _ => hab
  | x :: as, [], z :: cs, hab, _ => by
    simp only [strcmp] at hab ⊢
    split_ifs <;> omega
  | x :: as, y :: bs, [], hab, hbc => by
    simp only [strcmp] at hab hbc ⊢
    split_ifs at hab <;> omega
  | x :: as, y :: bs, z :: cs, hab, hbc => by
    simp only [strcmp] at hab hbc ⊢
    split_ifs at hab hbc ⊢ <;> first | omega | exact strcmp_trans as bs cs hab hbc

/-- The comparison by name is consistent on live cells. -/
theorem compareNodesByName_consistent (h : Heap) (xs : List Nat)
    (hlive : ∀ a ∈ xs, a < h.length) : Consistent (compareNodesByName h) xs := by
  have hget : ∀ a ∈ xs, ∃ n, h[a]? = some n := fun a ha =>
    ⟨_, List.getElem?_eq_getElem (hlive a ha)⟩
  refine ⟨?_, ?_⟩
  · intro a ha b hb
    obtain ⟨na, hna⟩ := hget a ha
    obtain ⟨nb, hnb⟩ := hget b hb
    refine ⟨strcmp na.name nb.name, strcmp nb.name na.name, ?_, ?_, ?_, ?_⟩
    · simp [compareNodesByName, hna, hnb]
    · simp [compareNodesByName, hna, hnb]
    · rw [strcmp_swap na.name nb.name]; omega
    · rw [strcmp_swap na.name nb.name]; omega
  · intro a ha b hb c hc hab hbc
    obtain ⟨na, hna⟩ := hget a ha
    obtain ⟨nb, hnb⟩ := hget b hb
    obtain ⟨nc, hnc⟩ := hget c hc
    obtain ⟨v, hv, hv0⟩ := hab
    obtain ⟨w, hw, hw0⟩ := hbc
    simp only [compareNodesByName, hna, hnb, hnc, Option.some.injEq] at hv hw
    subst hv
    subst hw
    exact ⟨_, by simp [compareNodesByName, hna, hnc], strcmp_trans _ _ _ hv0 hw0⟩

theorem Consistent.tail {compar : Nat → Nat → Option Int} {x : Nat} {xs : List Nat}
    (hc : Consistent compar (x :: xs)) : Consistent compar xs :=
  ⟨fun a ha b hb => hc.1 a (List.mem_cons_of_mem _ ha) b (List.mem_cons_of_mem _ hb),
   fun a ha b hb c hcm => hc.2 a (List.mem_cons_of_mem _ ha) b (List.mem_cons_of_mem _ hb)
     c (List.mem_cons_of_mem _ hcm)⟩

/-- Insertion into an ordered list keeps it ordered. -/
theorem insertSorted_spec {compar : Nat → Nat → Option Int} {S : List Nat}
    (hS : Consistent compar S) (x : Nat) (hx : x ∈ S) :
    ∀ ys : List Nat, (∀ y ∈ ys, y ∈ S) → ys.Pairwise (leOf compar) →
      ∃ r, insertSorted compar x ys = some r ∧ r.Perm (x :: ys) ∧ r.Pairwise (leOf compar)
  | [], _, _ => ⟨[x], rfl, List.Perm.refl _, by simp⟩
  | y :: ys, hsub, hp => by
    have hy : y ∈ S := hsub y (by simp)
    obtain ⟨v, w, hv, hw, hsign, _⟩ := hS.1 x hx y hy
    by_cases hle : v ≤ 0
    · refine ⟨x :: y :: ys, by simp [insertSorted, hv, hle], List.Perm.refl _, ?_⟩
      refine List.pairwise_cons.mpr ⟨?_, hp⟩
      intro z hz
      rcases List.mem_cons.mp hz with e | e
      · subst e
        exact ⟨v, hv, hle⟩
      · exact hS.2 x hx y hy z (hsub z hz) ⟨v, hv, hle⟩ ((List.pairwise_cons.mp hp).1 z e)
    · obtain ⟨r, hr, hperm, hpr⟩ := insertSorted_spec hS x hx ys
        (fun z hz => hsub z (List.mem_cons_of_mem _ hz)) (List.pairwise_cons.mp hp).2
      refine ⟨y :: r, by simp [insertSorted, hv, hle, hr], ?_, ?_⟩
      · exact (List.Perm.cons y hperm).trans (List.Perm.swap x y ys)
      · refine List.pairwise_cons.mpr ⟨?_, hpr⟩
        intro z hz
        rcases List.mem_cons.mp (hperm.mem_iff.mp hz) with e | e
        · subst e
          exact ⟨w, hw, by omega⟩
        · exact (List.pairwise_cons.mp hp).1 z e

/-- Sorting by insertion does what the C standard says of qsort. -/
theorem insertionSort_sorts : SortsAscending insertionSort := by
  intro compar xs hc
  have key : ∀ ys : List Nat, (∀ y ∈ ys, y ∈ xs) →
      ∃ r, insertionSort compar ys = some r ∧ r.Perm ys ∧ r.Pairwise (leOf compar) := by
    intro ys
    induction ys with
    | nil => exact fun _ => ⟨[], rfl, List.Perm.refl _, List.Pairwise.nil⟩
    | cons y ys ih =>
      intro hsub
      obtain ⟨r, hr, hperm, hpr⟩ := ih (fun z hz => hsub z (List.mem_cons_of_mem _ hz))
      obtain ⟨r2, hr2, hperm2, hpr2⟩ := insertSorted_spec hc y (hsub y (by simp)) r
        (fun z hz => hsub z (List.mem_cons_of_mem _ (hperm.mem_iff.mp hz))) hpr
      exact ⟨r2, by simp [insertionSort, hr, hr2], hperm2.trans (List.Perm.cons y hperm), hpr2⟩
  exact key xs (fun _ hy => hy)

theorem SamePayload.refl (n : node) : SamePayload n n := by simp [SamePayload]

theorem SamePayload.trans {a b c : node} (h1 : SamePayload a b) (h2 : SamePayload b c) :
    SamePayload a c := by
  obtain ⟨a1, a2, a3, a4, a5, a6, a7, a8⟩ := h1
  obtain ⟨b1, b2, b3, b4, b5, b6, b7, b8⟩ := h2
  exact ⟨b1.trans a1, b2.trans a2, b3.trans a3, b4.trans a4, b5.trans a5, b6.trans a6,
    b7.trans a7, b8.trans a8⟩

/-- One assignment to a link field: every cell is still there, with its payload. -/
theorem upd_payload {h h' : Heap} {a : Nat} {f : node → node} (hu : upd h a f = some h')
    (hf : ∀ n, SamePayload n (f n)) (x : Nat) (n : node) (hn : h[x]? = some n) :
    ∃ n' : node, h'[x]? = some n' ∧ SamePayload n n' ∧ (x ≠ a → n' = n) ∧ (x = a → n' = f n) := by
  rw [upd_get hu x]
  by_cases e : x = a
  · subst e
    exact ⟨f n, by simp [hn], hf n, fun q => absurd rfl q, fun _ => rfl⟩
  · exact ⟨n, by simp [e, hn], SamePayload.refl n, fun _ => rfl, fun q => absurd q e⟩

theorem samePayload_setNext (v : Ptr) (n : node) : SamePayload n (setNext v n) := by
  simp [SamePayload, setNext]

theorem samePayload_setPrevious (v : Ptr) (n : node) : SamePayload n (setPrevious v n) := by
  simp [SamePayload, setPrevious]

theorem samePayload_setChild (v : Ptr) (n : node) : SamePayload n (setChild v n) := by
  simp [SamePayload, setChild]

/-- The linking loop of sortDirectory followed by the assignment that ends the
chain: the array entries form the chain, in the order of the array. -/
theorem relinkLoop_chain : ∀ (rest : List Nat) (a : Nat) (h : Heap),
    (a :: rest).Nodup → (∀ x ∈ a :: rest, x < h.length) →
    ∃ (last : Nat) (h3 h4 : Heap), (a :: rest).getLast? = some last ∧
      relinkLoop h (a :: rest) = some h3 ∧ upd h3 last (setNext none) = some h4 ∧
      h4.length = h.length ∧ IsChain h4 (some a) (a :: rest) ∧
      (∀ (x : Nat) (n : node), h[x]? = some n →
        ∃ n' : node, h4[x]? = some n' ∧ SamePayload n n' ∧ n'.child = n.child ∧
          (x ∉ a :: rest → n'.next = n.next))
  | [], a, h, _, hlive => by
    have ha : a < h.length := hlive a (by simp)
    obtain ⟨h4, hu4⟩ := upd_isSome (setNext none) ha
    refine ⟨a, h, h4, rfl, by simp [relinkLoop], hu4, upd_length hu4, ?_, ?_⟩
    · simp only [IsChain]
      obtain ⟨n', hn', _, _, hset⟩ := upd_payload hu4 (samePayload_setNext none) a _
        (List.getElem?_eq_getElem ha)
      exact ⟨trivial, n', hn', by rw [hset rfl]; rfl⟩
    · intro x n hn
      obtain ⟨n', hn', hp, hne, heq⟩ := upd_payload hu4 (samePayload_setNext none) x n hn
      refine ⟨n', hn', hp, ?_, ?_⟩
      · by_cases e : x = a
        · rw [heq e]; rfl
        · rw [hne e]
      · intro hx
        rw [hne (fun e => hx (by simp [e]))]
  | b :: rest, a, h, hnd, hlive => by
    have ha : a < h.length := hlive a (by simp)
    have hb : b < h.length := hlive b (by simp)
    have hab : a ≠ b := fun e => by
      have := (List.nodup_cons.mp hnd).1
      exact this (by simp [e])
    obtain ⟨h1, hu1⟩ := upd_isSome (setNext (some b)) ha
    have hl1 := upd_length hu1
    obtain ⟨h2, hu2⟩ := upd_isSome (h := h1) (setPrevious (some a)) (by omega : b < h1.length)
    have hl2 := upd_length hu2
    obtain ⟨last, h3, h4, hlast, hr, hu4, hl4, hchain, hframe⟩ :=
      relinkLoop_chain rest b h2 (List.nodup_cons.mp hnd).2
        (fun x hx => by rw [hl2, hl1]; exact hlive x (List.mem_cons_of_mem _ hx))
    have step : ∀ (x : Nat) (n : node), h[x]? = some n →
        ∃ n2 : node, h2[x]? = some n2 ∧ SamePayload n n2 ∧ n2.child = n.child ∧
          (x ≠ a → n2.next = n.next) ∧ (x = a → n2.next = some b) := by
      intro x n hn
      obtain ⟨n1, hn1, hp1, hne1, heq1⟩ := upd_payload hu1 (samePayload_setNext (some b)) x n hn
      obtain ⟨n2, hn2, hp2, hne2, heq2⟩ :=
        upd_payload hu2 (samePayload_setPrevious (some a)) x n1 hn1
      have hc1 : n1.child = n.child := by
        by_cases e : x = a
        · rw [heq1 e]; rfl
        · rw [hne1 e]
      have hc2 : n2.child = n1.child ∧ n2.next = n1.next := by
        by_cases e : x = b
        · rw [heq2 e]; exact ⟨rfl, rfl⟩
        · rw [hne2 e]; exact ⟨rfl, rfl⟩
      refine ⟨n2, hn2, hp1.trans hp2, hc2.1.trans hc1, ?_, ?_⟩
      · intro e
        rw [hc2.2, hne1 e]
      · intro e
        rw [hc2.2, heq1 e]; rfl
    refine ⟨last, h3, h4, by simpa using hlast, ?_, hu4, by rw [hl4, hl2, hl1], ?_, ?_⟩
    · simp [relinkLoop, hu1, hu2, hr]
    · simp only [IsChain]
      obtain ⟨n2, hn2, _, _, _, hnx⟩ := step a _ (List.getElem?_eq_getElem ha)
      obtain ⟨n4, hn4, _, _, hkeep⟩ := hframe a n2 hn2
      refine ⟨trivial, n4, hn4, ?_⟩
      rw [hkeep (List.nodup_cons.mp hnd).1, hnx rfl]
      exact hchain
    · intro x n hn
      obtain ⟨n2, hn2, hp2, hc2, hne2, _⟩ := step x n hn
      obtain ⟨n4, hn4, hp4, hc4, hkeep⟩ := hframe x n2 hn2
      refine ⟨n4, hn4, hp2.trans hp4, hc4.trans hc2, ?_⟩
      intro hx
      have hxa : x ≠ a := fun e => hx (by simp [e])
      have hxr : x ∉ b :: rest := fun e => hx (List.mem_cons_of_mem _ e)
      rw [hkeep hxr, hne2 hxa]

/-- What sortDirectory does once qsort has returned the array in the order arr:
the children of the folder are the entries of arr in that order, and every cell
keeps its payload. -/
theorem sortDirectory_relinks
    {qsort : (Nat → Nat → Option Int) → List Nat → Option (List Nat)}
    {h : Heap} {folder : Nat} {criterion : List Char} {L arr : List Nat}
    (hL : children h folder = some L) (hne : L ≠ [])
    (hs : (if criterion = "name".toList then qsort (compareNodesByName h) L
      else if criterion = "date".toList then qsort (compareNodesByDate h) L
      else some L) = some arr)
    (hperm : arr.Perm L) :
    ∃ h', sortDirectory qsort h folder criterion = some h' ∧
      children h' folder = some arr ∧
      (∀ (x : Nat) (n : node), h[x]? = some n →
        ∃ n' : node, h'[x]? = some n' ∧ SamePayload n n') := by
  obtain ⟨f, hf, hc⟩ := children_eq_some_iff.mp hL
  have hfolder : folder < h.length := lt_of_getElem?_eq_some hf
  obtain ⟨c, hfc⟩ : ∃ c, f.child = some c := by
    cases hq : f.child with
    | some c => exact ⟨c, rfl⟩
    | none =>
      rw [hq] at hc
      cases L with
      | nil => exact absurd rfl hne
      | cons b L' => simp [IsChain] at hc
  rw [hfc] at hc
  have hfrom : chainFrom h h.length (some c) = some L :=
    chainFrom_of_isChain _ hc hc.length_le
  have hnd : arr.Nodup := hperm.nodup_iff.mpr hc.nodup
  have hlive : ∀ x ∈ arr, x < h.length := fun x hx => hc.lt x (hperm.mem_iff.mp hx)
  obtain ⟨a, rest, harr⟩ : ∃ a rest, arr = a :: rest := by
    cases arr with
    | nil => exact absurd hperm.symm.eq_nil hne
    | cons a rest => exact ⟨a, rest, rfl⟩
  subst harr
  have ha : a < h.length := hlive a (by simp)
  obtain ⟨h1, hu1⟩ := upd_isSome (setChild (some a)) hfolder
  have hl1 := upd_length hu1
  obtain ⟨h2, hu2⟩ := upd_isSome (h := h1) (setPrevious none) (by omega : a < h1.length)
  have hl2 := upd_length hu2
  obtain ⟨last, h3, h4, hlast, hr, hu4, _, hchain, hframe⟩ :=
    relinkLoop_chain rest a h2 hnd (fun x hx => by rw [hl2, hl1]; exact hlive x hx)
  have step : ∀ (x : Nat) (n : node), h[x]? = some n →
      ∃ n2 : node, h2[x]? = some n2 ∧ SamePayload n n2 ∧ (x = folder → n2.child = some a) := by
    intro x n hn
    obtain ⟨n1, hn1, hp1, _, heq1⟩ := upd_payload hu1 (samePayload_setChild (some a)) x n hn
    obtain ⟨n2, hn2, hp2, hne2, heq2⟩ := upd_payload hu2 (samePayload_setPrevious none) x n1 hn1
    refine ⟨n2, hn2, hp1.trans hp2, ?_⟩
    intro e
    have hc1 : n1.child = some a := by rw [heq1 e]; rfl
    by_cases e2 : x = a
    · rw [heq2 e2]; exact hc1
    · rw [hne2 e2]; exact hc1
  refine ⟨h4, ?_, ?_, ?_⟩
  · unfold sortDirectory
    simp only [hf, hfc, hfrom, Option.some_bind, hs, List.head?_cons, hlast, hu1, hu2, hr, hu4]
  · rw [children_eq_some_iff]
    obtain ⟨n2, hn2, _, hch2⟩ := step folder f hf
    obtain ⟨n4, hn4, _, hc4, _⟩ := hframe folder n2 hn2
    refine ⟨n4, hn4, ?_⟩
    rw [hc4, hch2 rfl]
    exact hchain
  · intro x n hn
    obtain ⟨n2, hn2, hp2, _⟩ := step x n hn
    obtain ⟨n4, hn4, hp4, _, _⟩ := hframe x n2 hn2
    exact ⟨n4, hn4, hp2.trans hp4⟩

/-- C21: with a qsort that does what the C standard says of it, for a folder
with a proper chain of at least one child, sortDirectory with the criterion
name returns a heap in which the children of the folder are a permutation of
the former children, the name of every child compares not greater (strcmp)
than the name of every child behind it, and every cell has the kind, name,
count, size, date, content, parent and target it had. -/
theorem sortDirectory_by_name
    (qsort : (Nat → Nat → Option Int) → List Nat → Option (List Nat))
    (hq : SortsAscending qsort) (h : Heap) (folder : Nat) (L : List Nat)
    (hL : children h folder = some L) (hne : L ≠ []) :
    ∃ (h' : Heap) (L' : List Nat),
      sortDirectory qsort h folder "name".toList = some h' ∧
      children h' folder = some L' ∧ L'.Perm L ∧
      L'.Pairwise (fun a b => ∃ s t : List Char,
        nameOf h' a = some s ∧ nameOf h' b = some t ∧ strcmp s t ≤ 0) ∧
      (∀ (x : Nat) (n : node), h[x]? = some n →
        ∃ n' : node, h'[x]? = some n' ∧ SamePayload n n') := by
  obtain ⟨f, hf, hc⟩ := children_eq_some_iff.mp hL
  obtain ⟨arr, hs, hperm, hsorted⟩ :=
    hq (compareNodesByName h) L (compareNodesByName_consistent h L hc.lt)
  obtain ⟨h', hrun, hch, hpay⟩ :=
    @sortDirectory_relinks qsort h folder "name".toList L arr hL hne (by simpa using hs) hperm
  refine ⟨h', arr, hrun, hch, hperm, ?_, hpay⟩
  refine hsorted.imp ?_
  intro a b hab
  obtain ⟨v, hv, hv0⟩ := hab
  cases hna : h[a]? with
  | none => simp [compareNodesByName, hna] at hv
  | some na =>
    cases hnb : h[b]? with
    | none => simp [compareNodesByName, hna, hnb] at hv
    | some nb =>
      simp only [compareNodesByName, hna, hnb, Option.some.injEq] at hv
      obtain ⟨na', hna', hpa⟩ := hpay a na hna
      obtain ⟨nb', hnb', hpb⟩ := hpay b nb hnb
      refine ⟨na.name, nb.name, ?_, ?_, by rw [hv]; exact hv0⟩
      · simp [nameOf, hna', hpa.2.1]
      · simp [nameOf, hnb', hpb.2.1]

/-- C21 on the root with the folders b, a, c, with sorting by insertion as
qsort: the children come out in the order a, b, c. -/
theorem sortDirectory_by_name_witness :
    (∃ (h' : Heap) (L' : List Nat),
      sortDirectory insertionSort heapBAC 0 "name".toList = some h' ∧
      children h' 0 = some L' ∧ L'.Perm [1, 2, 3] ∧
      L'.Pairwise (fun a b => ∃ s t : List Char,
        nameOf h' a = some s ∧ nameOf h' b = some t ∧ strcmp s t ≤ 0) ∧
      (∀ (x : Nat) (n : node), heapBAC[x]? = some n →
        ∃ n' : node, h'[x]? = some n' ∧ SamePayload n n')) ∧
    mkdirs [mkRoot junk0 0] [(0, "mkdir b".toList), (0, "mkdir a".toList),
      (0, "mkdir c".toList)] = some heapBAC ∧
    (children heapBAC 0).map (List.map (nameOf heapBAC))
      = some [some ['b'], some ['a'], some ['c']] ∧
    (sortDirectory insertionSort heapBAC 0 "name".toList).map
        (fun r => (children r 0).map (List.map (nameOf r)))
      = some (some [some ['a'], some ['b'], some ['c']]) :=
  ⟨sortDirectory_by_name insertionSort insertionSort_sorts heapBAC 0 [1, 2, 3]
    (by decide!) (by decide), by decide!, by decide!, by decide!⟩

/-- C22, the code at the failing input: for the folders dated 4000000000 and
1700000000 the difference of the dates is beyond what an int holds in either
order, so that compareNodesByDate has no defined result for the pair, and
sortDirectory with the criterion date, which has to compare the two, has none
either; the same folder is sorted by name, and a folder whose children have
equal dates is sorted by date. -/
theorem sortDirectory_by_date_overflows :
    (children heapDates 0).map (List.map (dateOf heapDates))
      = some [some 4000000000, some 1700000000] ∧
    compareNodesByDate heapDates 1 2 = none ∧ compareNodesByDate heapDates 2 1 = none ∧
    sortDirectory insertionSort heapDates 0 "date".toList = none ∧
    (sortDirectory insertionSort heapDates 0 "name".toList).map (fun r => children r 0)
      = some (some [1, 2]) ∧
    (sortDirectory insertionSort heapBAC 0 "date".toList).map (fun r => children r 0)
      = some (some [1, 2, 3]) := by
  decide!

/-! ### Creating a symbolic link -/

/-- The path of createSymlink on which it links a new node: the source path
resolves and no child carries the link name. -/
theorem createSymlink_fresh {h : Heap} {junk : node} {now : Int} {cur root s : Nat}
    {sourcePath linkName : List Char} {L : List Nat}
    (hch : children h cur = some L)
    (hsrc : parsePath h cur sourcePath root = some (some s))
    (hfresh : firstNamed h linkName L = none) :
    ∃ h', createSymlink h junk now cur sourcePath linkName root = some (h', 0) ∧
      children h' cur = some (L ++ [h.length]) ∧
      h'[h.length]? = some (initSymlink linkName (strtokView sourcePath) now cur
        { junk with contentAssigned := false }) := by
  obtain ⟨f, hf, hc⟩ := children_eq_some_iff.mp hch
  have hcur : cur < h.length := lt_of_getElem?_eq_some hf
  have hg : getNodeTypeless h cur linkName = some none := by
    rw [getNodeTypeless_spec linkName hch, hfresh]
  have hnewlt : h.length < (h ++ [{ junk with contentAssigned := false }]).length := by simp
  obtain ⟨h2, hu2⟩ := upd_isSome (h := h ++ [{ junk with contentAssigned := false }])
    (initSymlink linkName (strtokView sourcePath) now cur) hnewlt
  have hl2 := upd_length hu2
  have hg2 := upd_get hu2
  have hne : cur ≠ h.length := by omega
  have h2old : ∀ b, b < h.length → h2[b]? = h[b]? := by
    intro b hb
    rw [hg2 b, if_neg (by omega), List.getElem?_append_left hb]
  have h2new : h2[h.length]? = some (initSymlink linkName (strtokView sourcePath) now cur
        { junk with contentAssigned := false }) := by
    rw [hg2 h.length, if_pos rfl, List.getElem?_append_right (Nat.le_refl _)]
    simp
  have h2cur : h2[cur]? = some f := by rw [h2old cur hcur, hf]
  unfold createSymlink
  simp only [hsrc, hg, hu2, Option.some_bind, h2cur]
  cases hfc : f.child with
  | none =>
    have hL : L = [] := by
      rw [hfc] at hc
      cases L with
      | nil => rfl
      | cons b L' => simp [IsChain] at hc
    subst hL
    obtain ⟨h3, hu3⟩ := upd_isSome (h := h2) (setChild (some h.length))
      (by rw [hl2]; simp; omega : cur < h2.length)
    have hg3 := upd_get hu3
    refine ⟨h3, by simp [hu3], ?_, ?_⟩
    · rw [children_eq_some_iff]
      refine ⟨setChild (some h.length) f, by rw [hg3]; simp [h2cur], ?_⟩
      simp only [setChild, List.nil_append, IsChain]
      refine ⟨trivial, _, by rw [hg3, if_neg hne.symm]; exact h2new, ?_⟩
      simp [initSymlink]
    · rw [hg3, if_neg hne.symm]; exact h2new
  | some c =>
    rw [hfc] at hc
    have hLne : L ≠ [] := by
      intro e
      rw [e] at hc
      simp [IsChain] at hc
    obtain ⟨L0, z, hLz⟩ : ∃ L0 z, L = L0 ++ [z] :=
      ⟨L.dropLast, L.getLast hLne, (List.dropLast_append_getLast hLne).symm⟩
    subst hLz
    have hlt := IsChain.lt hc
    have hnd := IsChain.nodup hc
    have hzL0 : z ∉ L0 := by
      intro hz
      have := List.nodup_append.mp hnd
      exact this.2.2 hz (by simp)
    have hz : z < h.length := hlt z (by simp)
    have hnext2 : ∀ b, b < h.length → nextOf h2 b = nextOf h b := by
      intro b hb
      simp only [nextOf]
      rw [h2old b hb]
    have hc2 : IsChain h2 (some c) (L0 ++ [z]) :=
      IsChain.frame hc (fun a ha => hnext2 a (hlt a ha))
    have hlast : lastOfChain h2 h2.length c = some z := by
      rw [lastOfChain_spec _ hc2 (IsChain.length_le hc2)]
      simp
    obtain ⟨h3, hu3⟩ := upd_isSome (h := h2) (setNext (some h.length))
      (by rw [hl2]; simp; omega : z < h2.length)
    have hg3 := upd_get hu3
    have hzne : z ≠ h.length := by omega
    refine ⟨h3, by simp [hlast, hu3], ?_, ?_⟩
    · rw [children_eq_some_iff]
      obtain ⟨f3, hf3, hf3c⟩ : ∃ f3 : node, h3[cur]? = some f3 ∧ f3.child = f.child := by
        by_cases e : cur = z
        · exact ⟨setNext (some h.length) f, by rw [hg3, if_pos e, h2cur]; rfl, rfl⟩
        · exact ⟨f, by rw [hg3, if_neg e, h2cur], rfl⟩
      refine ⟨f3, hf3, ?_⟩
      rw [hf3c]
      rw [hfc]
      have e : L0 ++ [z] ++ [h.length] = L0 ++ [z, h.length] := by simp
      rw [e]
      refine IsChain.snoc hc2 ?_ ?_ ?_
      · intro a ha
        have : a ≠ z := fun q => hzL0 (q ▸ ha)
        simp only [nextOf]
        rw [hg3, if_neg this]
      · simp only [nextOf]
        rw [hg3, if_pos rfl]
        obtain ⟨nz, hnz⟩ : ∃ nz, h2[z]? = some nz :=
          ⟨_, List.getElem?_eq_getElem (by rw [hl2]; simp; omega)⟩
        simp [hnz, setNext]
      · simp only [nextOf]
        rw [hg3, if_neg hzne.symm, h2new]
        simp [initSymlink]
    · rw [hg3, if_neg hzne.symm]; exact h2new

/-- C27: in a folder with a proper chain of children, createSymlink returns -1
and the heap as it was when the source path resolves to no node, and when the
source path resolves and a child of any kind carries the link name; when the
source path resolves and no child carries the link name it returns 0, with the
new cell as the last child of the folder. -/
theorem createSymlink_fails_without_effect (h : Heap) (junk : node) (now : Int)
    (currentFolder root : Nat) (sourcePath linkName : List Char) (L : List Nat)
    (hch : children h currentFolder = some L) :
    (parsePath h currentFolder sourcePath root = some none →
      createSymlink h junk now currentFolder sourcePath linkName root = some (h, -1)) ∧
    (∀ s e : Nat, parsePath h currentFolder sourcePath root = some (some s) →
      firstNamed h linkName L = some e →
      createSymlink h junk now currentFolder sourcePath linkName root = some (h, -1)) ∧
    (∀ s : Nat, parsePath h currentFolder sourcePath root = some (some s) →
      firstNamed h linkName L = none →
      ∃ h', createSymlink h junk now currentFolder sourcePath linkName root = some (h', 0) ∧
        children h' currentFolder = some (L ++ [h.length])) := by
  refine ⟨fun hsrc => ?_, fun s e hsrc hex => ?_, fun s hsrc hfresh => ?_⟩
  · simp [createSymlink, hsrc]
  · have hg := getNodeTypeless_spec linkName hch
    rw [hex] at hg
    simp [createSymlink, hsrc, hg]
  · obtain ⟨h', hrun, hkids, _⟩ := @createSymlink_fresh h junk now currentFolder root s
      sourcePath linkName L hch hsrc hfresh
    exact ⟨h', hrun, hkids⟩

/-- C27 on the tree with /a/b and /a/c, inside a: a link to the missing x and a
link named b are refused with -1, and the heap is as before. -/
theorem createSymlink_fails_without_effect_witness :
    createSymlink heapTree junk0 5 1 ['x'] ['l'] 0 = some (heapTree, -1) ∧
    createSymlink heapTree junk0 5 1 ['c'] ['b'] 0 = some (heapTree, -1) :=
  ⟨(createSymlink_fails_without_effect heapTree junk0 5 1 0 ['x'] ['l'] [2, 3]
      (by decide!)).1 (by decide!),
   (createSymlink_fails_without_effect heapTree junk0 5 1 0 ['c'] ['b'] [2, 3]
      (by decide!)).2.1 3 2 (by decide!) (by decide!)⟩

/-- C28, the code at the failing input: the heap is what mkdir builds; after
mov n d the children of d are x and n, with distinct names; rename n x inside d
is then carried out, and d has two children named x.  In the same state mkdir x
inside d is refused, and so is rename b c at the root of the heap with a, b, c,
where every child has its parent pointer. -/
theorem rename_after_mov_duplicates_name :
    mkdirs [mkRoot junk0 0] [(0, "mkdir n".toList), (0, "mkdir d".toList),
      (2, "mkdir x".toList)] = some heapNDX ∧
    (mov heapNDX 0 "mov n d".toList).map (fun h1 => (childNames h1 2, (h1[1]?).map
      (fun n => n.parent))) = some (some [some ['x'], some ['n']], some none) ∧
    ((mov heapNDX 0 "mov n d".toList).bind fun h1 =>
      renameCommand h1 2 "rename n x".toList).map (fun h2 => childNames h2 2)
      = some (some [some ['x'], some ['x']]) ∧
    ((mov heapNDX 0 "mov n d".toList).bind fun h1 =>
      (make_dir h1 junk0 0 2 "mkdir x".toList).map fun h2 => decide (h2 = h1)) = some true ∧
    renameCommand heapABC 0 "rename b c".toList = some heapABC := by
  decide!

/-- C29, the code at the failing input: the heap is what mkdir builds, with
distinct names in every folder; after mov x d the root holds d alone and d
holds two children named x. -/
theorem mov_duplicates_name :
    mkdirs [mkRoot junk0 0] [(0, "mkdir x".toList), (0, "mkdir d".toList),
      (2, "mkdir x".toList)] = some heapXDX ∧
    childNames heapXDX 0 = some [some ['x'], some ['d']] ∧
    childNames heapXDX 2 = some [some ['x']] ∧
    (mov heapXDX 0 "mov x d".toList).map (fun h1 => (childNames h1 0, childNames h1 2,
      children h1 2)) = some (some [some ['d']], some [some ['x'], some ['x']], some [3, 1]) := by
  decide!

/-! ### Second statements: countFolders and the round trip -/

theorem countFilesChain_directChildren : ∀ t : Tree,
    countFilesChain t = ((directChildren t).map countFiles).sum
  | Tree.null => by simp [countFilesChain, directChildren]
  | Tree.node d child next => by
    simp only [countFilesChain, directChildren, List.map_cons, List.sum_cons, countFiles]
    rw [countFilesChain_directChildren next]

/-- C36: countFolders of a node is 1 for a Folder, 0 otherwise, plus the sum of
countFiles over the direct children of the node; for a Folder this is 1 plus
the number of File nodes below it; countFolders of NULL is 0. -/
theorem countFolders_formula (d : nodeData) (child next : Tree) :
    countFolders (Tree.node d child next)
      = (if d.type = nodeType.Folder then 1 else 0)
          + ((directChildren child).map countFiles).sum ∧
    (d.type = nodeType.Folder →
      countFolders (Tree.node d child next) = 1 + (numOfKind nodeType.File child : Int)) ∧
    countFolders Tree.null = 0 := by
  refine ⟨?_, fun hty => ?_, rfl⟩
  · rw [countFolders, countFilesChain_directChildren]
  · rw [countFolders, countFilesChain_eq, if_pos hty]

theorem loadable_of_treeBounded : ∀ (t : Tree) (e : Nat),
    treeBounded e t = true → loadable e t = true
  | Tree.null, _, _ => rfl
  | Tree.node d child next, e, h => by
    simp only [treeBounded, Bool.and_eq_true, decide_eq_true_eq] at h
    obtain ⟨⟨⟨hw, hs⟩, hc⟩, hn⟩ := h
    obtain ⟨h1, h2, h3, h4, h5, h6, h7, h8, h9⟩ := hw
    simp only [loadable, Bool.and_eq_true, decide_eq_true_eq]
    refine ⟨⟨⟨h3, h1, h2, h7, h8, h9, ?_, ?_, ?_⟩, loadable_of_treeBounded child _ hc⟩,
      loadable_of_treeBounded next _ hn⟩
    · intro hty
      exact ⟨(h4 hty).1, fun c hc => ⟨((h4 hty).2 c hc).2, ((h4 hty).2 c hc).1⟩⟩
    · intro hty
      exact ⟨(h5 hty).1, fun s hs2 => ⟨((h5 hty).2 s hs2).2, ((h5 hty).2 s hs2).1, hs hty s hs2⟩⟩
    · intro l hl
      exact Nat.le_of_lt (h6 l hl)

/-- C35 as worded fails: the root that holds a Symlink with a target of 256
characters meets every condition of the claim (the longest line it writes is
far shorter than 1023 characters), the loader returns for its text, and the
round trip fails: the loaded target is the first 255 characters. -/
theorem roundTrip_fails_on_long_target :
    treeWorded 0 treeLongLink = true ∧
    (saveDirectoryToFile treeLongLink 0).length < 600 ∧
    roundTrips junkData 600 treeLongLink = false ∧
    (loadDirectoryFromFile junkData 600 (saveDirectoryToFile treeLongLink 0)).map
        (fun r => match r.1 with
          | Tree.node _ (Tree.node e _ _) _ => e.symlinkTarget
          | _ => none)
      = some (some (List.replicate 255 'a')) := by
  decide!

/-- C35 as amended: when in addition every Symlink target has at most 255
characters, loadDirectoryFromFile, given more fuel than the text has
characters, returns for the text of saveDirectoryToFile one node with the same
kind, name, size, date, File content and Symlink target, over children chains
with the same nodes in the same order. -/
theorem roundTrip_within_limits (junk d : nodeData) (child next : Tree) (fuel : Nat)
    (hlim : treeBounded 0 (Tree.node d child next) = true)
    (hfuel : (saveDirectoryToFile (Tree.node d child next) 0).length < fuel) :
    roundTrips junk fuel (Tree.node d child next) = true ∧
    ∃ (e : nodeData) (kids : Tree),
      loadDirectoryFromFile junk fuel (saveDirectoryToFile (Tree.node d child next) 0)
        = some (Tree.node e kids Tree.null, []) ∧
      sameData d e ∧ sameChain child kids = true := by
  have hl := loadable_of_treeBounded _ _ hlim
  simp only [loadable, Bool.and_eq_true, decide_eq_true_eq] at hl
  have h := loadDirectoryFromFile_saved junk d child next fuel hl.1.1 hl.1.2 hfuel
  refine ⟨?_, _, _, h, sameData_loadedData junk d _, sameChain_loadedList junk child⟩
  simp [roundTrips, h, sameData_loadedData, sameChain_loadedList]

/-- C35 as amended, on the root that holds a Symlink with a target of 255
characters. -/
theorem roundTrip_within_limits_witness : roundTrips junkData 600 treeLink255 = true :=
  (roundTrip_within_limits junkData
    { type := nodeType.Folder, name := ['/'], numberOfItems := 0, size := 0, date := 0,
      content := none, symlinkTarget := none }
    (Tree.node { type := nodeType.Symlink, name := ['l'], numberOfItems := 0, size := 0,
                 date := 0, content := none, symlinkTarget := some (List.replicate 255 'a') }
      Tree.null Tree.null)
    Tree.null 600 (by decide!) (by decide!)).1

/-! ### Following a link once -/

/-- C34: in a folder with a proper chain of children, when the name leads to a
Symlink whose target path parsePath resolves to a node of kind Symlink, echo
returns without a File node (it reports that the name is not a file), having
called parsePath once; and in a heap with live parent pointers and ending
chains, where every Symlink has a target, echo returns for every name. -/
theorem echo_single_hop (h : Heap) (F root : Nat) (L : List Nat)
    (hL : children h F = some L) :
    (∀ (link r : Nat) (linkName t : List Char) (nl nr : node),
      firstNamed h linkName L = some link → h[link]? = some nl →
      nl.type = nodeType.Symlink → nl.symlinkTarget = some t →
      parsePath h F t root = some (some r) → h[r]? = some nr →
      nr.type = nodeType.Symlink →
      echo h F linkName root
        = some (h.set link (setSymlinkTarget (some (strtokView t)) nl), none)) ∧
    (ParentsValid h → ChainsEnd h → root < h.length →
      (∀ n ∈ h, n.type = nodeType.Symlink → n.symlinkTarget.isSome = true) →
      ∀ fileName : List Char, ∃ r, echo h F fileName root = some r) := by
  have hF : F < h.length := by
    obtain ⟨f, hf, _⟩ := children_eq_some_iff.mp hL
    exact lt_of_getElem?_eq_some hf
  have hg := fun (name : List Char) => getNodeTypeless_spec name hL
  refine ⟨?_, ?_⟩
  · intro link r linkName t nl nr hlink hnl hty htgt hres hnr hsym
    have hu := upd_eq_some (f := setSymlinkTarget (some (strtokView t))) hnl
    have hr1 : ∃ n1 : node,
        (h.set link (setSymlinkTarget (some (strtokView t)) nl))[r]? = some n1 ∧
        n1.type = nodeType.Symlink := by
      rw [upd_get hu r]
      by_cases e : r = link
      · subst e
        exact ⟨setSymlinkTarget (some (strtokView t)) nl, by simp [hnl],
          by simpa [setSymlinkTarget] using hty⟩
      · exact ⟨nr, by simp [e, hnr], hsym⟩
    obtain ⟨n1, hn1, hs1⟩ := hr1
    simp [echo, hg, hlink, hnl, hty, htgt, hres, hu, hn1, hs1]
  · intro hpv hce hroot htarget fileName
    unfold echo
    rw [hg fileName]
    cases hf : firstNamed h fileName L with
    | none => exact ⟨_, rfl⟩
    | some found =>
      obtain ⟨f, _, hc⟩ := children_eq_some_iff.mp hL
      have hfound : found < h.length := IsChain.lt hc found (firstNamed_some hf).1
      obtain ⟨n, hn⟩ : ∃ n, h[found]? = some n := ⟨_, List.getElem?_eq_getElem hfound⟩
      simp only [hn, Option.some_bind]
      by_cases hty : n.type = nodeType.Symlink
      · have hsome := htarget n (List.getElem?_mem hn) hty
        obtain ⟨t, ht⟩ : ∃ t, n.symlinkTarget = some t := by
          cases hq : n.symlinkTarget with
          | none => simp [hq] at hsome
          | some t => exact ⟨t, rfl⟩
        have hstart : pathStart F root t < h.length := by
          unfold pathStart
          split <;> assumption
        obtain ⟨r, hr, hlive⟩ := parsePathLoop_total hpv hce (pathTokens t) _ hstart
        have hu := upd_eq_some (f := setSymlinkTarget (some (strtokView t))) hn
        simp only [hty, if_true, ht, Option.some_bind, parsePath_eq_loop, hr, hu]
        cases r with
        | none => exact ⟨_, rfl⟩
        | some q =>
          have hq : q < (h.set found (setSymlinkTarget (some (strtokView t)) n)).length := by
            simpa using hlive q rfl
          obtain ⟨nq, hnq⟩ : ∃ nq,
              (h.set found (setSymlinkTarget (some (strtokView t)) n))[q]? = some nq :=
            ⟨_, List.getElem?_eq_getElem hq⟩
          simp only [hnq, Option.some_bind]
          split <;> exact ⟨_, rfl⟩
      · simp only [hty, if_false, Option.some_bind, hn]
        split <;> exact ⟨_, rfl⟩

/-- C34 on the folder with the links l1 to l2 to note.txt, self to self, p to q
and q to p: echo l1 stops at l2 and reports no file, echo self and echo p
report no file, echo l2 reaches the File. -/
theorem echo_single_hop_witness :
    echo heapLinks 0 "l1".toList 0 = some (heapLinks, none) ∧
    echo heapLinks 0 "self".toList 0 = some (heapLinks, none) ∧
    echo heapLinks 0 ['p'] 0 = some (heapLinks, none) ∧
    echo heapLinks 0 "l2".toList 0 = some (heapLinks, some 1) ∧
    ∀ fileName : List Char, ∃ r, echo heapLinks 0 fileName 0 = some r :=
  let t := echo_single_hop heapLinks 0 0 [1, 2, 3, 4, 5, 6] (by decide!)
  ⟨(t.1 3 2 "l1".toList "l2".toList _ _ (by decide!) rfl (by decide!) rfl (by decide!) rfl
      (by decide!)).trans (by decide!),
   (t.1 4 4 "self".toList "self".toList _ _ (by decide!) rfl (by decide!) rfl (by decide!) rfl
      (by decide!)).trans (by decide!),
   (t.1 5 6 ['p'] ['q'] _ _ (by decide!) rfl (by decide!) rfl (by decide!) rfl
      (by decide!)).trans (by decide!),
   by decide!,
   t.2 (by decide!) (by decide!) (by decide) (by decide!)⟩

/-! ### Changing the folder -/

theorem firstNamedOfType_some {h : Heap} {name : List Char} {ty : nodeType} {L : List Nat}
    {c : Nat} (hf : firstNamedOfType h name ty L = some c) :
    c ∈ L ∧ ∃ n : node, h[c]? = some n ∧ n.name = name ∧ n.type = ty := by
  unfold firstNamedOfType at hf
  refine ⟨List.mem_of_find?_eq_some hf, ?_⟩
  have := List.find?_some hf
  cases hn : h[c]? with
  | none => simp [hn] at this
  | some n =>
    simp only [hn, decide_eq_true_eq] at this
    exact ⟨n, rfl, this.1.symm, this.2⟩

/-- The cd loop on segments that name Folder children in turn, followed by a
segment that names no Folder child. -/
theorem cdLoop_descends (h : Heap) (bad : List Char) (post : List (List Char)) :
    ∀ (segs : List (List Char)) (a c : Nat) (path : List Char) (Lc : List Nat),
      Descends h a segs c → children h c = some Lc →
      firstNamedOfType h bad nodeType.Folder Lc = none →
      bad ≠ ['.', '.'] → bad ≠ ['.'] →
      cdLoop h (segs ++ bad :: post) a path = some (c, appendSegments path segs)
  | [], a, c, path, Lc, hd, hLc, hbad, h1, h2 => by
    simp only [Descends] at hd
    subst hd
    have hg := getNode_spec bad nodeType.Folder hLc
    rw [hbad] at hg
    simp [cdLoop, h1, h2, hg, appendSegments]
  | seg :: segs, a, c, path, Lc, hd, hLc, hbad, h1, h2 => by
    simp only [Descends] at hd
    obtain ⟨s1, s2, L, b, hL, hb, hrest⟩ := hd
    have hg := getNode_spec seg nodeType.Folder hL
    rw [hb] at hg
    have ih := cdLoop_descends h bad post segs b c (appendSegment path seg) Lc hrest hLc hbad h1 h2
    simp [cdLoop, s1, s2, hg, ih, appendSegments]

/-- Going down through named children raises the depth by the number of
segments. -/
theorem Descends.depth {h : Heap} (depth : Nat → Nat)
    (hdepth : ∀ (f : Nat) (L : List Nat) (c : Nat), children h f = some L → c ∈ L →
      depth c = depth f + 1) :
    ∀ (segs : List (List Char)) (a c : Nat), Descends h a segs c →
      depth c = depth a + segs.length
  | [], a, c, hd => by
    simp only [Descends] at hd
    simp [hd]
  | seg :: segs, a, c, hd => by
    simp only [Descends] at hd
    obtain ⟨_, _, L, b, hL, hb, hrest⟩ := hd
    have := Descends.depth depth hdepth segs b c hrest
    rw [this, hdepth a L b hL (firstNamedOfType_some hb).1]
    simp only [List.length_cons]
    omega

/-- What the loop of getNode returns is a node of the kind asked for, with the
name asked for. -/
theorem getNodeLoop_type {h : Heap} {name : List Char} {ty : nodeType} :
    ∀ {fuel c d : Nat}, getNodeLoop h name ty fuel c = some (some d) →
      typeOf h d = some ty ∧ nameOf h d = some name
  | 0, _, _, hg => by simp [getNodeLoop] at hg
  | fuel + 1, c, d, hg => by
    simp only [getNodeLoop] at hg
    cases hn : h[c]? with
    | none => simp [hn] at hg
    | some n =>
      simp only [hn] at hg
      cases hnx : n.next with
      | none =>
        simp only [hnx] at hg
        by_cases hq : name = n.name ∧ n.type = ty
        · simp only [hq, and_self, if_true, Option.some.injEq] at hg
          subst hg
          simp [typeOf, nameOf, hn, hq.2, hq.1]
        · simp [hq] at hg
      | some nx =>
        simp only [hnx] at hg
        by_cases hq : name = n.name ∧ n.type = ty
        · simp only [hq, and_self, if_true, Option.some.injEq] at hg
          subst hg
          simp [typeOf, nameOf, hn, hq.2, hq.1]
        · simp only [hq, if_false] at hg
          exact getNodeLoop_type hg

/-- The cd loop moves between Folder nodes only. -/
theorem cdLoop_folder {h : Heap}
    (hpar : ∀ (a p : Nat) (n : node), h[a]? = some n → n.parent = some p →
      typeOf h p = some nodeType.Folder) :
    ∀ (toks : List (List Char)) (s : Nat) (path : List Char) (r : Nat × List Char),
      typeOf h s = some nodeType.Folder → cdLoop h toks s path = some r →
      typeOf h r.1 = some nodeType.Folder
  | [], s, path, r, hs, hr => by
    simp only [cdLoop, Option.some.injEq] at hr
    subst hr
    exact hs
  | t :: toks, s, path, r, hs, hr => by
    simp only [cdLoop] at hr
    by_cases h1 : t = ['.', '.']
    · simp only [h1, if_true] at hr
      cases hn : h[s]? with
      | none => simp [hn] at hr
      | some n =>
        simp only [hn] at hr
        cases hp : n.parent with
        | none =>
          simp only [hp] at hr
          exact cdLoop_folder hpar toks s path r hs hr
        | some p =>
          simp only [hp] at hr
          exact cdLoop_folder hpar toks p _ r (hpar s p n hn hp) hr
    · simp only [h1, if_false] at hr
      by_cases h2 : t = ['.']
      · simp only [h2, if_true] at hr
        exact cdLoop_folder hpar toks s path r hs hr
      · simp only [h2, if_false] at hr
        cases hg : getNode h s t nodeType.Folder with
        | none => simp [hg] at hr
        | some q =>
          cases q with
          | none =>
            simp only [hg, Option.some.injEq] at hr
            subst hr
            exact hs
          | some d =>
            simp only [hg] at hr
            have hd : typeOf h d = some nodeType.Folder := by
              cases hs2 : h[s]? with
              | none => simp [getNode, hs2] at hg
              | some f =>
                simp only [getNode, hs2] at hg
                cases hc : f.child with
                | none => simp [hc] at hg
                | some c =>
                  simp only [hc] at hg
                  exact (getNodeLoop_type hg).1
            exact cdLoop_folder hpar toks d _ r hd hr

/-- In a heap with live parent pointers and ending chains the cd loop always
returns, at a live node. -/
theorem cdLoop_total {h : Heap} (hpv : ParentsValid h) (hce : ChainsEnd h) :
    ∀ (toks : List (List Char)) (s : Nat) (path : List Char), s < h.length →
      ∃ r, cdLoop h toks s path = some r ∧ r.1 < h.length
  | [], s, path, hs => ⟨(s, path), rfl, hs⟩
  | t :: toks, s, path, hs => by
    obtain ⟨n, hn⟩ : ∃ n, h[s]? = some n := ⟨_, List.getElem?_eq_getElem hs⟩
    simp only [cdLoop]
    by_cases h1 : t = ['.', '.']
    · simp only [h1, if_true, hn]
      cases hp : n.parent with
      | none => exact cdLoop_total hpv hce toks s path hs
      | some p => exact cdLoop_total hpv hce toks p _ (parentsValid_get hpv hn hp)
    · by_cases h2 : t = ['.']
      · simp only [h1, h2, if_true, if_false]
        exact cdLoop_total hpv hce toks s path hs
      · obtain ⟨L, hL⟩ := chainsEnd_get hce hs
        simp only [h1, h2, if_false, getNode_spec t nodeType.Folder hL]
        cases hf : firstNamedOfType h t nodeType.Folder L with
        | none => exact ⟨(s, path), rfl, hs⟩
        | some d =>
          obtain ⟨_, nd, hnd, _⟩ := firstNamedOfType_some hf
          exact cdLoop_total hpv hce toks d _ (lt_of_getElem?_eq_some hnd)

theorem cd_eq_loop (h : Heap) (cur root : Nat) (command path c0 targetPath : List Char)
    (more : List (List Char)) (hcmd : strtokAll ' ' command = c0 :: targetPath :: more) :
    cd h cur command path root
      = cdLoop h (pathTokens targetPath) (pathStart cur root targetPath)
          (if targetPath.head? = some '/' then ['/'] else path) := by
  unfold cd pathTokens pathStart
  rw [hcmd]
  cases targetPath with
  | nil => simp
  | cons c cs =>
    by_cases hc : c = '/'
    · subst hc
      simp [strtokAll_delim_cons]
    · simp [hc]

/-- C37: for a command whose path has the segments segs, which name Folder
children in turn from the starting node down to the node reached, followed by
a segment that is the name of no child of kind Folder of that node, cd returns
the node reached, with the path string extended by the segments taken, and
that node is not the starting node when the heap is a tree (children one level
below their folder) and at least one segment was taken; when every parent is a
Folder, and the root and the node cd starts in are Folders, the node cd returns
is a Folder; and in a heap with live parent pointers and ending chains cd
returns.  The starting node is the root for a path that begins with the
separator. -/
theorem cd_not_atomic (h : Heap) (currentFolder root : Nat)
    (command path c0 targetPath : List Char) (more : List (List Char))
    (hcmd : strtokAll ' ' command = c0 :: targetPath :: more) :
    (∀ (segs : List (List Char)) (bad : List Char) (post : List (List Char))
      (reached : Nat) (Lr : List Nat),
      pathTokens targetPath = segs ++ bad :: post →
      Descends h (pathStart currentFolder root targetPath) segs reached →
      children h reached = some Lr →
      firstNamedOfType h bad nodeType.Folder Lr = none →
      bad ≠ ['.', '.'] → bad ≠ ['.'] →
      cd h currentFolder command path root
        = some (reached, appendSegments
            (if targetPath.head? = some '/' then ['/'] else path) segs) ∧
      ∀ depth : Nat → Nat,
        (∀ (f : Nat) (L : List Nat) (c : Nat), children h f = some L → c ∈ L →
          depth c = depth f + 1) →
        segs ≠ [] → reached ≠ pathStart currentFolder root targetPath) ∧
    ((∀ (a p : Nat) (n : node), h[a]? = some n → n.parent = some p →
        typeOf h p = some nodeType.Folder) →
      typeOf h currentFolder = some nodeType.Folder →
      typeOf h root = some nodeType.Folder →
      ∀ r, cd h currentFolder command path root = some r →
        typeOf h r.1 = some nodeType.Folder) ∧
    (ParentsValid h → ChainsEnd h → currentFolder < h.length → root < h.length →
      ∃ r, cd h currentFolder command path root = some r) := by
  have hloop := cd_eq_loop h currentFolder root command path c0 targetPath more hcmd
  refine ⟨?_, ?_, ?_⟩
  · intro segs bad post reached Lr htok hd hLr hbad h1 h2
    refine ⟨?_, ?_⟩
    · rw [hloop, htok]
      exact cdLoop_descends h bad post segs _ reached _ Lr hd hLr hbad h1 h2
    · intro depth hdepth hne e
      have := Descends.depth depth hdepth segs _ reached hd
      rw [e] at this
      have hlen : 0 < segs.length := List.length_pos.mpr hne
      omega
  · intro hpar hcur hroot r hr
    rw [hloop] at hr
    refine cdLoop_folder hpar _ _ _ r ?_ hr
    unfold pathStart
    split <;> assumption
  · intro hpv hce hcur hroot
    rw [hloop]
    have hs : pathStart currentFolder root targetPath < h.length := by
      unfold pathStart
      split <;> assumption
    obtain ⟨r, hr, _⟩ := cdLoop_total hpv hce (pathTokens targetPath) _ _ hs
    exact ⟨r, hr⟩

/-- C37 on the tree with /a/b and /a/c, from the root with the path string /:
cd a/x/b enters a and stops there, because a has no folder x. -/
theorem cd_not_atomic_witness :
    cd heapTree 0 "cd a/x/b".toList ['/'] 0 = some (1, "/a".toList) ∧
    (1 : Nat) ≠ 0 :=
  let t := (cd_not_atomic heapTree 0 0 "cd a/x/b".toList ['/'] "cd".toList "a/x/b".toList []
    (by decide!)).1 [['a']] ['x'] [['b']] 1 [2, 3] (by decide!)
    ⟨by decide, by decide, [1], 1, by decide!, by decide!, rfl⟩
    (by decide!) (by decide!) (by decide) (by decide)
  ⟨t.1.trans (by decide!), by decide⟩

/-! ### The cells after make_dir -/

/-- Every cell after the statements of make_dir that link the new folder. -/
theorem linkNewFolder_cells {h : Heap} {junk : node} {now : Int} {cur : Nat}
    {name : List Char} {L : List Nat}
    (hch : children h cur = some L) :
    ∃ h', linkNewFolder h junk now cur name = some h' ∧
      h'.length = h.length + 1 ∧
      children h' cur = some (L ++ [h.length]) ∧
      h'[h.length]? = some (newFolderNode junk now cur name L.getLast?) ∧
      (∀ (a : Nat) (n : node), h[a]? = some n →
        h'[a]? = some (mkdirCell cur h.length L a n)) := by
  obtain ⟨h', hrun, hlen, hkids, hnew, _⟩ :=
    @linkNewFolder_fresh h junk now cur name L hch
  refine ⟨h', hrun, hlen, hkids, hnew, ?_⟩
  obtain ⟨f, hf, hc⟩ := children_eq_some_iff.mp hch
  have hcur : cur < h.length := lt_of_getElem?_eq_some hf
  obtain ⟨h1, hu1⟩ := upd_isSome (addItems 1) hcur
  have hl1 := upd_length hu1
  have hg1 := upd_get hu1
  have h2cur : (h1 ++ [junk])[cur]? = some (addItems 1 f) := by
    rw [List.getElem?_append_left (by omega), hg1 cur]
    simp [hf]
  have h2old : ∀ b, b < h.length → (h1 ++ [junk])[b]? = h1[b]? := fun b hb =>
    List.getElem?_append_left (by omega)
  unfold linkNewFolder at hrun
  simp only [hu1, h2cur, hl1] at hrun
  intro a n hn
  have ha : a < h.length := lt_of_getElem?_eq_some hn
  have hane : a ≠ h.length := by omega
  cases hfc : f.child with
  | none =>
    have hL : L = [] := by
      rw [hfc] at hc
      cases L with
      | nil => rfl
      | cons b L' => simp [IsChain] at hc
    subst hL
    obtain ⟨h3, hu3⟩ := upd_isSome (h := h1 ++ [junk]) (setChild (some h.length))
      (by simp; omega : cur < (h1 ++ [junk]).length)
    have hl3 := upd_length hu3
    have hg3 := upd_get hu3
    obtain ⟨h4, hu4⟩ := upd_isSome (h := h3) (setPrevious none)
      (by rw [hl3]; simp; omega : h.length < h3.length)
    have hl4 := upd_length hu4
    have hg4 := upd_get hu4
    obtain ⟨h5, hu5⟩ := upd_isSome (h := h4) (initFolder name now cur)
      (by rw [hl4, hl3]; simp; omega : h.length < h4.length)
    have hg5 := upd_get hu5
    have e5 : h' = h5 := by
      simp [addItems, hfc, hu3, hu4, hu5] at hrun
      exact hrun.symm
    subst e5
    rw [hg5, hg4, hg3, h2old a ha, hg1]
    by_cases e : a = cur
    · subst e
      rw [hf] at hn
      have := Option.some.inj hn
      subst this
      simp [hane, hf, mkdirCell]
    · simp [hane, e, hn, mkdirCell]
  | some c =>
    rw [hfc] at hc
    have hLne : L ≠ [] := by
      intro e
      rw [e] at hc
      simp [IsChain] at hc
    obtain ⟨L0, z, hLz⟩ : ∃ L0 z, L = L0 ++ [z] :=
      ⟨L.dropLast, L.getLast hLne, (List.dropLast_append_getLast hLne).symm⟩
    subst hLz
    have hlt := IsChain.lt hc
    have hz : z < h.length := hlt z (by simp)
    have hnext1 : ∀ b, b < h.length → nextOf (h1 ++ [junk]) b = nextOf h b := by
      intro b hb
      simp only [nextOf]
      rw [h2old b hb, hg1]
      by_cases e : b = cur
      · subst e; simp [hf, addItems]
      · simp [e]
    have hc2 : IsChain (h1 ++ [junk]) (some c) (L0 ++ [z]) :=
      IsChain.frame hc (fun a ha => hnext1 a (hlt a ha))
    have hlast : lastOfChain (h1 ++ [junk]) (h1 ++ [junk]).length c = some z := by
      rw [lastOfChain_spec _ hc2 (IsChain.length_le hc2)]
      simp
    obtain ⟨h3, hu3⟩ := upd_isSome (h := h1 ++ [junk]) (setNext (some h.length))
      (by simp; omega : z < (h1 ++ [junk]).length)
    have hl3 := upd_length hu3
    have hg3 := upd_get hu3
    obtain ⟨h4, hu4⟩ := upd_isSome (h := h3) (setPrevious (some z))
      (by rw [hl3]; simp; omega : h.length < h3.length)
    have hl4 := upd_length hu4
    have hg4 := upd_get hu4
    obtain ⟨h5, hu5⟩ := upd_isSome (h := h4) (initFolder name now cur)
      (by rw [hl4, hl3]; simp; omega : h.length < h4.length)
    have hg5 := upd_get hu5
    have e5 : h' = h5 := by
      simp only [addItems, hfc] at hrun
      have hlast2 : lastOfChain (h1 ++ [junk]) (h.length + 1) c = some z := by
        simpa [hl1] using hlast
      have hlast3 : lastOfChain (h1 ++ [junk]) (h1.length + 1) c = some z := by
        simpa using hlast
      simp [hlast2, hlast3, hu3, hu4, hu5] at hrun
      exact hrun.symm
    subst e5
    rw [hg5, hg4, hg3, h2old a ha, hg1]
    have hne2 : ¬ (L0 ++ [z] = []) := by simp
    by_cases e : a = cur
    · subst e
      rw [hf] at hn
      have := Option.some.inj hn
      subst this
      by_cases e2 : a = z
      · subst e2
        simp [hane, hf, mkdirCell]
      · have e3 : ¬ z = a := fun q => e2 q.symm
        simp [hane, hf, mkdirCell, e2, e3]
    · by_cases e2 : a = z
      · subst e2
        simp [hane, e, hn, mkdirCell]
      · have e3 : ¬ z = a := fun q => e2 q.symm
        simp [hane, e, hn, mkdirCell, e2, e3]

/-! ### The path string of cd -/

theorem splitTok_good (d : Char) : ∀ s : List Char,
    d ∉ (splitTok d s).1 ∧ ∀ t ∈ (splitTok d s).2, t ≠ [] ∧ d ∉ t
  | [] => by simp [splitTok]
  | c :: cs => by
    obtain ⟨h1, h2⟩ := splitTok_good d cs
    simp only [splitTok]
    by_cases e : c = d
    · simp only [e, if_true]
      refine ⟨by simp, ?_⟩
      by_cases e1 : (splitTok d cs).1 = []
      · simpa [e1] using h2
      · simp only [e1, if_false]
        intro t ht
        rcases List.mem_cons.mp ht with q | q
        · subst q
          exact ⟨e1, h1⟩
        · exact h2 t q
    · simp only [e, if_false]
      refine ⟨?_, h2⟩
      intro hm
      rcases List.mem_cons.mp hm with q | q
      · exact e q.symm
      · exact h1 q

/-- The tokens strtok returns are not empty and hold no delimiter. -/
theorem strtokAll_good (d : Char) (s : List Char) :
    ∀ t ∈ strtokAll d s, t ≠ [] ∧ d ∉ t := by
  obtain ⟨h1, h2⟩ := splitTok_good d s
  unfold strtokAll
  by_cases e1 : (splitTok d s).1 = []
  · simpa [e1] using h2
  · simp only [e1, if_false]
    intro t ht
    rcases List.mem_cons.mp ht with q | q
    · subst q
      exact ⟨e1, h1⟩
    · exact h2 t q

theorem strrchr_none (x : Char) : ∀ s : List Char, x ∉ s → strrchr s x = none
  | [], _ => rfl
  | c :: cs, hx => by
    have hc : ¬ c = x := fun e => hx (by simp [e])
    have := strrchr_none x cs (fun e => hx (by simp [e]))
    simp [strrchr, this, hc]

theorem strrchr_last (x : Char) (s : List Char) (hs : x ∉ s) :
    ∀ X : List Char, strrchr (X ++ x :: s) x = some X.length
  | [] => by simp [strrchr, strrchr_none x s hs]
  | c :: X => by simp [strrchr, strrchr_last x s hs X]

theorem slashJoin_append (a b : List (List Char)) :
    slashJoin (a ++ b) = slashJoin a ++ slashJoin b := by
  induction a with
  | nil => rfl
  | cons s rest ih => simp [slashJoin, ih]

theorem slashJoin_eq_nil {ns : List (List Char)} (h : slashJoin ns = []) : ns = [] := by
  cases ns with
  | nil => rfl
  | cons s rest => simp [slashJoin] at h

/-- Cutting the last segment of a path string gives the path string of the
folder above. -/
theorem cutLastSegment_pathString (ns : List (List Char)) (s : List Char) (hs : '/' ∉ s) :
    cutLastSegment (pathString (ns ++ [s])) = pathString ns := by
  have e : pathString (ns ++ [s]) = slashJoin ns ++ '/' :: s := by
    simp [pathString, slashJoin_append, slashJoin]
  rw [e]
  unfold cutLastSegment
  rw [strrchr_last '/' s hs]
  by_cases hl : (slashJoin ns).length = 0
  · have : slashJoin ns = [] := List.length_eq_zero.mp hl
    have hn := slashJoin_eq_nil this
    subst hn
    simp [slashJoin, pathString]
  · have hn : ns ≠ [] := by
      intro q
      rw [q] at hl
      exact hl rfl
    simp [hl, pathString, hn]

/-- Appending a segment to a path string gives the path string of the folder
entered. -/
theorem appendSegment_pathString (ns : List (List Char)) (s : List Char)
    (hns : ∀ t ∈ ns, t ≠ []) :
    appendSegment (pathString ns) s = pathString (ns ++ [s]) := by
  cases ns with
  | nil => simp [appendSegment, pathString, slashJoin]
  | cons t rest =>
    have ht : t ≠ [] := hns t (by simp)
    have hne : pathString (t :: rest) ≠ ['/'] := by
      simp only [pathString, slashJoin]
      intro q
      simp at q
      exact ht q.1
    simp only [appendSegment, hne, if_false]
    simp [pathString, slashJoin_append, slashJoin]

theorem namesOf_append (h : Heap) (a b : List Nat) :
    namesOf h (a ++ b) = namesOf h a ++ namesOf h b := by
  simp [namesOf]

theorem namesOf_single {h : Heap} {a : Nat} {n : node} (hn : h[a]? = some n) :
    namesOf h [a] = [n.name] := by
  simp [namesOf, hn]

theorem GoodUp.names {h : Heap} {up : List Nat} (hg : GoodUp h up) :
    ∀ t ∈ namesOf h up.reverse, t ≠ [] := by
  intro t ht
  simp only [namesOf, List.mem_map, List.mem_reverse] at ht
  obtain ⟨a, ha, rfl⟩ := ht
  obtain ⟨n, hn, hne, _⟩ := hg a ha
  simpa [hn] using hne

theorem Ancestry.live {h : Heap} {root cur : Nat} {up : List Nat}
    (hroot : RootAt h root) (ha : Ancestry h root cur up) : ∃ n, h[cur]? = some n := by
  cases up with
  | nil =>
    simp only [Ancestry] at ha
    subst ha
    unfold RootAt parentOf at hroot
    cases hn : h[cur]? with
    | none => simp [hn] at hroot
    | some n => exact ⟨n, rfl⟩
  | cons b up =>
    simp only [Ancestry] at ha
    obtain ⟨_, n, p, hn, _, _⟩ := ha
    exact ⟨n, hn⟩

/-- The cd loop keeps the path string in step with the current folder. -/
theorem cdLoop_inStep {h : Heap} {root : Nat} (hroot : RootAt h root) (hown : Owned h)
    (hce : ChainsEnd h) :
    ∀ (toks : List (List Char)) (cur : Nat) (path : List Char) (up : List Nat),
      (∀ t ∈ toks, t ≠ [] ∧ '/' ∉ t) → Ancestry h root cur up → GoodUp h up →
      path = pathString (namesOf h up.reverse) →
      ∃ (cur' : Nat) (path' : List Char) (up' : List Nat),
        cdLoop h toks cur path = some (cur', path') ∧ Ancestry h root cur' up' ∧
        GoodUp h up' ∧ path' = pathString (namesOf h up'.reverse)
  | [], cur, path, up, _, ha, hg, hp => ⟨cur, path, up, rfl, ha, hg, hp⟩
  | t :: toks, cur, path, up, htoks, ha, hg, hp => by
    have hrest : ∀ t' ∈ toks, t' ≠ [] ∧ '/' ∉ t' := fun t' ht' =>
      htoks t' (List.mem_cons_of_mem _ ht')
    obtain ⟨n, hn⟩ := ha.live hroot
    have hcur : cur < h.length := lt_of_getElem?_eq_some hn
    simp only [cdLoop]
    by_cases h1 : t = ['.', '.']
    · simp only [h1, if_true, hn]
      cases hpar : n.parent with
      | none => exact cdLoop_inStep hroot hown hce toks cur path up hrest ha hg hp
      | some p =>
        cases up with
        | nil =>
          simp only [Ancestry] at ha
          subst ha
          unfold RootAt parentOf at hroot
          simp [hn, hpar] at hroot
        | cons b up' =>
          have ha2 := ha
          simp only [Ancestry] at ha2
          obtain ⟨e, n2, p2, hn2, hp2, hup⟩ := ha2
          subst e
          have en : n2 = n := Option.some.inj (hn2.symm.trans hn)
          subst en
          have ep : p2 = p := Option.some.inj (hp2.symm.trans hpar)
          subst ep
          obtain ⟨nb, hnb, _, hslash⟩ := hg b (by simp)
          have enb : nb = n2 := Option.some.inj (hnb.symm.trans hn)
          subst enb
          refine cdLoop_inStep hroot hown hce toks p2 _ up' hrest hup
            (fun a ha' => hg a (List.mem_cons_of_mem _ ha')) ?_
          rw [hp, List.reverse_cons, namesOf_append, namesOf_single hn]
          exact cutLastSegment_pathString _ _ hslash
    · by_cases h2 : t = ['.']
      · simp only [h1, h2, if_true, if_false]
        exact cdLoop_inStep hroot hown hce toks cur path up hrest ha hg hp
      · obtain ⟨L, hL⟩ := chainsEnd_get hce hcur
        simp only [h1, h2, if_false, getNode_spec t nodeType.Folder hL]
        cases hf : firstNamedOfType h t nodeType.Folder L with
        | none => exact ⟨cur, path, up, rfl, ha, hg, hp⟩
        | some d =>
          obtain ⟨hdL, nd, hnd, hname, _⟩ := firstNamedOfType_some hf
          have hpd := hown cur L d hL hdL
          simp only [parentOf, hnd, Option.map_some', Option.some.injEq] at hpd
          have htok := htoks t (by simp)
          refine cdLoop_inStep hroot hown hce toks d _ (d :: up) hrest ?_ ?_ ?_
          · simp only [Ancestry]
            exact ⟨trivial, nd, cur, hnd, hpd, ha⟩
          · intro a ha'
            rcases List.mem_cons.mp ha' with e | e
            · subst e
              exact ⟨nd, hnd, by rw [hname]; exact htok.1, by rw [hname]; exact htok.2⟩
            · exact hg a e
          · rw [hp, List.reverse_cons, namesOf_append, namesOf_single hnd, hname]
            exact appendSegment_pathString _ _ hg.names

/-- One cd command keeps the path string in step with the current folder. -/
theorem cd_inStep {h : Heap} {root : Nat} (hroot : RootAt h root) (hown : Owned h)
    (hce : ChainsEnd h) (command : List Char) (cur : Nat) (path : List Char) (up : List Nat)
    (ha : Ancestry h root cur up) (hg : GoodUp h up)
    (hp : path = pathString (namesOf h up.reverse)) :
    ∃ (cur' : Nat) (path' : List Char) (up' : List Nat),
      cd h cur command path root = some (cur', path') ∧ Ancestry h root cur' up' ∧
      GoodUp h up' ∧ path' = pathString (namesOf h up'.reverse) := by
  cases hcmd : strtokAll ' ' command with
  | nil => exact ⟨cur, path, up, by simp [cd, hcmd], ha, hg, hp⟩
  | cons c0 rest =>
    cases rest with
    | nil => exact ⟨cur, path, up, by simp [cd, hcmd], ha, hg, hp⟩
    | cons targetPath more =>
      rw [cd_eq_loop h cur root command path c0 targetPath more hcmd]
      by_cases hc : targetPath.head? = some '/'
      · simp only [pathStart, hc, if_true]
        exact cdLoop_inStep hroot hown hce _ root ['/'] [] (strtokAll_good '/' _)
          (by simp [Ancestry]) (by intro a ha'; simp at ha') (by simp [namesOf, pathString])
      · simp only [pathStart, hc, if_false]
        exact cdLoop_inStep hroot hown hce _ cur path up (strtokAll_good '/' _) ha hg hp

/-- A run of cd commands keeps the path string in step with the current
folder. -/
theorem cdRun_inStep {h : Heap} {root : Nat} (hroot : RootAt h root) (hown : Owned h)
    (hce : ChainsEnd h) :
    ∀ (cmds : List (List Char)) (cur : Nat) (path : List Char) (up : List Nat),
      Ancestry h root cur up → GoodUp h up → path = pathString (namesOf h up.reverse) →
      ∃ (cur' : Nat) (path' : List Char),
        cdRun h root cmds (cur, path) = some (cur', path') ∧ InStep h root cur' path'
  | [], cur, path, up, ha, _, hp => ⟨cur, path, rfl, up, ha, hp⟩
  | command :: rest, cur, path, up, ha, hg, hp => by
    obtain ⟨cur1, path1, up1, hrun, ha1, hg1, hp1⟩ :=
      cd_inStep hroot hown hce command cur path up ha hg hp
    obtain ⟨cur2, path2, hrun2, hin⟩ :=
      cdRun_inStep hroot hown hce rest cur1 path1 up1 ha1 hg1 hp1
    exact ⟨cur2, path2, by simp [cdRun, hrun, hrun2], hin⟩

/-! ### Heaps built by make_dir -/

theorem mkdirCell_parent (cur new : Nat) (L : List Nat) (a : Nat) (n : node) :
    (mkdirCell cur new L a n).parent = n.parent := by
  unfold mkdirCell
  simp only []
  split_ifs <;> rfl

theorem mkdirCell_next (cur new : Nat) (L : List Nat) (a : Nat) (n : node)
    (ha : L.getLast? ≠ some a) : (mkdirCell cur new L a n).next = n.next := by
  unfold mkdirCell
  simp only [ha, if_false]
  split_ifs <;> rfl

theorem mkdirCell_child (cur new : Nat) (L : List Nat) (a : Nat) (n : node)
    (ha : a ≠ cur) : (mkdirCell cur new L a n).child = n.child := by
  unfold mkdirCell
  simp only [ha, false_and, if_false]
  split_ifs <;> rfl

/-- Two chains of children that share a node belong to the same folder. -/
theorem Owned.disjoint {h : Heap} (hown : Owned h) {f g c : Nat} {Lf Lg : List Nat}
    (hf : children h f = some Lf) (hg : children h g = some Lg)
    (hcf : c ∈ Lf) (hcg : c ∈ Lg) : f = g := by
  have h1 := hown f Lf c hf hcf
  have h2 := hown g Lg c hg hcg
  rw [h1] at h2
  simpa using h2

/-- A make_dir that returns keeps the heap a tree built by make_dir. -/
theorem make_dir_keeps_tree {h h' : Heap} {junk : node} {now : Int} {cur : Nat}
    {command : List Char} (hJ : MkdirTree h)
    (hrun : make_dir h junk now cur command = some h') : MkdirTree h' := by
  obtain ⟨hroot, hown, hce⟩ := hJ
  cases hcmd : strtokAll ' ' command with
  | nil =>
    simp only [make_dir, hcmd, Option.some.injEq] at hrun
    subst hrun
    exact ⟨hroot, hown, hce⟩
  | cons c0 rest =>
    cases rest with
    | nil =>
      simp only [make_dir, hcmd, Option.some.injEq] at hrun
      subst hrun
      exact ⟨hroot, hown, hce⟩
    | cons name more =>
      by_cases hcur : cur < h.length
      swap
      · have : h[cur]? = none := List.getElem?_eq_none (Nat.le_of_not_lt hcur)
        simp [make_dir, hcmd, getNodeTypeless, this] at hrun
      obtain ⟨L, hL⟩ := chainsEnd_get hce hcur
      have hg := getNodeTypeless_spec name hL
      cases hfn : firstNamed h name L with
      | some e =>
        rw [hfn] at hg
        simp only [make_dir, hcmd, hg, Option.some.injEq] at hrun
        subst hrun
        exact ⟨hroot, hown, hce⟩
      | none =>
        have hrun := make_dir_link_of_run hcmd hL hfn hrun
        obtain ⟨h2, hrun2, hlen, hkids, hnew, hcells⟩ :=
          @linkNewFolder_cells h junk now cur name L hL
        rw [hrun] at hrun2
        have e2 : h' = h2 := Option.some.inj hrun2
        subst e2
        have hparent : ∀ a, a < h.length → parentOf h' a = parentOf h a := by
          intro a ha
          obtain ⟨n, hn⟩ : ∃ n, h[a]? = some n := ⟨_, List.getElem?_eq_getElem ha⟩
          simp [parentOf, hn, hcells a n hn, mkdirCell_parent]
        have hother : ∀ f, f < h.length → f ≠ cur → children h' f = children h f := by
          intro f hf hne
          obtain ⟨Lf, hLf⟩ := chainsEnd_get hce hf
          rw [hLf]
          obtain ⟨nf, hnf, hcf⟩ := children_eq_some_iff.mp hLf
          rw [children_eq_some_iff]
          refine ⟨_, hcells f nf hnf, ?_⟩
          rw [mkdirCell_child _ _ _ _ _ hne]
          refine IsChain.frame hcf ?_
          intro a ha
          obtain ⟨na, hna⟩ : ∃ na, h[a]? = some na :=
            ⟨_, List.getElem?_eq_getElem (IsChain.lt hcf a ha)⟩
          have hz : L.getLast? ≠ some a := by
            intro hz
            have haL : a ∈ L := List.mem_of_getLast?_eq_some hz
            exact hne (Owned.disjoint hown hLf hL ha haL)
          simp [nextOf, hna, hcells a na hna, mkdirCell_next _ _ _ _ _ hz]
        have hnewkids : children h' h.length = some [] := by
          rw [children_eq_some_iff]
          exact ⟨_, hnew, by simp [newFolderNode, initFolder, IsChain]⟩
        have hkidsOf : ∀ f, f < h'.length → ∃ Lf, children h' f = some Lf ∧
            ∀ c ∈ Lf, parentOf h' c = some (some f) := by
          intro f hf
          by_cases e1 : f = h.length
          · subst e1
            exact ⟨[], hnewkids, by simp⟩
          · have hf2 : f < h.length := by omega
            by_cases e2 : f = cur
            · subst e2
              refine ⟨_, hkids, ?_⟩
              intro c hc
              rcases List.mem_append.mp hc with q | q
              · obtain ⟨nf, hnf, hcf⟩ := children_eq_some_iff.mp hL
                rw [hparent c (IsChain.lt hcf c q)]
                exact hown f L c hL q
              · simp only [List.mem_singleton] at q
                subst q
                simp [parentOf, hnew, newFolderNode, initFolder]
            · obtain ⟨Lf, hLf⟩ := chainsEnd_get hce hf2
              refine ⟨Lf, by rw [hother f hf2 e2, hLf], ?_⟩
              intro c hc
              obtain ⟨nf, hnf, hcf⟩ := children_eq_some_iff.mp hLf
              rw [hparent c (IsChain.lt hcf c hc)]
              exact hown f Lf c hLf hc
        refine ⟨?_, ?_, ?_⟩
        · unfold RootAt
          have h0 : 0 < h.length := by
            unfold RootAt parentOf at hroot
            cases hn : h[0]? with
            | none => simp [hn] at hroot
            | some n => exact lt_of_getElem?_eq_some hn
          rw [hparent 0 h0]
          exact hroot
        · intro f Lf c hLf hc
          have hf : f < h'.length := by
            obtain ⟨nf, hnf, _⟩ := children_eq_some_iff.mp hLf
            exact lt_of_getElem?_eq_some hnf
          obtain ⟨Lf2, hLf2, hpar⟩ := hkidsOf f hf
          rw [hLf] at hLf2
          have := Option.some.inj hLf2
          subst this
          exact hpar c hc
        · intro f hf
          obtain ⟨Lf, hLf, _⟩ := hkidsOf f hf
          simp [hLf]

/-- The root of main alone is a tree built by make_dir. -/
theorem mkdirTree_root (junk : node) (now : Int) : MkdirTree [mkRoot junk now] := by
  refine ⟨by simp [RootAt, parentOf, mkRoot], ?_, ?_⟩
  · intro f L c hL hc
    cases f with
    | zero =>
      simp only [children, List.getElem?_cons_zero, mkRoot, chainFrom] at hL
      cases hL2 : L with
      | nil => rw [hL2] at hc; simp at hc
      | cons b L' =>
        rw [hL2] at hL
        cases hq : ([mkRoot junk now] : Heap).length <;> simp [hq, chainFrom] at hL
    | succ k => simp [children] at hL
  · intro a ha
    have : a = 0 := by simpa using ha
    subst this
    simp [children, mkRoot, chainFrom]

/-- Every heap that a run of mkdir commands builds from the root of main is a
tree built by make_dir. -/
theorem makeDirs_tree (junk : node) :
    ∀ (steps : List (Int × Nat × List Char)) (h h' : Heap), MkdirTree h →
      makeDirs junk h steps = some h' → MkdirTree h'
  | [], h, h', hJ, hrun => by
    simp only [makeDirs, Option.some.injEq] at hrun
    subst hrun
    exact hJ
  | (now, cur, command) :: more, h, h', hJ, hrun => by
    simp only [makeDirs] at hrun
    cases h1 : make_dir h junk now cur command with
    | none => simp [h1] at hrun
    | some h2 =>
      simp only [h1, Option.some_bind] at hrun
      exact makeDirs_tree junk more h2 h' (make_dir_keeps_tree hJ h1) hrun

/-- C38: in a heap that a run of mkdir commands built from the root of main,
every run of cd commands from the root with the path string / returns, and the
path string it leaves is in step with the folder it reaches: the separator
alone at the root, otherwise the names of the folders from below the root down
to that folder, each behind a separator. -/
theorem cd_path_in_step (junk : node) (now : Int) (steps : List (Int × Nat × List Char))
    (h : Heap) (hbuilt : makeDirs junk [mkRoot junk now] steps = some h)
    (cmds : List (List Char)) :
    ∃ (cur : Nat) (path : List Char),
      cdRun h 0 cmds (0, ['/']) = some (cur, path) ∧ InStep h 0 cur path := by
  obtain ⟨hroot, hown, hce⟩ := makeDirs_tree junk steps _ h (mkdirTree_root junk now) hbuilt
  exact cdRun_inStep hroot hown hce cmds 0 ['/'] [] (by simp [Ancestry])
    (by intro a ha; simp at ha) (by simp [namesOf, pathString])

/-- C38 on the tree with /a/b and /a/c: after cd a/b, cd ../x, cd /a/c/./.. the
current folder is a and the path string is /a. -/
theorem cd_path_in_step_witness :
    (∃ (cur : Nat) (path : List Char),
      cdRun heapTree 0 ["cd a/b".toList, "cd ../x".toList, "cd /a/c/./..".toList] (0, ['/'])
        = some (cur, path) ∧ InStep heapTree 0 cur path) ∧
    cdRun heapTree 0 ["cd a/b".toList] (0, ['/']) = some (2, "/a/b".toList) ∧
    cdRun heapTree 0 ["cd a/b".toList, "cd ../x".toList] (0, ['/']) = some (1, "/a".toList) ∧
    cdRun heapTree 0 ["cd a/b".toList, "cd ../x".toList, "cd /a/c/./..".toList] (0, ['/'])
      = some (1, "/a".toList) :=
  ⟨cd_path_in_step junk0 0 [(0, 0, "mkdir a".toList), (0, 1, "mkdir b".toList),
      (0, 1, "mkdir c".toList)] heapTree (by decide!) _,
   by decide!, by decide!, by decide!⟩

/-! ### The nodes below a folder and make_dir -/

theorem hasShape_node {h : Heap} {p : Ptr} {a : Nat} {child next : ATree} :
    hasShape h p (ATree.node a child next) = true ↔
      p = some a ∧ ∃ n : node, h[a]? = some n ∧ hasShape h n.child child = true ∧
        hasShape h n.next next = true := by
  cases p with
  | none => simp [hasShape]
  | some b =>
    simp only [hasShape, Bool.and_eq_true, decide_eq_true_eq, Option.some.injEq]
    constructor
    · rintro ⟨e, hm⟩
      subst e
      cases hn : h[b]? with
      | none => simp [hn] at hm
      | some n =>
        simp only [hn, Bool.and_eq_true] at hm
        exact ⟨rfl, n, rfl, hm⟩
    · rintro ⟨e, n, hn, h1, h2⟩
      subst e
      simp [hn, h1, h2]

theorem hasShape_null {h : Heap} {p : Ptr} : hasShape h p ATree.null = true ↔ p = none := by
  cases p <;> simp [hasShape]

/-- A tree of addresses stays in a heap that keeps the child and next pointers
of its cells. -/
theorem hasShape_frame {h h' : Heap} : ∀ (T : ATree) (p : Ptr), hasShape h p T = true →
    (∀ a ∈ addrsOf T, childOf h' a = childOf h a ∧ nextOf h' a = nextOf h a) →
    hasShape h' p T = true
  | ATree.null, p, hs, _ => by
    rw [hasShape_null] at hs ⊢
    exact hs
  | ATree.node a child next, p, hs, hf => by
    rw [hasShape_node] at hs ⊢
    obtain ⟨e, n, hn, h1, h2⟩ := hs
    obtain ⟨hc, hx⟩ := hf a (by simp [addrsOf])
    simp only [childOf, nextOf, hn, Option.map_some'] at hc hx
    cases hn' : h'[a]? with
    | none => simp [hn'] at hc
    | some n' =>
      simp only [hn', Option.map_some', Option.some.injEq] at hc hx
      refine ⟨e, n', rfl, ?_, ?_⟩
      · rw [hc]
        exact hasShape_frame child _ h1 (fun b hb => hf b (by simp [addrsOf, hb]))
      · rw [hx]
        exact hasShape_frame next _ h2 (fun b hb => hf b (by simp [addrsOf, hb]))

theorem topChain_sub : ∀ (T : ATree), ∀ a ∈ topChain T, a ∈ addrsOf T
  | ATree.null, a, ha => by simp [topChain] at ha
  | ATree.node b child next, a, ha => by
    simp only [topChain, List.mem_cons] at ha
    rcases ha with e | e
    · simp [addrsOf, e]
    · have := topChain_sub next a e
      simp [addrsOf, this]

/-- The top chain of the tree of addresses behind a pointer is the chain behind
the pointer. -/
theorem hasShape_isChain {h : Heap} : ∀ (T : ATree) (p : Ptr), hasShape h p T = true →
    IsChain h p (topChain T)
  | ATree.null, p, hs => by
    rw [hasShape_null] at hs
    simpa [topChain, IsChain] using hs
  | ATree.node a child next, p, hs => by
    rw [hasShape_node] at hs
    obtain ⟨e, n, hn, _, h2⟩ := hs
    simp only [topChain, IsChain]
    exact ⟨e, n, hn, hasShape_isChain next _ h2⟩

/-- Linking a new cell without children behind the top chain of a tree of
addresses. -/
theorem hasShape_snoc {h h' : Heap} {new : Nat} {nn : node}
    (hnew : h'[new]? = some nn) (hnc : nn.child = none) (hnx : nn.next = none) :
    ∀ (T : ATree) (p : Ptr), hasShape h p T = true → (addrsOf T).Nodup →
      (∀ a ∈ addrsOf T, childOf h' a = childOf h a) →
      (∀ a ∈ addrsOf T, (topChain T).getLast? ≠ some a → nextOf h' a = nextOf h a) →
      (∀ z, (topChain T).getLast? = some z → nextOf h' z = some (some new)) →
      hasShape h' (if T = ATree.null then some new else p) (snocTop new T) = true
  | ATree.null, p, _, _, _, _, _ => by
    simp only [if_true, snocTop]
    rw [hasShape_node]
    exact ⟨rfl, nn, hnew, by rw [hnc]; rfl, by rw [hnx]; rfl⟩
  | ATree.node a child next, p, hs, hnd, hch, hnxt, hlast => by
    rw [hasShape_node] at hs
    obtain ⟨e, n, hn, h1, h2⟩ := hs
    simp only [addrsOf, List.nodup_cons, List.mem_append, not_or, List.nodup_append] at hnd
    obtain ⟨⟨hac, han⟩, hndc, hndn, hdisj⟩ := hnd
    have hc := hch a (by simp [addrsOf])
    simp only [childOf, hn, Option.map_some'] at hc
    cases hn' : h'[a]? with
    | none => simp [hn'] at hc
    | some n' =>
      simp only [hn', Option.map_some', Option.some.injEq] at hc
      have hnotlast : ∀ b ∈ addrsOf child, (topChain (ATree.node a child next)).getLast? ≠ some b := by
        intro b hb hl
        have hmem : b ∈ topChain (ATree.node a child next) := List.mem_of_getLast?_eq_some hl
        simp only [topChain, List.mem_cons] at hmem
        rcases hmem with q | q
        · exact hac (q ▸ hb)
        · exact hdisj hb (topChain_sub next b q)
      have hchild : hasShape h' n'.child child = true := by
        rw [hc]
        refine hasShape_frame child _ h1 ?_
        intro b hb
        exact ⟨hch b (by simp [addrsOf, hb]), hnxt b (by simp [addrsOf, hb]) (hnotlast b hb)⟩
      simp only [reduceCtorEq, if_false, snocTop]
      rw [hasShape_node]
      refine ⟨e, n', hn', hchild, ?_⟩
      cases hnext : next with
      | null =>
        subst hnext
        rw [hasShape_null] at h2
        have hz := hlast a (by simp [topChain])
        simp only [nextOf, hn', Option.map_some', Option.some.injEq] at hz
        rw [hz]
        simp only [snocTop]
        rw [hasShape_node]
        exact ⟨rfl, nn, hnew, by rw [hnc]; rfl, by rw [hnx]; rfl⟩
      | node b c2 n2 =>
        have hlastEq : (topChain (ATree.node a child next)).getLast? = (topChain next).getLast? := by
          rw [hnext]
          simp [topChain, List.getLast?_cons_cons]
        have hane : (topChain (ATree.node a child next)).getLast? ≠ some a := by
          rw [hlastEq]
          intro hl
          exact han (topChain_sub next a (List.mem_of_getLast?_eq_some hl))
        have hx := hnxt a (by simp [addrsOf]) hane
        simp only [nextOf, hn, hn', Option.map_some', Option.some.injEq] at hx
        rw [hx]
        have ih := hasShape_snoc hnew hnc hnx next n.next h2 hndn
          (fun q hq => hch q (by simp [addrsOf, hq]))
          (fun q hq hl => hnxt q (by simp [addrsOf, hq]) (by rw [hlastEq]; exact hl))
          (fun z hz => hlast z (by rw [hlastEq]; exact hz))
        rw [hnext] at ih
        simpa using ih

theorem addrsOf_snocTop_count (P : Nat → Bool) (new : Nat) : ∀ T : ATree,
    (addrsOf (snocTop new T)).countP P = (addrsOf T).countP P + (if P new then 1 else 0)
  | ATree.null => by simp [snocTop, addrsOf, List.countP_cons]
  | ATree.node a child next => by
    simp only [snocTop, addrsOf, List.countP_cons, List.countP_append,
      addrsOf_snocTop_count P new next]
    omega

theorem hasShape_live {h : Heap} : ∀ (T : ATree) (p : Ptr), hasShape h p T = true →
    ∀ a ∈ addrsOf T, ∃ n : node, h[a]? = some n
  | ATree.null, _, _, a, ha => by simp [addrsOf] at ha
  | ATree.node b child next, p, hs, a, ha => by
    rw [hasShape_node] at hs
    obtain ⟨_, n, hn, h1, h2⟩ := hs
    simp only [addrsOf, List.mem_cons, List.mem_append] at ha
    rcases ha with e | e | e
    · exact ⟨n, e ▸ hn⟩
    · exact hasShape_live child _ h1 a e
    · exact hasShape_live next _ h2 a e

theorem topChain_eq_nil {T : ATree} : topChain T = [] ↔ T = ATree.null := by
  cases T <;> simp [topChain]

/-- C33 as worded fails: in the heap that holds the root alone the item count
of the root is 0 and the root has no File below it; make_dir for mkdir docs
succeeds, and afterwards the item count of the root is 1 while the one node
below it is a Folder, so that it still has no File below it. -/
theorem make_dir_count_not_kept :
    itemsOf [mkRoot junk0 0] 0 = some 0 ∧
    childOf [mkRoot junk0 0] 0 = some none ∧
    hasShape [mkRoot junk0 0] none ATree.null = true ∧
    filesIn [mkRoot junk0 0] ATree.null = 0 ∧
    make_dir [mkRoot junk0 0] junk0 0 0 "mkdir docs".toList = some heapDocs ∧
    childOf heapDocs 0 = some (some 1) ∧
    hasShape heapDocs (some 1) (ATree.node 1 ATree.null ATree.null) = true ∧
    filesIn heapDocs (ATree.node 1 ATree.null ATree.null) = 0 ∧
    itemsOf heapDocs 0 = some 1 := by
  decide!

/-- C33 as amended: in a folder whose children are the chain L, none of them
with the name, and below which the nodes form the tree T of distinct cells,
every make_dir that returns leaves a heap in which the nodes below the folder
are those of T and the new cell behind the last child, the number of File cells
among them is what it was, and the item count of the folder is one more than it
was; so a count that was the number of File cells below the folder is that
number plus one.  The function returns when getRealPath can hold the path of
the folder. -/
theorem make_dir_raises_count (h : Heap) (junk : node) (now : Int) (currentFolder : Nat)
    (command c0 name : List Char) (more : List (List Char)) (L : List Nat) (f : node)
    (T : ATree)
    (hcmd : strtokAll ' ' command = c0 :: name :: more)
    (hf : h[currentFolder]? = some f)
    (hch : children h currentFolder = some L)
    (hfresh : ∀ c ∈ L, nameOf h c ≠ some name)
    (hT : hasShape h f.child T = true)
    (hnd : (currentFolder :: addrsOf T).Nodup) :
    ((getRealPath h currentFolder).isSome = true →
      ∃ h', make_dir h junk now currentFolder command = some h') ∧
    ∀ h', make_dir h junk now currentFolder command = some h' →
      ∃ f' : node,
        h'[currentFolder]? = some f' ∧
        hasShape h' f'.child (snocTop h.length T) = true ∧
        filesIn h' (snocTop h.length T) = filesIn h T ∧
        f'.numberOfItems = f.numberOfItems + 1 ∧
        (f.numberOfItems = (filesIn h T : Int) →
          f'.numberOfItems = (filesIn h' (snocTop h.length T) : Int) + 1) := by
  have hfn := firstNamed_eq_none.mpr hfresh
  obtain ⟨h', hrun, hlen, _, hnew, hcells⟩ :=
    @linkNewFolder_cells h junk now currentFolder name L hch
  suffices key : ∃ f' : node,
      h'[currentFolder]? = some f' ∧
      hasShape h' f'.child (snocTop h.length T) = true ∧
      filesIn h' (snocTop h.length T) = filesIn h T ∧
      f'.numberOfItems = f.numberOfItems + 1 ∧
      (f.numberOfItems = (filesIn h T : Int) →
        f'.numberOfItems = (filesIn h' (snocTop h.length T) : Int) + 1) from
    ⟨fun hfit => ⟨_, (make_dir_fresh hcmd hch hfn hfit).choose_spec.1⟩,
     fun h2 hrun2 => by
      have e := (make_dir_link_of_run hcmd hch hfn hrun2).symm.trans hrun
      have e2 := Option.some.inj e
      subst e2
      exact key⟩
  obtain ⟨f2, hf2, hc⟩ := children_eq_some_iff.mp hch
  have ef : f2 = f := Option.some.inj (hf2.symm.trans hf)
  subst ef
  have hLT : L = topChain T := IsChain.det hc (hasShape_isChain T _ hT)
  have hcurT : currentFolder ∉ addrsOf T := (List.nodup_cons.mp hnd).1
  have hndT : (addrsOf T).Nodup := (List.nodup_cons.mp hnd).2
  have hlive := hasShape_live T _ hT
  have hcurlast : L.getLast? ≠ some currentFolder := by
    intro hl
    have : currentFolder ∈ L := List.mem_of_getLast?_eq_some hl
    rw [hLT] at this
    exact hcurT (topChain_sub T _ this)
  have hfcell := hcells currentFolder f2 hf
  have hkeep : ∀ a ∈ addrsOf T, childOf h' a = childOf h a ∧ typeOf h' a = typeOf h a ∧
      ((topChain T).getLast? ≠ some a → nextOf h' a = nextOf h a) := by
    intro a ha
    obtain ⟨n, hn⟩ := hlive a ha
    have hne : a ≠ currentFolder := fun e => hcurT (e ▸ ha)
    refine ⟨?_, ?_, ?_⟩
    · simp [childOf, hn, hcells a n hn, mkdirCell_child _ _ _ _ _ hne]
    · simp only [typeOf, hn, hcells a n hn, Option.map_some', Option.some.injEq]
      unfold mkdirCell
      simp only []
      split_ifs <;> rfl
    · intro hl
      rw [← hLT] at hl
      simp [nextOf, hn, hcells a n hn, mkdirCell_next _ _ _ _ _ hl]
  have hshape := hasShape_snoc (h := h) hnew (by simp [newFolderNode, initFolder])
    (by simp [newFolderNode, initFolder]) T f2.child hT hndT
    (fun a ha => (hkeep a ha).1) (fun a ha hl => (hkeep a ha).2.2 hl)
    (by
      intro z hz
      have hzT : z ∈ addrsOf T := topChain_sub T z (List.mem_of_getLast?_eq_some hz)
      obtain ⟨n, hn⟩ := hlive z hzT
      rw [← hLT] at hz
      simp [nextOf, hn, hcells z n hn, mkdirCell, hz, setNext])
  have hchild : (mkdirCell currentFolder h.length L currentFolder f2).child
      = if T = ATree.null then some h.length else f2.child := by
    unfold mkdirCell
    simp only [hcurlast, if_false, true_and, if_true]
    by_cases hL : L = []
    · have : T = ATree.null := topChain_eq_nil.mp (hLT ▸ hL)
      simp [hL, this, setChild]
    · have : T ≠ ATree.null := fun e => hL (by rw [hLT, e]; rfl)
      simp [hL, this, addItems]
  have hitems : (mkdirCell currentFolder h.length L currentFolder f2).numberOfItems
      = f2.numberOfItems + 1 := by
    unfold mkdirCell
    simp only [hcurlast, if_false, true_and, if_true]
    split_ifs <;> simp [setChild, addItems]
  have hfiles : filesIn h' (snocTop h.length T) = filesIn h T := by
    unfold filesIn
    rw [addrsOf_snocTop_count]
    have hnewty : typeOf h' h.length = some nodeType.Folder := by
      simp [typeOf, hnew, newFolderNode, initFolder]
    simp only [hnewty, Option.some.injEq, reduceCtorEq, decide_False, Bool.false_eq_true,
      if_false, Nat.add_zero]
    refine List.countP_congr ?_
    intro a ha
    simp [(hkeep a ha).2.1]
  refine ⟨_, hfcell, ?_, hfiles, hitems, ?_⟩
  · rw [hchild]
    exact hshape
  · intro hcount
    rw [hitems, hcount, hfiles]

/-- C33 as amended, on the heap with the folder docs under the root: mkdir pics
at the root. -/
theorem make_dir_raises_count_witness :
    ∃ (h' : Heap) (f' : node),
      make_dir heapDocs junk0 0 0 "mkdir pics".toList = some h' ∧
      h'[0]? = some f' ∧
      hasShape h' f'.child (snocTop 2 (ATree.node 1 ATree.null ATree.null)) = true ∧
      filesIn h' (snocTop 2 (ATree.node 1 ATree.null ATree.null))
        = filesIn heapDocs (ATree.node 1 ATree.null ATree.null) ∧
      f'.numberOfItems = 1 + 1 :=
  let ⟨hret, hpost⟩ := make_dir_raises_count heapDocs junk0 0 0
    "mkdir pics".toList "mkdir".toList "pics".toList [] [1]
    { mkRoot junk0 0 with numberOfItems := 1, child := some 1 }
    (ATree.node 1 ATree.null ATree.null)
    (by decide!) (by decide!) (by decide!) (by decide!) (by decide!) (by decide!)
  let ⟨h', h1⟩ := hret (by decide!)
  let ⟨f', h2, h3, h4, h5, _⟩ := hpost h' h1
  ⟨h', f', h1, h2, h3, h4, h5⟩

/-! ### The links the loader sets -/

theorem eraseList_append (a b : List (linkedData × LTree)) :
    eraseList (a ++ b) = eraseList a ++ eraseList b := by
  induction a with
  | nil => rfl
  | cons x rest ih =>
    obtain ⟨l, k⟩ := x
    simp [eraseList, ih]

theorem eraseList_setLastNext (v : Ptr) : ∀ acc : List (linkedData × LTree),
    eraseList (setLastNext v acc) = eraseList acc
  | [] => rfl
  | [(l, kids)] => rfl
  | (l, kids) :: (l2, kids2) :: rest => by
    have ih := eraseList_setLastNext v ((l2, kids2) :: rest)
    simp only [setLastNext, eraseList] at ih ⊢
    rw [ih]

theorem eraseL_chainOfL : ∀ acc : List (linkedData × LTree),
    eraseL (chainOfL acc) = chainOf (eraseList acc)
  | [] => rfl
  | (l, kids) :: rest => by simp [chainOfL, eraseL, eraseList, chainOf, eraseL_chainOfL rest]

/-- The loader with the links builds the nodes the loader builds. -/
theorem loadLinked_erase (junk : nodeData) : ∀ fuel : Nat,
    (∀ (file : List Char) (free : Nat) (parent : Ptr) (acc : List (linkedData × LTree)),
      (loadSiblingsLinked junk fuel file free parent acc).map
          (fun r => (eraseList r.1, r.2.2))
        = loadSiblings junk fuel file (eraseList acc)) ∧
    (∀ (file : List Char) (free : Nat) (l : linkedData) (kids : LTree),
      (loadPropertiesLinked junk fuel file free l kids).map
          (fun r => (r.1.data, eraseL r.2.1, r.2.2.2))
        = loadProperties junk fuel file l.data (eraseL kids))
  | 0 => by simp [loadSiblingsLinked, loadSiblings, loadPropertiesLinked, loadProperties]
  | fuel + 1 => by
    obtain ⟨ihS, ihP⟩ := loadLinked_erase junk fuel
    have e1 : "]".toList = [']'] := rfl
    have e2 : "\x7b".toList = ['\x7b'] := rfl
    have e3 : "\x7d".toList = ['\x7d'] := rfl
    refine ⟨?_, ?_⟩
    · intro file free parent acc
      simp only [loadSiblingsLinked, loadSiblings, e1, e2]
      cases hget : fgets 1024 file with
      | none => simp
      | some lr =>
        obtain ⟨line, rest⟩ := lr
        simp only []
        by_cases hb : strstr line [']'] = true
        · simp [hb]
        · simp only [hb, Bool.false_eq_true, if_false]
          by_cases ho : strstr line ['\x7b'] = true
          · simp only [ho, if_true]
            have hp := ihP rest (free + 1)
              { addr := free, parent := parent, child := none, next := none,
                previous := lastAddr acc,
                data := { junk with symlinkTarget := none, numberOfItems := 0 } } LTree.null
            simp only [eraseL] at hp
            rw [← hp]
            cases hq : loadPropertiesLinked junk fuel rest (free + 1)
                { addr := free, parent := parent, child := none, next := none,
                  previous := lastAddr acc,
                  data := { junk with symlinkTarget := none, numberOfItems := 0 } }
                LTree.null with
            | none => simp
            | some r =>
              obtain ⟨l, kids, free2, rest2⟩ := r
              simp only [Option.map_some']
              rw [ihS]
              congr 1
              cases acc with
              | nil => simp [eraseList]
              | cons x xs =>
                simp [eraseList_append, eraseList_setLastNext, eraseList]
          · simp only [ho, Bool.false_eq_true, if_false]
            exact ihS rest free parent acc
    · intro file free l kids
      simp only [loadPropertiesLinked, loadProperties, e3]
      cases hget : fgets 1024 file with
      | none => simp
      | some lr =>
        obtain ⟨line, rest⟩ := lr
        simp only []
        by_cases hb : strstr line ['\x7d'] = true
        · simp [hb]
        · simp only [hb, Bool.false_eq_true, if_false]
          by_cases hfl : isFieldLine line = true
          · simp only [hfl, if_true]
            exact ihP rest free _ kids
          · simp only [hfl, Bool.false_eq_true, if_false]
            by_cases hc : strstr line "\"children\":".toList = true
            · simp only [hc, if_true]
              have hs := ihS rest free (some l.addr) []
              simp only [eraseList] at hs
              rw [← hs]
              cases hq : loadSiblingsLinked junk fuel rest free (some l.addr) [] with
              | none => simp
              | some r =>
                obtain ⟨ks, free2, rest2⟩ := r
                simp only [Option.map_some']
                rw [ihP]
                simp only [eraseL_chainOfL]
            · simp only [hc, Bool.false_eq_true, if_false]
              exact ihP rest free l kids

theorem wellLinked_node {parent prev : Ptr} {l : linkedData} {c n : LTree} :
    WellLinked parent prev (LTree.node l c n) = true ↔
      l.parent = parent ∧ l.previous = prev ∧ l.child = headOf c ∧ l.next = headOf n ∧
      WellLinked (some l.addr) none c = true ∧ WellLinked parent (some l.addr) n = true := by
  simp [WellLinked, and_assoc]

theorem headOf_chainOfL : ∀ acc : List (linkedData × LTree),
    headOf (chainOfL acc) = headAddr acc
  | [] => rfl
  | _ :: _ => rfl

theorem headAddr_setLastNext (v : Ptr) (b : List (linkedData × LTree)) :
    ∀ acc : List (linkedData × LTree), acc ≠ [] →
      headAddr (setLastNext v acc ++ b) = headAddr acc
  | [], h => absurd rfl h
  | [_], _ => rfl
  | _ :: _ :: _, _ => rfl

/-- Linking a finished node behind the last node of a consistently linked
chain. -/
theorem wellLinked_snoc (parent : Ptr) (l : linkedData) (kids : LTree)
    (hp : l.parent = parent) (hc : l.child = headOf kids) (hn : l.next = none)
    (hk : WellLinked (some l.addr) none kids = true) :
    ∀ (acc : List (linkedData × LTree)) (prev : Ptr), acc ≠ [] →
      WellLinked parent prev (chainOfL acc) = true →
      WellLinked parent prev
        (chainOfL (setLastNext (some l.addr) acc ++ [({ l with previous := lastAddr acc }, kids)]))
        = true
  | [], _, h, _ => absurd rfl h
  | [(l0, k0)], prev, _, hw => by
    simp only [chainOfL] at hw
    rw [wellLinked_node] at hw
    obtain ⟨h1, h2, h3, _, h5, _⟩ := hw
    simp only [setLastNext, List.singleton_append, chainOfL, lastAddr, List.getLast?_singleton,
      Option.map_some']
    rw [wellLinked_node]
    refine ⟨h1, h2, h3, rfl, h5, ?_⟩
    rw [wellLinked_node]
    exact ⟨hp, rfl, hc, by simpa [headOf] using hn, hk, rfl⟩
  | (l0, k0) :: (l1, k1) :: rest, prev, _, hw => by
    simp only [chainOfL] at hw
    rw [wellLinked_node] at hw
    obtain ⟨h1, h2, h3, h4, h5, h6⟩ := hw
    have ih := wellLinked_snoc parent l kids hp hc hn hk ((l1, k1) :: rest) (some l0.addr)
      (by simp) (by simpa [chainOfL] using h6)
    have hlast : lastAddr ((l0, k0) :: (l1, k1) :: rest) = lastAddr ((l1, k1) :: rest) := by
      simp [lastAddr, List.getLast?_cons_cons]
    simp only [setLastNext, List.cons_append, chainOfL, hlast]
    rw [wellLinked_node]
    refine ⟨h1, h2, h3, ?_, h5, ih⟩
    have hh := headAddr_setLastNext (some l.addr)
      [({ l with previous := lastAddr ((l1, k1) :: rest) }, kids)] ((l1, k1) :: rest) (by simp)
    rw [headOf_chainOfL]
    simp only [List.append_eq]
    rw [hh]
    simpa [headOf, chainOfL, headAddr] using h4

/-- The loader links consistently, whatever the text. -/
theorem loadLinked_wellLinked (junk : nodeData) : ∀ fuel : Nat,
    (∀ (file : List Char) (free : Nat) (parent : Ptr) (acc : List (linkedData × LTree))
      (r : List (linkedData × LTree) × Nat × List Char),
      WellLinked parent none (chainOfL acc) = true →
      loadSiblingsLinked junk fuel file free parent acc = some r →
      WellLinked parent none (chainOfL r.1) = true) ∧
    (∀ (file : List Char) (free : Nat) (l : linkedData) (kids : LTree)
      (r : linkedData × LTree × Nat × List Char),
      l.child = headOf kids → WellLinked (some l.addr) none kids = true →
      loadPropertiesLinked junk fuel file free l kids = some r →
      r.1.addr = l.addr ∧ r.1.parent = l.parent ∧ r.1.previous = l.previous ∧
      r.1.next = l.next ∧ r.1.child = headOf r.2.1 ∧
      WellLinked (some r.1.addr) none r.2.1 = true)
  | 0 => by simp [loadSiblingsLinked, loadPropertiesLinked]
  | fuel + 1 => by
    obtain ⟨ihS, ihP⟩ := loadLinked_wellLinked junk fuel
    have e1 : "]".toList = [']'] := rfl
    have e2 : "\x7b".toList = ['\x7b'] := rfl
    have e3 : "\x7d".toList = ['\x7d'] := rfl
    refine ⟨?_, ?_⟩
    · intro file free parent acc r hw hrun
      simp only [loadSiblingsLinked, e1, e2] at hrun
      cases hget : fgets 1024 file with
      | none =>
        simp only [hget, Option.some.injEq] at hrun
        subst hrun
        exact hw
      | some lr =>
        obtain ⟨line, rest⟩ := lr
        simp only [hget] at hrun
        by_cases hb : strstr line [']'] = true
        · simp only [hb, if_true, Option.some.injEq] at hrun
          subst hrun
          exact hw
        · simp only [hb, Bool.false_eq_true, if_false] at hrun
          by_cases ho : strstr line ['\x7b'] = true
          · simp only [ho, if_true] at hrun
            cases hq : loadPropertiesLinked junk fuel rest (free + 1)
                { addr := free, parent := parent, child := none, next := none,
                  previous := lastAddr acc,
                  data := { junk with symlinkTarget := none, numberOfItems := 0 } }
                LTree.null with
            | none => simp [hq] at hrun
            | some q =>
              obtain ⟨l, kids, free2, rest2⟩ := q
              simp only [hq] at hrun
              obtain ⟨_, a2, a3, a4, a5, a6⟩ := ihP rest (free + 1) _ LTree.null _ rfl rfl hq
              simp only at a2 a3 a4 a5 a6
              refine ihS rest2 free2 parent _ r ?_ hrun
              cases acc with
              | nil =>
                simp only [chainOfL]
                rw [wellLinked_node]
                exact ⟨a2, by simpa [lastAddr] using a3, a5, by simpa [headOf] using a4, a6, rfl⟩
              | cons x xs =>
                exact wellLinked_snoc parent l kids a2 a5 a4 a6 (x :: xs) none (by simp) hw
          · simp only [ho, Bool.false_eq_true, if_false] at hrun
            exact ihS rest free parent acc r hw hrun
    · intro file free l kids r hc hw hrun
      simp only [loadPropertiesLinked, e3] at hrun
      cases hget : fgets 1024 file with
      | none =>
        simp only [hget, Option.some.injEq] at hrun
        subst hrun
        exact ⟨rfl, rfl, rfl, rfl, hc, hw⟩
      | some lr =>
        obtain ⟨line, rest⟩ := lr
        simp only [hget] at hrun
        by_cases hb : strstr line ['\x7d'] = true
        · simp only [hb, if_true, Option.some.injEq] at hrun
          subst hrun
          exact ⟨rfl, rfl, rfl, rfl, hc, hw⟩
        · simp only [hb, Bool.false_eq_true, if_false] at hrun
          by_cases hfl : isFieldLine line = true
          · simp only [hfl, if_true] at hrun
            have := ihP rest free _ kids r ?_ ?_ hrun
            · exact this
            · exact hc
            · exact hw
          · simp only [hfl, Bool.false_eq_true, if_false] at hrun
            by_cases hch : strstr line "\"children\":".toList = true
            · simp only [hch, if_true] at hrun
              cases hq : loadSiblingsLinked junk fuel rest free (some l.addr) [] with
              | none => simp [hq] at hrun
              | some q =>
                obtain ⟨ks, free2, rest2⟩ := q
                simp only [hq] at hrun
                have hks := ihS rest free (some l.addr) [] _ rfl hq
                simp only at hks
                have := ihP rest2 free2 _ (chainOfL ks) r ?_ ?_ hrun
                · exact this
                · exact (headOf_chainOfL ks).symm
                · exact hks
            · simp only [hch, Bool.false_eq_true, if_false] at hrun
              exact ihP rest free l kids r hc hw hrun

theorem addrsL_chainOfL_append : ∀ a b : List (linkedData × LTree),
    addrsL (chainOfL (a ++ b)) = addrsL (chainOfL a) ++ addrsL (chainOfL b)
  | [], b => rfl
  | (l, k) :: rest, b => by
    simp [chainOfL, addrsL, addrsL_chainOfL_append rest b]

theorem addrsL_setLastNext (v : Ptr) : ∀ acc : List (linkedData × LTree),
    addrsL (chainOfL (setLastNext v acc)) = addrsL (chainOfL acc)
  | [] => rfl
  | [_] => rfl
  | (l, kids) :: (l2, kids2) :: rest => by
    have ih := addrsL_setLastNext v ((l2, kids2) :: rest)
    simp only [setLastNext, chainOfL, addrsL] at ih ⊢
    rw [ih]

/-- Appending a node whose address and whose children lie above everything in
a rising chain keeps the chain rising. -/
theorem rising_snoc {lo free free2 : Nat} {A K : List Nat} {x : Nat}
    (hp : A.Pairwise (fun a b => a < b)) (hb : ∀ a ∈ A, lo ≤ a ∧ a < free)
    (hlo : lo ≤ free) (hx : x = free) (hf : free + 1 ≤ free2)
    (hk : K.Pairwise (fun a b => a < b)) (hkb : ∀ a ∈ K, x < a ∧ a < free2) :
    (A ++ x :: K).Pairwise (fun a b => a < b) ∧
      ∀ a ∈ A ++ x :: K, lo ≤ a ∧ a < free2 := by
  subst hx
  refine ⟨?_, ?_⟩
  · rw [List.pairwise_append]
    refine ⟨hp, ?_, ?_⟩
    · rw [List.pairwise_cons]
      exact ⟨fun a ha => (hkb a ha).1, hk⟩
    · intro a ha b hb2
      have h1 := (hb a ha).2
      rcases List.mem_cons.mp hb2 with e | e
      · rw [e]; exact h1
      · have := (hkb b e).1
        omega
  · intro a ha
    rcases List.mem_append.mp ha with e | e
    · have := hb a e
      omega
    · rcases List.mem_cons.mp e with e2 | e2
      · rw [e2]; omega
      · have := hkb a e2
        omega

/-- The addresses the loader hands out rise along every chain it builds, the
children of a node between the node and its next sibling. -/
theorem loadLinked_addrs (junk : nodeData) : ∀ fuel : Nat,
    (∀ (file : List Char) (lo free : Nat) (parent : Ptr) (acc : List (linkedData × LTree))
      (r : List (linkedData × LTree) × Nat × List Char),
      (addrsL (chainOfL acc)).Pairwise (fun a b => a < b) →
      (∀ a ∈ addrsL (chainOfL acc), lo ≤ a ∧ a < free) → lo ≤ free →
      loadSiblingsLinked junk fuel file free parent acc = some r →
      free ≤ r.2.1 ∧ (addrsL (chainOfL r.1)).Pairwise (fun a b => a < b) ∧
      ∀ a ∈ addrsL (chainOfL r.1), lo ≤ a ∧ a < r.2.1) ∧
    (∀ (file : List Char) (free : Nat) (l : linkedData) (kids : LTree)
      (r : linkedData × LTree × Nat × List Char),
      (addrsL kids).Pairwise (fun a b => a < b) →
      (∀ a ∈ addrsL kids, l.addr < a ∧ a < free) → l.addr < free →
      loadPropertiesLinked junk fuel file free l kids = some r →
      free ≤ r.2.2.1 ∧ r.1.addr = l.addr ∧ (addrsL r.2.1).Pairwise (fun a b => a < b) ∧
      ∀ a ∈ addrsL r.2.1, l.addr < a ∧ a < r.2.2.1)
  | 0 => by simp [loadSiblingsLinked, loadPropertiesLinked]
  | fuel + 1 => by
    obtain ⟨ihS, ihP⟩ := loadLinked_addrs junk fuel
    have e1 : "]".toList = [']'] := rfl
    have e2 : "\x7b".toList = ['\x7b'] := rfl
    have e3 : "\x7d".toList = ['\x7d'] := rfl
    refine ⟨?_, ?_⟩
    · intro file lo free parent acc r hp hb hlo hrun
      simp only [loadSiblingsLinked, e1, e2] at hrun
      cases hget : fgets 1024 file with
      | none =>
        simp only [hget, Option.some.injEq] at hrun
        subst hrun
        exact ⟨Nat.le_refl _, hp, hb⟩
      | some lr =>
        obtain ⟨line, rest⟩ := lr
        simp only [hget] at hrun
        by_cases hbr : strstr line [']'] = true
        · simp only [hbr, if_true, Option.some.injEq] at hrun
          subst hrun
          exact ⟨Nat.le_refl _, hp, hb⟩
        · simp only [hbr, Bool.false_eq_true, if_false] at hrun
          by_cases ho : strstr line ['\x7b'] = true
          · simp only [ho, if_true] at hrun
            cases hq : loadPropertiesLinked junk fuel rest (free + 1)
                { addr := free, parent := parent, child := none, next := none,
                  previous := lastAddr acc,
                  data := { junk with symlinkTarget := none, numberOfItems := 0 } }
                LTree.null with
            | none => simp [hq] at hrun
            | some q =>
              obtain ⟨l, kids, free2, rest2⟩ := q
              simp only [hq] at hrun
              obtain ⟨b1, b2, b3, b4⟩ := ihP rest (free + 1) _ LTree.null _
                (by simp [addrsL]) (by simp [addrsL]) (Nat.lt_succ_self free) hq
              simp only at b1 b2 b3 b4
              have key := rising_snoc hp hb hlo b2 b1 b3 (by rw [b2]; exact b4)
              have hshape : ∀ L2 : List (linkedData × LTree),
                  addrsL (chainOfL L2) = addrsL (chainOfL acc) ++ l.addr :: addrsL kids →
                  loadSiblingsLinked junk fuel rest2 free2 parent L2 = some r →
                  free ≤ r.2.1 ∧ (addrsL (chainOfL r.1)).Pairwise (fun a b => a < b) ∧
                    ∀ a ∈ addrsL (chainOfL r.1), lo ≤ a ∧ a < r.2.1 := by
                intro L2 hL2 hrun2
                obtain ⟨c1, c2, c3⟩ := ihS rest2 lo free2 parent L2 r
                  (by rw [hL2]; exact key.1) (by rw [hL2]; exact key.2) (by omega) hrun2
                exact ⟨by omega, c2, c3⟩
              cases acc with
              | nil =>
                exact hshape _ (by simp [chainOfL, addrsL]) hrun
              | cons x xs =>
                refine hshape _ ?_ hrun
                rw [addrsL_chainOfL_append, addrsL_setLastNext]
                simp [chainOfL, addrsL]
          · simp only [ho, Bool.false_eq_true, if_false] at hrun
            exact ihS rest lo free parent acc r hp hb hlo hrun
    · intro file free l kids r hp hb hl hrun
      simp only [loadPropertiesLinked, e3] at hrun
      cases hget : fgets 1024 file with
      | none =>
        simp only [hget, Option.some.injEq] at hrun
        subst hrun
        exact ⟨Nat.le_refl _, rfl, hp, hb⟩
      | some lr =>
        obtain ⟨line, rest⟩ := lr
        simp only [hget] at hrun
        by_cases hbr : strstr line ['\x7d'] = true
        · simp only [hbr, if_true, Option.some.injEq] at hrun
          subst hrun
          exact ⟨Nat.le_refl _, rfl, hp, hb⟩
        · simp only [hbr, Bool.false_eq_true, if_false] at hrun
          by_cases hf : isFieldLine line = true
          · simp only [hf, if_true] at hrun
            have := ihP rest free _ kids r hp ?_ ?_ hrun
            · exact this
            · exact hb
            · exact hl
          · simp only [hf, Bool.false_eq_true, if_false] at hrun
            by_cases hc : strstr line "\"children\":".toList = true
            · simp only [hc, if_true] at hrun
              cases hq : loadSiblingsLinked junk fuel rest free (some l.addr) [] with
              | none => simp [hq] at hrun
              | some q =>
                obtain ⟨ks, free2, rest2⟩ := q
                simp only [hq] at hrun
                obtain ⟨b1, b2, b3⟩ := ihS rest free free (some l.addr) [] _
                  (by simp [chainOfL, addrsL]) (by simp [chainOfL, addrsL])
                  (Nat.le_refl _) hq
                simp only at b1 b2 b3
                obtain ⟨c1, c2, c3, c4⟩ := ihP rest2 free2 _ (chainOfL ks) r b2
                  (fun a ha => ⟨by have := (b3 a ha).1; simp only; omega, (b3 a ha).2⟩)
                  (by simp only; omega) hrun
                exact ⟨by omega, c2, c3, c4⟩
            · simp only [hc, Bool.false_eq_true, if_false] at hrun
              exact ihP rest free l kids r hp hb hl hrun

/-- The loader with the links returns on every text, given more fuel than the
text has characters. -/
theorem loadLinked_total (junk : nodeData) : ∀ fuel : Nat,
    (∀ (file : List Char) (free : Nat) (parent : Ptr) (acc : List (linkedData × LTree)),
      file.length < fuel →
      ∃ r, loadSiblingsLinked junk fuel file free parent acc = some r ∧
        r.2.2.length ≤ file.length) ∧
    (∀ (file : List Char) (free : Nat) (l : linkedData) (kids : LTree),
      file.length < fuel →
      ∃ r, loadPropertiesLinked junk fuel file free l kids = some r ∧
        r.2.2.2.length ≤ file.length)
  | 0 => by simp
  | fuel + 1 => by
    obtain ⟨ihS, ihP⟩ := loadLinked_total junk fuel
    have e1 : "]".toList = [']'] := rfl
    have e2 : "\x7b".toList = ['\x7b'] := rfl
    have e3 : "\x7d".toList = ['\x7d'] := rfl
    refine ⟨?_, ?_⟩
    · intro file free parent acc hlen
      simp only [loadSiblingsLinked, e1, e2]
      cases hget : fgets 1024 file with
      | none => exact ⟨_, rfl, Nat.le_refl _⟩
      | some lr =>
        obtain ⟨line, rest⟩ := lr
        have hr := (fgets_some hget).2
        simp only []
        by_cases hbr : strstr line [']'] = true
        · simp only [hbr, if_true]
          exact ⟨_, rfl, by simp only; omega⟩
        · simp only [hbr, Bool.false_eq_true, if_false]
          by_cases ho : strstr line ['\x7b'] = true
          · simp only [ho, if_true]
            obtain ⟨q, hq, hqlen⟩ := ihP rest (free + 1)
              { addr := free, parent := parent, child := none, next := none,
                previous := lastAddr acc,
                data := { junk with symlinkTarget := none, numberOfItems := 0 } }
              LTree.null (by omega)
            obtain ⟨l, kids, free2, rest2⟩ := q
            simp only at hqlen
            simp only [hq]
            have key : ∀ L2, ∃ r, loadSiblingsLinked junk fuel rest2 free2 parent L2 = some r ∧
                r.2.2.length ≤ file.length := fun L2 =>
              (ihS rest2 free2 parent L2 (by omega)).imp (fun r hr => ⟨hr.1, by omega⟩)
            exact key _
          · simp only [ho, Bool.false_eq_true, if_false]
            obtain ⟨r, hrun, hrlen⟩ := ihS rest free parent acc (by omega)
            exact ⟨r, hrun, by omega⟩
    · intro file free l kids hlen
      simp only [loadPropertiesLinked, e3]
      cases hget : fgets 1024 file with
      | none => exact ⟨_, rfl, Nat.le_refl _⟩
      | some lr =>
        obtain ⟨line, rest⟩ := lr
        have hr := (fgets_some hget).2
        simp only []
        by_cases hbr : strstr line ['\x7d'] = true
        · simp only [hbr, if_true]
          exact ⟨_, rfl, by simp only; omega⟩
        · simp only [hbr, Bool.false_eq_true, if_false]
          by_cases hf : isFieldLine line = true
          · simp only [hf, if_true]
            obtain ⟨r, hrun, hrlen⟩ := ihP rest free
              { l with data := setProperty junk line l.data } kids (by omega)
            exact ⟨r, hrun, by omega⟩
          · simp only [hf, Bool.false_eq_true, if_false]
            by_cases hc : strstr line "\"children\":".toList = true
            · simp only [hc, if_true]
              obtain ⟨q, hq, hqlen⟩ := ihS rest free (some l.addr) [] (by omega)
              obtain ⟨ks, free2, rest2⟩ := q
              simp only at hqlen
              simp only [hq]
              have key : ∀ l2 k2, ∃ r, loadPropertiesLinked junk fuel rest2 free2 l2 k2 = some r ∧
                  r.2.2.2.length ≤ file.length := fun l2 k2 =>
                (ihP rest2 free2 l2 k2 (by omega)).imp (fun r hr => ⟨hr.1, by omega⟩)
              exact key _ _
            · simp only [hc, Bool.false_eq_true, if_false]
              obtain ⟨r, hrun, hrlen⟩ := ihP rest free l kids (by omega)
              exact ⟨r, hrun, by omega⟩

theorem eraseL_eq_null : ∀ T : LTree, eraseL T = Tree.null → T = LTree.null
  | LTree.null, _ => rfl
  | LTree.node _ _ _, h => by simp [eraseL] at h

/-- C31: for the text saveDirectoryToFile writes for any tree, the loader
returns (given more fuel than the text has characters) and the tree it returns
is consistently linked: the nodes of the returned chain have no parent, every
other node has the node enclosing it as its parent pointer, the first node of
every chain has no previous sibling, the last no next sibling, every next
pointer leads to the following node of the chain and that node's previous
pointer leads back, every child pointer leads to the head of the chain of
children, and all the nodes are distinct cells (their addresses rise).  Without
the links the tree is the one the loader model of the round trip returns, and
for a tree that is as the loader needs it the children stand in the order of
the saved tree, which is the order of their blocks in the text. -/
theorem loaded_tree_linked (junk : nodeData) (t : Tree) (fuel : Nat)
    (hfuel : (saveDirectoryToFile t 0).length < fuel) :
    ∃ T rest,
      loadDirectoryFromFileLinked junk fuel (saveDirectoryToFile t 0) = some (T, rest) ∧
      loadDirectoryFromFile junk fuel (saveDirectoryToFile t 0) = some (eraseL T, rest) ∧
      WellLinked none none T = true ∧
      (addrsL T).Pairwise (fun a b => a < b) ∧
      (∀ d child next, t = Tree.node d child next → NodeOK 0 d → loadable 1 child = true →
        ∃ l kids, T = LTree.node l kids LTree.null ∧ sameData d l.data ∧
          sameChain child (eraseL kids) = true) := by
  obtain ⟨r, hrun, -⟩ := (loadLinked_total junk fuel).1 (saveDirectoryToFile t 0) 0 none [] hfuel
  have herase := (loadLinked_erase junk fuel).1 (saveDirectoryToFile t 0) 0 none []
  rw [hrun] at herase
  simp only [Option.map_some', eraseList] at herase
  have hplain : loadDirectoryFromFile junk fuel (saveDirectoryToFile t 0)
      = some (eraseL (chainOfL r.1), r.2.2) := by
    simp [loadDirectoryFromFile, ← herase, eraseL_chainOfL]
  refine ⟨chainOfL r.1, r.2.2, by simp [loadDirectoryFromFileLinked, hrun], hplain, ?_, ?_, ?_⟩
  · exact (loadLinked_wellLinked junk fuel).1 _ 0 none [] r rfl hrun
  · exact ((loadLinked_addrs junk fuel).1 _ 0 0 none [] r (by simp [chainOfL, addrsL])
      (by simp [chainOfL, addrsL]) (Nat.le_refl _) hrun).2.1
  · intro d child next ht hd hc
    subst ht
    have hs := loadDirectoryFromFile_saved junk d child next fuel hd hc hfuel
    rw [hplain] at hs
    simp only [Option.some.injEq, Prod.mk.injEq] at hs
    cases hT : chainOfL r.1 with
    | null => rw [hT] at hs; simp [eraseL] at hs
    | node l kids nx =>
      rw [hT] at hs
      simp only [eraseL, Tree.node.injEq] at hs
      obtain ⟨⟨h1, h2, h3⟩, -⟩ := hs
      have := eraseL_eq_null nx h3
      subst this
      refine ⟨l, kids, rfl, ?_, ?_⟩
      · rw [h1]; exact sameData_loadedData junk d _
      · rw [h2]; exact sameChain_loadedList junk child

/-- C31 on the tree with the folder docs and the file b under the root, and a
file and a link under docs. -/
theorem loaded_tree_linked_witness :
    (saveDirectoryToFile treeDocs 0).length < 1000 ∧
    ∃ T rest,
      loadDirectoryFromFileLinked junkData 1000 (saveDirectoryToFile treeDocs 0)
        = some (T, rest) ∧
      loadDirectoryFromFile junkData 1000 (saveDirectoryToFile treeDocs 0)
        = some (eraseL T, rest) ∧
      WellLinked none none T = true ∧
      (addrsL T).Pairwise (fun a b => a < b) ∧
      (∀ d child next, treeDocs = Tree.node d child next → NodeOK 0 d →
        loadable 1 child = true →
        ∃ l kids, T = LTree.node l kids LTree.null ∧ sameData d l.data ∧
          sameChain child (eraseL kids) = true) :=
  ⟨by decide!, loaded_tree_linked junkData treeDocs 1000 (by decide!)⟩

/-! ### Sibling linkage under the structural operations -/

theorem prevsOK_frame {h h' : Heap} : ∀ (L : List Nat) (prev : Ptr),
    (∀ a ∈ L, previousOf h' a = previousOf h a) → prevsOK h' prev L = prevsOK h prev L
  | [], _, _ => rfl
  | a :: L, prev, hf => by
    simp only [prevsOK]
    rw [hf a (by simp), prevsOK_frame L (some a) (fun b hb => hf b (by simp [hb]))]

theorem prevsOK_snoc (h : Heap) (new : Nat) : ∀ (L : List Nat) (prev : Ptr),
    prevsOK h prev (L ++ [new])
      = (prevsOK h prev L && decide (previousOf h new = some ((L.getLast?).or prev)))
  | [], prev => by simp [prevsOK]
  | [a], prev => by simp [prevsOK]
  | a :: b :: L, prev => by
    have ih := prevsOK_snoc h new (b :: L) (some a)
    simp only [List.cons_append, prevsOK] at ih ⊢
    rw [ih]
    cases hl : (b :: L).getLast? with
    | none => simp at hl
    | some z => simp [List.getLast?_cons_cons, hl, Bool.and_assoc]

theorem prevsOK_suffix {h : Heap} : ∀ (A : List Nat) (x : Nat) (B : List Nat) (prev : Ptr),
    prevsOK h prev (A ++ x :: B) = true → prevsOK h (some x) B = true
  | [], x, B, prev, hp => by
    simp only [List.nil_append, prevsOK, Bool.and_eq_true] at hp
    exact hp.2
  | a :: A, x, B, prev, hp => by
    simp only [List.cons_append, prevsOK, Bool.and_eq_true] at hp
    exact prevsOK_suffix A x B (some a) hp.2

/-- The children of a node stay its children in every heap that keeps its child
pointer and the next pointers of the children. -/
theorem children_frame {h h' : Heap} {f : Nat} {L : List Nat}
    (hch : children h f = some L) (hc : childOf h' f = childOf h f)
    (hn : ∀ a ∈ L, nextOf h' a = nextOf h a) : children h' f = some L := by
  obtain ⟨n, hf, hchain⟩ := children_eq_some_iff.mp hch
  simp only [childOf, hf, Option.map_some'] at hc
  cases hf' : h'[f]? with
  | none => simp [hf'] at hc
  | some n' =>
    simp only [hf', Option.map_some', Option.some.injEq] at hc
    exact children_eq_some_iff.mpr ⟨n', hf', by rw [hc]; exact hchain.frame hn⟩

/-- Every node reachable from the root is in a set that holds the root and the
children of its nodes. -/
theorem reach_sub {h : Heap} {S : Nat → Prop} {root : Nat} (hinv : LinkInv h S)
    (hroot : S root) : ∀ {f : Nat}, Reach h root f → S f := by
  intro f hr
  induction hr with
  | root => exact hroot
  | child _ hch hc ih =>
    obtain ⟨L, hL, _, hmem⟩ := hinv _ ih
    rw [hL] at hch
    exact hmem _ (by rw [Option.some.inj hch]; exact hc)

theorem linkInv_linked {h : Heap} {S : Nat → Prop} (hinv : LinkInv h S) {f : Nat}
    (hf : S f) : linked h f = true := by
  obtain ⟨L, hL, hp, _⟩ := hinv f hf
  simp [linked, hL, hp]

theorem TreeInv.toLink {h : Heap} {S : Nat → Prop} (hinv : TreeInv h S) : LinkInv h S :=
  fun f hf => by
    obtain ⟨L, hL, hp, hmem⟩ := hinv f hf
    exact ⟨L, hL, hp, fun c hc => (hmem c hc).1⟩

/-- The invariant in a heap that has the links of another. -/
theorem treeInv_frame {h h' : Heap} {S : Nat → Prop} (hinv : TreeInv h S)
    (hc : ∀ a, childOf h' a = childOf h a) (hn : ∀ a, nextOf h' a = nextOf h a)
    (hp : ∀ a, previousOf h' a = previousOf h a) (hpar : ∀ a, parentOf h' a = parentOf h a) :
    TreeInv h' S := fun f hf => by
  obtain ⟨L, hL, hpr, hmem⟩ := hinv f hf
  refine ⟨L, children_frame hL (hc f) (fun a _ => hn a), ?_, ?_⟩
  · rw [prevsOK_frame L none (fun a _ => hp a)]; exact hpr
  · intro c hcL
    exact ⟨(hmem c hcL).1, by rw [hpar]; exact (hmem c hcL).2⟩

theorem mkdirCell_previous (cur new : Nat) (L : List Nat) (a : Nat) (n : node) :
    (mkdirCell cur new L a n).previous = n.previous := by
  unfold mkdirCell
  simp only []
  split_ifs <;> rfl

/-- Two nodes of S that share a child are the same node. -/
theorem treeInv_disjoint {h : Heap} {S : Nat → Prop} (hinv : TreeInv h S) {f g c : Nat}
    {Lf Lg : List Nat} (hf : S f) (hg : S g) (hLf : children h f = some Lf)
    (hLg : children h g = some Lg) (hcf : c ∈ Lf) (hcg : c ∈ Lg) : f = g := by
  obtain ⟨L1, h1, _, m1⟩ := hinv f hf
  obtain ⟨L2, h2, _, m2⟩ := hinv g hg
  rw [hLf] at h1
  rw [hLg] at h2
  have p1 := (m1 c (by rw [← Option.some.inj h1]; exact hcf)).2
  have p2 := (m2 c (by rw [← Option.some.inj h2]; exact hcg)).2
  rw [p1] at p2
  simpa using p2

/-- The function make_dir keeps the linkage: in the heap it returns the nodes
of S, with the new cell, have consistently linked children with their parent
pointers; and it returns when getRealPath can hold the path of the folder. -/
theorem make_dir_linked {h : Heap} {S : Nat → Prop} (hinv : TreeInv h S) {cur : Nat}
    (hcur : S cur) (junk : node) (now : Int) (command : List Char) :
    (∀ h', make_dir h junk now cur command = some h' →
      (h' = h ∨ TreeInv h' (fun a => S a ∨ a = h.length))) ∧
    ((getRealPath h cur).isSome = true → ∃ h', make_dir h junk now cur command = some h') := by
  obtain ⟨L, hL, hpr, hmem⟩ := hinv cur hcur
  have hsame : make_dir h junk now cur command = some h →
      (∀ h', make_dir h junk now cur command = some h' →
        (h' = h ∨ TreeInv h' (fun a => S a ∨ a = h.length))) ∧
      ((getRealPath h cur).isSome = true →
        ∃ h', make_dir h junk now cur command = some h') :=
    fun hrun => ⟨fun h' hrun2 => Or.inl (Option.some.inj (hrun2.symm.trans hrun)),
      fun _ => ⟨h, hrun⟩⟩
  cases hcmd : strtokAll ' ' command with
  | nil => exact hsame (by simp [make_dir, hcmd])
  | cons c0 rest =>
    cases rest with
    | nil => exact hsame (by simp [make_dir, hcmd])
    | cons name more =>
      cases hfn : firstNamed h name L with
      | some c =>
        exact hsame (by simp [make_dir, hcmd, getNodeTypeless_spec name hL, hfn])
      | none =>
        obtain ⟨h', hrun, hlen, hkids, hnew, hcells⟩ :=
          @linkNewFolder_cells h junk now cur name L hL
        suffices hT : TreeInv h' (fun a => S a ∨ a = h.length) from
          ⟨fun h2 hrun2 => by
            have e := (make_dir_link_of_run hcmd hL hfn hrun2).symm.trans hrun
            have e2 := Option.some.inj e
            subst e2
            exact Or.inr hT,
           fun hfit => ⟨_, (make_dir_fresh hcmd hL hfn hfit).choose_spec.1⟩⟩
        have hprev : ∀ a, a < h.length → previousOf h' a = previousOf h a := by
          intro a ha
          have hn := List.getElem?_eq_getElem ha
          simp [previousOf, hcells a _ hn, hn, mkdirCell_previous]
        have hpar : ∀ a, a < h.length → parentOf h' a = parentOf h a := by
          intro a ha
          have hn := List.getElem?_eq_getElem ha
          simp [parentOf, hcells a _ hn, hn, mkdirCell_parent]
        have hLlt : ∀ a ∈ L, a < h.length :=
          (children_eq_some_iff.mp hL).choose_spec.2.lt
        intro f hf
        rcases hf with hS | hnewf
        · by_cases e : f = cur
          · subst e
            refine ⟨L ++ [h.length], hkids, ?_, ?_⟩
            · rw [prevsOK_snoc, prevsOK_frame L none (fun a ha => hprev a (hLlt a ha)), hpr]
              simp [previousOf, hnew, newFolderNode, initFolder, setPrevious]
            · intro c hc
              rcases List.mem_append.mp hc with hc | hc
              · exact ⟨Or.inl (hmem c hc).1, by rw [hpar c (hLlt c hc)]; exact (hmem c hc).2⟩
              · have : c = h.length := by simpa using hc
                subst this
                exact ⟨Or.inr rfl, by simp [parentOf, hnew, newFolderNode, initFolder]⟩
          · obtain ⟨Lf, hLf, hprf, hmemf⟩ := hinv f hS
            obtain ⟨nf, hnf, hchain⟩ := children_eq_some_iff.mp hLf
            refine ⟨Lf, children_frame hLf ?_ ?_, ?_, ?_⟩
            · simp [childOf, hcells f nf hnf, hnf, mkdirCell_child _ _ _ _ _ e]
            · intro a ha
              have halt := hchain.lt a ha
              have hn := List.getElem?_eq_getElem halt
              have hlast : L.getLast? ≠ some a := by
                intro hl
                have haL : a ∈ L := List.mem_of_getLast?_eq_some hl
                exact e (treeInv_disjoint hinv hS hcur hLf hL ha haL)
              simp [nextOf, hcells a _ hn, hn, mkdirCell_next _ _ _ _ _ hlast]
            · rw [prevsOK_frame Lf none (fun a ha => hprev a (hchain.lt a ha))]
              exact hprf
            · intro c hc
              exact ⟨Or.inl (hmemf c hc).1,
                by rw [hpar c (hchain.lt c hc)]; exact (hmemf c hc).2⟩
        · subst hnewf
          refine ⟨[], children_eq_some_iff.mpr ⟨_, hnew, ?_⟩, rfl, by simp⟩
          simp [newFolderNode, initFolder, IsChain]

/-- An assignment to a cell leaves what it does not write, in every cell. -/
theorem upd_obs {α : Type} {h h' : Heap} {a : Nat} {f : node → node}
    (hu : upd h a f = some h') (g : node → α) (hg : ∀ n, g (f n) = g n) (b : Nat) :
    (h'[b]?).map g = (h[b]?).map g := by
  rw [upd_get hu b]
  by_cases e : b = a
  · simp only [e, if_true, Option.map_map]
    congr 1
    funext n
    exact hg n
  · simp [e]

/-- An assignment to a cell leaves the other cells. -/
theorem upd_obs_ne {α : Type} {h h' : Heap} {a : Nat} {f : node → node}
    (hu : upd h a f = some h') (g : node → α) {b : Nat} (hb : b ≠ a) :
    (h'[b]?).map g = (h[b]?).map g := by
  rw [upd_get hu b]
  simp [hb]

/-- An assignment to a cell, seen at the cell. -/
theorem upd_obs_eq {α : Type} {h h' : Heap} {a : Nat} {f : node → node}
    (hu : upd h a f = some h') (g : node → α) :
    (h'[a]?).map g = (h[a]?).map (fun n => g (f n)) := by
  rw [upd_get hu a]
  simp [Option.map_map, Function.comp_def]

/-- The invariant after the chain of one node of S was replaced by a chain of
some of its former nodes, the other chains left as they were. -/
theorem TreeInv.rechain {h h' : Heap} {S : Nat → Prop} {cur : Nat} {L L' : List Nat}
    (hinv : TreeInv h S) (hcur : S cur) (hL : children h cur = some L)
    (hL' : children h' cur = some L') (hsub : ∀ c ∈ L', c ∈ L)
    (hpr : prevsOK h' none L' = true)
    (hnext : ∀ a, a ∉ L → nextOf h' a = nextOf h a)
    (hprev : ∀ a, a ∉ L → previousOf h' a = previousOf h a)
    (hchild : ∀ a, a ≠ cur → childOf h' a = childOf h a)
    (hpar : ∀ a, parentOf h' a = parentOf h a) :
    TreeInv h' S ∧ ∀ f, S f → f ≠ cur → children h' f = children h f := by
  have hmemL := (hinv cur hcur)
  obtain ⟨L0, hL0, _, hmem⟩ := hmemL
  rw [hL] at hL0
  have e0 := Option.some.inj hL0
  subst e0
  have hother : ∀ f, S f → f ≠ cur → ∀ Lf, children h f = some Lf →
      children h' f = some Lf ∧ ∀ a ∈ Lf, a ∉ L := by
    intro f hf e Lf hLf
    have hdis : ∀ a ∈ Lf, a ∉ L := fun a ha haL =>
      e (treeInv_disjoint hinv hf hcur hLf hL ha haL)
    exact ⟨children_frame hLf (hchild f e) (fun a ha => hnext a (hdis a ha)), hdis⟩
  refine ⟨?_, ?_⟩
  · intro f hf
    by_cases e : f = cur
    · subst e
      refine ⟨L', hL', hpr, fun c hc => ?_⟩
      exact ⟨(hmem c (hsub c hc)).1, by rw [hpar]; exact (hmem c (hsub c hc)).2⟩
    · obtain ⟨Lf, hLf, hprf, hmemf⟩ := hinv f hf
      obtain ⟨hk, hdis⟩ := hother f hf e Lf hLf
      refine ⟨Lf, hk, ?_, fun c hc => ?_⟩
      · rw [prevsOK_frame Lf none (fun a ha => hprev a (hdis a ha))]
        exact hprf
      · exact ⟨(hmemf c hc).1, by rw [hpar]; exact (hmemf c hc).2⟩
  · intro f hf e
    obtain ⟨Lf, hLf, _, _⟩ := hinv f hf
    rw [hLf]
    exact (hother f hf e Lf hLf).1

/-- The function removeNode on a child of a node of S returns; the children of
that node are then the nodes behind the removed one, the linkage and the parent
pointers hold as before, and the removed node is a child of no node of S. -/
theorem removeNode_linked {h : Heap} {S : Nat → Prop} (hinv : TreeInv h S) {cur m : Nat}
    {L : List Nat} (hcur : S cur) (hL : children h cur = some L) (hm : m ∈ L) :
    ∃ h', removeNode h m = some h' ∧ h'.length = h.length ∧ TreeInv h' S ∧
      (∀ f Lf, S f → children h' f = some Lf → m ∉ Lf) ∧
      (∀ a, nextOf h' a = nextOf h a) ∧ (∀ a, a ≠ cur → childOf h' a = childOf h a) ∧
      (∀ a, assignedOf h' a = assignedOf h a) := by
  obtain ⟨L0, hL0, hpr, hmem⟩ := hinv cur hcur
  rw [hL] at hL0
  have e0 := Option.some.inj hL0
  subst e0
  obtain ⟨nc, hnc, hchain⟩ := children_eq_some_iff.mp hL
  obtain ⟨L1, L2, hsplit, hmch⟩ := hchain.split hm
  have hmnot : m ∉ L2 := hmch.head_not_mem
  simp only [IsChain] at hmch
  obtain ⟨-, nm, hnm, hrest⟩ := hmch
  have hparm : nm.parent = some cur := by
    have := (hmem m hm).2
    simpa [parentOf, hnm] using this
  have hcurlt : cur < h.length := lt_of_getElem?_eq_some hnc
  have hnotin : ∀ f Lf, S f → f ≠ cur → children h f = some Lf → m ∉ Lf :=
    fun f Lf hf e hLf hmf => e (treeInv_disjoint hinv hf hcur hLf hL hmf hm)
  cases L2 with
  | nil =>
    simp only [IsChain] at hrest
    obtain ⟨h', hu⟩ := upd_isSome (setChild none) hcurlt
    have hrun : removeNode h m = some h' := by
      simp only [removeNode, hnm, Option.some_bind, hparm, hrest, hu]
    have hkids : children h' cur = some [] := by
      have := upd_obs_eq hu (fun n => n.child)
      simp only [hnc, Option.map_some', setChild] at this
      cases hc' : h'[cur]? with
      | none => simp [hc'] at this
      | some n' =>
        simp only [hc', Option.map_some', Option.some.injEq] at this
        exact children_eq_some_iff.mpr ⟨n', hc', by rw [this]; simp [IsChain]⟩
    obtain ⟨hT, hsame⟩ := hinv.rechain hcur hL hkids (by simp) rfl
      (fun a _ => upd_obs hu (fun n => n.next) (fun _ => rfl) a)
      (fun a _ => upd_obs hu (fun n => n.previous) (fun _ => rfl) a)
      (fun a ha => upd_obs_ne hu (fun n => n.child) ha)
      (fun a => upd_obs hu (fun n => n.parent) (fun _ => rfl) a)
    refine ⟨h', hrun, upd_length hu, hT, ?_,
      fun a => upd_obs hu (fun n => n.next) (fun _ => rfl) a,
      fun a ha => upd_obs_ne hu (fun n => n.child) ha,
      fun a => upd_obs hu (fun n : node => n.contentAssigned) (fun _ => rfl) a⟩
    intro f Lf hf hLf
    by_cases e : f = cur
    · subst e
      rw [hkids] at hLf
      rw [← Option.some.inj hLf]
      simp
    · rw [hsame f hf e] at hLf
      exact hnotin f Lf hf e hLf
  | cons x L2 =>
    have hxch : IsChain h (some x) (x :: L2) := by
      have := hrest
      simp only [IsChain] at this
      obtain ⟨e, r⟩ := this
      simp only [IsChain]
      exact ⟨trivial, r⟩
    have hnx : nm.next = some x := by
      simp only [IsChain] at hrest
      exact hrest.1
    have hxL : x ∈ L := by rw [hsplit]; simp
    have hxlt : x < h.length := hchain.lt x hxL
    have hmx : m ≠ x := fun e => hmnot (by simp [e])
    have hxnot : x ∉ L2 := hxch.head_not_mem
    obtain ⟨h1, hu1⟩ := upd_isSome (setParent (some cur)) hxlt
    have hl1 := upd_length hu1
    obtain ⟨h2, hu2⟩ := upd_isSome (h := h1) (setChild (some x)) (by omega : cur < h1.length)
    have hl2 := upd_length hu2
    obtain ⟨h3, hu3⟩ := upd_isSome (h := h2) (setPrevious none) (by omega : x < h2.length)
    have hl3 := upd_length hu3
    have hm1 : h1[m]? = some nm := by
      rw [upd_get hu1 m]; simp [hmx, hnm]
    have hm2 : ∃ r2 : node, h2[m]? = some r2 ∧ r2.next = some x := by
      have := upd_obs hu2 (fun n => n.next) (fun _ => rfl) m
      simp only [hm1, Option.map_some'] at this
      cases hr : h2[m]? with
      | none => simp [hr] at this
      | some r2 =>
        simp only [hr, Option.map_some', Option.some.injEq] at this
        exact ⟨r2, rfl, by rw [this, hnx]⟩
    obtain ⟨r2, hr2, hr2n⟩ := hm2
    have hrun : removeNode h m = some h3 := by
      simp only [removeNode, hnm, Option.some_bind, hparm, hnx, hu1, hm1, hu2, hr2, hr2n, hu3]
    have hnext : ∀ a, nextOf h3 a = nextOf h a := fun a => by
      simp only [nextOf]
      rw [upd_obs hu3 (fun n => n.next) (fun _ => rfl) a,
        upd_obs hu2 (fun n => n.next) (fun _ => rfl) a,
        upd_obs hu1 (fun n => n.next) (fun _ => rfl) a]
    have hchild : ∀ a, a ≠ cur → childOf h3 a = childOf h a := fun a ha => by
      simp only [childOf]
      rw [upd_obs hu3 (fun n => n.child) (fun _ => rfl) a,
        upd_obs_ne hu2 (fun n => n.child) ha,
        upd_obs hu1 (fun n => n.child) (fun _ => rfl) a]
    have hprev : ∀ a, a ≠ x → previousOf h3 a = previousOf h a := fun a ha => by
      simp only [previousOf]
      rw [upd_obs_ne hu3 (fun n => n.previous) ha,
        upd_obs hu2 (fun n => n.previous) (fun _ => rfl) a,
        upd_obs hu1 (fun n => n.previous) (fun _ => rfl) a]
    have hprevx : previousOf h3 x = some none := by
      simp only [previousOf]
      rw [upd_obs_eq hu3 (fun n => n.previous)]
      have hx2 : x < h2.length := by omega
      simp [List.getElem?_eq_getElem hx2, setPrevious]
    have hpar : ∀ a, parentOf h3 a = parentOf h a := fun a => by
      simp only [parentOf]
      rw [upd_obs hu3 (fun n => n.parent) (fun _ => rfl) a,
        upd_obs hu2 (fun n => n.parent) (fun _ => rfl) a]
      by_cases e : a = x
      · subst e
        rw [upd_obs_eq hu1 (fun n => n.parent)]
        have := (hmem a hxL).2
        simp only [parentOf] at this
        rw [this]
        simp [List.getElem?_eq_getElem hxlt, setParent]
      · rw [upd_obs_ne hu1 (fun n => n.parent) e]
    have hkids : children h3 cur = some (x :: L2) := by
      have hc3 : childOf h3 cur = some (some x) := by
        simp only [childOf]
        rw [upd_obs hu3 (fun n => n.child) (fun _ => rfl) cur,
          upd_obs_eq hu2 (fun n => n.child)]
        have hc1 : cur < h1.length := by omega
        simp [List.getElem?_eq_getElem hc1, setChild]
      simp only [childOf] at hc3
      cases hc' : h3[cur]? with
      | none => simp [hc'] at hc3
      | some n' =>
        simp only [hc', Option.map_some', Option.some.injEq] at hc3
        exact children_eq_some_iff.mpr ⟨n', hc', by
          rw [hc3]; exact hxch.frame (fun a _ => hnext a)⟩
    have hsufL : ∀ c ∈ x :: L2, c ∈ L := by
      intro c hc
      rw [hsplit]
      simp only [List.mem_append, List.mem_cons] at hc ⊢
      rcases hc with e | e
      · exact Or.inr (Or.inr (Or.inl e))
      · exact Or.inr (Or.inr (Or.inr e))
    have hpr3 : prevsOK h3 none (x :: L2) = true := by
      simp only [prevsOK, hprevx, decide_True, Bool.true_and]
      rw [prevsOK_frame L2 (some x) (fun a ha => hprev a (fun e => hxnot (e ▸ ha)))]
      have hq : L = (L1 ++ [m]) ++ x :: L2 := by rw [hsplit]; simp
      rw [hq] at hpr
      exact prevsOK_suffix _ x L2 none hpr
    obtain ⟨hT, hsame⟩ := hinv.rechain hcur hL hkids hsufL hpr3
      (fun a _ => hnext a) (fun a ha => hprev a (fun e => ha (e ▸ hxL))) hchild hpar
    have hset3 : ∀ a, assignedOf h3 a = assignedOf h a := fun a => by
      unfold assignedOf
      rw [upd_obs hu3 (fun n : node => n.contentAssigned) (fun _ => rfl) a,
        upd_obs hu2 (fun n : node => n.contentAssigned) (fun _ => rfl) a,
        upd_obs hu1 (fun n : node => n.contentAssigned) (fun _ => rfl) a]
    refine ⟨h3, hrun, by omega, hT, ?_, hnext, hchild, hset3⟩
    intro f Lf hf hLf
    by_cases e : f = cur
    · subst e
      rw [hkids] at hLf
      rw [← Option.some.inj hLf]
      intro hmem2
      rcases List.mem_cons.mp hmem2 with e2 | e2
      · exact hmx e2
      · exact hmnot (List.mem_cons_of_mem _ e2)
    · rw [hsame f hf e] at hLf
      exact hnotin f Lf hf e hLf

/-- The linkage after a node that was a child of no node of S became the last
child of a node of S, the other chains left as they were. -/
theorem TreeInv.append {h h' : Heap} {S : Nat → Prop} {d m : Nat} {Ld : List Nat}
    (hinv : TreeInv h S) (hd : S d) (hm : S m) (hLd : children h d = some Ld)
    (hfree : ∀ f Lf, S f → children h f = some Lf → m ∉ Lf)
    (hL' : children h' d = some (Ld ++ [m]))
    (hpr : prevsOK h' none (Ld ++ [m]) = true)
    (hnext : ∀ a, a ≠ m → a ∉ Ld → nextOf h' a = nextOf h a)
    (hprev : ∀ a, a ≠ m → previousOf h' a = previousOf h a)
    (hchild : ∀ a, a ≠ d → childOf h' a = childOf h a) : LinkInv h' S := by
  obtain ⟨L0, hL0, _, hmem⟩ := hinv d hd
  rw [hLd] at hL0
  have e0 := Option.some.inj hL0
  subst e0
  intro f hf
  by_cases e : f = d
  · subst e
    refine ⟨Ld ++ [m], hL', hpr, fun c hc => ?_⟩
    rcases List.mem_append.mp hc with hc | hc
    · exact (hmem c hc).1
    · have : c = m := by simpa using hc
      rw [this]; exact hm
  · obtain ⟨Lf, hLf, hprf, hmemf⟩ := hinv f hf
    have hnm : ∀ a ∈ Lf, a ≠ m := fun a ha e2 => hfree f Lf hf hLf (e2 ▸ ha)
    have hdis : ∀ a ∈ Lf, a ∉ Ld := fun a ha haL =>
      e (treeInv_disjoint hinv hf hd hLf hLd ha haL)
    refine ⟨Lf, children_frame hLf (hchild f e)
      (fun a ha => hnext a (hnm a ha) (hdis a ha)), ?_, fun c hc => (hmemf c hc).1⟩
    rw [prevsOK_frame Lf none (fun a ha => hprev a (hnm a ha))]
    exact hprf

/-- The function moveNode, for a node that is a child of no node of S and a
destination in S, returns and keeps the sibling linkage of the nodes of S. -/
theorem moveNode_linked {h : Heap} {S : Nat → Prop} (hinv : TreeInv h S) {m d : Nat}
    (hd : S d) (hm : S m)
    (hfree : ∀ f Lf, S f → children h f = some Lf → m ∉ Lf) :
    ∃ h', moveNode h m d = some h' ∧ LinkInv h' S := by
  obtain ⟨Ld, hLd, hprd, hmemd⟩ := hinv d hd
  obtain ⟨nd, hnd, hchd⟩ := children_eq_some_iff.mp hLd
  obtain ⟨Lm, hLm, -, -⟩ := hinv m hm
  obtain ⟨nm, hnm, -⟩ := children_eq_some_iff.mp hLm
  have hdlt : d < h.length := lt_of_getElem?_eq_some hnd
  have hmlt : m < h.length := lt_of_getElem?_eq_some hnm
  have hmLd : m ∉ Ld := hfree d Ld hd hLd
  cases hdc : nd.child with
  | none =>
    rw [hdc] at hchd
    have hLdnil : Ld = [] := by
      cases Ld with
      | nil => rfl
      | cons b L' => simp [IsChain] at hchd
    subst hLdnil
    obtain ⟨h1, hu1⟩ := upd_isSome (setChild (some m)) hdlt
    have hl1 := upd_length hu1
    obtain ⟨h2, hu2⟩ := upd_isSome (h := h1) (setPrevious none) (by omega : m < h1.length)
    have hl2 := upd_length hu2
    obtain ⟨h3, hu3⟩ := upd_isSome (h := h2) (setParent (some d)) (by omega : m < h2.length)
    have hl3 := upd_length hu3
    obtain ⟨h4, hu4⟩ := upd_isSome (h := h3) (setNext none) (by omega : m < h3.length)
    have hl4 := upd_length hu4
    obtain ⟨h5, hu5⟩ := upd_isSome (h := h4) (addItems 1) (by omega : d < h4.length)
    have hrun : moveNode h m d = some h5 := by
      simp only [moveNode, hnd, Option.some_bind, hdc, hu1, hu2, hu3, hu4, hu5]
    have hnextm : nextOf h5 m = some none := by
      simp only [nextOf]
      rw [upd_obs hu5 (fun n => n.next) (fun _ => rfl) m, upd_obs_eq hu4 (fun n => n.next)]
      have : m < h3.length := by omega
      simp [List.getElem?_eq_getElem this, setNext]
    have hprevm : previousOf h5 m = some none := by
      simp only [previousOf]
      rw [upd_obs hu5 (fun n => n.previous) (fun _ => rfl) m,
        upd_obs hu4 (fun n => n.previous) (fun _ => rfl) m,
        upd_obs hu3 (fun n => n.previous) (fun _ => rfl) m,
        upd_obs_eq hu2 (fun n => n.previous)]
      have : m < h1.length := by omega
      simp [List.getElem?_eq_getElem this, setPrevious]
    have hchildd : childOf h5 d = some (some m) := by
      simp only [childOf]
      rw [upd_obs hu5 (fun n => n.child) (fun _ => rfl) d,
        upd_obs hu4 (fun n => n.child) (fun _ => rfl) d,
        upd_obs hu3 (fun n => n.child) (fun _ => rfl) d,
        upd_obs hu2 (fun n => n.child) (fun _ => rfl) d,
        upd_obs_eq hu1 (fun n => n.child)]
      simp [hnd, setChild]
    have hkids : children h5 d = some ([] ++ [m]) := by
      simp only [childOf] at hchildd
      simp only [nextOf] at hnextm
      cases hd5 : h5[d]? with
      | none => simp [hd5] at hchildd
      | some n5 =>
        cases hm5 : h5[m]? with
        | none => simp [hm5] at hnextm
        | some m5 =>
          simp only [hd5, Option.map_some', Option.some.injEq] at hchildd
          simp only [hm5, Option.map_some', Option.some.injEq] at hnextm
          refine children_eq_some_iff.mpr ⟨n5, hd5, ?_⟩
          rw [hchildd]
          simp only [List.nil_append, IsChain]
          exact ⟨trivial, m5, hm5, hnextm⟩
    refine ⟨h5, hrun, hinv.append hd hm hLd hfree hkids ?_ ?_ ?_ ?_⟩
    · simp [prevsOK, hprevm]
    · intro a ha _
      simp only [nextOf]
      rw [upd_obs hu5 (fun n => n.next) (fun _ => rfl) a,
        upd_obs_ne hu4 (fun n => n.next) ha,
        upd_obs hu3 (fun n => n.next) (fun _ => rfl) a,
        upd_obs hu2 (fun n => n.next) (fun _ => rfl) a,
        upd_obs hu1 (fun n => n.next) (fun _ => rfl) a]
    · intro a ha
      simp only [previousOf]
      rw [upd_obs hu5 (fun n => n.previous) (fun _ => rfl) a,
        upd_obs hu4 (fun n => n.previous) (fun _ => rfl) a,
        upd_obs hu3 (fun n => n.previous) (fun _ => rfl) a,
        upd_obs_ne hu2 (fun n => n.previous) ha,
        upd_obs hu1 (fun n => n.previous) (fun _ => rfl) a]
    · intro a ha
      simp only [childOf]
      rw [upd_obs hu5 (fun n => n.child) (fun _ => rfl) a,
        upd_obs hu4 (fun n => n.child) (fun _ => rfl) a,
        upd_obs hu3 (fun n => n.child) (fun _ => rfl) a,
        upd_obs hu2 (fun n => n.child) (fun _ => rfl) a,
        upd_obs_ne hu1 (fun n => n.child) ha]
  | some c =>
    rw [hdc] at hchd
    obtain ⟨last, hlast⟩ : ∃ last, Ld.getLast? = some last := by
      cases Ld with
      | nil => simp [IsChain] at hchd
      | cons b L' =>
        cases hl : (b :: L').getLast? with
        | none => simp at hl
        | some z => exact ⟨z, rfl⟩
    have hlastLd : last ∈ Ld := List.mem_of_getLast?_eq_some hlast
    have hlastlt : last < h.length := hchd.lt last hlastLd
    have hlm : last ≠ m := fun e => hmLd (e ▸ hlastLd)
    have hwalk : lastOfChain h h.length c = some last := by
      rw [lastOfChain_spec h.length hchd hchd.length_le, hlast]
    obtain ⟨h1, hu1⟩ := upd_isSome (setNext (some m)) hlastlt
    have hl1 := upd_length hu1
    obtain ⟨h2, hu2⟩ := upd_isSome (h := h1) (setPrevious (some last))
      (by omega : m < h1.length)
    have hl2 := upd_length hu2
    obtain ⟨h3, hu3⟩ := upd_isSome (h := h2) (setParent none) (by omega : m < h2.length)
    have hl3 := upd_length hu3
    obtain ⟨h4, hu4⟩ := upd_isSome (h := h3) (setNext none) (by omega : m < h3.length)
    have hl4 := upd_length hu4
    obtain ⟨h5, hu5⟩ := upd_isSome (h := h4) (addItems 1) (by omega : d < h4.length)
    have hrun : moveNode h m d = some h5 := by
      simp only [moveNode, hnd, Option.some_bind, hdc, hwalk, hu1, hu2, hu3, hu4, hu5]
    have hnextm : nextOf h5 m = some none := by
      simp only [nextOf]
      rw [upd_obs hu5 (fun n => n.next) (fun _ => rfl) m, upd_obs_eq hu4 (fun n => n.next)]
      have : m < h3.length := by omega
      simp [List.getElem?_eq_getElem this, setNext]
    have hnextlast : nextOf h5 last = some (some m) := by
      simp only [nextOf]
      rw [upd_obs hu5 (fun n => n.next) (fun _ => rfl) last,
        upd_obs_ne hu4 (fun n => n.next) hlm,
        upd_obs hu3 (fun n => n.next) (fun _ => rfl) last,
        upd_obs hu2 (fun n => n.next) (fun _ => rfl) last,
        upd_obs_eq hu1 (fun n => n.next)]
      simp [List.getElem?_eq_getElem hlastlt, setNext]
    have hnext : ∀ a, a ≠ m → a ≠ last → nextOf h5 a = nextOf h a := by
      intro a ha hal
      simp only [nextOf]
      rw [upd_obs hu5 (fun n => n.next) (fun _ => rfl) a,
        upd_obs_ne hu4 (fun n => n.next) ha,
        upd_obs hu3 (fun n => n.next) (fun _ => rfl) a,
        upd_obs hu2 (fun n => n.next) (fun _ => rfl) a,
        upd_obs_ne hu1 (fun n => n.next) hal]
    have hprevm : previousOf h5 m = some (some last) := by
      simp only [previousOf]
      rw [upd_obs hu5 (fun n => n.previous) (fun _ => rfl) m,
        upd_obs hu4 (fun n => n.previous) (fun _ => rfl) m,
        upd_obs hu3 (fun n => n.previous) (fun _ => rfl) m,
        upd_obs_eq hu2 (fun n => n.previous)]
      have : m < h1.length := by omega
      simp [List.getElem?_eq_getElem this, setPrevious]
    have hprev : ∀ a, a ≠ m → previousOf h5 a = previousOf h a := by
      intro a ha
      simp only [previousOf]
      rw [upd_obs hu5 (fun n => n.previous) (fun _ => rfl) a,
        upd_obs hu4 (fun n => n.previous) (fun _ => rfl) a,
        upd_obs hu3 (fun n => n.previous) (fun _ => rfl) a,
        upd_obs_ne hu2 (fun n => n.previous) ha,
        upd_obs hu1 (fun n => n.previous) (fun _ => rfl) a]
    have hchild : ∀ a, childOf h5 a = childOf h a := by
      intro a
      simp only [childOf]
      rw [upd_obs hu5 (fun n => n.child) (fun _ => rfl) a,
        upd_obs hu4 (fun n => n.child) (fun _ => rfl) a,
        upd_obs hu3 (fun n => n.child) (fun _ => rfl) a,
        upd_obs hu2 (fun n => n.child) (fun _ => rfl) a,
        upd_obs hu1 (fun n => n.child) (fun _ => rfl) a]
    have hLdsplit : Ld.dropLast ++ [last] = Ld := List.dropLast_append_getLast? last hlast
    have hkids : children h5 d = some (Ld ++ [m]) := by
      have hc5 := hchild d
      simp only [childOf, hnd, Option.map_some'] at hc5
      cases hd5 : h5[d]? with
      | none => simp [hd5] at hc5
      | some n5 =>
        simp only [hd5, Option.map_some', Option.some.injEq] at hc5
        refine children_eq_some_iff.mpr ⟨n5, hd5, ?_⟩
        rw [hc5, hdc]
        have hch0 : IsChain h (some c) (Ld.dropLast ++ [last]) := by rw [hLdsplit]; exact hchd
        have hnd0 : (Ld.dropLast ++ [last]).Nodup := by rw [hLdsplit]; exact hchd.nodup
        have := @IsChain.snoc h h5 last m Ld.dropLast (some c) hch0 (fun a ha => by
          have haLd : a ∈ Ld := by rw [← hLdsplit]; simp [ha]
          refine hnext a (fun e => hmLd (e ▸ haLd)) (fun e => ?_)
          subst e
          have := List.disjoint_of_nodup_append hnd0
          exact this ha (by simp)) hnextlast hnextm
        have e2 : Ld ++ [m] = Ld.dropLast ++ [last, m] := by
          conv_lhs => rw [← hLdsplit]
          simp
        rw [e2]
        exact this
    refine ⟨h5, hrun, hinv.append hd hm hLd hfree hkids ?_ ?_ hprev (fun a _ => hchild a)⟩
    · rw [prevsOK_snoc, prevsOK_frame Ld none
        (fun a ha => hprev a (fun e => hmLd (e ▸ ha))), hprd, hlast]
      simp [hprevm]
    · intro a ha haLd
      exact hnext a ha (fun e => haLd (e ▸ hlastLd))

/-- The function mov in a folder of S returns and keeps the sibling linkage of
the nodes of S. -/
theorem mov_linked {h : Heap} {S : Nat → Prop} (hinv : TreeInv h S) {cur : Nat}
    (hcur : S cur) (command : List Char) :
    ∃ h', mov h cur command = some h' ∧ LinkInv h' S := by
  obtain ⟨L, hL, hpr, hmem⟩ := hinv cur hcur
  have hsame : ∃ h', some h = some h' ∧ LinkInv h' S := ⟨h, rfl, hinv.toLink⟩
  cases hcmd : strtokAll ' ' command with
  | nil => simpa [mov, hcmd] using hinv.toLink
  | cons c0 r1 =>
    cases r1 with
    | nil => simpa [mov, hcmd] using hinv.toLink
    | cons nodeName r2 =>
      cases r2 with
      | nil => simpa [mov, hcmd] using hinv.toLink
      | cons destinationName r3 =>
        cases r3 with
        | cons x r4 => simpa [mov, hcmd] using hinv.toLink
        | nil =>
          simp only [mov, hcmd, getNodeTypeless_spec nodeName hL,
            getNode_spec destinationName nodeType.Folder hL]
          cases hd : firstNamedOfType h destinationName nodeType.Folder L with
          | none => exact hsame
          | some d =>
            cases hm : firstNamed h nodeName L with
            | none => exact hsame
            | some m =>
              simp only []
              by_cases e : d = m
              · simpa [e] using hinv.toLink
              · simp only [ne_eq, e, not_false_eq_true, if_true]
                have hmL := (firstNamed_some hm).1
                have hdL := (firstNamedOfType_some hd).1
                obtain ⟨h1, hrm, -, hT1, hfree, -, -, -⟩ := removeNode_linked hinv hcur hL hmL
                obtain ⟨h2, hmv, hlink⟩ :=
                  moveNode_linked hT1 (hmem d hdL).1 (hmem m hmL).1 hfree
                exact ⟨h2, by simp [hrm, hmv], hlink⟩

theorem map_eq_of_frame {α : Type} {h h' : Heap} (hlen : h'.length = h.length)
    (g : node → α) (x : Nat)
    (hx : ∀ n, h[x]? = some n → ∃ n' : node, h'[x]? = some n' ∧ g n' = g n) :
    (h'[x]?).map g = (h[x]?).map g := by
  cases hn : h[x]? with
  | none =>
    have : h.length ≤ x := by
      by_contra hlt
      rw [List.getElem?_eq_getElem (Nat.lt_of_not_le hlt)] at hn
      exact absurd hn (by simp)
    rw [List.getElem?_eq_none (by omega)]
  | some n =>
    obtain ⟨n', hn', e⟩ := hx n hn
    simp [hn', e]

/-- The previous pointers after the linking loop of sortDirectory: every array
entry behind the first has the entry before it, the other cells keep theirs. -/
theorem relinkLoop_prev : ∀ (rest : List Nat) (a : Nat) (h h3 : Heap),
    relinkLoop h (a :: rest) = some h3 → (a :: rest).Nodup →
    (∀ x, x ∉ rest → previousOf h3 x = previousOf h x) ∧ prevsOK h3 (some a) rest = true
  | [], a, h, h3, hr, _ => by
    simp only [relinkLoop, Option.some.injEq] at hr
    subst hr
    simp [prevsOK]
  | b :: rest, a, h, h3, hr, hnd => by
    simp only [relinkLoop] at hr
    cases hu1 : upd h a (setNext (some b)) with
    | none => simp [hu1] at hr
    | some h1 =>
      simp only [hu1, Option.some_bind] at hr
      cases hu2 : upd h1 b (setPrevious (some a)) with
      | none => simp [hu2] at hr
      | some h2 =>
        simp only [hu2, Option.some_bind] at hr
        have hnd2 := (List.nodup_cons.mp hnd).2
        obtain ⟨ih1, ih2⟩ := relinkLoop_prev rest b h2 h3 hr hnd2
        have hbr : b ∉ rest := (List.nodup_cons.mp hnd2).1
        have hblt : b < h1.length := by
          by_contra hlt
          unfold upd at hu2
          rw [List.getElem?_eq_none (Nat.le_of_not_lt hlt)] at hu2
          exact absurd hu2 (by simp)
        refine ⟨?_, ?_⟩
        · intro x hx
          have hxb : x ≠ b := fun e => hx (by simp [e])
          have hxr : x ∉ rest := fun e => hx (List.mem_cons_of_mem _ e)
          rw [ih1 x hxr]
          simp only [previousOf]
          rw [upd_obs_ne hu2 (fun n => n.previous) hxb,
            upd_obs hu1 (fun n => n.previous) (fun _ => rfl) x]
        · simp only [prevsOK, Bool.and_eq_true, decide_eq_true_eq]
          refine ⟨?_, ih2⟩
          rw [ih1 b hbr]
          simp only [previousOf]
          rw [upd_obs_eq hu2 (fun n => n.previous)]
          simp [List.getElem?_eq_getElem hblt, setPrevious]

/-- The function sortDirectory on a folder of S, once qsort has returned the
array in an order arr: it returns, and the linkage and the parent pointers of
the nodes of S hold as before. -/
theorem sortDirectory_linked
    {qsort : (Nat → Nat → Option Int) → List Nat → Option (List Nat)}
    {h : Heap} {S : Nat → Prop} (hinv : TreeInv h S) {cur : Nat} (hcur : S cur)
    {criterion : List Char} {L arr : List Nat}
    (hL : children h cur = some L) (hne : L ≠ [])
    (hs : (if criterion = "name".toList then qsort (compareNodesByName h) L
      else if criterion = "date".toList then qsort (compareNodesByDate h) L
      else some L) = some arr)
    (hperm : arr.Perm L) :
    ∃ h', sortDirectory qsort h cur criterion = some h' ∧ TreeInv h' S := by
  obtain ⟨f, hf, hc⟩ := children_eq_some_iff.mp hL
  have hfolder : cur < h.length := lt_of_getElem?_eq_some hf
  obtain ⟨c, hfc⟩ : ∃ c, f.child = some c := by
    cases hq : f.child with
    | some c => exact ⟨c, rfl⟩
    | none =>
      rw [hq] at hc
      cases L with
      | nil => exact absurd rfl hne
      | cons b L' => simp [IsChain] at hc
  rw [hfc] at hc
  have hfrom : chainFrom h h.length (some c) = some L :=
    chainFrom_of_isChain _ hc hc.length_le
  have hnd : arr.Nodup := hperm.nodup_iff.mpr hc.nodup
  have hlive : ∀ x ∈ arr, x < h.length := fun x hx => hc.lt x (hperm.mem_iff.mp hx)
  obtain ⟨a, rest, harr⟩ : ∃ a rest, arr = a :: rest := by
    cases arr with
    | nil => exact absurd hperm.symm.eq_nil hne
    | cons a rest => exact ⟨a, rest, rfl⟩
  subst harr
  have ha : a < h.length := hlive a (by simp)
  have har : a ∉ rest := (List.nodup_cons.mp hnd).1
  obtain ⟨h1, hu1⟩ := upd_isSome (setChild (some a)) hfolder
  have hl1 := upd_length hu1
  obtain ⟨h2, hu2⟩ := upd_isSome (h := h1) (setPrevious none) (by omega : a < h1.length)
  have hl2 := upd_length hu2
  obtain ⟨last, h3, h4, hlast, hr, hu4, hl4, hchain, hframe⟩ :=
    relinkLoop_chain rest a h2 hnd (fun x hx => by rw [hl2, hl1]; exact hlive x hx)
  obtain ⟨hp1, hp2⟩ := relinkLoop_prev rest a h2 h3 hr hnd
  have hrun : sortDirectory qsort h cur criterion = some h4 := by
    unfold sortDirectory
    simp only [hf, hfc, hfrom, Option.some_bind, hs, List.head?_cons, hlast, hu1, hu2, hr, hu4]
  have hchild24 : ∀ x, childOf h4 x = childOf h2 x := fun x =>
    map_eq_of_frame hl4 (fun n => n.child) x (fun n hn => by
      obtain ⟨n', hn', _, hc', _⟩ := hframe x n hn
      exact ⟨n', hn', hc'⟩)
  have hpar24 : ∀ x, parentOf h4 x = parentOf h2 x := fun x =>
    map_eq_of_frame hl4 (fun n => n.parent) x (fun n hn => by
      obtain ⟨n', hn', hp', _, _⟩ := hframe x n hn
      exact ⟨n', hn', hp'.2.2.2.2.2.2.1⟩)
  have hnext24 : ∀ x, x ∉ a :: rest → nextOf h4 x = nextOf h2 x := fun x hx =>
    map_eq_of_frame hl4 (fun n => n.next) x (fun n hn => by
      obtain ⟨n', hn', _, _, hk⟩ := hframe x n hn
      exact ⟨n', hn', hk hx⟩)
  have hchildcur : childOf h4 cur = some (some a) := by
    rw [hchild24]
    simp only [childOf]
    rw [upd_obs hu2 (fun n => n.child) (fun _ => rfl) cur, upd_obs_eq hu1 (fun n => n.child)]
    simp [hf, setChild]
  have hkids : children h4 cur = some (a :: rest) := by
    simp only [childOf] at hchildcur
    cases hc4 : h4[cur]? with
    | none => simp [hc4] at hchildcur
    | some n4 =>
      simp only [hc4, Option.map_some', Option.some.injEq] at hchildcur
      exact children_eq_some_iff.mpr ⟨n4, hc4, by rw [hchildcur]; exact hchain⟩
  have hprev34 : ∀ x, previousOf h4 x = previousOf h3 x := fun x => by
    simp only [previousOf]
    rw [upd_obs hu4 (fun n => n.previous) (fun _ => rfl) x]
  have hpr : prevsOK h4 none (a :: rest) = true := by
    simp only [prevsOK, Bool.and_eq_true, decide_eq_true_eq]
    refine ⟨?_, ?_⟩
    · rw [hprev34, hp1 a har]
      simp only [previousOf]
      rw [upd_obs_eq hu2 (fun n => n.previous)]
      have : a < h1.length := by omega
      simp [List.getElem?_eq_getElem this, setPrevious]
    · rw [prevsOK_frame rest (some a) (fun x _ => hprev34 x)]
      exact hp2
  have q1 : ∀ x, x ∉ L → nextOf h4 x = nextOf h x := by
    intro x hx
    have hxa : x ∉ a :: rest := fun e => hx (hperm.mem_iff.mp e)
    rw [hnext24 x hxa]
    simp only [nextOf]
    rw [upd_obs hu2 (fun n => n.next) (fun _ => rfl) x,
      upd_obs hu1 (fun n => n.next) (fun _ => rfl) x]
  have q2 : ∀ x, x ∉ L → previousOf h4 x = previousOf h x := by
    intro x hx
    have hxa : x ∉ a :: rest := fun e => hx (hperm.mem_iff.mp e)
    have hxr : x ∉ rest := fun e => hxa (List.mem_cons_of_mem _ e)
    have hxne : x ≠ a := fun e => hxa (by simp [e])
    rw [hprev34, hp1 x hxr]
    simp only [previousOf]
    rw [upd_obs_ne hu2 (fun n => n.previous) hxne,
      upd_obs hu1 (fun n => n.previous) (fun _ => rfl) x]
  have q3 : ∀ x, x ≠ cur → childOf h4 x = childOf h x := by
    intro x hx
    rw [hchild24]
    simp only [childOf]
    rw [upd_obs hu2 (fun n => n.child) (fun _ => rfl) x,
      upd_obs_ne hu1 (fun n => n.child) hx]
  have q4 : ∀ x, parentOf h4 x = parentOf h x := by
    intro x
    rw [hpar24]
    simp only [parentOf]
    rw [upd_obs hu2 (fun n => n.parent) (fun _ => rfl) x,
      upd_obs hu1 (fun n => n.parent) (fun _ => rfl) x]
  exact ⟨h4, hrun,
    (hinv.rechain hcur hL hkids (fun x hx => hperm.mem_iff.mp hx) hpr q1 q2 q3 q4).1⟩

theorem freeNodeLoop_succ (h : Heap) (fuel c : Nat) :
    freeNodeLoop h (fuel + 1) c =
      match h[c]? with
      | none => none
      | some n =>
        match n.next with
        | some nextNode =>
          match freeNode h fuel c, freeNodeLoop h fuel nextNode with
          | some a, some b => some (a ++ b)
          | _, _ => none
        | none => freeNode h fuel c := by
  simp only [freeNodeLoop]

/-- The walk of freeNode over a tree of addresses whose cells all have an
assigned content returns, given two steps of fuel for every address. -/
theorem freeNodeLoop_total {h : Heap} : ∀ (T : ATree) (c : Nat) (fuel : Nat),
    hasShape h (some c) T = true →
    (∀ a ∈ addrsOf T, ∀ n : node, h[a]? = some n → n.contentAssigned = true) →
    2 * (addrsOf T).length ≤ fuel →
    (freeNodeLoop h fuel c).isSome = true
  | ATree.null, c, _, hs, _, _ => by simp [hasShape] at hs
  | ATree.node a child next, c, fuel, hs, hset, hfuel => by
    rw [hasShape_node] at hs
    obtain ⟨e, n, hn, hch, hnx⟩ := hs
    have e := Option.some.inj e
    subst e
    have hnset : n.contentAssigned = true := hset c (by simp [addrsOf]) n hn
    have hsetc : ∀ a ∈ addrsOf child, ∀ n : node, h[a]? = some n → n.contentAssigned = true :=
      fun a ha => hset a (by simp [addrsOf, ha])
    have hsetn : ∀ a ∈ addrsOf next, ∀ n : node, h[a]? = some n → n.contentAssigned = true :=
      fun a ha => hset a (by simp [addrsOf, ha])
    simp only [addrsOf, List.length_cons, List.length_append] at hfuel
    obtain ⟨F, rfl⟩ : ∃ F, fuel = F + 2 := ⟨fuel - 2, by omega⟩
    have hnode : (freeNode h (F + 1) c).isSome = true := by
      simp only [freeNode, hn]
      cases hc : n.child with
      | none => simp [hnset]
      | some ch =>
        rw [hc] at hch
        have := freeNodeLoop_total child ch F hch hsetc (by omega)
        cases hq : freeNodeLoop h F ch with
        | none => simp [hq] at this
        | some l => simp [hnset, hq]
    rw [freeNodeLoop_succ, hn]
    simp only []
    cases hx : n.next with
    | none => exact hnode
    | some nx =>
      rw [hx] at hnx
      have h2 := freeNodeLoop_total next nx (F + 1) hnx hsetn (by omega)
      simp only []
      cases h3 : freeNode h (F + 1) c with
      | none => simp [h3] at hnode
      | some l1 =>
        cases h4 : freeNodeLoop h (F + 1) nx with
        | none => simp [h4] at h2
        | some l2 => rfl

/-- The function freeNode returns on a node with an assigned content whose
children make a tree of addresses of cells with an assigned content, given two
steps of fuel for every address and one more. -/
theorem freeNode_total {h : Heap} {a : Nat} {n : node} (hn : h[a]? = some n) (C : ATree)
    (hs : hasShape h n.child C = true) (hnset : n.contentAssigned = true)
    (hset : ∀ a ∈ addrsOf C, ∀ n : node, h[a]? = some n → n.contentAssigned = true)
    (fuel : Nat) (hfuel : 2 * (addrsOf C).length + 1 ≤ fuel) :
    (freeNode h fuel a).isSome = true := by
  obtain ⟨F, rfl⟩ : ∃ F, fuel = F + 1 := ⟨fuel - 1, by omega⟩
  simp only [freeNode, hn]
  cases hc : n.child with
  | none => simp [hnset]
  | some ch =>
    rw [hc] at hs
    have := freeNodeLoop_total C ch F hs hset (by omega)
    cases hq : freeNodeLoop h F ch with
    | none => simp [hq] at this
    | some l => simp [hnset, hq]

/-- Every address of a tree of addresses is a live cell whose children make a
tree of addresses inside the tree. -/
theorem hasShape_sub {h : Heap} : ∀ (T : ATree) (p : Ptr), hasShape h p T = true →
    ∀ f ∈ addrsOf T, ∃ (n : node) (C : ATree), h[f]? = some n ∧
      hasShape h n.child C = true ∧ (f :: addrsOf C).Sublist (addrsOf T)
  | ATree.null, _, _, f, hf => by simp [addrsOf] at hf
  | ATree.node a child next, p, hs, f, hf => by
    rw [hasShape_node] at hs
    obtain ⟨_, n, hn, h1, h2⟩ := hs
    by_cases e : f = a
    · subst e
      refine ⟨n, child, hn, h1, ?_⟩
      simp only [addrsOf]
      exact List.Sublist.cons₂ _ (List.sublist_append_left _ _)
    · simp only [addrsOf, List.mem_cons, List.mem_append] at hf
      rcases hf with e2 | e2 | e2
      · exact absurd e2 e
      · obtain ⟨n', C, hn', hC, hsub⟩ := hasShape_sub child n.child h1 f e2
        refine ⟨n', C, hn', hC, ?_⟩
        simp only [addrsOf]
        exact List.Sublist.cons _ (hsub.trans (List.sublist_append_left _ _))
      · obtain ⟨n', C, hn', hC, hsub⟩ := hasShape_sub next n.next h2 f e2
        refine ⟨n', C, hn', hC, ?_⟩
        simp only [addrsOf]
        exact List.Sublist.cons _ (hsub.trans (List.sublist_append_right _ _))

/-- A list of distinct live addresses is no longer than the heap. -/
theorem nodup_length_le {h : Heap} {l : List Nat} (hnd : l.Nodup)
    (hlive : ∀ a ∈ l, a < h.length) : l.length ≤ h.length := by
  have hsub : l.toFinset ⊆ Finset.range h.length := by
    intro a ha
    simp only [List.mem_toFinset] at ha
    simpa using hlive a ha
  have := Finset.card_le_card hsub
  rwa [List.toFinset_card_of_nodup hnd, Finset.card_range] at this

/-- The children of an address of a tree of addresses are the top chain of the
tree of its children. -/
theorem hasShape_children {h : Heap} {T : ATree} {p : Ptr} (hs : hasShape h p T = true)
    {f : Nat} (hf : f ∈ addrsOf T) {L : List Nat} (hL : children h f = some L) :
    ∃ (n : node) (C : ATree), h[f]? = some n ∧ hasShape h n.child C = true ∧
      (f :: addrsOf C).Sublist (addrsOf T) ∧ L = topChain C := by
  obtain ⟨n, C, hn, hC, hsub⟩ := hasShape_sub T p hs f hf
  obtain ⟨n', hn', hch⟩ := children_eq_some_iff.mp hL
  rw [hn] at hn'
  have e := Option.some.inj hn'
  subst e
  exact ⟨n, C, hn, hC, hsub, hch.det (hasShape_isChain C n.child hC)⟩

/-- The function rm in a folder of a tree: in the heap it returns the linkage
and the parent pointers of the nodes of the tree hold as before; and it returns
when every node of the tree has an assigned content. -/
theorem rm_linked {h : Heap} {T : ATree} {p : Ptr}
    (hs : hasShape h p T = true) (hnd : (addrsOf T).Nodup)
    (hinv : TreeInv h (fun a => a ∈ addrsOf T)) {cur : Nat} (hcur : cur ∈ addrsOf T)
    (command answer : List Char) :
    (∀ r, rm h cur command answer = some r → TreeInv r.1 (fun a => a ∈ addrsOf T)) ∧
    ((∀ a ∈ addrsOf T, assignedOf h a = some true) →
      ∃ r, rm h cur command answer = some r) := by
  obtain ⟨L, hL, hpr, hmem⟩ := hinv cur hcur
  have hsame : rm h cur command answer = some (h, []) →
      (∀ r, rm h cur command answer = some r → TreeInv r.1 (fun a => a ∈ addrsOf T)) ∧
      ((∀ a ∈ addrsOf T, assignedOf h a = some true) →
        ∃ r, rm h cur command answer = some r) :=
    fun hrun => ⟨fun r hr => by
      have e := Option.some.inj (hr.symm.trans hrun)
      rw [e]
      exact hinv, fun _ => ⟨_, hrun⟩⟩
  cases hcmd : strtokAll ' ' command with
  | nil => exact hsame (by simp [rm, hcmd])
  | cons c0 r1 =>
    cases r1 with
    | nil => exact hsame (by simp [rm, hcmd])
    | cons nodeName r2 =>
      cases hfn : firstNamed h nodeName L with
      | none =>
        exact hsame (by simp [rm, hcmd, getNodeTypeless_spec nodeName hL, hfn])
      | some m =>
        by_cases hy : answer = ['y']
        swap
        · exact hsame (by simp [rm, hcmd, getNodeTypeless_spec nodeName hL, hfn, hy])
        have hmL := (firstNamed_some hfn).1
        obtain ⟨ncur, Ccur, hncur, hCcur, hsubcur, hLtop⟩ := hasShape_children hs hcur hL
        have hmC : m ∈ addrsOf Ccur := topChain_sub Ccur m (hLtop ▸ hmL)
        obtain ⟨nm, Cm, hnm, hCm, hsubm⟩ := hasShape_sub Ccur ncur.child hCcur m hmC
        have hndcur : (cur :: addrsOf Ccur).Nodup := hnd.sublist hsubcur
        have hcurC : cur ∉ addrsOf Ccur := (List.nodup_cons.mp hndcur).1
        have hcm : m ≠ cur := fun e => hcurC (e ▸ hmC)
        have hsubm2 : (addrsOf Cm).Sublist (addrsOf Ccur) :=
          (List.sublist_cons_self m _).trans hsubm
        have hcurCm : cur ∉ addrsOf Cm := fun e => hcurC (hsubm2.subset e)
        have hndCm : (addrsOf Cm).Nodup :=
          (List.nodup_cons.mp hndcur).2.sublist hsubm2
        have hlen : (addrsOf Cm).length ≤ h.length :=
          nodup_length_le hndCm (fun a ha => by
            obtain ⟨n, hn⟩ := hasShape_live Cm nm.child hCm a ha
            exact lt_of_getElem?_eq_some hn)
        have hcurlt : cur < h.length := lt_of_getElem?_eq_some hncur
        obtain ⟨h1, hu1⟩ := upd_isSome (addItems (-1)) hcurlt
        have hl1 := upd_length hu1
        have hc1 : ∀ a, childOf h1 a = childOf h a :=
          fun a => upd_obs hu1 (fun n => n.child) (fun _ => rfl) a
        have hn1 : ∀ a, nextOf h1 a = nextOf h a :=
          fun a => upd_obs hu1 (fun n => n.next) (fun _ => rfl) a
        have hinv1 : TreeInv h1 (fun a => a ∈ addrsOf T) :=
          treeInv_frame hinv hc1 hn1
            (fun a => upd_obs hu1 (fun n => n.previous) (fun _ => rfl) a)
            (fun a => upd_obs hu1 (fun n => n.parent) (fun _ => rfl) a)
        have hL1 : children h1 cur = some L :=
          children_frame hL (hc1 cur) (fun a _ => hn1 a)
        obtain ⟨h2, hrm, hl2, hT2, -, hn2, hc2, hs2⟩ := removeNode_linked hinv1 hcur hL1 hmL
        have hrun : rm h cur command answer
            = (freeNode h2 (2 * h2.length + 1) m).bind fun freed => some (h2, freed) := by
          simp [rm, hcmd, getNodeTypeless_spec nodeName hL, hfn, hy, hu1, hrm]
        refine ⟨fun r hr => ?_, fun hset0 => ?_⟩
        · rw [hrun] at hr
          cases hfr : freeNode h2 (2 * h2.length + 1) m with
          | none => simp [hfr] at hr
          | some freed =>
            simp only [hfr, Option.some_bind, Option.some.injEq] at hr
            rw [← hr]
            exact hT2
        · have hset : ∀ a ∈ addrsOf T, ∀ n : node, h[a]? = some n →
              n.contentAssigned = true := by
            intro a ha n hn
            have := hset0 a ha
            simpa [assignedOf, hn] using this
          have hset2 : ∀ (a : Nat) (n2 : node), h2[a]? = some n2 →
              ∀ n : node, h[a]? = some n → n2.contentAssigned = n.contentAssigned := by
            intro a n2 hn2a n hna
            have e : (h2[a]?).map (fun n : node => n.contentAssigned)
                = (h1[a]?).map (fun n : node => n.contentAssigned) := hs2 a
            rw [upd_obs hu1 (fun n : node => n.contentAssigned) (fun _ => rfl) a] at e
            simpa [hn2a, hna] using e
          have hlive2 : ∀ (a : Nat) (n2 : node), h2[a]? = some n2 →
              ∃ n : node, h[a]? = some n := by
            intro a n2 hn2a
            have : a < h.length := by
              have := lt_of_getElem?_eq_some hn2a
              omega
            exact ⟨_, List.getElem?_eq_getElem this⟩
          have hshape2 : hasShape h2 nm.child Cm = true :=
            hasShape_frame Cm nm.child hCm (fun a ha => by
              have hac : a ≠ cur := fun e => hcurCm (e ▸ ha)
              exact ⟨by rw [hc2 a hac, hc1], by rw [hn2, hn1]⟩)
          have hm2 : ∃ nm2 : node, h2[m]? = some nm2 ∧ nm2.child = nm.child := by
            have := hc2 m hcm
            rw [hc1] at this
            simp only [childOf, hnm, Option.map_some'] at this
            cases hq : h2[m]? with
            | none => simp [hq] at this
            | some nm2 =>
              simp only [hq, Option.map_some', Option.some.injEq] at this
              exact ⟨nm2, rfl, this⟩
          obtain ⟨nm2, hnm2, hch2⟩ := hm2
          have hmT : m ∈ addrsOf T := hsubcur.subset (List.mem_cons_of_mem _ hmC)
          have hCmT : ∀ a ∈ addrsOf Cm, a ∈ addrsOf T := fun a ha =>
            hsubcur.subset (List.mem_cons_of_mem _ (hsubm2.subset ha))
          have hfree := freeNode_total hnm2 Cm (by rw [hch2]; exact hshape2)
            (by rw [hset2 m nm2 hnm2 nm hnm]; exact hset m hmT nm hnm)
            (fun a ha n2 hn2a => by
              obtain ⟨n, hna⟩ := hlive2 a n2 hn2a
              rw [hset2 a n2 hn2a n hna]
              exact hset a (hCmT a ha) n hna)
            (2 * h2.length + 1) (by omega)
          rw [hrun]
          cases hfr : freeNode h2 (2 * h2.length + 1) m with
          | none => simp [hfr] at hfree
          | some freed => exact ⟨(h2, freed), rfl⟩

/-- The nodes of a tree of addresses whose folders are consistently linked, with
every child pointing to its folder, satisfy the invariant. -/
theorem treeInv_of_shape {h : Heap} {T : ATree} {p : Ptr} (hs : hasShape h p T = true)
    (hlink : ∀ f ∈ addrsOf T, linked h f = true ∧ ownedAt h f = true) :
    TreeInv h (fun a => a ∈ addrsOf T) := by
  intro f hf
  obtain ⟨h1, h2⟩ := hlink f hf
  cases hL : children h f with
  | none => simp [linked, hL] at h1
  | some L =>
    simp only [linked, hL] at h1
    simp only [ownedAt, hL, List.all_eq_true, decide_eq_true_eq] at h2
    obtain ⟨n, C, hn, hC, hsub, hLtop⟩ := hasShape_children hs hf hL
    refine ⟨L, rfl, h1, fun c hc => ⟨?_, h2 c hc⟩⟩
    have hcC : c ∈ addrsOf C := topChain_sub C c (hLtop ▸ hc)
    exact hsub.subset (List.mem_cons_of_mem _ hcC)

theorem hasShape_head {h : Heap} {T : ATree} {a : Nat} (hs : hasShape h (some a) T = true) :
    a ∈ addrsOf T := by
  cases T with
  | null => simp [hasShape] at hs
  | node b child next =>
    rw [hasShape_node] at hs
    simp [addrsOf, Option.some.inj hs.1]

/-- In a heap whose nodes from the root on make a tree of distinct cells, where
the children of every node of the tree are consistently linked (the chain from
the child pointer ends, its first node has no previous sibling, and the
previous pointer of every node behind another leads back to it) and every child
has its folder as parent pointer, each of make_dir, rm (with any answer), mov
and sortDirectory, called in a folder of the tree, leaves a heap in which the
children of every node reachable from the root are consistently linked.  The
functions mov and sortDirectory return; make_dir returns when getRealPath can
hold the path of the folder, rm when the content of every node of the tree was
assigned.  For sortDirectory qsort does what the C standard says of it, and for
the criterion date the comparison of the dates is one the standard allows. -/
theorem structural_ops_keep_linkage (h : Heap) (root cur : Nat) (T : ATree)
    (htree : hasShape h (some root) T = true) (hnd : (addrsOf T).Nodup)
    (hlink : ∀ f ∈ addrsOf T, linked h f = true ∧ ownedAt h f = true)
    (hcur : cur ∈ addrsOf T) :
    (∀ (junk : node) (now : Int) (command : List Char),
      (∀ h', make_dir h junk now cur command = some h' →
        ∀ f, Reach h' root f → linked h' f = true) ∧
      ((getRealPath h cur).isSome = true →
        ∃ h', make_dir h junk now cur command = some h')) ∧
    (∀ command answer : List Char,
      (∀ r, rm h cur command answer = some r →
        ∀ f, Reach r.1 root f → linked r.1 f = true) ∧
      ((∀ a ∈ addrsOf T, assignedOf h a = some true) →
        ∃ r, rm h cur command answer = some r)) ∧
    (∀ command : List Char,
      ∃ h', mov h cur command = some h' ∧
        ∀ f, Reach h' root f → linked h' f = true) ∧
    (∀ (qsort : (Nat → Nat → Option Int) → List Nat → Option (List Nat))
      (criterion : List Char), SortsAscending qsort →
      (criterion = "date".toList →
        ∀ L, children h cur = some L → Consistent (compareNodesByDate h) L) →
      ∃ h', sortDirectory qsort h cur criterion = some h' ∧
        ∀ f, Reach h' root f → linked h' f = true) := by
  have hinv := treeInv_of_shape htree hlink
  have hroot : root ∈ addrsOf T := hasShape_head htree
  have hfin : ∀ (h' : Heap) (S : Nat → Prop), LinkInv h' S → S root →
      ∀ f, Reach h' root f → linked h' f = true :=
    fun h' S hl hr f hf => linkInv_linked hl (reach_sub hl hr hf)
  refine ⟨?_, ?_, ?_, ?_⟩
  · intro junk now command
    obtain ⟨hpost, hret⟩ := make_dir_linked hinv hcur junk now command
    refine ⟨fun h' hrun => ?_, hret⟩
    rcases hpost h' hrun with e | hT
    · subst e
      exact hfin _ _ hinv.toLink hroot
    · exact hfin _ _ hT.toLink (Or.inl hroot)
  · intro command answer
    obtain ⟨hpost, hret⟩ := rm_linked htree hnd hinv hcur command answer
    exact ⟨fun r hrun => hfin _ _ (hpost r hrun).toLink hroot, hret⟩
  · intro command
    obtain ⟨h', hrun, hl⟩ := mov_linked hinv hcur command
    exact ⟨h', hrun, hfin _ _ hl hroot⟩
  · intro qsort criterion hq hdate
    obtain ⟨L, hL, -, -⟩ := hinv cur hcur
    obtain ⟨nc, hnc, hchain⟩ := children_eq_some_iff.mp hL
    by_cases hne : L = []
    · subst hne
      simp only [IsChain] at hchain
      exact ⟨h, by simp [sortDirectory, hnc, hchain], hfin _ _ hinv.toLink hroot⟩
    · have harr : ∃ arr, (if criterion = "name".toList then qsort (compareNodesByName h) L
          else if criterion = "date".toList then qsort (compareNodesByDate h) L
          else some L) = some arr ∧ arr.Perm L := by
        by_cases e1 : criterion = "name".toList
        · obtain ⟨arr, hs, hperm, -⟩ :=
            hq (compareNodesByName h) L (compareNodesByName_consistent h L hchain.lt)
          exact ⟨arr, by rw [if_pos e1, hs], hperm⟩
        · by_cases e2 : criterion = "date".toList
          · obtain ⟨arr, hs, hperm, -⟩ := hq (compareNodesByDate h) L (hdate e2 L hL)
            exact ⟨arr, by rw [if_neg e1, if_pos e2, hs], hperm⟩
          · exact ⟨L, by rw [if_neg e1, if_neg e2], List.Perm.refl L⟩
      obtain ⟨arr, hs, hperm⟩ := harr
      obtain ⟨h', hrun, hT⟩ := sortDirectory_linked hinv hcur hL hne hs hperm
      exact ⟨h', hrun, hfin _ _ hT.toLink hroot⟩

/-- On the tree with the folders d and n under the root and x under d, for
mov n d and for rm n answered y. -/
theorem structural_ops_keep_linkage_witness :
    hasShape heapMov (some 0) shapeMov = true ∧ (addrsOf shapeMov).Nodup ∧
    (∀ f ∈ addrsOf shapeMov, linked heapMov f = true ∧ ownedAt heapMov f = true) ∧
    0 ∈ addrsOf shapeMov ∧
    (∃ h', mov heapMov 0 "mov n d".toList = some h' ∧
      ∀ f, Reach h' 0 f → linked h' f = true) ∧
    (∃ r, rm heapMov 0 "rm n".toList ['y'] = some r ∧
      ∀ f, Reach r.1 0 f → linked r.1 f = true) :=
  let thm := structural_ops_keep_linkage heapMov 0 0 shapeMov (by decide!) (by decide!)
    (by decide!) (by decide!)
  let ⟨r, hr⟩ := (thm.2.1 "rm n".toList ['y']).2 (by decide!)
  ⟨by decide!, by decide!, by decide!, by decide!, thm.2.2.1 "mov n d".toList,
    r, hr, (thm.2.1 "rm n".toList ['y']).1 r hr⟩

/-- C32, the code at two failing inputs.  The heap loadDirectoryFromFile leaves
for a root that holds the folder a is a tree of distinct cells with consistent
linkage and parent pointers; rm a answered y has no result there, because
freeNode calls free on the content of a, which was never assigned (removeNode,
called before, returns).  The heap five nested mkdir commands with names of 250
characters build is such a tree too; mkdir x in the fifth folder has no result,
because getRealPath writes 1255 characters into char tempPath[1024] (the
statements that link the new folder, run before, return). -/
theorem structural_ops_no_result :
    hasShape heapLoaded (some 0) shapeLoaded = true ∧ (addrsOf shapeLoaded).Nodup ∧
    (∀ f ∈ addrsOf shapeLoaded, linked heapLoaded f = true ∧ ownedAt heapLoaded f = true) ∧
    rm heapLoaded 0 "rm a".toList ['y'] = none ∧
    (removeNode heapLoaded 1).isSome = true ∧
    hasShape heapDeep (some 0) shapeDeep = true ∧ (addrsOf shapeDeep).Nodup ∧
    (∀ f ∈ addrsOf shapeDeep, linked heapDeep f = true ∧ ownedAt heapDeep f = true) ∧
    make_dir heapDeep junk0 0 5 "mkdir x".toList = none ∧
    (linkNewFolder heapDeep junk0 0 5 ['x']).isSome = true := by
  decide!

/-! ### Item counts of a loaded tree -/

theorem fgetsLine_newline_last : ∀ (n : Nat) (s a b : List Char),
    (fgetsLine n s).1 = a ++ '\n' :: b → b = []
  | 0, s, a, b, h => by simp [fgetsLine] at h
  | _ + 1, [], a, b, h => by simp [fgetsLine] at h
  | n + 1, c :: cs, a, b, h => by
    by_cases e : c = '\n'
    · simp only [fgetsLine, e, if_true] at h
      cases a with
      | nil => simpa using h.symm
      | cons x xs =>
        simp only [List.cons_append, List.cons.injEq] at h
        have := congrArg List.length h.2
        simp at this
        omega
    · simp only [fgetsLine, e, if_false] at h
      cases a with
      | nil =>
        simp only [List.nil_append, List.cons.injEq] at h
        exact absurd h.1 e
      | cons x xs =>
        simp only [List.cons_append, List.cons.injEq] at h
        exact fgetsLine_newline_last n cs xs b h.2

/-- A stretch without a newline that fits is read in one piece by fgets. -/
theorem fgetsLine_prefix : ∀ (p : List Char) (n : Nat) (s : List Char), '\n' ∉ p →
    p.length ≤ n →
    fgetsLine n (p ++ s)
      = (p ++ (fgetsLine (n - p.length) s).1, (fgetsLine (n - p.length) s).2)
  | [], n, s, _, _ => by simp
  | c :: p, 0, s, _, h => by simp at h
  | c :: p, n + 1, s, hnl, h => by
    have hc : ¬ c = '\n' := fun e => hnl (by simp [e])
    have hp : '\n' ∉ p := fun e => hnl (by simp [e])
    have ih := fgetsLine_prefix p n s hp (by simpa using h)
    simp [fgetsLine, hc, ih]

theorem not_mem_replicate_space {c : Char} (hc : c ≠ ' ') (k : Nat) :
    c ∉ List.replicate k ' ' :=
  fun hm => hc (List.eq_of_mem_replicate hm)

/-- Fewer spaces than fgets may store and a closing brace behind them: the line
read holds the brace. -/
theorem fgetsLine_spaces_brace (n k : Nat) (more : List Char) (h : k < n) :
    fgetsLine n (List.replicate k ' ' ++ '\x7d' :: more)
      = (List.replicate k ' ' ++ '\x7d' :: (fgetsLine (n - k - 1) more).1,
          (fgetsLine (n - k - 1) more).2) := by
  have h1 := fgetsLine_prefix (List.replicate k ' ') n ('\x7d' :: more)
    (not_mem_replicate_space (by decide) k) (by rw [List.length_replicate]; omega)
  rw [List.length_replicate] at h1
  obtain ⟨m, hm⟩ : ∃ m, n - k = m + 1 := ⟨n - k - 1, by omega⟩
  have hm2 : n - k - 1 = m := by omega
  rw [hm] at h1
  rw [h1, hm2]
  simp [fgetsLine]

/-- At least as many spaces as fgets may store: the line read is made of
spaces. -/
theorem fgetsLine_spaces_cut (n k : Nat) (s : List Char) (h : n ≤ k) :
    fgetsLine n (List.replicate k ' ' ++ s)
      = (List.replicate n ' ', List.replicate (k - n) ' ' ++ s) := by
  have hsplit : List.replicate k ' ' = List.replicate n ' ' ++ List.replicate (k - n) ' ' := by
    rw [← List.replicate_add]
    congr 1
    omega
  have h1 := fgetsLine_prefix (List.replicate n ' ') n (List.replicate (k - n) ' ' ++ s)
    (not_mem_replicate_space (by decide) n) (by rw [List.length_replicate])
  rw [List.length_replicate, Nat.sub_self] at h1
  rw [hsplit, List.append_assoc, h1]
  simp [fgetsLine]

theorem fgets_ne_nil {s : List Char} (h : s ≠ []) : fgets 1024 s = some (fgetsLine 1023 s) := by
  cases s with
  | nil => exact absurd rfl h
  | cons c cs => rfl

/-- A line of spaces and newlines is passed over by the inner loop. -/
theorem loadProperties_blank (junk : nodeData) (fuel : Nat) (file line rest : List Char)
    (d : nodeData) (child : Tree)
    (hget : fgets 1024 file = some (line, rest))
    (hblank : ∀ c ∈ line, c = ' ' ∨ c = '\n') :
    loadProperties junk (fuel + 1) file d child = loadProperties junk fuel rest d child := by
  have hq : '"' ∉ line := fun hm => by
    rcases hblank _ hm with e | e <;> exact absurd e (by decide)
  have hb : '\x7d' ∉ line := fun hm => by
    rcases hblank _ hm with e | e <;> exact absurd e (by decide)
  have e : "\x7d".toList = ['\x7d'] := rfl
  have hbrace : strstr line ['\x7d'] = false := by
    rw [strstr_single]
    simpa using hb
  have hfield : isFieldLine line = false := by
    simp only [isFieldLine]
    rw [show "\"type\":".toList = '"' :: "type\":".toList from rfl,
      show "\"name\":".toList = '"' :: "name\":".toList from rfl,
      show "\"size\":".toList = '"' :: "size\":".toList from rfl,
      show "\"date\":".toList = '"' :: "date\":".toList from rfl,
      show "\"symlinkTarget\":".toList = '"' :: "symlinkTarget\":".toList from rfl,
      show "\"content\":".toList = '"' :: "content\":".toList from rfl]
    simp only [strstr_none '"' _ line hq, Bool.or_self]
  have hkids : strstr line "\"children\":".toList = false := by
    rw [show "\"children\":".toList = '"' :: "children\":".toList from rfl]
    exact strstr_none '"' _ line hq
  simp only [loadProperties, hget, e, hbrace, hfield, hkids, Bool.false_eq_true, if_false]

/-- The inner loop started on spaces and a closing brace ends at the brace and
leaves the node as it is. -/
theorem loadProperties_spaces (junk : nodeData) : ∀ (k fuel : Nat) (more : List Char)
    (d d2 : nodeData) (child child2 : Tree) (rest : List Char),
    loadProperties junk fuel (List.replicate k ' ' ++ '\x7d' :: more) d child
      = some (d2, child2, rest) →
    d2 = d ∧ child2 = child ∧ ∃ pre, List.replicate k ' ' ++ '\x7d' :: more = pre ++ rest := by
  intro k
  induction k using Nat.strong_induction_on with
  | _ k ih =>
    intro fuel more d d2 child child2 rest hrun
    cases fuel with
    | zero => simp [loadProperties] at hrun
    | succ fuel =>
      have hne : List.replicate k ' ' ++ '\x7d' :: more ≠ [] := by simp
      by_cases hk : k < 1023
      · have hget : fgets 1024 (List.replicate k ' ' ++ '\x7d' :: more)
            = some (List.replicate k ' ' ++ '\x7d' :: (fgetsLine (1023 - k - 1) more).1,
                (fgetsLine (1023 - k - 1) more).2) := by
          rw [fgets_ne_nil hne, fgetsLine_spaces_brace 1023 k more hk]
        have hbrace : strstr (List.replicate k ' ' ++ '\x7d' :: (fgetsLine (1023 - k - 1) more).1)
            ['\x7d'] = true := by
          rw [strstr_single]
          simp
        rw [loadProperties_close junk fuel _ _ _ d child hget hbrace] at hrun
        simp only [Option.some.injEq, Prod.mk.injEq] at hrun
        obtain ⟨h1, h2, h3⟩ := hrun
        refine ⟨h1.symm, h2.symm,
          List.replicate k ' ' ++ '\x7d' :: (fgetsLine (1023 - k - 1) more).1, ?_⟩
        rw [← h3]
        exact ((fgets_some hget).1).symm
      · have hget : fgets 1024 (List.replicate k ' ' ++ '\x7d' :: more)
            = some (List.replicate 1023 ' ',
                List.replicate (k - 1023) ' ' ++ '\x7d' :: more) := by
          rw [fgets_ne_nil hne, fgetsLine_spaces_cut 1023 k _ (by omega)]
        rw [loadProperties_blank junk fuel _ _ _ d child hget
          (fun c hc => Or.inl (List.eq_of_mem_replicate hc))] at hrun
        obtain ⟨h1, h2, pre, h3⟩ := ih (k - 1023) (by omega) fuel more d d2 child child2 rest hrun
        refine ⟨h1, h2, List.replicate 1023 ' ' ++ pre, ?_⟩
        rw [List.append_assoc, ← h3]
        exact ((fgets_some hget).1).symm

/-- The inner loop started on what the outer loop leaves ends at once and
leaves the node as it is. -/
theorem loadProperties_after (junk : nodeData) (fuel : Nat) (s : List Char)
    (d d2 : nodeData) (child child2 : Tree) (rest : List Char) (hs : afterBracket s)
    (hrun : loadProperties junk fuel s d child = some (d2, child2, rest)) :
    d2 = d ∧ child2 = child ∧ ∃ pre, s = pre ++ rest := by
  rcases hs with e | ⟨k, more, e | e⟩
  · subst e
    cases fuel with
    | zero => simp [loadProperties] at hrun
    | succ fuel =>
      simp only [loadProperties, fgets, Option.some.injEq, Prod.mk.injEq] at hrun
      exact ⟨hrun.1.symm, hrun.2.1.symm, [], by simp [hrun.2.2]⟩
  · subst e
    exact loadProperties_spaces junk k fuel more d d2 child child2 rest hrun
  · subst e
    cases fuel with
    | zero => simp [loadProperties] at hrun
    | succ fuel =>
      have hget : fgets 1024 ('\n' :: (List.replicate k ' ' ++ '\x7d' :: more))
          = some (['\n'], List.replicate k ' ' ++ '\x7d' :: more) := by
        simp [fgets, fgetsLine]
      rw [loadProperties_blank junk fuel _ _ _ d child hget
        (fun c hc => Or.inr (by simpa using hc))] at hrun
      obtain ⟨h1, h2, pre, h3⟩ :=
        loadProperties_spaces junk k fuel more d d2 child child2 rest hrun
      exact ⟨h1, h2, '\n' :: pre, by rw [h3]; rfl⟩

theorem bracketsClosed_suffix {a b : List Char} (h : bracketsClosed (a ++ b)) :
    bracketsClosed b := by
  intro pre post e
  exact h (a ++ pre) post (by rw [e, List.append_assoc])

theorem bracketsClosed_free {s : List Char} (h : ']' ∉ s) : bracketsClosed s := by
  intro pre post e
  exact absurd (by rw [e]; simp) h

theorem bracketsClosed_append {a b : List Char} (ha : bracketsClosed a)
    (hb : bracketsClosed b) : bracketsClosed (a ++ b) := by
  intro pre post e
  rcases List.append_eq_append_iff.mp e with ⟨a2, h1, h2⟩ | ⟨c2, h1, h2⟩
  · exact hb a2 post h2
  · cases c2 with
    | nil =>
      simp only [List.nil_append] at h2
      exact hb [] post h2.symm
    | cons x c3 =>
      simp only [List.cons_append, List.cons.injEq] at h2
      obtain ⟨hx, h3⟩ := h2
      subst hx
      obtain ⟨k, more, hk⟩ := ha pre c3 h1
      refine ⟨k, more ++ b, ?_⟩
      rw [h3, hk]
      simp

/-- The rest of the file behind a line with a closing square bracket. -/
theorem afterBracket_line {file line rest : List Char} (hbc : bracketsClosed file)
    (hget : fgets 1024 file = some (line, rest)) (hb : strstr line [']'] = true) :
    afterBracket rest := by
  rw [strstr_single] at hb
  have hmem : ']' ∈ line := by simpa using hb
  obtain ⟨l1, l2, hl⟩ := List.append_of_mem hmem
  have happ := (fgets_some hget).1
  obtain ⟨k, more, hk⟩ := hbc l1 (l2 ++ rest) (by rw [← happ, hl]; simp)
  cases l2 with
  | nil =>
    simp only [List.nil_append] at hk
    exact Or.inr ⟨k, more, Or.inr hk⟩
  | cons c l3 =>
    simp only [List.cons_append, List.cons.injEq] at hk
    obtain ⟨hc, h3⟩ := hk
    subst hc
    have hline : (fgetsLine 1023 file).1 = line := by
      cases file with
      | nil => simp [fgets] at hget
      | cons x xs =>
        simp only [fgets, Option.some.injEq] at hget
        rw [hget]
    have hnil : l3 = [] :=
      fgetsLine_newline_last 1023 file (l1 ++ [']']) l3 (by rw [hline, hl]; simp)
    subst hnil
    simp only [List.nil_append] at h3
    exact Or.inr ⟨k, more, Or.inl h3⟩

theorem setProperty_numberOfItems (junk : nodeData) (line : List Char) (d : nodeData) :
    (setProperty junk line d).numberOfItems = d.numberOfItems := by
  unfold setProperty
  split_ifs <;> rfl

theorem countsRecomputed_snoc (d : nodeData) (child : Tree) :
    ∀ acc : List (nodeData × Tree),
    countsRecomputed (chainOf (acc ++ [(d, child)]))
      = (countsRecomputed (chainOf acc) && countsRecomputed (Tree.node d child Tree.null))
  | [] => by simp [chainOf, countsRecomputed]
  | (e, c) :: acc => by
    have ih := countsRecomputed_snoc d child acc
    rw [List.cons_append]
    simp only [chainOf, countsRecomputed] at ih ⊢
    rw [ih]
    simp only [Bool.and_assoc]

/-- The item counts the loader leaves: on a text in which every closing square
bracket is followed by a newline, spaces and a closing brace, every Folder node
the two loops build has as numberOfItems the number of File nodes below it,
the outer loop leaves a rest on which the inner loop ends at once, and the nodes
it had are the first of those it returns. -/
theorem load_counts (junk : nodeData) : ∀ fuel : Nat,
    (∀ (file : List Char) (acc kids : List (nodeData × Tree)) (rest : List Char),
      bracketsClosed file → countsRecomputed (chainOf acc) = true →
      loadSiblings junk fuel file acc = some (kids, rest) →
      countsRecomputed (chainOf kids) = true ∧ (∃ pre, file = pre ++ rest) ∧
        afterBracket rest ∧ ∃ more, kids = acc ++ more) ∧
    (∀ (file : List Char) (d d2 : nodeData) (child2 : Tree) (rest : List Char),
      bracketsClosed file → d.numberOfItems = 0 →
      loadProperties junk fuel file d Tree.null = some (d2, child2, rest) →
      countsRecomputed (Tree.node d2 child2 Tree.null) = true ∧ ∃ pre, file = pre ++ rest)
  | 0 => by simp [loadSiblings, loadProperties]
  | fuel + 1 => by
    obtain ⟨ihS, ihP⟩ := load_counts junk fuel
    refine ⟨?_, ?_⟩
    · intro file acc kids rest hbc hacc hrun
      cases hget : fgets 1024 file with
      | none =>
        cases file with
        | cons c cs => simp [fgets] at hget
        | nil =>
          rw [loadSiblings_eof] at hrun
          simp only [Option.some.injEq, Prod.mk.injEq] at hrun
          obtain ⟨h1, h2⟩ := hrun
          subst h1
          subst h2
          exact ⟨hacc, ⟨[], rfl⟩, Or.inl rfl, [], by simp⟩
      | some lr =>
        obtain ⟨line, rest1⟩ := lr
        have happ := (fgets_some hget).1
        have hbc1 : bracketsClosed rest1 := by
          rw [← happ] at hbc
          exact bracketsClosed_suffix hbc
        by_cases hb : strstr line [']'] = true
        · rw [loadSiblings_bracket junk fuel file line rest1 acc hget hb] at hrun
          simp only [Option.some.injEq, Prod.mk.injEq] at hrun
          obtain ⟨h1, h2⟩ := hrun
          subst h1
          subst h2
          exact ⟨hacc, ⟨line, happ.symm⟩, afterBracket_line hbc hget hb, [], by simp⟩
        · have hb2 : strstr line [']'] = false := by simpa using hb
          by_cases ho : strstr line ['\x7b'] = true
          · rw [loadSiblings_open junk fuel file line rest1 acc hget hb2 ho] at hrun
            cases hp : loadProperties junk fuel rest1
                { junk with symlinkTarget := none, numberOfItems := 0 } Tree.null with
            | none => simp [hp] at hrun
            | some r =>
              obtain ⟨d, child, rest2⟩ := r
              simp only [hp] at hrun
              obtain ⟨hgood, pre2, hpre2⟩ := ihP rest1 _ d child rest2 hbc1 rfl hp
              have hbc2 : bracketsClosed rest2 := by
                rw [hpre2] at hbc1
                exact bracketsClosed_suffix hbc1
              obtain ⟨h1, ⟨pre3, h3⟩, h4, more, h5⟩ :=
                ihS rest2 (acc ++ [(d, child)]) kids rest hbc2
                  (by rw [countsRecomputed_snoc, hacc, hgood]; rfl) hrun
              refine ⟨h1, ⟨line ++ (pre2 ++ pre3), ?_⟩, h4, (d, child) :: more, ?_⟩
              · rw [← happ, hpre2, h3]
                simp
              · rw [h5]
                simp
          · have ho2 : strstr line ['\x7b'] = false := by simpa using ho
            rw [loadSiblings_skip junk fuel file line rest1 acc hget hb2 ho2] at hrun
            obtain ⟨h1, ⟨pre3, h3⟩, h4, h5⟩ := ihS rest1 acc kids rest hbc1 hacc hrun
            refine ⟨h1, ⟨line ++ pre3, ?_⟩, h4, h5⟩
            rw [← happ, h3]
            simp
    · intro file d d2 child2 rest hbc hd hrun
      have hfresh : ∀ e : nodeData, e.numberOfItems = 0 →
          countsRecomputed (Tree.node e Tree.null Tree.null) = true := by
        intro e he
        simp [countsRecomputed, he, numOfKind, nodesOf]
      cases hget : fgets 1024 file with
      | none =>
        simp only [loadProperties, hget, Option.some.injEq, Prod.mk.injEq] at hrun
        obtain ⟨h1, h2, h3⟩ := hrun
        subst h1
        subst h2
        exact ⟨hfresh d hd, [], by simp [h3]⟩
      | some lr =>
        obtain ⟨line, rest1⟩ := lr
        have happ := (fgets_some hget).1
        have hbc1 : bracketsClosed rest1 := by
          rw [← happ] at hbc
          exact bracketsClosed_suffix hbc
        by_cases hbr : strstr line ['\x7d'] = true
        · rw [loadProperties_close junk fuel file line rest1 d Tree.null hget hbr] at hrun
          simp only [Option.some.injEq, Prod.mk.injEq] at hrun
          obtain ⟨h1, h2, h3⟩ := hrun
          subst h1
          subst h2
          exact ⟨hfresh d hd, line, by rw [← h3]; exact happ.symm⟩
        · have hbr2 : strstr line ['\x7d'] = false := by simpa using hbr
          by_cases hf : isFieldLine line = true
          · rw [loadProperties_field junk fuel file line rest1 d Tree.null hget hbr2 hf] at hrun
            obtain ⟨h1, pre, h2⟩ := ihP rest1 _ d2 child2 rest hbc1
              (by rw [setProperty_numberOfItems]; exact hd) hrun
            refine ⟨h1, line ++ pre, ?_⟩
            rw [← happ, h2]
            simp
          · have hf2 : isFieldLine line = false := by simpa using hf
            by_cases hk : strstr line "\"children\":".toList = true
            · rw [loadProperties_children junk fuel file line rest1 d Tree.null hget hbr2 hf2
                hk] at hrun
              cases hs : loadSiblings junk fuel rest1 [] with
              | none => simp [hs] at hrun
              | some r =>
                obtain ⟨kids, rest2⟩ := r
                simp only [hs] at hrun
                obtain ⟨hk1, ⟨pre2, hpre2⟩, hafter, _⟩ :=
                  ihS rest1 [] kids rest2 hbc1 (by simp [chainOf, countsRecomputed]) hs
                obtain ⟨e1, e2, pre3, hpre3⟩ :=
                  loadProperties_after junk fuel rest2 _ d2 _ child2 rest hafter hrun
                refine ⟨?_, line ++ (pre2 ++ pre3), ?_⟩
                · rw [e1, e2]
                  simp only [countsRecomputed, hk1, Bool.and_true, decide_eq_true_eq]
                  intro hty
                  have hty2 : d.type = nodeType.Folder := hty
                  simp [countFiles, hty2, countFilesChain_eq]
                · rw [← happ, hpre2, hpre3]
                  simp
            · have hk2 : strstr line "\"children\":".toList = false := by simpa using hk
              have e : "\x7d".toList = ['\x7d'] := rfl
              simp only [loadProperties, hget, e, hbr2, hf2, hk2, Bool.false_eq_true,
                if_false] at hrun
              obtain ⟨h1, pre, h2⟩ := ihP rest1 d d2 child2 rest hbc1 hd hrun
              refine ⟨h1, line ++ pre, ?_⟩
              rw [← happ, h2]
              simp

theorem digitChar_ne_bracket (n : Nat) (hn : n < 10) : digitChar n ≠ ']' := by
  interval_cases n <;> decide

theorem printNat_no_bracket (n : Nat) : ']' ∉ printNat n := by
  intro hm
  obtain ⟨m, hm1, hm2⟩ := (printNat_spec n).2.1 _ hm
  exact digitChar_ne_bracket m hm1 hm2.symm

theorem printInt_no_bracket (i : Int) : ']' ∉ printInt i := by
  unfold printInt
  split
  · intro hm
    rcases List.mem_cons.mp hm with e | e
    · exact absurd e (by decide)
    · exact printNat_no_bracket _ e
  · exact printNat_no_bracket _

theorem indent_no_bracket (n : Nat) : ']' ∉ indent n :=
  fun hm => absurd (indent_spaces n _ hm) (by decide)

theorem indent_replicate : ∀ n : Nat, indent n = List.replicate (2 * n) ' '
  | 0 => rfl
  | n + 1 => by
    rw [indent, indent_replicate n, show 2 * (n + 1) = 2 * n + 1 + 1 from by omega,
      List.replicate_succ, List.replicate_succ]

/-- The text written for a node whose strings hold no closing square bracket,
up to the text of its children, holds none. -/
theorem nodeHead_no_bracket (depth : Nat) (d : nodeData) (hd : noBracket d) :
    ']' ∉ indent depth ++ ("\x7b\n".toList ++ (typeLine depth d ++ (nameLine depth d ++
      (sizeLine depth d ++ (dateLine depth d ++ (contentLine depth d ++
      (symlinkLine depth d ++ childrenLine depth))))))) := by
  obtain ⟨hname, hcontent, htarget⟩ := hd
  have hi := indent_no_bracket depth
  have hi1 := indent_no_bracket (depth + 1)
  have htype : ']' ∉ typeLine depth d := by
    have hw : ']' ∉ typeWord d.type := by
      cases d.type <;> decide
    simp only [typeLine, List.mem_append, not_or]
    exact ⟨hi1, by decide, hw, by decide⟩
  have hnameL : ']' ∉ nameLine depth d := by
    simp only [nameLine, List.mem_append, not_or]
    exact ⟨hi1, by decide, hname, by decide⟩
  have hsize : ']' ∉ sizeLine depth d := by
    simp only [sizeLine, List.mem_append, not_or]
    exact ⟨hi1, by decide, printNat_no_bracket _, by decide⟩
  have hdate : ']' ∉ dateLine depth d := by
    simp only [dateLine, List.mem_append, not_or]
    exact ⟨hi1, by decide, printInt_no_bracket _, by decide⟩
  have hcont : ']' ∉ contentLine depth d := by
    unfold contentLine
    split
    · rename_i c hty hc
      simp only [List.mem_append, not_or]
      exact ⟨hi1, by decide, hcontent hty c (by rw [hc]; rfl), by decide⟩
    · simp
  have hsym : ']' ∉ symlinkLine depth d := by
    unfold symlinkLine
    split
    · rename_i hty
      have ht : ']' ∉ d.symlinkTarget.getD "(null)".toList := by
        cases hs : d.symlinkTarget with
        | none => decide
        | some s => exact htarget hty s (by rw [hs]; rfl)
      simp only [List.mem_append, not_or]
      exact ⟨hi1, by decide, ht, by decide⟩
    · simp
  have hch : ']' ∉ childrenLine depth := by
    simp only [childrenLine, List.mem_append, not_or]
    exact ⟨hi1, by decide⟩
  simp only [List.mem_append, not_or]
  exact ⟨hi, by decide, htype, hnameL, hsize, hdate, hcont, hsym, hch⟩

/-- The end of the text of a node: the one closing square bracket is followed
by a newline, spaces and the closing brace. -/
theorem bracketsClosed_tail (depth : Nat) :
    bracketsClosed ("]\n".toList ++ (indent depth ++ "\x7d".toList)) := by
  intro pre post e
  cases pre with
  | nil =>
    refine ⟨2 * depth, [], ?_⟩
    have e2 : "]\n".toList ++ (indent depth ++ "\x7d".toList)
        = ']' :: ('\n' :: (indent depth ++ ['\x7d'])) := rfl
    rw [e2] at e
    simp only [List.nil_append, List.cons.injEq, true_and] at e
    rw [← e, indent_replicate]
  | cons x pre2 =>
    have e2 : "]\n".toList ++ (indent depth ++ "\x7d".toList)
        = ']' :: ('\n' :: (indent depth ++ ['\x7d'])) := rfl
    rw [e2] at e
    simp only [List.cons_append, List.cons.injEq] at e
    have hm : ']' ∈ '\n' :: (indent depth ++ ['\x7d']) := by
      rw [e.2]
      simp
    simp only [List.mem_cons, List.mem_append, List.mem_singleton, List.not_mem_nil,
      or_false] at hm
    rcases hm with h | h | h
    · exact absurd h (by decide)
    · exact absurd h (indent_no_bracket depth)
    · exact absurd h (by decide)

theorem blockText_bracketsClosed (depth : Nat) (d : nodeData) (kids : List Char)
    (hd : noBracket d) (hk : bracketsClosed kids) : bracketsClosed (blockText depth d kids) := by
  have e : blockText depth d kids
      = (indent depth ++ ("\x7b\n".toList ++ (typeLine depth d ++ (nameLine depth d ++
          (sizeLine depth d ++ (dateLine depth d ++ (contentLine depth d ++
          (symlinkLine depth d ++ childrenLine depth))))))))
        ++ (kids ++ (("\n".toList ++ indent (depth + 1))
          ++ ("]\n".toList ++ (indent depth ++ "\x7d".toList)))) := by
    simp only [blockText, List.append_assoc]
  rw [e]
  refine bracketsClosed_append (bracketsClosed_free (nodeHead_no_bracket depth d hd))
    (bracketsClosed_append hk (bracketsClosed_append (bracketsClosed_free ?_)
      (bracketsClosed_tail depth)))
  simp only [List.mem_append, not_or]
  exact ⟨by decide, indent_no_bracket _⟩

theorem saveChain_bracketsClosed : ∀ (t : Tree) (depth : Nat), bracketFree t = true →
    bracketsClosed (saveChain t depth)
  | Tree.null, _, _ => bracketsClosed_free (by simp [saveChain])
  | Tree.node d child next, depth, h => by
    simp only [bracketFree, Bool.and_eq_true, decide_eq_true_eq] at h
    obtain ⟨⟨hd, hc⟩, hn⟩ := h
    simp only [saveChain]
    refine bracketsClosed_append
      (blockText_bracketsClosed depth d _ hd (saveChain_bracketsClosed child (depth + 1) hc))
      (bracketsClosed_append (bracketsClosed_free ?_) (saveChain_bracketsClosed next depth hn))
    cases next with
    | null => simp
    | node _ _ _ =>
      show ']' ∉ ",\n".toList
      decide

/-- The loader returns on every text, given more fuel than the text has
characters. -/
theorem loadSiblings_total (junk : nodeData) (fuel : Nat) (file : List Char)
    (hfuel : file.length < fuel) : ∃ r, loadSiblings junk fuel file [] = some r := by
  obtain ⟨r, hr, _⟩ := (loadLinked_total junk fuel).1 file 0 none [] hfuel
  have he := (loadLinked_erase junk fuel).1 file 0 none []
  rw [hr] at he
  exact ⟨_, he.symm⟩

end SFS
